import Mathlib

/-!
# broccoli-asset-rewrite: a verification development

A shallow embedding of `index.js` (the `AssetRewrite` filter) and of the parts of
the JavaScript platform it relies on: `RegExp` (parsing of a pattern source and the
backtracking matcher of ECMA-262), `String.prototype.replace`, `indexOf`, `includes`
and the POSIX flavour of Node's `path` module.

JavaScript strings are modelled as lists of characters, one `Char` per UTF-16 code
unit (texts are taken in the Basic Multilingual Plane).
-/

namespace AssetRewrite

/-- A JavaScript string value. -/
abbrev Str := List Char

/-! ## Characters -/

/-- ECMA-262 `LineTerminator`: LF, CR, LS, PS. -/
def isLineTerminator (c : Char) : Bool :=
  c.toNat == 0x0A || c.toNat == 0x0D || c.toNat == 0x2028 || c.toNat == 0x2029

/-- The characters matched by `\s`: ECMA-262 `WhiteSpace` and `LineTerminator`. -/
def isSpace (c : Char) : Bool :=
  c.toNat == 0x09 || c.toNat == 0x0B || c.toNat == 0x0C || c.toNat == 0x20 ||
  c.toNat == 0xA0 || c.toNat == 0x1680 || (0x2000 ≤ c.toNat && c.toNat ≤ 0x200A) ||
  c.toNat == 0x202F || c.toNat == 0x205F || c.toNat == 0x3000 || c.toNat == 0xFEFF ||
  isLineTerminator c

/-- ECMA-262 `SyntaxCharacter`: the characters with a meaning in a pattern. -/
def syntaxChars : List Char :=
  ['^', '$', '\\', '.', '*', '+', '?', '(', ')', '[', ']', '{', '}', '|']

/-- The characters `c` for which the model reads `\c` as the identity escape: ASCII
punctuation (every `SyntaxCharacter` and `/` among them). -/
def isIdentityEscape (c : Char) : Bool :=
  c.toNat < 128 && !(c.isAlphanum || c == '_' || c.toNat < 33 || c.toNat == 127)

/-! ## Regular expressions -/

/-- Abstract syntax of the patterns the model supports. -/
inductive Regex where
  | empty : Regex
  | char (c : Char) : Regex
  | any : Regex
  | space : Regex
  | cls (neg : Bool) (members : List Char) : Regex
  | bol : Regex
  | eol : Regex
  | seq (a b : Regex) : Regex
  | alt (a b : Regex) : Regex
  | group (idx : Nat) (r : Regex) : Regex
  | rep (min : Nat) (max : Option Nat) (greedy : Bool) (r : Regex) : Regex

/-- Matcher state of ECMA-262: the end index, here with the input that remains
after it, and the captures. -/
structure MState where
  pos : Nat
  rest : Str
  caps : Nat → Option Str

/-- A matcher continuation. -/
abbrev Cont := MState → Option MState

/-- The state after one more character, `cs` being the input that remains. -/
def MState.next (x : MState) (cs : Str) : MState :=
  { pos := x.pos + 1, rest := cs, caps := x.caps }

/-- The state with the captures of the groups `gs` reset to `undefined`. -/
def MState.reset (x : MState) (gs : List Nat) : MState :=
  { pos := x.pos, rest := x.rest, caps := fun i => if gs.contains i then none else x.caps i }

/-- The state `y` with capture `i` set to the input between the states `x` and `y`. -/
def MState.capture (y : MState) (i : Nat) (x : MState) : MState :=
  { pos := y.pos, rest := y.rest,
    caps := fun j => if j == i then some (x.rest.take (y.pos - x.pos)) else y.caps j }

/-- The state in which a match attempt starts at index `pos`, `rest` being the input
from that index: no capture is defined. -/
def MState.start (pos : Nat) (rest : Str) : MState :=
  { pos := pos, rest := rest, caps := fun _ => none }

/-- Consume one character satisfying `p`. -/
def stepChar (p : Char → Bool) (x : MState) (k : Cont) : Option MState :=
  match x.rest with
  | [] => none
  | c :: cs => if p c then k (x.next cs) else none

/-- ECMA-262 `RepeatMatcher`, with the iteration count bounded by `fuel`. -/
def repeatM (m : MState → Cont → Option MState) (gs : List Nat) (greedy : Bool) (k : Cont) :
    Nat → Nat → Option Nat → MState → Option MState
  | 0, _, _, _ => none
  | fuel + 1, min, max, x =>
    if max == some 0 then k x
    else if min != 0 then
      m (x.reset gs) (fun y => repeatM m gs greedy k fuel (min - 1) (max.map (· - 1)) y)
    else if greedy then
      match m (x.reset gs) (fun y =>
          if y.pos == x.pos then none else repeatM m gs greedy k fuel 0 (max.map (· - 1)) y) with
      | some z => some z
      | none => k x
    else
      match k x with
      | some z => some z
      | none =>
        m (x.reset gs) (fun y =>
          if y.pos == x.pos then none else repeatM m gs greedy k fuel 0 (max.map (· - 1)) y)

/-- The set of characters of an atom that consumes one character. -/
def Regex.charSet : Regex → Option (Char → Bool)
  | .char c => some (fun d => d == c)
  | .any => some (fun d => !isLineTerminator d)
  | .space => some isSpace
  | .cls neg ms => some (fun d => ms.contains d != neg)
  | _ => none

/-- The capture groups of a pattern. -/
def Regex.groups : Regex → List Nat
  | .seq a b => a.groups ++ b.groups
  | .alt a b => a.groups ++ b.groups
  | .group i r => i :: r.groups
  | .rep _ _ _ r => r.groups
  | _ => []

/-- The backtracking matcher of ECMA-262 (no flags other than `g`). -/
def Regex.m : Regex → MState → Cont → Option MState
  | .empty, x, k => k x
  | .char c, x, k => stepChar (fun d => d == c) x k
  | .any, x, k => stepChar (fun d => !isLineTerminator d) x k
  | .space, x, k => stepChar isSpace x k
  | .cls neg ms, x, k => stepChar (fun d => ms.contains d != neg) x k
  | .bol, x, k => if x.pos == 0 then k x else none
  | .eol, x, k => if x.rest.isEmpty then k x else none
  | .seq a b, x, k => a.m x (fun y => b.m y k)
  | .alt a b, x, k =>
    match a.m x k with
    | some z => some z
    | none => b.m x k
  | .group i r, x, k => r.m x (fun y => k (y.capture i x))
  | .rep min max greedy r, x, k =>
    repeatM r.m r.groups greedy k (min + x.rest.length + 1) min max x

/-- The result of a successful `exec`: index of the match, the matched text, the index
just after it and the captures. -/
structure Match where
  index : Nat
  stop : Nat
  matched : Str
  caps : Nat → Option Str

/-- One match attempt at index `pos` (`rest` is the input from `pos`). -/
def attempt (r : Regex) (pos : Nat) (rest : Str) : Option Match :=
  match r.m (MState.start pos rest) some with
  | some y => some { index := pos, stop := y.pos, matched := rest.take (y.pos - pos), caps := y.caps }
  | none => none

/-- Try the pattern at `pos`, then at every later position (`rest` is the input from `pos`). -/
def searchFrom (r : Regex) : Nat → Str → Option Match
  | pos, [] => attempt r pos []
  | pos, c :: cs =>
    match attempt r pos (c :: cs) with
    | some mt => some mt
    | none => searchFrom r (pos + 1) cs

/-- The builtin `RegExp.prototype.exec` for a pattern whose `lastIndex` is `lastIndex`
(`0` for a pattern without the `g` flag). -/
def exec (r : Regex) (s : Str) (lastIndex : Nat) : Option Match :=
  if lastIndex > s.length then none else searchFrom r lastIndex (s.drop lastIndex)

/-! ## Parsing a pattern source

`new RegExp(source)` parses `source`. The parser below reads the source one character
at a time. It accepts the fragment of the pattern grammar that the regular expressions
of `index.js` use: pattern characters, `.`, `\s`, identity escapes of ASCII punctuation,
`^`, `$`, `|`, capturing groups, character classes without ranges and the quantifiers
`*`, `+`, `?` (greedy or lazy). A source outside the fragment is reported as
`unsupported`; a source that JavaScript rejects is reported as `syntaxError`. -/

/-- Why a pattern source yields no pattern. -/
inductive RegExpError where
  | syntaxError : RegExpError
  | unsupported : RegExpError
  deriving DecidableEq, Repr

/-- What the last thing read in the current alternative was. -/
inductive Last where
  | groupStart : Last
  | altStart : Last
  | atom : Last
  | quantified : Last
  | closed : Last
  deriving DecidableEq, Repr

/-- A group (or the whole pattern) under construction. -/
structure Frame where
  idx : Nat
  alts : List Regex
  terms : List Regex
  last : Last

/-- Lexical mode of the parser. -/
inductive Mode where
  | normal : Mode
  | escape : Mode
  | clsStart : Mode
  | cls (neg : Bool) (members : List Char) : Mode
  | clsEscape (neg : Bool) (members : List Char) : Mode

/-- Parser state: the enclosing frames, the current frame, the number of capture groups
opened so far and the lexical mode. -/
structure PState where
  stack : List Frame
  cur : Frame
  ngroups : Nat
  mode : Mode

/-- The sequence of the given terms. -/
def seqOf : List Regex → Regex
  | [] => .empty
  | t :: ts => .seq t (seqOf ts)

/-- The disjunction of the given alternatives, the last one given apart. -/
def altOf : List Regex → Regex → Regex
  | [], r => r
  | a :: as, r => .alt a (altOf as r)

/-- The pattern of a finished frame. -/
def Frame.finish (f : Frame) : Regex :=
  altOf f.alts.reverse (seqOf f.terms.reverse)

/-- Add an atom to the current alternative. -/
def PState.pushAtom (st : PState) (t : Regex) : PState :=
  { st with cur := { st.cur with terms := t :: st.cur.terms, last := .atom }, mode := .normal }

/-- Apply a quantifier to the last atom. -/
def PState.quantify (st : PState) (min : Nat) (max : Option Nat) : Except RegExpError PState :=
  match st.cur.last, st.cur.terms with
  | .atom, t :: ts =>
    .ok { st with cur := { st.cur with terms := .rep min max true t :: ts, last := .quantified } }
  | _, _ => .error .syntaxError

/-- One character in normal mode. -/
def stepNormal (st : PState) (c : Char) : Except RegExpError PState :=
  if c == '\\' then .ok { st with mode := .escape }
  else if c == '[' then .ok { st with mode := .clsStart }
  else if c == '(' then
    .ok { st with stack := st.cur :: st.stack,
                  cur := { idx := st.ngroups + 1, alts := [], terms := [], last := .groupStart },
                  ngroups := st.ngroups + 1 }
  else if c == ')' then
    match st.stack with
    | [] => .error .syntaxError
    | f :: fs =>
      .ok { st with stack := fs,
                    cur := { f with terms := .group st.cur.idx st.cur.finish :: f.terms, last := .atom } }
  else if c == '|' then
    .ok { st with cur := { st.cur with alts := seqOf st.cur.terms.reverse :: st.cur.alts,
                                       terms := [], last := .altStart } }
  else if c == '*' then st.quantify 0 none
  else if c == '+' then st.quantify 1 none
  else if c == '?' then
    match st.cur.last, st.cur.terms with
    | .atom, _ => st.quantify 0 (some 1)
    | .quantified, .rep min max _ t :: ts =>
      .ok { st with cur := { st.cur with terms := .rep min max false t :: ts, last := .closed } }
    | .groupStart, _ => .error .unsupported
    | _, _ => .error .syntaxError
  else if c == '{' || c == '}' || c == ']' then .error .unsupported
  else if c == '^' then
    .ok { st with cur := { st.cur with terms := .bol :: st.cur.terms, last := .closed } }
  else if c == '$' then
    .ok { st with cur := { st.cur with terms := .eol :: st.cur.terms, last := .closed } }
  else if c == '.' then .ok (st.pushAtom .any)
  else .ok (st.pushAtom (.char c))

/-- One character of the pattern source. -/
def pstep (st : PState) (c : Char) : Except RegExpError PState :=
  match st.mode with
  | .normal => stepNormal st c
  | .escape =>
    if isIdentityEscape c then .ok (st.pushAtom (.char c))
    else if c == 's' then .ok (st.pushAtom .space)
    else .error .unsupported
  | .clsStart =>
    if c == '^' then .ok { st with mode := .cls true [] }
    else if c == ']' then .ok (st.pushAtom (.cls false []))
    else if c == '\\' then .ok { st with mode := .clsEscape false [] }
    else if c == '-' then .error .unsupported
    else .ok { st with mode := .cls false [c] }
  | .cls neg ms =>
    if c == ']' then .ok (st.pushAtom (.cls neg ms.reverse))
    else if c == '\\' then .ok { st with mode := .clsEscape neg ms }
    else if c == '-' then .error .unsupported
    else .ok { st with mode := .cls neg (c :: ms) }
  | .clsEscape neg ms =>
    if isIdentityEscape c then .ok { st with mode := .cls neg (c :: ms) }
    else .error .unsupported

/-- Read the characters of a source from a state. -/
def psteps : PState → Str → Except RegExpError PState
  | st, [] => .ok st
  | st, c :: cs =>
    match pstep st c with
    | .ok st1 => psteps st1 cs
    | .error e => .error e

/-- The state before the first character. -/
def PState.init : PState :=
  { stack := [], cur := { idx := 0, alts := [], terms := [], last := .altStart },
    ngroups := 0, mode := .normal }

/-- A compiled pattern: its syntax and its number of capture groups. -/
structure RegExp where
  re : Regex
  ngroups : Nat

/-- The end of the source. -/
def PState.finish (st : PState) : Except RegExpError RegExp :=
  match st.mode, st.stack with
  | .normal, [] => .ok { re := st.cur.finish, ngroups := st.ngroups }
  | _, _ => .error .syntaxError

/-- The constructor `new RegExp(source)` (flags are handled by the callers). -/
def newRegExp (source : Str) : Except RegExpError RegExp :=
  match psteps PState.init source with
  | .ok st => st.finish
  | .error e => .error e

/-! ## Strings -/

/-- What a JavaScript evaluation can end in, other than a value: an exception, a pattern
outside the modelled fragment, or the exhaustion of the iteration bound of a loop. -/
inductive JsError where
  | syntaxError : JsError
  | typeError : JsError
  | unsupported : JsError
  | outOfFuel : JsError
  deriving DecidableEq, Repr

/-- The result of a JavaScript evaluation. -/
abbrev Js := Except JsError

/-- The constructor `new RegExp(source)` as an evaluation. -/
def compile (source : Str) : Js RegExp :=
  match newRegExp source with
  | .ok r => .ok r
  | .error .syntaxError => .error .syntaxError
  | .error .unsupported => .error .unsupported

/-- `ToString` of a value that is a string or `undefined`. -/
def jsStr : Option Str → Str
  | some s => s
  | none => ['u', 'n', 'd', 'e', 'f', 'i', 'n', 'e', 'd']

/-- The builtin `String.prototype.includes`. -/
def includes : Str → Str → Bool
  | [], t => t.isEmpty
  | c :: cs, t => t.isPrefixOf (c :: cs) || includes cs t

/-- First index at or after `pos` at which `t` occurs (`rest` is the string from `pos`). -/
def indexOfAux (t : Str) : Nat → Str → Option Nat
  | pos, [] => if t.isEmpty then some pos else none
  | pos, c :: cs => if t.isPrefixOf (c :: cs) then some pos else indexOfAux t (pos + 1) cs

/-- The builtin `String.prototype.indexOf(t, position)` for a position that is not
negative; `none` stands for `-1`. -/
def indexOf (s t : Str) (position : Nat) : Option Nat :=
  indexOfAux t (min position s.length) (s.drop (min position s.length))

/-- Whether a character is a decimal digit. -/
def isDigit (c : Char) : Bool := '0'.toNat ≤ c.toNat && c.toNat ≤ '9'.toNat

/-- Value of a decimal digit. -/
def digitVal (c : Char) : Nat := c.toNat - '0'.toNat

/-- Where the scan of a replacement template stands: on ordinary text, just after a
`$`, or just after a `$` and one digit. -/
inductive SubstMode where
  | normal : SubstMode
  | dollar : SubstMode
  | digit (d : Char) : SubstMode

/-- The scan of ECMA-262 `GetSubstitution`, one character of the template at a time. -/
def substScan (matched s : Str) (position m : Nat) (caps : Nat → Option Str) :
    SubstMode → Str → Str
  | .normal, [] => []
  | .normal, c :: t =>
    if c == '$' then substScan matched s position m caps .dollar t
    else c :: substScan matched s position m caps .normal t
  | .dollar, [] => ['$']
  | .dollar, d :: t =>
    if d == '$' then '$' :: substScan matched s position m caps .normal t
    else if d == '&' then matched ++ substScan matched s position m caps .normal t
    else if d == '`' then s.take position ++ substScan matched s position m caps .normal t
    else if d == '\'' then
      s.drop (position + matched.length) ++ substScan matched s position m caps .normal t
    else if isDigit d then substScan matched s position m caps (.digit d) t
    else '$' :: d :: substScan matched s position m caps .normal t
  | .digit d, [] =>
    if 1 ≤ digitVal d && digitVal d ≤ m then (caps (digitVal d)).getD [] else ['$', d]
  | .digit d, e :: t =>
    if isDigit e && 1 ≤ digitVal d * 10 + digitVal e && digitVal d * 10 + digitVal e ≤ m then
      (caps (digitVal d * 10 + digitVal e)).getD [] ++ substScan matched s position m caps .normal t
    else
      (if 1 ≤ digitVal d && digitVal d ≤ m then (caps (digitVal d)).getD [] else ['$', d]) ++
        (if e == '$' then substScan matched s position m caps .dollar t
         else e :: substScan matched s position m caps .normal t)

/-- ECMA-262 `GetSubstitution` for a pattern with `m` capture groups, none of them named:
expansion of `$$`, `$&`, the two context references, `$n` and `$nn` in a replacement
template. -/
def getSubstitution (matched s : Str) (position m : Nat) (caps : Nat → Option Str)
    (template : Str) : Str :=
  substScan matched s position m caps .normal template

/-- The matches that `RegExp.prototype[Symbol.replace]` collects for a pattern with the
`g` flag: `exec` is repeated from `lastIndex`, which an empty match advances by one.
Every round moves `lastIndex` forward, so `s.length + 2` rounds always reach the end. -/
def matchLoop (r : Regex) (s : Str) : Nat → Nat → List Match
  | 0, _ => []
  | fuel + 1, lastIndex =>
    match exec r s lastIndex with
    | none => []
    | some mt => mt :: matchLoop r s fuel (if mt.stop == mt.index then mt.stop + 1 else mt.stop)

/-- All the matches of a pattern with the `g` flag in `s`. -/
def matchAll (r : Regex) (s : Str) : List Match :=
  matchLoop r s (s.length + 2) 0

/-- The string that `RegExp.prototype[Symbol.replace]` builds from the matches and their
replacements; `next` is the end of the previous match. -/
def assemble (s : Str) : Nat → List (Match × Str) → Str
  | next, [] => s.drop next
  | next, (mt, rep) :: ms => (s.take mt.index).drop next ++ rep ++ assemble s mt.stop ms

/-- Call the replacement function on every match, in order. -/
def callAll (f : Match → Js Str) : List Match → Js (List (Match × Str))
  | [] => .ok []
  | mt :: ms =>
    match f mt with
    | .error e => .error e
    | .ok rep =>
      match callAll f ms with
      | .error e => .error e
      | .ok rest => .ok ((mt, rep) :: rest)

/-- The call `s.replace(r, f)` for a pattern with the `g` flag and a function `f`. -/
def replaceAllFn (r : RegExp) (f : Match → Js Str) (s : Str) : Js Str :=
  match callAll f (matchAll r.re s) with
  | .error e => .error e
  | .ok reps => .ok (assemble s 0 reps)

/-- The call `s.replace(r, template)` for a pattern with the `g` flag and a string. -/
def replaceAll (r : RegExp) (s template : Str) : Str :=
  assemble s 0 ((matchAll r.re s).map
    (fun mt => (mt, getSubstitution mt.matched s mt.index r.ngroups mt.caps template)))

/-- The call `s.replace(r, f)` for a pattern without the `g` flag and a function `f`. -/
def replaceFirstFn (r : RegExp) (f : Match → Js Str) (s : Str) : Js Str :=
  match exec r.re s 0 with
  | none => .ok s
  | some mt =>
    match f mt with
    | .error e => .error e
    | .ok rep => .ok (s.take mt.index ++ rep ++ s.drop mt.stop)

/-- The call `s.replace(r, template)` for a pattern without the `g` flag and a string. -/
def replaceFirst (r : RegExp) (s template : Str) : Str :=
  match exec r.re s 0 with
  | none => s
  | some mt =>
    s.take mt.index ++ getSubstitution mt.matched s mt.index r.ngroups mt.caps template ++
      s.drop mt.stop

/-- The call `s.replace(t, template)` for two strings `t` and `template`. -/
def replaceStr (s t template : Str) : Str :=
  match indexOf s t 0 with
  | none => s
  | some i => s.take i ++ getSubstitution t s i 0 (fun _ => none) template ++ s.drop (i + t.length)

/-! ## Node's `path` module (POSIX)

Modelled from the documented behaviour of `path.posix` in Node.js; the working
directory `cwd`, which `path.relative` resolves relative paths against, is a parameter. -/

/-- The segments of a path: the pieces between `/`, empty pieces left out. -/
def segments (p : Str) : List Str :=
  (p.splitOn '/').filter (fun seg => !seg.isEmpty)

/-- Resolution of `.` and `..` in the segments of an absolute path (`acc` is reversed). -/
def normalizeSegs : List Str → List Str → List Str
  | acc, [] => acc.reverse
  | acc, seg :: segs =>
    if seg == ['.'] then normalizeSegs acc segs
    else if seg == ['.', '.'] then normalizeSegs acc.tail segs
    else normalizeSegs (seg :: acc) segs

/-- The segments of `path.resolve(p)`. -/
def resolveSegs (cwd p : Str) : List Str :=
  if p.head? == some '/' then normalizeSegs [] (segments p)
  else normalizeSegs [] (segments cwd ++ segments p)

/-- Drop the common prefix of two lists of segments. -/
def dropCommon : List Str → List Str → List Str × List Str
  | a :: as, b :: bs => if a == b then dropCommon as bs else (a :: as, b :: bs)
  | as, bs => (as, bs)

/-- The builtin `path.relative(from, to)`. -/
def pathRelative (cwd src dst : Str) : Str :=
  if src == dst then []
  else
    let d := dropCommon (resolveSegs cwd src) (resolveSegs cwd dst)
    ['/'].intercalate (d.1.map (fun _ => ['.', '.']) ++ d.2)

/-- The builtin `path.basename(p)`. -/
def basename (p : Str) : Str :=
  ((p.reverse.dropWhile (fun c => c == '/')).takeWhile (fun c => c != '/')).reverse

/-- The builtin `path.dirname(p)`. -/
def dirname (p : Str) : Str :=
  match p with
  | [] => ['.']
  | c0 :: tl =>
    match (tl.reverse.dropWhile (fun c => c == '/')).dropWhile (fun c => c != '/') with
    | [] => if c0 == '/' then ['/'] else ['.']
    | _ :: r => if c0 == '/' && r.length + 1 == 1 then ['/', '/'] else p.take (r.length + 1)

/-! ## `index.js` -/

/-- The pattern `/([.*+?^${}()|\[\]\/\\])/g` of `escapeRegExp`. -/
def escapeClass : RegExp :=
  { re := seqOf [.group 1 (seqOf [.cls false
      ['.', '*', '+', '?', '^', '$', '{', '}', '(', ')', '|', '[', ']', '/', '\\']])],
    ngroups := 1 }

/-- The function `escapeRegExp`: every character of the class is replaced by `"\\$1"`. -/
def escapeRegExp (string : Str) : Str :=
  replaceAll escapeClass string ['\\', '$', '1']

/-- The pattern `/[\\\/]+/g` of `normalize`. -/
def slashRun : RegExp :=
  { re := seqOf [.rep 1 none true (.cls false ['\\', '/'])], ngroups := 0 }

/-- The function `normalize`. -/
def normalize (str : Str) : Str :=
  replaceAll slashRun str ['/']

/-- The pattern `/\./` tested on the base name in `relative`. -/
def dotRe : RegExp :=
  { re := seqOf [.char '.'], ngroups := 0 }

/-- The pattern `/^\.\//` with which `processString` strips a leading `./`. -/
def dotSlashRe : RegExp :=
  { re := seqOf [.bol, .char '.', .char '/'], ngroups := 0 }

/-- The function `relative`. -/
def relative (cwd a b : Str) : Str :=
  let a1 := if (exec dotRe.re (basename a) 0).isSome then dirname a else a
  let relativePath := normalize (pathRelative cwd a1 b)
  if relativePath.head? == some '.' then relativePath else ['.', '/'] ++ relativePath

/-- The constant `REMOVE_LEADING_RELATIVE_OR_SLASH_REGEX`, `^(\.*/)*(.*)$`. -/
def removeLeadingRe : RegExp :=
  { re := seqOf [.bol,
      .rep 0 none true (.group 1 (seqOf [.rep 0 none true (.char '.'), .char '/'])),
      .group 2 (seqOf [.rep 0 none true .any]), .eol],
    ngroups := 2 }

/-- The function `alreadyHasPrepend`; `submatch` is `none` when the argument is
`undefined`, and then defaults to the empty string. -/
def alreadyHasPrepend (string prepend : Str) (offset : Nat) (submatch : Option Str) : Bool :=
  let startIndex : Int := (offset : Int) + ((submatch.getD []).length : Int) - (prepend.length : Int)
  if startIndex < 0 then false
  else indexOf string prepend startIndex.toNat == some startIndex.toNat

/-- The function returned by `replacer(replacement, prepend)`, applied to a match of the
pattern in `string`: `submatch` is the first capture and `offset` the index of the match. -/
def replacer (replacement prepend : Str) (string : Str) (mt : Match) : Js Str :=
  if alreadyHasPrepend string prepend mt.index (mt.caps 1) then
    .ok (jsStr (mt.caps 1) ++ replacement)
  else
    match exec removeLeadingRe.re replacement 0 with
    | none => .error .typeError
    | some r => .ok (prepend ++ jsStr (r.caps 2))

/-- Source of the pattern `re` of `rewriteAssetPath`. -/
def reSource (assetPath : Str) : Str :=
  "[\"'(=]\\s*([^\"'()=]*".toList ++ escapeRegExp assetPath ++
    "[^\"'()\\>=]*)(\\?[^\"')> ]*)?\\s*\\\\*\\s*[\"')> ]".toList

/-- Source of the pattern `ignoreLibraryCode` of `rewriteAssetPath`. -/
def ignoreSource (assetPath : Str) : Str :=
  "%(22|27|5C|28|29|3D)[^\"'()=]*".toList ++ escapeRegExp assetPath

/-- Source of the pattern that the last statement of `rewriteAssetPath` searches. -/
def sourceMapSource (assetPath : Str) : Str :=
  "sourceMappingURL=".toList ++ escapeRegExp assetPath

/-- The pattern `/^sourceMappingURL=(http|https|\/\/)/`. -/
def absoluteMapRe : RegExp :=
  { re := seqOf ([Regex.bol] ++ "sourceMappingURL=".toList.map Regex.char ++
      [.group 1 (altOf [seqOf ("http".toList.map Regex.char), seqOf ("https".toList.map Regex.char)]
        (seqOf [.char '/', .char '/']))]),
    ngroups := 1 }

/-- The string that replaces a captured reference (`replaceString`). -/
def composeReplacement (prepend assetPath replacementPath capture : Str) : Js Str :=
  if !prepend.isEmpty then
    match compile ("(\\.*/)*".toList ++ assetPath) with
    | .error e => .error e
    | .ok r => replaceAllFn r (replacer replacementPath prepend capture) capture
  else
    match compile assetPath with
    | .error e => .error e
    | .ok r => .ok (replaceAll r capture replacementPath)

/-- The `while` loop of `rewriteAssetPath`: `lastIndex` is the `lastIndex` of `re`, which
persists from one `exec` to the next while `newString` is rewritten. -/
def rewriteLoop (prepend assetPath replacementPath : Str) (re ignoreLibraryCode : RegExp) :
    Nat → Str → Nat → Js Str
  | 0, _, _ => .error .outOfFuel
  | fuel + 1, newString, lastIndex =>
    match exec re.re newString lastIndex with
    | none => .ok newString
    | some mt =>
      match mt.caps 1 with
      | none => .error .typeError
      | some capture =>
        if (exec ignoreLibraryCode.re capture 0).isSome then
          rewriteLoop prepend assetPath replacementPath re ignoreLibraryCode fuel newString mt.stop
        else
          match composeReplacement prepend assetPath replacementPath capture with
          | .error e => .error e
          | .ok replaceString =>
            match compile (escapeRegExp capture) with
            | .error e => .error e
            | .ok r =>
              rewriteLoop prepend assetPath replacementPath re ignoreLibraryCode fuel
                (replaceAll r newString replaceString) mt.stop

/-- The last statement of `rewriteAssetPath`: the first `sourceMappingURL=` directive
followed by the asset path is rewritten. -/
def rewriteSourceMap (prepend assetPath replacementPath newString : Str) : Js Str :=
  match compile (sourceMapSource assetPath) with
  | .error e => .error e
  | .ok r =>
    replaceFirstFn r (fun mt =>
      .ok (replaceStr mt.matched assetPath
        (if !prepend.isEmpty && !(exec absoluteMapRe.re mt.matched 0).isSome
         then prepend ++ replacementPath else replacementPath))) newString

/-- The method `rewriteAssetPath`; `fuel` bounds the number of rounds of its loop. -/
def rewriteAssetPath (prepend : Str) (fuel : Nat) (string assetPath replacementPath : Str) :
    Js Str :=
  if !includes string assetPath then .ok string
  else
    match compile (reSource assetPath) with
    | .error e => .error e
    | .ok re =>
      match compile (ignoreSource assetPath) with
      | .error e => .error e
      | .ok ignoreLibraryCode =>
        match rewriteLoop prepend assetPath replacementPath re ignoreLibraryCode fuel string 0 with
        | .error e => .error e
        | .ok newString => rewriteSourceMap prepend assetPath replacementPath newString

/-- The asset map: the own properties of the object, in the order of `Object.keys`. -/
abbrev AssetMap := List (Str × Str)

/-- The method `generateAssetMapKeys`: the keys sorted by the comparator that puts a
longer key first (`Array.prototype.sort` is stable). -/
def generateAssetMapKeys (assetMap : AssetMap) : List Str :=
  (assetMap.map Prod.fst).insertionSort (fun a b => b.length ≤ a.length)

/-- The expression `relative(relativePath, p).replace(/^\.\//, "")` of `processString`:
the path `p` as the file `relativePath` refers to it. -/
def relativeForm (cwd relativePath p : Str) : Str :=
  replaceFirst dotSlashRe (relative cwd relativePath p) []

/-- The body of the reducer of `processString` for one key. The test
`this.assetMap.hasOwnProperty(key)` calls the property `hasOwnProperty` of the asset map:
when the map has an own key of that name the property is a string and the call throws a
`TypeError`; otherwise it is the method of `Object.prototype`, true of every key of
`Object.keys`. Then the asset path is rewritten, then its relative form (`pathDiff`,
rewritten to `replacementDiff`). -/
def processKey (assetMap : AssetMap) (prepend cwd : Str) (fuel : Nat) (relativePath : Str)
    (memo key : Str) : Js Str :=
  match assetMap.lookup "hasOwnProperty".toList with
  | some _ => .error .typeError
  | none =>
    match assetMap.lookup key with
    | none => .ok memo
    | some value =>
      match rewriteAssetPath prepend fuel memo key value with
      | .error e => .error e
      | .ok memo1 =>
        rewriteAssetPath prepend fuel memo1 (relativeForm cwd relativePath key)
          (if !prepend.isEmpty then value else relativeForm cwd relativePath value)

/-- The `reduce` of `processString` over the keys. -/
def processKeys (assetMap : AssetMap) (prepend cwd : Str) (fuel : Nat) (relativePath : Str) :
    List Str → Str → Js Str
  | [], memo => .ok memo
  | key :: keys, memo =>
    match processKey assetMap prepend cwd fuel relativePath memo key with
    | .error e => .error e
    | .ok memo1 => processKeys assetMap prepend cwd fuel relativePath keys memo1

/-- The method `processString` of a filter built with the options `assetMap` and
`prepend`, once `generateAssetMapKeys` has run. -/
def processString (assetMap : AssetMap) (prepend cwd : Str) (fuel : Nat)
    (string relativePath : Str) : Js Str :=
  processKeys assetMap prepend cwd fuel relativePath (generateAssetMapKeys assetMap) string

/-! ## Declarative semantics of patterns -/

/-- Declarative reading of the matcher: `Matches r x y` when the pattern `r` takes the
state `x` to the state `y`. -/
inductive Matches : Regex → MState → MState → Prop
  | empty (x : MState) : Matches .empty x x
  | step {r : Regex} {p : Char → Bool} {x : MState} {c : Char} {cs : Str} :
      r.charSet = some p → x.rest = c :: cs → p c = true → Matches r x (x.next cs)
  | bol {x : MState} : x.pos = 0 → Matches .bol x x
  | eol {x : MState} : x.rest = [] → Matches .eol x x
  | seq {a b : Regex} {x y z : MState} : Matches a x y → Matches b y z → Matches (.seq a b) x z
  | altL {a b : Regex} {x y : MState} : Matches a x y → Matches (.alt a b) x y
  | altR {a b : Regex} {x y : MState} : Matches b x y → Matches (.alt a b) x y
  | group {i : Nat} {r : Regex} {x y : MState} :
      Matches r x y → Matches (.group i r) x (y.capture i x)
  | repDone {min : Nat} {max : Option Nat} {g : Bool} {r : Regex} {x : MState} :
      (min = 0 ∨ max = some 0) → Matches (.rep min max g r) x x
  | repMore {min : Nat} {max : Option Nat} {g : Bool} {r : Regex} {x y z : MState} :
      max ≠ some 0 → Matches r (x.reset r.groups) y → (min = 0 → y.pos ≠ x.pos) →
      Matches (.rep (min - 1) (max.map (· - 1)) g r) y z → Matches (.rep min max g r) x z

/-- Whether the pattern has a declarative match starting at index `i` of `s`. -/
def MatchesAt (r : Regex) (s : Str) (i : Nat) : Prop :=
  ∃ y, Matches r (MState.start i (s.drop i)) y

/-- The state after `n` more characters. -/
def MState.advN (x : MState) (n : Nat) : MState :=
  { pos := x.pos + n, rest := x.rest.drop n, caps := x.caps }

/-- The characters that `escapeRegExp` escapes. -/
def escapeChars : List Char :=
  ['.', '*', '+', '?', '^', '$', '{', '}', '(', ')', '|', '[', ']', '/', '\\']

/-- What `escapeRegExp` turns a character into. -/
def escapeChar (c : Char) : Str :=
  if c ∈ escapeChars then ['\\', c] else [c]

/-- The parser state after the atoms `ts` have been read in normal mode. -/
def PState.pushAtoms (st : PState) (ts : List Regex) : PState :=
  ts.foldl PState.pushAtom st

/-- The atom that a character of a pattern source stands for when it is a pattern
character or the dot. -/
def atomOf (c : Char) : Regex :=
  if c = '.' then .any else .char c

/-- The characters that a pattern source reads as themselves, or as the wildcard for the
dot: every character that is not a `SyntaxCharacter`, and the dot. -/
def isKeyChar (c : Char) : Bool :=
  c == '.' || !syntaxChars.contains c

/-- The opening delimiters of the pattern `re`: `["'(=]`. -/
def openers : List Char := ['"', '\'', '(', '=']

/-- The characters excluded before the asset path: `[^"'()=]`. -/
def class1 : List Char := ['"', '\'', '(', ')', '=']

/-- The characters excluded after the asset path: `[^"'()\>=]`. -/
def class2 : List Char := ['"', '\'', '(', ')', '>', '=']

/-- The characters excluded from a query string: `[^"')> ]`. -/
def class3 : List Char := ['"', '\'', ')', '>', ' ']

/-- The closing delimiters of the pattern `re`: `["')> ]`. -/
def closers : List Char := ['"', '\'', ')', '>', ' ']

/-- The pattern `re` of `rewriteAssetPath`, given the atoms of the asset path. -/
def reRegex (atoms : List Regex) : Regex :=
  seqOf [.cls false openers, .rep 0 none true .space,
    .group 1 (seqOf ([.rep 0 none true (.cls true class1)] ++ atoms ++
      [.rep 0 none true (.cls true class2)])),
    .rep 0 (some 1) true (.group 2 (seqOf [.char '?', .rep 0 none true (.cls true class3)])),
    .rep 0 none true .space, .rep 0 none true (.char '\\'), .rep 0 none true .space,
    .cls false closers]

/-- The pattern `ignoreLibraryCode` of `rewriteAssetPath`, given the atoms of the asset
path. -/
def ignoreRegex (atoms : List Regex) : Regex :=
  seqOf ([.char '%',
    .group 1 (altOf [seqOf [.char '2', .char '2'], seqOf [.char '2', .char '7'],
        seqOf [.char '5', .char 'C'], seqOf [.char '2', .char '8'], seqOf [.char '2', .char '9']]
      (seqOf [.char '3', .char 'D'])),
    .rep 0 none true (.cls true class1)] ++ atoms)

/-- The pattern `(\.*/)*`: a run of leading relative markers, the last of them captured. -/
def markersRegex : Regex :=
  .rep 0 none true (.group 1 (seqOf [.rep 0 none true (.char '.'), .char '/']))

/-- Whether the character `c` of a text is matched by the character `k` of a pattern source
made of pattern characters and dots: the dot matches every character but a line
terminator. -/
def dotMatch (k c : Char) : Bool :=
  if k = '.' then !isLineTerminator c else c == k

/-- Whether the pattern source `a`, made of pattern characters and dots, matches a prefix
of `rest`. -/
def dotPrefix : Str → Str → Bool
  | [], _ => true
  | _ :: _, [] => false
  | k :: ks, c :: cs => dotMatch k c && dotPrefix ks cs

/-- The indices of `s` at which the pattern source `a` matches. -/
def dotOccurrences (a s : Str) : List Nat :=
  (List.range (s.length + 1)).filter (fun i => dotPrefix a (s.drop i))

/-- Whether neither the key `k` nor its relative form occurs in the text `s` of the file
`relativePath`. -/
def absent (cwd relativePath s k : Str) : Bool :=
  !includes s k && !includes s (relativeForm cwd relativePath k)

/-- A leading relative marker as `(\.*/)` matches it: dots, then a slash. -/
def isMarker (tok : Str) : Prop :=
  ∃ n, tok = List.replicate n '.' ++ ['/']

/-- Split off one leading marker: the number of its dots and what follows its slash. -/
def tokenSplit : Str → Option (Nat × Str)
  | [] => none
  | c :: cs =>
    if c = '/' then some (0, cs)
    else if c = '.' then (tokenSplit cs).map (fun p => (p.1 + 1, p.2))
    else none

/-- Remove leading markers, at most `n` of them. -/
def stripFuel : Nat → Str → Str
  | 0, s => s
  | n + 1, s =>
    match tokenSplit s with
    | some p => stripFuel n p.2
    | none => s

/-- A path with its leading relative markers removed: as long as the path starts with
dots followed by a slash, they are dropped. -/
def stripLeading (s : Str) : Str :=
  stripFuel (s.length + 1) s

/-- The three leading relative markers `./`, `../` and `/`. -/
def relativeMarkers : List Str := [['.', '/'], ['.', '.', '/'], ['/']]

/-- What a reference to a key becomes: its value, or, with a prepend, the prepend followed
by the value without its leading relative markers. -/
def composed (prepend value : Str) : Str :=
  if prepend.isEmpty then value else prepend ++ stripLeading value

/-- The indices of `s` at which the string `a` occurs. -/
def occurrences (a s : Str) : List Nat :=
  (List.range (s.length + 1)).filter (fun i => a.isPrefixOf (s.drop i))

/-- The object `inverseAssetMap` that `canProcessFile` builds: each key of the asset map is
stored under its value, a later key overwriting an earlier one. -/
def inverseAssetMap (assetMap : AssetMap) : Str → Option Str :=
  (assetMap.map Prod.fst).foldl (fun inv key =>
    match assetMap.lookup key with
    | some value => fun p => if p = value then some key else inv p
    | none => inv) (fun _ => none)

/-- The method `canProcessFile` of a filter built with the options `assetMap` and `ignore`;
`superCanProcessFile` is the method of `broccoli-filter` that it delegates to. -/
def canProcessFile (assetMap : AssetMap) (ignore : List Str) (superCanProcessFile : Str → Bool)
    (relativePath : Str) : Bool :=
  if ignore.contains relativePath ||
      (match inverseAssetMap assetMap relativePath with
       | some key => ignore.contains key
       | none => false) then false
  else superCanProcessFile relativePath

/-- The text before the reference after `n` rounds of the loop on the text `"a"` with the
asset path `a` and the replacement path `b" "a`. -/
def grownPrefix (n : Nat) : Str :=
  (List.replicate n ['"', 'b', '"', ' ']).flatten

/-- An attribute value that lists paths, each followed by its descriptor and separator. -/
def srcset (items : List (Str × Str)) : Str :=
  (items.map (fun it => it.1 ++ it.2)).flatten

/-- The listed items once the keys in `done` have been tried: a path among them stands
replaced. -/
def rendered (assetMap : AssetMap) (prepend : Str) (done : List Str) (items : List (Str × Str)) :
    List (Str × Str) :=
  items.map (fun it =>
    if it.1 ∈ done then (composed prepend ((assetMap.lookup it.1).getD []), it.2) else it)

/-- The text with the attribute once the keys in `done` have been tried. -/
def srcsetText (assetMap : AssetMap) (prepend pre post : Str) (o c : Char)
    (items : List (Str × Str)) (done : List Str) : Str :=
  pre ++ o :: (srcset (rendered assetMap prepend done items) ++ c :: post)

/-- The text `t` with every occurrence of `s` replaced by `r`: the occurrences are taken
from the left and do not overlap; `skip` counts the characters of `t` that still belong
to the occurrence just replaced. -/
def replaceEveryFrom (s r : Str) : Nat → Str → Str
  | _, [] => []
  | skip + 1, _ :: cs => replaceEveryFrom s r skip cs
  | 0, c :: cs =>
    if s.isPrefixOf (c :: cs) then r ++ replaceEveryFrom s r (s.length - 1) cs
    else c :: replaceEveryFrom s r 0 cs

/-- The text `t` with every occurrence of `s` replaced by `r`. -/
def replaceEvery (s r t : Str) : Str := replaceEveryFrom s r 0 t

/-- Whether the character `d` can stand in a reference without ending it: it is outside
`"'()>=`, no white space, not `?` and not a backslash. -/
def plainChar (d : Char) : Bool :=
  !class2.contains d && !isSpace d && d != '?' && d != '\\'

/-- Whether the reference `s`, which the text `pre` precedes and the closing delimiter `c`
and the text `post` follow, is where the pattern of the asset path `a` matches first and
captures `s`: `c` is one of `"`, `'`, `)` and `>`, the reference is made of plain
characters, the asset path does not occur in `pre`, and it does not occur between `c` and
the next of `"'()=` either. -/
def quotedFirst (a pre s : Str) (c : Char) (post : Str) : Bool :=
  class2.contains c && s.all plainChar && !includes pre a &&
    !includes ((c :: post).takeWhile (fun d => !class1.contains d)) a

/-- Equality of two results of an evaluation can be decided. -/
instance instDecidableEqJs : DecidableEq (Js Str) := fun a b =>
  match a, b with
  | .ok x, .ok y =>
    if h : x = y then isTrue (by rw [h]) else isFalse (fun e => h (Except.ok.inj e))
  | .error x, .error y =>
    if h : x = y then isTrue (by rw [h]) else isFalse (fun e => h (Except.error.inj e))
  | .ok _, .error _ => isFalse (fun e => by cases e)
  | .error _, .ok _ => isFalse (fun e => by cases e)

/-- The texts that the steps of the reducer go through when the keys `keys` are tried in
order from the text `text` on; the list ends where a step throws. -/
def stagesOf (assetMap : AssetMap) (prepend cwd : Str) (fuel : Nat) (relativePath : Str) :
    List Str → Str → List Str
  | [], text => [text]
  | key :: keys, text =>
    text :: match processKey assetMap prepend cwd fuel relativePath text key with
      | .ok text1 => stagesOf assetMap prepend cwd fuel relativePath keys text1
      | .error _ => []

/-- The part of an attribute value that stands before the listed path `k`, once the keys in
`done` have been tried. -/
def beforeListed (assetMap : AssetMap) (prepend : Str) (done : List Str)
    (items : List (Str × Str)) (k : Str) : Str :=
  srcset (rendered assetMap prepend done (items.takeWhile (fun it => it.1 != k)))

/-! # Theorems -/

/-! ## The matcher and its declarative reading -/

theorem charSet_m {r : Regex} {p : Char → Bool} (h : r.charSet = some p) (x : MState) (k : Cont) :
    r.m x k = stepChar p x k := by
  cases r <;> first | (cases h; rfl) | (cases h)

theorem stepChar_sound {p : Char → Bool} {x : MState} {k : Cont} {z : MState}
    (h : stepChar p x k = some z) :
    ∃ c cs, x.rest = c :: cs ∧ p c = true ∧ k (x.next cs) = some z := by
  unfold stepChar at h
  split at h
  · simp at h
  · rename_i c cs hc
    by_cases hp : p c = true
    · simp [hp] at h; exact ⟨c, cs, hc, hp, h⟩
    · simp [hp] at h

theorem repeatM_sound (r : Regex) (g : Bool) (k : Cont)
    (ih : ∀ (x : MState) (k : Cont) (z : MState), r.m x k = some z →
      ∃ y, Matches r x y ∧ k y = some z) :
    ∀ (fuel min : Nat) (max : Option Nat) (x z : MState),
      repeatM r.m r.groups g k fuel min max x = some z →
      ∃ y, Matches (.rep min max g r) x y ∧ k y = some z := by
  intro fuel
  induction fuel with
  | zero => intro min max x z h; simp [repeatM] at h
  | succ fuel ihf =>
    intro min max x z h
    unfold repeatM at h
    by_cases hmax : max = some 0
    · simp [hmax] at h
      exact ⟨x, Matches.repDone (Or.inr hmax), h⟩
    · have hmax' : (max == some 0) = false := by simpa using hmax
      simp only [hmax', Bool.false_eq_true, if_false] at h
      by_cases hmin : min = 0
      · subst hmin
        simp only [bne_self_eq_false, Bool.false_eq_true, if_false] at h
        have key : ∀ z, r.m (x.reset r.groups) (fun y =>
            if y.pos == x.pos then none else repeatM r.m r.groups g k fuel 0 (max.map (· - 1)) y) = some z →
            ∃ y, Matches (.rep 0 max g r) x y ∧ k y = some z := by
          intro z hz
          obtain ⟨y, hy, hk⟩ := ih _ _ _ hz
          by_cases hpos : y.pos = x.pos
          · simp [hpos] at hk
          · have hpos' : (y.pos == x.pos) = false := by simpa using hpos
            simp only [hpos', Bool.false_eq_true, if_false] at hk
            obtain ⟨y2, hy2, hk2⟩ := ihf _ _ _ _ hk
            exact ⟨y2, Matches.repMore hmax hy (fun _ => hpos) hy2, hk2⟩
        cases g with
        | true =>
          simp only [if_true] at h
          split at h
          · rename_i z' hz'
            cases h
            exact key _ hz'
          · exact ⟨x, Matches.repDone (Or.inl rfl), h⟩
        | false =>
          simp only [Bool.false_eq_true, if_false] at h
          split at h
          · rename_i z' hz'
            cases h
            exact ⟨x, Matches.repDone (Or.inl rfl), hz'⟩
          · exact key _ h
      · have hmin' : (min != 0) = true := by simpa using hmin
        simp only [hmin', if_true] at h
        obtain ⟨y, hy, hk⟩ := ih _ _ _ h
        obtain ⟨y2, hy2, hk2⟩ := ihf _ _ _ _ hk
        exact ⟨y2, Matches.repMore hmax hy (fun h0 => absurd h0 hmin) hy2, hk2⟩

/-- Soundness of the backtracking matcher: a result comes from a declarative match. -/
theorem m_sound : ∀ (r : Regex) (x : MState) (k : Cont) (z : MState), r.m x k = some z →
    ∃ y, Matches r x y ∧ k y = some z := by
  intro r
  induction r with
  | empty => intro x k z h; exact ⟨x, Matches.empty x, h⟩
  | char c =>
    intro x k z h
    obtain ⟨d, cs, h1, h2, h3⟩ := stepChar_sound (p := fun d => d == c) h
    exact ⟨_, Matches.step (r := .char c) rfl h1 h2, h3⟩
  | any =>
    intro x k z h
    obtain ⟨d, cs, h1, h2, h3⟩ := stepChar_sound (p := fun d => !isLineTerminator d) h
    exact ⟨_, Matches.step (r := .any) rfl h1 h2, h3⟩
  | space =>
    intro x k z h
    obtain ⟨d, cs, h1, h2, h3⟩ := stepChar_sound (p := isSpace) h
    exact ⟨_, Matches.step (r := .space) rfl h1 h2, h3⟩
  | cls neg ms =>
    intro x k z h
    obtain ⟨d, cs, h1, h2, h3⟩ := stepChar_sound (p := fun d => ms.contains d != neg) h
    exact ⟨_, Matches.step (r := .cls neg ms) rfl h1 h2, h3⟩
  | bol =>
    intro x k z h
    simp only [Regex.m] at h
    by_cases hp : x.pos = 0
    · simp [hp] at h; exact ⟨x, Matches.bol hp, h⟩
    · simp [hp] at h
  | eol =>
    intro x k z h
    simp only [Regex.m] at h
    by_cases hp : x.rest = []
    · simp [hp] at h; exact ⟨x, Matches.eol hp, h⟩
    · simp [hp] at h
  | seq a b iha ihb =>
    intro x k z h
    simp only [Regex.m] at h
    obtain ⟨y, hy, hk⟩ := iha _ _ _ h
    obtain ⟨y2, hy2, hk2⟩ := ihb _ _ _ hk
    exact ⟨y2, Matches.seq hy hy2, hk2⟩
  | alt a b iha ihb =>
    intro x k z h
    simp only [Regex.m] at h
    split at h
    · rename_i z' hz'
      cases h
      obtain ⟨y, hy, hk⟩ := iha _ _ _ hz'
      exact ⟨y, Matches.altL hy, hk⟩
    · obtain ⟨y, hy, hk⟩ := ihb _ _ _ h
      exact ⟨y, Matches.altR hy, hk⟩
  | group i r ih =>
    intro x k z h
    simp only [Regex.m] at h
    obtain ⟨y, hy, hk⟩ := ih _ _ _ h
    exact ⟨_, Matches.group hy, hk⟩
  | rep min max g r ih =>
    intro x k z h
    simp only [Regex.m] at h
    exact repeatM_sound r g k ih _ _ _ _ _ h

/-- A match consumes a prefix of the input that remains. -/
theorem Matches.span {r : Regex} {x y : MState} (h : Matches r x y) :
    ∃ n, y.pos = x.pos + n ∧ y.rest = x.rest.drop n ∧ n ≤ x.rest.length := by
  induction h with
  | empty x => exact ⟨0, rfl, rfl, Nat.zero_le _⟩
  | step _ hr _ => exact ⟨1, rfl, by simp [MState.next, hr], by simp [hr]⟩
  | bol _ => exact ⟨0, rfl, rfl, Nat.zero_le _⟩
  | eol _ => exact ⟨0, rfl, rfl, Nat.zero_le _⟩
  | seq _ _ iha ihb =>
    obtain ⟨n, h1, h2, h3⟩ := iha
    obtain ⟨m, h4, h5, h6⟩ := ihb
    refine ⟨n + m, by omega, by simp [h5, h2, List.drop_drop, Nat.add_comm], ?_⟩
    rw [h2, List.length_drop] at h6; omega
  | altL _ ih => exact ih
  | altR _ ih => exact ih
  | group _ ih => exact ih
  | repDone _ => exact ⟨0, rfl, rfl, Nat.zero_le _⟩
  | repMore _ _ _ _ iha ihb =>
    obtain ⟨n, h1, h2, h3⟩ := iha
    obtain ⟨m, h4, h5, h6⟩ := ihb
    simp only [MState.reset] at h1 h2 h3
    refine ⟨n + m, by omega, by simp [h5, h2, List.drop_drop, Nat.add_comm], ?_⟩
    rw [h2, List.length_drop] at h6; omega

/-- A match leaves the captures of the groups outside the pattern as they were. -/
theorem Matches.caps_frame {r : Regex} {x y : MState} (h : Matches r x y) (i : Nat)
    (hi : i ∉ r.groups) : y.caps i = x.caps i := by
  induction h with
  | empty x => rfl
  | step _ _ _ => rfl
  | bol _ => rfl
  | eol _ => rfl
  | seq _ _ iha ihb =>
    simp only [Regex.groups, List.mem_append, not_or] at hi
    rw [ihb hi.2, iha hi.1]
  | altL _ ih =>
    simp only [Regex.groups, List.mem_append, not_or] at hi
    exact ih hi.1
  | altR _ ih =>
    simp only [Regex.groups, List.mem_append, not_or] at hi
    exact ih hi.2
  | @group j r x y _ ih =>
    simp only [Regex.groups, List.mem_cons, not_or] at hi
    have : (i == j) = false := by simpa using hi.1
    simp only [MState.capture, this, Bool.false_eq_true, if_false]
    exact ih hi.2
  | repDone _ => rfl
  | @repMore min max g r x y z _ _ _ _ iha ihb =>
    simp only [Regex.groups] at hi
    rw [ihb hi, iha hi]
    have : r.groups.contains i = false := by simpa using hi
    simp only [MState.reset, this, Bool.false_eq_true, if_false]

theorem stepChar_complete {p : Char → Bool} {x : MState} {k : Cont} {c : Char} {cs : Str}
    (h1 : x.rest = c :: cs) (h2 : p c = true) : stepChar p x k = k (x.next cs) := by
  unfold stepChar
  rw [h1]
  simp [h2]

theorem repeatM_complete (r : Regex) (g : Bool) (k : Cont)
    (ih : ∀ (x y : MState) (k : Cont), Matches r x y → (k y).isSome → (r.m x k).isSome) :
    ∀ (fuel min : Nat) (max : Option Nat) (x z : MState),
      min + x.rest.length + 1 ≤ fuel → Matches (.rep min max g r) x z → (k z).isSome →
      (repeatM r.m r.groups g k fuel min max x).isSome := by
  intro fuel
  induction fuel with
  | zero => intro min max x z hf; omega
  | succ fuel ihf =>
    intro min max x z hf hm hk
    unfold repeatM
    by_cases hmax : max = some 0
    · simp only [hmax, beq_self_eq_true, if_true]
      cases hm with
      | step hc _ _ => cases hc
      | repDone _ => exact hk
      | repMore h0 _ _ _ => exact absurd hmax h0
    · have hmax' : (max == some 0) = false := by simpa using hmax
      simp only [hmax', Bool.false_eq_true, if_false]
      by_cases hmin : min = 0
      · subst hmin
        simp only [bne_self_eq_false, Bool.false_eq_true, if_false]
        have key : ∀ y, Matches r (x.reset r.groups) y → y.pos ≠ x.pos →
            Matches (.rep 0 (max.map (· - 1)) g r) y z →
            (r.m (x.reset r.groups) (fun y =>
              if y.pos == x.pos then none
              else repeatM r.m r.groups g k fuel 0 (max.map (· - 1)) y)).isSome := by
          intro y hy hpos hrest
          apply ih _ y _ hy
          have hpos' : (y.pos == x.pos) = false := by simpa using hpos
          simp only [hpos', Bool.false_eq_true, if_false]
          obtain ⟨n, h1, h2, h3⟩ := hy.span
          simp only [MState.reset] at h1 h2 h3
          apply ihf _ _ _ _ _ hrest hk
          rw [h2, List.length_drop]
          have : n ≠ 0 := by intro h0; apply hpos; omega
          omega
        cases hm with
        | step hc _ _ => cases hc
        | repDone _ =>
          cases g with
          | true =>
            simp only [if_true]
            split
            · rfl
            · exact hk
          | false =>
            simp only [Bool.false_eq_true, if_false]
            split
            · rfl
            · rename_i hnone
              rw [hnone] at hk
              simp at hk
        | repMore _ hy hpos hrest =>
          have hs := key _ hy (hpos rfl) hrest
          cases g with
          | true =>
            simp only [if_true]
            split
            · rfl
            · rename_i hnone
              rw [hnone] at hs
              simp at hs
          | false =>
            simp only [Bool.false_eq_true, if_false]
            split
            · rfl
            · exact hs
      · have hmin' : (min != 0) = true := by simpa using hmin
        simp only [hmin', if_true]
        cases hm with
        | step hc _ _ => cases hc
        | repDone h0 =>
          rcases h0 with h0 | h0
          · exact absurd h0 hmin
          · exact absurd h0 hmax
        | repMore _ hy _ hrest =>
          apply ih _ _ _ hy
          obtain ⟨n, h1, h2, h3⟩ := hy.span
          simp only [MState.reset] at h1 h2 h3
          apply ihf _ _ _ _ _ hrest hk
          rw [h2, List.length_drop]
          omega

/-- Completeness of the backtracking matcher: when some declarative match is accepted by
the continuation, the matcher returns a result. -/
theorem m_complete : ∀ (r : Regex) (x y : MState) (k : Cont), Matches r x y → (k y).isSome →
    (r.m x k).isSome := by
  intro r
  induction r with
  | empty =>
    intro x y k h hk
    cases h with
    | empty => exact hk
    | step hc _ _ => cases hc
  | char c =>
    intro x y k h hk
    cases h with
    | step hc h1 h2 => rw [charSet_m hc, stepChar_complete h1 h2]; exact hk
  | any =>
    intro x y k h hk
    cases h with
    | step hc h1 h2 => rw [charSet_m hc, stepChar_complete h1 h2]; exact hk
  | space =>
    intro x y k h hk
    cases h with
    | step hc h1 h2 => rw [charSet_m hc, stepChar_complete h1 h2]; exact hk
  | cls neg ms =>
    intro x y k h hk
    cases h with
    | step hc h1 h2 => rw [charSet_m hc, stepChar_complete h1 h2]; exact hk
  | bol =>
    intro x y k h hk
    cases h with
    | step hc _ _ => cases hc
    | bol h0 => simp only [Regex.m, h0, beq_self_eq_true, if_true]; exact hk
  | eol =>
    intro x y k h hk
    cases h with
    | step hc _ _ => cases hc
    | eol h0 => simp only [Regex.m, h0, List.isEmpty_nil, if_true]; exact hk
  | seq a b iha ihb =>
    intro x z k h hk
    cases h with
    | step hc _ _ => cases hc
    | seq h1 h2 =>
      simp only [Regex.m]
      exact iha _ _ _ h1 (ihb _ _ _ h2 hk)
  | alt a b iha ihb =>
    intro x y k h hk
    simp only [Regex.m]
    cases h with
    | step hc _ _ => cases hc
    | altL h1 =>
      have := iha _ _ k h1 hk
      split
      · rfl
      · rename_i hn; rw [hn] at this; simp at this
    | altR h1 =>
      split
      · rfl
      · exact ihb _ _ k h1 hk
  | group i r ih =>
    intro x y k h hk
    cases h with
    | step hc _ _ => cases hc
    | group h1 =>
      simp only [Regex.m]
      exact ih _ _ _ h1 hk
  | rep min max g r ih =>
    intro x z k h hk
    simp only [Regex.m]
    exact repeatM_complete r g k ih _ _ _ _ _ (le_refl _) h hk

theorem m_none_iff (r : Regex) (x : MState) : r.m x some = none ↔ ∀ y, ¬ Matches r x y := by
  constructor
  · intro h y hy
    have := m_complete r x y some hy rfl
    rw [h] at this
    simp at this
  · intro h
    cases hm : r.m x some with
    | none => rfl
    | some z =>
      obtain ⟨y, hy, _⟩ := m_sound r x some z hm
      exact absurd hy (h y)

theorem attempt_none (r : Regex) (pos : Nat) (rest : Str) :
    attempt r pos rest = none ↔ ∀ y, ¬ Matches r (MState.start pos rest) y := by
  unfold attempt
  rw [← m_none_iff]
  split
  · rename_i h; simp [h]
  · rename_i h; simp [h]

theorem attempt_some {r : Regex} {pos : Nat} {rest : Str} {mt : Match}
    (h : attempt r pos rest = some mt) :
    ∃ y, Matches r (MState.start pos rest) y ∧ mt.index = pos ∧ mt.stop = y.pos ∧
      mt.caps = y.caps ∧ mt.matched = rest.take (y.pos - pos) := by
  unfold attempt at h
  split at h
  · rename_i z hz
    obtain ⟨y, hy, hk⟩ := m_sound r _ some z hz
    have hyz := Option.some.inj hk
    subst hyz
    cases h
    exact ⟨_, hy, rfl, rfl, rfl, rfl⟩
  · simp at h

theorem searchFrom_none (r : Regex) : ∀ (rest : Str) (pos : Nat),
    searchFrom r pos rest = none ↔
      ∀ i, i ≤ rest.length → ∀ y, ¬ Matches r (MState.start (pos + i) (rest.drop i)) y := by
  intro rest
  induction rest with
  | nil =>
    intro pos
    simp only [searchFrom, attempt_none]
    constructor
    · intro h i hi y hy
      have hi0 : i = 0 := by simpa using hi
      subst hi0
      exact h y hy
    · intro h y hy
      exact h 0 (Nat.le_refl _) y hy
  | cons c cs ih =>
    intro pos
    simp only [searchFrom]
    constructor
    · intro h i hi y hy
      split at h
      · simp at h
      · rename_i hn
        cases i with
        | zero => exact (attempt_none r _ _).1 hn y hy
        | succ i =>
          have := (ih (pos + 1)).1 h i (by simpa using hi) y
          apply this
          have e : pos + 1 + i = pos + (i + 1) := by omega
          rw [e]
          simpa using hy
    · intro h
      have h0 := (attempt_none r pos (c :: cs)).2 (fun y hy => h 0 (Nat.zero_le _) y hy)
      rw [h0]
      simp only
      apply (ih (pos + 1)).2
      intro i hi y hy
      apply h (i + 1) (by simpa using hi) y
      have e : pos + 1 + i = pos + (i + 1) := by omega
      rw [← e]
      simpa using hy

theorem searchFrom_some (r : Regex) : ∀ (rest : Str) (pos : Nat) (mt : Match),
    searchFrom r pos rest = some mt →
      ∃ i y, i ≤ rest.length ∧ Matches r (MState.start (pos + i) (rest.drop i)) y ∧
        mt.index = pos + i ∧ mt.stop = y.pos ∧ mt.caps = y.caps ∧
        mt.matched = (rest.drop i).take (y.pos - (pos + i)) ∧
        ∀ j, j < i → ∀ y, ¬ Matches r (MState.start (pos + j) (rest.drop j)) y := by
  intro rest
  induction rest with
  | nil =>
    intro pos mt h
    simp only [searchFrom] at h
    obtain ⟨y, hy, h1, h2, h3, h4⟩ := attempt_some h
    exact ⟨0, y, Nat.le_refl _, hy, h1, h2, h3, h4, fun j hj => absurd hj (Nat.not_lt_zero _)⟩
  | cons c cs ih =>
    intro pos mt h
    simp only [searchFrom] at h
    split at h
    · rename_i mt' hz
      cases h
      obtain ⟨y, hy, h1, h2, h3, h4⟩ := attempt_some hz
      exact ⟨0, y, Nat.zero_le _, hy, h1, h2, h3, h4, fun j hj => absurd hj (Nat.not_lt_zero _)⟩
    · rename_i hn
      obtain ⟨i, y, h1, h2, h3, h4, h5, h6, h7⟩ := ih (pos + 1) mt h
      have e : pos + 1 + i = pos + (i + 1) := by omega
      refine ⟨i + 1, y, by simpa using h1, ?_, by omega, h4, h5, ?_, ?_⟩
      · rw [← e]; simpa using h2
      · rw [← e]; simpa using h6
      · intro j hj y' hy'
        cases j with
        | zero => exact (attempt_none r _ _).1 hn y' hy'
        | succ j =>
          apply h7 j (by omega) y'
          have e' : pos + 1 + j = pos + (j + 1) := by omega
          rw [e']
          simpa using hy'

/-- When `exec` finds nothing, the pattern matches at no index from `lastIndex` on. -/
theorem exec_none {r : Regex} {s : Str} {li : Nat} :
    exec r s li = none ↔ ∀ j, li ≤ j → j ≤ s.length → ¬ MatchesAt r s j := by
  unfold exec
  by_cases hli : li > s.length
  · simp only [hli, if_true, true_iff]
    intro j h1 h2
    omega
  · simp only [hli, if_false]
    rw [searchFrom_none]
    constructor
    · intro h j h1 h2 ⟨y, hy⟩
      apply h (j - li) (by rw [List.length_drop]; omega) y
      have e : li + (j - li) = j := by omega
      rw [List.drop_drop, e]
      exact hy
    · intro h i hi y hy
      rw [List.length_drop] at hi
      apply h (li + i) (by omega) (by omega)
      refine ⟨y, ?_⟩
      rw [List.drop_drop] at hy
      exact hy

/-- What `exec` finds is the declarative match at the first index, from `lastIndex` on,
at which the pattern matches. -/
theorem exec_some {r : Regex} {s : Str} {li : Nat} {mt : Match} (h : exec r s li = some mt) :
    ∃ y, li ≤ mt.index ∧ mt.index ≤ s.length ∧
      Matches r (MState.start mt.index (s.drop mt.index)) y ∧
      mt.stop = y.pos ∧ mt.caps = y.caps ∧
      mt.matched = (s.drop mt.index).take (mt.stop - mt.index) ∧
      ∀ j, li ≤ j → j < mt.index → ¬ MatchesAt r s j := by
  unfold exec at h
  by_cases hli : li > s.length
  · simp [hli] at h
  · simp only [hli, if_false] at h
    obtain ⟨i, y, h1, h2, h3, h4, h5, h6, h7⟩ := searchFrom_some r _ _ _ h
    rw [List.length_drop] at h1
    rw [List.drop_drop] at h2 h6
    refine ⟨y, by omega, by omega, by rw [h3]; exact h2, h4, h5, by rw [h3, h4]; exact h6, ?_⟩
    intro j hj1 hj2 ⟨y', hy'⟩
    apply h7 (j - li) (by omega) y'
    have e : li + (j - li) = j := by omega
    rw [List.drop_drop, e]
    exact hy'

/-! ## Inversion of declarative matches -/

theorem MState.reset_nil (x : MState) : x.reset [] = x := by
  cases x; rfl

theorem MState.advN_zero (x : MState) : x.advN 0 = x := by
  cases x; rfl

theorem MState.advN_advN (x : MState) (n m : Nat) : (x.advN n).advN m = x.advN (n + m) := by
  simp [MState.advN, List.drop_drop, Nat.add_assoc]

theorem MState.next_eq_advN {x : MState} {c : Char} {cs : Str} (h : x.rest = c :: cs) :
    x.next cs = x.advN 1 := by
  simp [MState.next, MState.advN, h]

theorem charSet_groups {r : Regex} {p : Char → Bool} (h : r.charSet = some p) : r.groups = [] := by
  cases r <;> first | rfl | (cases h)

theorem matches_empty_iff {x y : MState} : Matches .empty x y ↔ y = x := by
  constructor
  · intro h
    cases h with
    | empty => rfl
    | step hc _ _ => cases hc
  · intro h; subst h; exact Matches.empty _

theorem matches_charset_iff {r : Regex} {p : Char → Bool} (hr : r.charSet = some p) {x y : MState} :
    Matches r x y ↔ ∃ c cs, x.rest = c :: cs ∧ p c = true ∧ y = x.advN 1 := by
  constructor
  · intro h
    cases h with
    | step hc h1 h2 =>
      rw [hr] at hc
      cases hc
      exact ⟨_, _, h1, h2, MState.next_eq_advN h1⟩
    | empty => cases hr
    | bol _ => cases hr
    | eol _ => cases hr
    | seq _ _ => cases hr
    | altL _ => cases hr
    | altR _ => cases hr
    | group _ => cases hr
    | repDone _ => cases hr
    | repMore _ _ _ _ => cases hr
  · rintro ⟨c, cs, h1, h2, h3⟩
    rw [h3, ← MState.next_eq_advN h1]
    exact Matches.step hr h1 h2

theorem matches_seq_iff {a b : Regex} {x z : MState} :
    Matches (.seq a b) x z ↔ ∃ y, Matches a x y ∧ Matches b y z := by
  constructor
  · intro h
    cases h with
    | seq h1 h2 => exact ⟨_, h1, h2⟩
    | step hc _ _ => cases hc
  · rintro ⟨y, h1, h2⟩
    exact Matches.seq h1 h2

theorem matches_alt_iff {a b : Regex} {x y : MState} :
    Matches (.alt a b) x y ↔ Matches a x y ∨ Matches b x y := by
  constructor
  · intro h
    cases h with
    | altL h1 => exact Or.inl h1
    | altR h1 => exact Or.inr h1
    | step hc _ _ => cases hc
  · rintro (h | h)
    · exact Matches.altL h
    · exact Matches.altR h

theorem matches_group_iff {i : Nat} {r : Regex} {x z : MState} :
    Matches (.group i r) x z ↔ ∃ y, Matches r x y ∧ z = y.capture i x := by
  constructor
  · intro h
    cases h with
    | group h1 => exact ⟨_, h1, rfl⟩
    | step hc _ _ => cases hc
  · rintro ⟨y, h1, h2⟩
    subst h2
    exact Matches.group h1

theorem matches_bol_iff {x y : MState} : Matches .bol x y ↔ x.pos = 0 ∧ y = x := by
  constructor
  · intro h
    cases h with
    | bol h0 => exact ⟨h0, rfl⟩
    | step hc _ _ => cases hc
  · rintro ⟨h0, h1⟩
    subst h1
    exact Matches.bol h0

theorem matches_eol_iff {x y : MState} : Matches .eol x y ↔ x.rest = [] ∧ y = x := by
  constructor
  · intro h
    cases h with
    | eol h0 => exact ⟨h0, rfl⟩
    | step hc _ _ => cases hc
  · rintro ⟨h0, h1⟩
    subst h1
    exact Matches.eol h0

theorem matches_seqOf_append {ts1 ts2 : List Regex} {x z : MState} :
    Matches (seqOf (ts1 ++ ts2)) x z ↔ ∃ y, Matches (seqOf ts1) x y ∧ Matches (seqOf ts2) y z := by
  induction ts1 generalizing x with
  | nil =>
    simp only [List.nil_append, seqOf, matches_empty_iff]
    constructor
    · intro h; exact ⟨x, rfl, h⟩
    · rintro ⟨y, h1, h2⟩; subst h1; exact h2
  | cons t ts ih =>
    show Matches (.seq t (seqOf (ts ++ ts2))) x z ↔
      ∃ y, Matches (.seq t (seqOf ts)) x y ∧ Matches (seqOf ts2) y z
    rw [matches_seq_iff]
    constructor
    · rintro ⟨y, h1, h2⟩
      obtain ⟨y2, h3, h4⟩ := ih.1 h2
      exact ⟨y2, matches_seq_iff.2 ⟨y, h1, h3⟩, h4⟩
    · rintro ⟨y2, h1, h3⟩
      obtain ⟨y, h4, h5⟩ := matches_seq_iff.1 h1
      exact ⟨y, h4, ih.2 ⟨y2, h5, h3⟩⟩

/-- A sequence of one-character atoms, each with the set of characters it accepts. -/
theorem matches_atoms_iff {ts : List Regex} {ps : List (Char → Bool)}
    (h : List.Forall₂ (fun t p => t.charSet = some p) ts ps) {x y : MState} :
    Matches (seqOf ts) x y ↔
      List.Forall₂ (fun p c => p c = true) ps (x.rest.take ps.length) ∧ y = x.advN ps.length := by
  induction h generalizing x with
  | nil =>
    simp only [seqOf, matches_empty_iff, List.length_nil, List.take_zero, List.Forall₂.nil,
      true_and, MState.advN_zero]
  | @cons t p ts ps ht _ ih =>
    simp only [seqOf, matches_seq_iff, matches_charset_iff ht, ih, List.length_cons]
    constructor
    · rintro ⟨y1, ⟨c, cs, h1, h2, h3⟩, h4, h5⟩
      subst h3
      simp only [MState.advN, h1, List.drop_succ_cons, List.drop_zero] at h4
      refine ⟨?_, ?_⟩
      · rw [h1, List.take_succ_cons]
        exact List.Forall₂.cons h2 h4
      · rw [h5, MState.advN_advN, Nat.add_comm]
    · rintro ⟨h1, h2⟩
      cases hx : x.rest with
      | nil =>
        rw [hx] at h1
        simp at h1
      | cons c cs =>
        rw [hx, List.take_succ_cons] at h1
        cases h1 with
        | cons h3 h4 =>
          refine ⟨x.advN 1, ⟨c, cs, rfl, h3, rfl⟩, ?_, ?_⟩
          · simpa [MState.advN, hx] using h4
          · rw [h2, MState.advN_advN, Nat.add_comm]

theorem matches_lits_iff {s : Str} {x y : MState} :
    Matches (seqOf (s.map Regex.char)) x y ↔ s <+: x.rest ∧ y = x.advN s.length := by
  have h : List.Forall₂ (fun t p => t.charSet = some p) (s.map Regex.char)
      (s.map (fun c => fun d => d == c)) := by
    induction s with
    | nil => exact List.Forall₂.nil
    | cons c cs ih => exact List.Forall₂.cons rfl ih
  rw [matches_atoms_iff h]
  simp only [List.length_map]
  constructor
  · rintro ⟨h1, h2⟩
    refine ⟨?_, h2⟩
    rw [List.forall₂_map_left_iff] at h1
    have : s = x.rest.take s.length := by
      clear h h2
      generalize x.rest.take s.length = w at h1
      induction h1 with
      | nil => rfl
      | cons hh _ ih => simp at hh; rw [ih, hh]
    rw [this]
    exact List.take_prefix _ _
  · rintro ⟨⟨w, hw⟩, h2⟩
    refine ⟨?_, h2⟩
    rw [← hw, List.take_left']
    · rw [List.forall₂_map_left_iff]
      clear h hw h2
      induction s with
      | nil => exact List.Forall₂.nil
      | cons c cs ih => exact List.Forall₂.cons (by simp) ih
    · rfl

theorem matches_star_sound {a : Regex} {p : Char → Bool} {g : Bool} (ha : a.charSet = some p)
    {x y : MState} (h : Matches (.rep 0 none g a) x y) :
    ∃ n, n ≤ x.rest.length ∧ (∀ c ∈ x.rest.take n, p c = true) ∧ y = x.advN n := by
  generalize hr : Regex.rep 0 none g a = r at h
  induction h with
  | empty => cases hr
  | step hc _ _ => subst hr; cases hc
  | bol _ => cases hr
  | eol _ => cases hr
  | seq _ _ => cases hr
  | altL _ => cases hr
  | altR _ => cases hr
  | group _ => cases hr
  | @repDone min max g' r' x _ =>
    exact ⟨0, Nat.zero_le _, by simp, (MState.advN_zero x).symm⟩
  | @repMore min max g' r' x y z _ h1 _ _ _ ih2 =>
    cases hr
    rw [charSet_groups ha, MState.reset_nil, matches_charset_iff ha] at h1
    obtain ⟨c, cs, hx, hp, hy⟩ := h1
    obtain ⟨n, hn, hall, hz⟩ := ih2 rfl
    subst hy
    simp only [MState.advN, hx, List.drop_succ_cons, List.drop_zero] at hn hall
    refine ⟨n + 1, by rw [hx]; simpa using hn, ?_, ?_⟩
    · rw [hx, List.take_succ_cons]
      intro d hd
      rcases List.mem_cons.1 hd with hd | hd
      · rw [hd]; exact hp
      · exact hall d hd
    · rw [hz, MState.advN_advN, Nat.add_comm]

theorem matches_star_complete {a : Regex} {p : Char → Bool} {g : Bool} (ha : a.charSet = some p) :
    ∀ (n : Nat) (x : MState), n ≤ x.rest.length → (∀ c ∈ x.rest.take n, p c = true) →
      Matches (.rep 0 none g a) x (x.advN n) := by
  intro n
  induction n with
  | zero =>
    intro x _ _
    rw [MState.advN_zero]
    exact Matches.repDone (Or.inl rfl)
  | succ n ih =>
    intro x hn hall
    cases hx : x.rest with
    | nil => rw [hx] at hn; simp at hn
    | cons c cs =>
      rw [hx, List.take_succ_cons] at hall
      have h1 : Matches a (x.reset a.groups) (x.advN 1) := by
        rw [charSet_groups ha, MState.reset_nil, matches_charset_iff ha]
        exact ⟨c, cs, hx, hall c (List.mem_cons_self _ _), rfl⟩
      have h2 := ih (x.advN 1) (by simp only [MState.advN, hx] at *; simpa using hn)
        (by
          intro d hd
          apply hall d
          simp only [MState.advN, hx, List.drop_succ_cons, List.drop_zero] at hd
          exact List.mem_cons_of_mem _ hd)
      rw [MState.advN_advN, Nat.add_comm] at h2
      exact Matches.repMore (by simp) h1 (fun _ => by simp [MState.advN]) h2

theorem matches_star_iff {a : Regex} {p : Char → Bool} {g : Bool} (ha : a.charSet = some p)
    {x y : MState} :
    Matches (.rep 0 none g a) x y ↔
      ∃ n, n ≤ x.rest.length ∧ (∀ c ∈ x.rest.take n, p c = true) ∧ y = x.advN n := by
  constructor
  · exact matches_star_sound ha
  · rintro ⟨n, h1, h2, h3⟩
    subst h3
    exact matches_star_complete ha n x h1 h2

theorem matches_opt_iff {g : Bool} {r : Regex} {x z : MState} :
    Matches (.rep 0 (some 1) g r) x z ↔
      z = x ∨ (Matches r (x.reset r.groups) z ∧ z.pos ≠ x.pos) := by
  constructor
  · intro h
    cases h with
    | step hc _ _ => cases hc
    | repDone _ => exact Or.inl rfl
    | repMore _ h1 h2 h3 =>
      right
      cases h3 with
      | step hc _ _ => cases hc
      | repDone _ => exact ⟨h1, h2 rfl⟩
      | repMore h0 _ _ _ => exact absurd rfl h0
  · rintro (h | ⟨h1, h2⟩)
    · subst h; exact Matches.repDone (Or.inl rfl)
    · exact Matches.repMore (by simp) h1 (fun _ => h2) (Matches.repDone (Or.inr rfl))

/-! ## `exec` at the first index with a match -/

theorem exec_first {r : Regex} {s : Str} {l i : Nat} (hli : l ≤ i) (hi0 : i ≤ s.length)
    (hex : MatchesAt r s i) (hno : ∀ j, l ≤ j → j < i → ¬ MatchesAt r s j) :
    ∃ mt y, exec r s l = some mt ∧ mt.index = i ∧
      Matches r (MState.start i (s.drop i)) y ∧ mt.stop = y.pos ∧ mt.caps = y.caps ∧
      mt.matched = (s.drop i).take (y.pos - i) := by
  cases he : exec r s l with
  | none => exact absurd hex (exec_none.1 he i hli hi0)
  | some mt =>
    obtain ⟨y, h1, h2, h3, h4, h5, h6, h7⟩ := exec_some he
    have hidx : mt.index = i := by
      rcases Nat.lt_trichotomy mt.index i with h | h | h
      · exact absurd ⟨y, h3⟩ (hno _ h1 h)
      · exact h
      · exact absurd hex (h7 i hli h)
    refine ⟨mt, y, rfl, hidx, ?_, h4, h5, ?_⟩
    · rw [← hidx]; exact h3
    · rw [← hidx, ← h4]; exact h6

theorem drop_eq_take_drop_append (s : Str) {li i : Nat} (h : li ≤ i) :
    s.drop li = (s.take i).drop li ++ s.drop i := by
  conv_lhs => rw [← List.take_append_drop i s]
  by_cases hi : i ≤ s.length
  · rw [List.drop_append_of_le_length (by rw [List.length_take]; omega)]
  · have h1 : s.take i = s := List.take_of_length_le (by omega)
    have h2 : s.drop i = [] := List.drop_of_length_le (by omega)
    rw [h1, h2, List.append_nil, List.append_nil]

theorem mem_take_drop {s : Str} {li i : Nat} {c : Char} (h : c ∈ (s.take i).drop li) :
    ∃ j, li ≤ j ∧ j < i ∧ j < s.length ∧ ∃ cs, s.drop j = c :: cs := by
  obtain ⟨k, hk, hc⟩ := List.mem_iff_getElem.1 h
  simp only [List.length_drop, List.length_take] at hk
  rw [List.getElem_drop, List.getElem_take] at hc
  refine ⟨li + k, by omega, by omega, by omega, s.drop (li + k + 1), ?_⟩
  rw [← hc]
  exact List.drop_eq_getElem_cons _

theorem cls_pos_iff {ms : List Char} {c : Char} : ((ms.contains c != false) = true) ↔ c ∈ ms := by
  simp

theorem cls_neg_iff {ms : List Char} {c : Char} : ((ms.contains c != true) = true) ↔ c ∉ ms := by
  simp

theorem matches_escapeClass {x y : MState} :
    Matches escapeClass.re x y ↔
      ∃ c cs, x.rest = c :: cs ∧ c ∈ escapeChars ∧ y = (x.advN 1).capture 1 x := by
  simp only [escapeClass, seqOf, matches_seq_iff, matches_group_iff, matches_empty_iff]
  constructor
  · rintro ⟨y1, ⟨y2, ⟨y3, h1, h2⟩, h3⟩, h4⟩
    rw [matches_charset_iff (r := Regex.cls false _) rfl] at h1
    obtain ⟨c, cs, hx, hp, hy⟩ := h1
    subst h4 h3 h2 hy
    exact ⟨c, cs, hx, cls_pos_iff.1 hp, rfl⟩
  · rintro ⟨c, cs, hx, hp, hy⟩
    refine ⟨y, ⟨x.advN 1, ⟨x.advN 1, ?_, rfl⟩, hy⟩, rfl⟩
    rw [matches_charset_iff (r := Regex.cls false _) rfl]
    exact ⟨c, cs, hx, cls_pos_iff.2 hp, rfl⟩

theorem matchesAt_escapeClass {s : Str} {j : Nat} {c : Char} {cs : Str} (h : s.drop j = c :: cs) :
    MatchesAt escapeClass.re s j ↔ c ∈ escapeChars := by
  unfold MatchesAt
  constructor
  · rintro ⟨y, hy⟩
    obtain ⟨c', cs', hx, hp, _⟩ := matches_escapeClass.1 hy
    simp only [MState.start, h] at hx
    cases hx
    exact hp
  · intro hp
    exact ⟨_, matches_escapeClass.2 ⟨c, cs, by simp [MState.start, h], hp, rfl⟩⟩

theorem flatMap_escapeChar_id {l : Str} (h : ∀ c ∈ l, c ∉ escapeChars) :
    l.flatMap escapeChar = l := by
  induction l with
  | nil => rfl
  | cons c cs ih =>
    rw [List.flatMap_cons, ih (fun d hd => h d (List.mem_cons_of_mem _ hd))]
    have := h c (List.mem_cons_self _ _)
    unfold escapeChar
    rw [if_neg this]
    rfl

theorem escape_loop (s : Str) : ∀ (fuel li : Nat), li ≤ s.length → s.length - li + 2 ≤ fuel →
    assemble s li ((matchLoop escapeClass.re s fuel li).map
      (fun mt => (mt, getSubstitution mt.matched s mt.index escapeClass.ngroups mt.caps
        ['\\', '$', '1']))) = (s.drop li).flatMap escapeChar := by
  intro fuel
  induction fuel with
  | zero => intro li _ h; omega
  | succ fuel ih =>
    intro li hli hfuel
    unfold matchLoop
    cases he : exec escapeClass.re s li with
    | none =>
      simp only [List.map_nil, assemble]
      rw [flatMap_escapeChar_id]
      intro c hc
      have hc' : c ∈ (s.take s.length).drop li := by simpa using hc
      obtain ⟨j, h1, h2, h3, cs, h4⟩ := mem_take_drop hc'
      have := exec_none.1 he j h1 (by omega)
      rw [matchesAt_escapeClass h4] at this
      exact this
    | some mt =>
      obtain ⟨y, h1, h2, h3, h4, h5, h6, h7⟩ := exec_some he
      obtain ⟨c, cs, hx, hp, hy⟩ := matches_escapeClass.1 h3
      simp only [MState.start] at hx
      have hlen : mt.index < s.length := by
        by_contra hcon
        rw [List.drop_of_length_le (by omega)] at hx
        cases hx
      have hstop : mt.stop = mt.index + 1 := by
        rw [h4, hy]; rfl
      have hcap : mt.caps 1 = some [c] := by
        rw [h5, hy]
        simp [MState.capture, MState.advN, MState.start, hx]
      have hne : (mt.stop == mt.index) = false := by
        rw [hstop]; simp
      have hcs : cs = s.drop (mt.index + 1) := by
        have := congrArg List.tail hx
        simpa using this.symm
      have hA : ((s.take mt.index).drop li).flatMap escapeChar = (s.take mt.index).drop li := by
        apply flatMap_escapeChar_id
        intro d hd
        obtain ⟨j, hj1, hj2, hj3, ds, hj4⟩ := mem_take_drop hd
        have := h7 j hj1 hj2
        rw [matchesAt_escapeClass hj4] at this
        exact this
      have hesc : escapeChar c = ['\\', c] := by
        unfold escapeChar
        rw [if_pos hp]
      have hrep : getSubstitution mt.matched s mt.index escapeClass.ngroups mt.caps
          ['\\', '$', '1'] = ['\\', c] := by
        simp [getSubstitution, substScan, escapeClass, isDigit, digitVal, hcap]
      simp only [hne, Bool.false_eq_true, if_false, List.map_cons, assemble]
      rw [hstop, ih (mt.index + 1) (by omega) (by omega), hrep]
      rw [drop_eq_take_drop_append s h1, hx, List.flatMap_append, List.flatMap_cons, hA, hesc, hcs]
      simp

/-- The function `escapeRegExp` puts a backslash before every character of its class. -/
theorem escapeRegExp_eq (s : Str) : escapeRegExp s = s.flatMap escapeChar := by
  unfold escapeRegExp replaceAll matchAll
  rw [escape_loop s _ 0 (Nat.zero_le _) (by omega)]
  rfl

/-! ## Parsing -/

theorem psteps_append (st : PState) (a b : Str) :
    psteps st (a ++ b) =
      match psteps st a with
      | .ok st1 => psteps st1 b
      | .error e => .error e := by
  induction a generalizing st with
  | nil => rfl
  | cons c cs ih =>
    simp only [List.cons_append, psteps]
    cases pstep st c with
    | error e => rfl
    | ok st1 => exact ih st1

theorem pushAtoms_nil (st : PState) : st.pushAtoms [] = st := rfl

theorem pushAtoms_cons (st : PState) (t : Regex) (ts : List Regex) :
    st.pushAtoms (t :: ts) = (st.pushAtom t).pushAtoms ts := rfl

theorem pushAtom_mode (st : PState) (t : Regex) : (st.pushAtom t).mode = .normal := rfl

theorem pstep_escaped (st : PState) (hm : st.mode = .normal) (c : Char) (cs : Str) :
    psteps st (escapeChar c ++ cs) = psteps (st.pushAtom (.char c)) cs := by
  unfold escapeChar
  by_cases hc : c ∈ escapeChars
  · rw [if_pos hc]
    have h1 : pstep st '\\' = .ok { st with mode := .escape } := by
      simp [pstep, hm, stepNormal]
    have h2 : pstep { st with mode := .escape } c = .ok (st.pushAtom (.char c)) := by
      have : isIdentityEscape c = true := by
        simp only [escapeChars, List.mem_cons, List.mem_singleton, List.not_mem_nil, or_false] at hc
        rcases hc with h | h | h | h | h | h | h | h | h | h | h | h | h | h | h <;> subst h <;> rfl
      simp [pstep, this, PState.pushAtom]
    simp only [List.cons_append, List.nil_append, psteps, h1, h2]
    rfl
  · rw [if_neg hc]
    have h1 : pstep st c = .ok (st.pushAtom (.char c)) := by
      simp only [escapeChars, List.mem_cons, List.mem_singleton, List.not_mem_nil, or_false,
        not_or] at hc
      obtain ⟨h1, h2, h3, h4, h5, h6, h7, h8, h9, h10, h11, h12, h13, h14, h15⟩ := hc
      simp [pstep, hm, stepNormal, *]
    simp only [List.cons_append, List.nil_append, psteps, h1]
    rfl

/-- The escaped form of a string is read as the sequence of its characters. -/
theorem psteps_escaped (s : Str) : ∀ (st : PState), st.mode = .normal → ∀ (cs : Str),
    psteps st (s.flatMap escapeChar ++ cs) = psteps (st.pushAtoms (s.map Regex.char)) cs := by
  induction s with
  | nil => intro st _ cs; rfl
  | cons c s ih =>
    intro st hm cs
    rw [List.flatMap_cons, List.append_assoc, pstep_escaped st hm, List.map_cons, pushAtoms_cons]
    exact ih _ (pushAtom_mode _ _) cs

theorem pstep_keyChar (st : PState) (hm : st.mode = .normal) (c : Char) (hc : isKeyChar c = true) :
    pstep st c = .ok (st.pushAtom (atomOf c)) := by
  unfold isKeyChar at hc
  by_cases hd : c = '.'
  · subst hd
    simp [pstep, hm, stepNormal, atomOf]
  · have hd' : (c == '.') = false := by simpa using hd
    simp only [hd', Bool.false_or, Bool.not_eq_true', syntaxChars] at hc
    have hc' : c ∉ ['^', '$', '\\', '.', '*', '+', '?', '(', ')', '[', ']', '{', '}', '|'] := by
      simpa using hc
    simp only [List.mem_cons, List.mem_singleton, List.not_mem_nil, or_false, not_or] at hc'
    obtain ⟨h1, h2, h3, h4, h5, h6, h7, h8, h9, h10, h11, h12, h13, h14⟩ := hc'
    simp [pstep, hm, stepNormal, atomOf, *]

/-- A source made of pattern characters and dots is read as the sequence of its atoms. -/
theorem psteps_key (s : Str) : ∀ (st : PState), st.mode = .normal →
    (∀ c ∈ s, isKeyChar c = true) → ∀ (cs : Str),
    psteps st (s ++ cs) = psteps (st.pushAtoms (s.map atomOf)) cs := by
  induction s with
  | nil => intro st _ _ cs; rfl
  | cons c s ih =>
    intro st hm hall cs
    rw [List.cons_append, psteps, pstep_keyChar st hm c (hall c (List.mem_cons_self _ _)),
      List.map_cons, pushAtoms_cons]
    exact ih _ (pushAtom_mode _ _) (fun d hd => hall d (List.mem_cons_of_mem _ hd)) cs

theorem pushAtoms_eq (st : PState) (ts : List Regex) (h : ts ≠ []) :
    st.pushAtoms ts =
      { stack := st.stack,
        cur := { idx := st.cur.idx, alts := st.cur.alts, terms := ts.reverse ++ st.cur.terms,
                 last := .atom },
        ngroups := st.ngroups, mode := .normal } := by
  induction ts generalizing st with
  | nil => exact absurd rfl h
  | cons t ts ih =>
    rw [pushAtoms_cons]
    by_cases hts : ts = []
    · subst hts
      simp [pushAtoms_nil, PState.pushAtom]
    · rw [ih _ hts]
      simp [PState.pushAtom]

theorem pushAtoms_struct (st : PState) (hm : st.mode = .normal) (ts : List Regex) :
    st.pushAtoms ts =
      { stack := st.stack,
        cur := { idx := st.cur.idx, alts := st.cur.alts, terms := ts.reverse ++ st.cur.terms,
                 last := if ts.isEmpty then st.cur.last else .atom },
        ngroups := st.ngroups, mode := .normal } := by
  by_cases hts : ts = []
  · subst hts
    cases st with
    | mk stack cur ngroups mode =>
      simp only at hm
      subst hm
      rfl
  · rw [pushAtoms_eq st ts hts]
    have : ts.isEmpty = false := by cases ts with
      | nil => exact absurd rfl hts
      | cons _ _ => rfl
    simp [this]

theorem compile_reSource (a : Str) :
    compile (reSource a) = .ok { re := reRegex (a.map Regex.char), ngroups := 2 } := by
  have h1 : psteps PState.init "[\"'(=]\\s*([^\"'()=]*".toList =
      .ok { stack := [{ idx := 0, alts := [],
                        terms := [.rep 0 none true .space, .cls false openers], last := .quantified }],
            cur := { idx := 1, alts := [], terms := [.rep 0 none true (.cls true class1)],
                     last := .quantified },
            ngroups := 1, mode := .normal } := by
    rfl
  unfold compile newRegExp reSource
  rw [escapeRegExp_eq, List.append_assoc, psteps_append, h1]
  simp only
  rw [psteps_escaped _ _ rfl, pushAtoms_struct _ rfl]
  simp [psteps, pstep, stepNormal, PState.pushAtom, PState.quantify, PState.finish, Frame.finish,
    isIdentityEscape, reRegex, seqOf, altOf, closers, class2, class3]

theorem compile_ignoreSource (a : Str) :
    compile (ignoreSource a) = .ok { re := ignoreRegex (a.map Regex.char), ngroups := 1 } := by
  have h1 : psteps PState.init "%(22|27|5C|28|29|3D)[^\"'()=]*".toList =
      .ok { stack := [],
            cur := { idx := 0, alts := [],
                     terms := [.rep 0 none true (.cls true class1),
                       .group 1 (altOf [seqOf [.char '2', .char '2'], seqOf [.char '2', .char '7'],
                           seqOf [.char '5', .char 'C'], seqOf [.char '2', .char '8'],
                           seqOf [.char '2', .char '9']]
                         (seqOf [.char '3', .char 'D'])),
                       .char '%'],
                     last := .quantified },
            ngroups := 1, mode := .normal } := by
    rfl
  unfold compile newRegExp ignoreSource
  rw [escapeRegExp_eq, ← List.append_nil (List.flatMap _ _), psteps_append, h1]
  simp only
  rw [psteps_escaped _ _ rfl, pushAtoms_struct _ rfl]
  simp [psteps, PState.finish, Frame.finish, ignoreRegex, altOf]

theorem compile_sourceMapSource (a : Str) :
    compile (sourceMapSource a) =
      .ok { re := seqOf ("sourceMappingURL=".toList.map Regex.char ++ a.map Regex.char),
            ngroups := 0 } := by
  have h1 : psteps PState.init "sourceMappingURL=".toList =
      .ok { stack := [],
            cur := { idx := 0, alts := [],
                     terms := ("sourceMappingURL=".toList.map Regex.char).reverse,
                     last := .atom },
            ngroups := 0, mode := .normal } := by
    rfl
  unfold compile newRegExp sourceMapSource
  rw [escapeRegExp_eq, ← List.append_nil (List.flatMap _ _), psteps_append, h1]
  simp only
  rw [psteps_escaped _ _ rfl, pushAtoms_struct _ rfl]
  simp [psteps, PState.finish, Frame.finish, altOf]

theorem compile_escaped (s : Str) :
    compile (escapeRegExp s) = .ok { re := seqOf (s.map Regex.char), ngroups := 0 } := by
  unfold compile newRegExp
  rw [escapeRegExp_eq, ← List.append_nil (List.flatMap _ _), psteps_escaped _ _ rfl,
    pushAtoms_struct _ rfl]
  simp [psteps, PState.finish, Frame.finish, altOf, PState.init]

theorem compile_key (a : Str) (ha : ∀ c ∈ a, isKeyChar c = true) :
    compile a = .ok { re := seqOf (a.map atomOf), ngroups := 0 } := by
  unfold compile newRegExp
  rw [← List.append_nil a, psteps_key _ _ rfl ha, pushAtoms_struct _ rfl]
  simp [psteps, PState.finish, Frame.finish, altOf, PState.init]

theorem compile_markers_key (a : Str) (ha : ∀ c ∈ a, isKeyChar c = true) :
    compile ("(\\.*/)*".toList ++ a) =
      .ok { re := seqOf ([markersRegex] ++ a.map atomOf), ngroups := 1 } := by
  have h1 : psteps PState.init "(\\.*/)*".toList =
      .ok { stack := [],
            cur := { idx := 0, alts := [], terms := [markersRegex], last := .quantified },
            ngroups := 1, mode := .normal } := by
    rfl
  unfold compile newRegExp
  rw [← List.append_nil a, psteps_append, h1]
  simp only
  rw [psteps_key _ _ rfl ha, pushAtoms_struct _ rfl]
  simp [psteps, PState.finish, Frame.finish, altOf]

/-- The constant patterns of `index.js` are the patterns that their sources denote. -/
theorem constant_patterns :
    newRegExp "([.*+?^$\x7b\x7d()|\\[\\]\\/\\\\])".toList = .ok escapeClass ∧
    newRegExp "[\\\\\\/]+".toList = .ok slashRun ∧
    newRegExp "\\.".toList = .ok dotRe ∧
    newRegExp "^\\.\\/".toList = .ok dotSlashRe ∧
    newRegExp "^(\\.*/)*(.*)$".toList = .ok removeLeadingRe ∧
    newRegExp "^sourceMappingURL=(http|https|\\/\\/)".toList = .ok absoluteMapRe :=
  ⟨rfl, rfl, rfl, rfl, rfl, rfl⟩

/-! ## Strings -/

theorem includes_iff {s t : Str} : includes s t = true ↔ ∃ j, t <+: s.drop j := by
  induction s with
  | nil =>
    simp only [includes, List.drop_nil, exists_const]
    cases t with
    | nil => simp
    | cons c cs => simp
  | cons c cs ih =>
    simp only [includes, Bool.or_eq_true, ih, List.isPrefixOf_iff_prefix]
    constructor
    · rintro (h | ⟨j, hj⟩)
      · exact ⟨0, h⟩
      · exact ⟨j + 1, hj⟩
    · rintro ⟨j, hj⟩
      cases j with
      | zero => exact Or.inl hj
      | succ j => exact Or.inr ⟨j, hj⟩

theorem includes_of_append (l t r : Str) : includes (l ++ t ++ r) t = true := by
  rw [includes_iff]
  refine ⟨l.length, ?_⟩
  rw [List.append_assoc, List.drop_left]
  exact List.prefix_append _ _

theorem dotMatch_self (c : Char) : dotMatch c c = true := by
  unfold dotMatch
  by_cases h : c = '.'
  · subst h; rfl
  · simp [h]

theorem dotPrefix_of_literal {a rest : Str} (h : a <+: rest) : dotPrefix a rest = true := by
  obtain ⟨w, rfl⟩ := h
  induction a with
  | nil => rfl
  | cons c cs ih => simp [dotPrefix, dotMatch_self, ih]

theorem dotPrefix_length {a rest : Str} (h : dotPrefix a rest = true) : a.length ≤ rest.length := by
  induction a generalizing rest with
  | nil => simp
  | cons k ks ih =>
    cases rest with
    | nil => simp [dotPrefix] at h
    | cons c cs =>
      simp only [dotPrefix, Bool.and_eq_true] at h
      have := ih h.2
      simp only [List.length_cons]
      omega

theorem atomOf_charSet (k : Char) : (atomOf k).charSet = some (fun c => dotMatch k c) := by
  unfold atomOf dotMatch
  by_cases h : k = '.'
  · simp [h, Regex.charSet]
  · simp [h, Regex.charSet]

theorem forall₂_dotMatch_iff {a w : Str} :
    List.Forall₂ (fun (p : Char → Bool) c => p c = true) (a.map (fun k => fun c => dotMatch k c)) w ↔
      (dotPrefix a w = true ∧ w.length = a.length) := by
  induction a generalizing w with
  | nil =>
    cases w with
    | nil => simp [dotPrefix]
    | cons c cs => simp
  | cons k ks ih =>
    cases w with
    | nil => simp [dotPrefix]
    | cons c cs =>
      simp only [List.map_cons, List.forall₂_cons, ih, dotPrefix, Bool.and_eq_true,
        List.length_cons, Nat.add_right_cancel_iff]
      tauto

theorem dotPrefix_take {a rest : Str} :
    dotPrefix a (rest.take a.length) = true ↔ dotPrefix a rest = true := by
  induction a generalizing rest with
  | nil => simp [dotPrefix]
  | cons k ks ih =>
    cases rest with
    | nil => simp [dotPrefix]
    | cons c cs => simp [dotPrefix, ih]

/-- A pattern source made of pattern characters and dots matches where `dotPrefix` says. -/
theorem matches_key_iff {a : Str} {x y : MState} :
    Matches (seqOf (a.map atomOf)) x y ↔ dotPrefix a x.rest = true ∧ y = x.advN a.length := by
  have h : List.Forall₂ (fun t p => t.charSet = some p) (a.map atomOf)
      (a.map (fun k => fun c => dotMatch k c)) := by
    induction a with
    | nil => exact List.Forall₂.nil
    | cons c cs ih => exact List.Forall₂.cons (atomOf_charSet c) ih
  rw [matches_atoms_iff h, List.length_map, forall₂_dotMatch_iff, dotPrefix_take]
  constructor
  · rintro ⟨⟨h1, _⟩, h2⟩; exact ⟨h1, h2⟩
  · rintro ⟨h1, h2⟩
    refine ⟨⟨h1, ?_⟩, h2⟩
    rw [List.length_take]
    exact Nat.min_eq_left (dotPrefix_length h1)

/-- A template without `$` is substituted as it is. -/
theorem substScan_id (matched s : Str) (position m : Nat) (caps : Nat → Option Str) (t : Str)
    (h : '$' ∉ t) : substScan matched s position m caps .normal t = t := by
  induction t with
  | nil => rfl
  | cons c cs ih =>
    have hc : c ≠ '$' := fun e => h (e ▸ List.mem_cons_self _ _)
    have hcs : '$' ∉ cs := fun e => h (List.mem_cons_of_mem _ e)
    simp [substScan, hc, ih hcs]

theorem getSubstitution_id (matched s : Str) (position m : Nat) (caps : Nat → Option Str) (t : Str)
    (h : '$' ∉ t) : getSubstitution matched s position m caps t = t :=
  substScan_id matched s position m caps t h

/-! ## Matches in terms of the text consumed -/

theorem advN_of_append {x : MState} {w r : Str} (h : x.rest = w ++ r) :
    x.advN w.length = { pos := x.pos + w.length, rest := r, caps := x.caps } := by
  simp [MState.advN, h]

theorem inv_charset {r : Regex} {p : Char → Bool} (hr : r.charSet = some p) {x y : MState}
    (h : Matches r x y) :
    ∃ c, x.rest = c :: y.rest ∧ p c = true ∧ y.pos = x.pos + 1 ∧ y.caps = x.caps := by
  obtain ⟨c, cs, h1, h2, h3⟩ := (matches_charset_iff hr).1 h
  subst h3
  exact ⟨c, by simp [MState.advN, h1], h2, rfl, rfl⟩

theorem mk_charset {r : Regex} {p : Char → Bool} (hr : r.charSet = some p) {x : MState} {c : Char}
    {cs : Str} (h1 : x.rest = c :: cs) (h2 : p c = true) :
    Matches r x { pos := x.pos + 1, rest := cs, caps := x.caps } := by
  have := (matches_charset_iff hr).2 ⟨c, cs, h1, h2, rfl⟩
  rw [show x.advN 1 = { pos := x.pos + 1, rest := cs, caps := x.caps } from by
    simp [MState.advN, h1]] at this
  exact this

theorem inv_star {a : Regex} {p : Char → Bool} {g : Bool} (ha : a.charSet = some p) {x y : MState}
    (h : Matches (.rep 0 none g a) x y) :
    ∃ w, x.rest = w ++ y.rest ∧ (∀ d ∈ w, p d = true) ∧ y.pos = x.pos + w.length ∧
      y.caps = x.caps := by
  obtain ⟨n, h1, h2, h3⟩ := matches_star_sound ha h
  subst h3
  refine ⟨x.rest.take n, by simp [MState.advN], h2, ?_, rfl⟩
  simp [MState.advN, List.length_take, Nat.min_eq_left h1]

theorem mk_star {a : Regex} {p : Char → Bool} {g : Bool} (ha : a.charSet = some p) {x : MState}
    {w r : Str} (h1 : x.rest = w ++ r) (h2 : ∀ d ∈ w, p d = true) :
    Matches (.rep 0 none g a) x { pos := x.pos + w.length, rest := r, caps := x.caps } := by
  have := matches_star_complete (g := g) ha w.length x (by simp [h1]) (by simpa [h1] using h2)
  rw [advN_of_append h1] at this
  exact this

theorem inv_lits {s : Str} {x y : MState} (h : Matches (seqOf (s.map Regex.char)) x y) :
    x.rest = s ++ y.rest ∧ y.pos = x.pos + s.length ∧ y.caps = x.caps := by
  obtain ⟨⟨w, hw⟩, h2⟩ := matches_lits_iff.1 h
  subst h2
  refine ⟨by simp [MState.advN, ← hw], rfl, rfl⟩

theorem mk_lits {s : Str} {x : MState} {r : Str} (h : x.rest = s ++ r) :
    Matches (seqOf (s.map Regex.char)) x { pos := x.pos + s.length, rest := r, caps := x.caps } := by
  have := matches_lits_iff.2 ⟨⟨r, h.symm⟩, rfl⟩
  rw [advN_of_append h] at this
  exact this

theorem inv_key {a : Str} {x y : MState} (h : Matches (seqOf (a.map atomOf)) x y) :
    ∃ w, x.rest = w ++ y.rest ∧ w.length = a.length ∧ dotPrefix a x.rest = true ∧
      y.pos = x.pos + a.length ∧ y.caps = x.caps := by
  obtain ⟨h1, h2⟩ := matches_key_iff.1 h
  subst h2
  refine ⟨x.rest.take a.length, by simp [MState.advN], ?_, h1, rfl, rfl⟩
  rw [List.length_take]
  exact Nat.min_eq_left (dotPrefix_length h1)

theorem mk_key {a : Str} {x : MState} {r : Str} (h : x.rest = a ++ r) :
    Matches (seqOf (a.map atomOf)) x { pos := x.pos + a.length, rest := r, caps := x.caps } := by
  have := matches_key_iff.2 ⟨dotPrefix_of_literal ⟨r, h.symm⟩, rfl⟩
  rw [advN_of_append h] at this
  exact this

/-! ## Replacing when the pattern matches once -/

theorem matchLoop_single {r : Regex} {s : Str} {fuel li : Nat} {mt : Match}
    (h1 : exec r s li = some mt)
    (h2 : exec r s (if mt.stop == mt.index then mt.stop + 1 else mt.stop) = none) :
    matchLoop r s (fuel + 2) li = [mt] := by
  rw [matchLoop]
  simp only [h1]
  rw [matchLoop]
  simp only [h2]

theorem replaceAll_single {r : RegExp} {s template : Str} {mt : Match}
    (h1 : exec r.re s 0 = some mt)
    (h2 : exec r.re s (if mt.stop == mt.index then mt.stop + 1 else mt.stop) = none) :
    replaceAll r s template =
      s.take mt.index ++ getSubstitution mt.matched s mt.index r.ngroups mt.caps template ++
        s.drop mt.stop := by
  unfold replaceAll matchAll
  rw [matchLoop_single h1 h2]
  simp [assemble]

theorem replaceAllFn_single {r : RegExp} {f : Match → Js Str} {s rep : Str} {mt : Match}
    (h1 : exec r.re s 0 = some mt)
    (h2 : exec r.re s (if mt.stop == mt.index then mt.stop + 1 else mt.stop) = none)
    (h3 : f mt = .ok rep) :
    replaceAllFn r f s = .ok (s.take mt.index ++ rep ++ s.drop mt.stop) := by
  unfold replaceAllFn matchAll
  rw [matchLoop_single h1 h2]
  simp [callAll, h3, assemble]

/-- The search of a pattern that matches at one index only, always up to the same end. -/
theorem exec_unique {r : Regex} {s : Str} {i e : Nat} (hi : i < e) (he : e ≤ s.length)
    (hex : MatchesAt r s i)
    (huniq : ∀ j y, Matches r (MState.start j (s.drop j)) y → j = i ∧ y.pos = e) :
    ∃ mt y, exec r s 0 = some mt ∧ mt.index = i ∧ mt.stop = e ∧
      Matches r (MState.start i (s.drop i)) y ∧ mt.caps = y.caps ∧
      mt.matched = (s.drop i).take (e - i) ∧
      exec r s (if mt.stop == mt.index then mt.stop + 1 else mt.stop) = none := by
  obtain ⟨mt, y, h1, h2, h3, h4, h5, h6⟩ := exec_first (l := 0) (i := i) (Nat.zero_le _) (by omega) hex
    (fun j _ hj ⟨y, hy⟩ => by have := (huniq j y hy).1; omega)
  have hy := (huniq i y h3).2
  refine ⟨mt, y, h1, h2, by rw [h4, hy], h3, h5, by rw [h6, hy], ?_⟩
  have hne : (mt.stop == mt.index) = false := by
    rw [h4, hy, h2]
    simp; omega
  simp only [hne, Bool.false_eq_true, if_false]
  rw [exec_none]
  intro j hj1 _ ⟨y', hy'⟩
  have := (huniq j y' hy').1
  rw [h4, hy] at hj1
  omega

/-! ## The patterns of `rewriteAssetPath` -/

theorem span_append {r : Regex} {x y : MState} (h : Matches r x y) :
    ∃ w, x.rest = w ++ y.rest ∧ y.pos = x.pos + w.length := by
  obtain ⟨n, h1, h2, h3⟩ := h.span
  refine ⟨x.rest.take n, by rw [h2, List.take_append_drop], ?_⟩
  rw [h1, List.length_take, Nat.min_eq_left h3]

/-- What a match of the pattern `re` looks like: an opening delimiter, white space, the
capture, made of characters outside `"'()=`, the asset path and characters outside
`"'()>=`, and more. -/
theorem re_inv {a : Str} {x y : MState} (h : Matches (reRegex (a.map Regex.char)) x y) :
    ∃ o w c1 b rest, x.rest = o :: (w ++ (c1 ++ (a ++ (b ++ rest)))) ∧ o ∈ openers ∧
      (∀ d ∈ w, isSpace d = true) ∧ (∀ d ∈ c1, d ∉ class1) ∧ (∀ d ∈ b, d ∉ class2) ∧
      y.caps 1 = some (c1 ++ (a ++ b)) ∧ x.pos < y.pos ∧ ∃ cl ∈ rest, cl ∈ closers := by
  unfold reRegex at h
  rw [seqOf, matches_seq_iff] at h
  obtain ⟨x1, hO, h⟩ := h
  obtain ⟨wtail, _, hpos⟩ := span_append h
  rw [seqOf, matches_seq_iff] at h
  obtain ⟨x2, hS, h⟩ := h
  rw [seqOf, matches_seq_iff] at h
  obtain ⟨x3, hG, hR⟩ := h
  rw [matches_group_iff] at hG
  obtain ⟨y3, hG, hx3⟩ := hG
  rw [matches_seqOf_append, ] at hG
  obtain ⟨xb, hG, hB⟩ := hG
  rw [matches_seqOf_append] at hG
  obtain ⟨xa, hC1, hA⟩ := hG
  rw [seqOf, matches_seq_iff] at hC1 hB
  obtain ⟨xa', hC1, hE1⟩ := hC1
  obtain ⟨y3', hB, hE2⟩ := hB
  rw [seqOf, matches_empty_iff] at hE1 hE2
  subst hE1 hE2
  obtain ⟨o, ho1, ho2, ho3, ho4⟩ := inv_charset (r := Regex.cls false openers) rfl hO
  obtain ⟨w, hw1, hw2, hw3, hw4⟩ := inv_star (a := Regex.space) rfl hS
  obtain ⟨c1, hc1, hc2, hc3, hc4⟩ := inv_star (a := Regex.cls true class1) rfl hC1
  obtain ⟨ha1, ha2, ha3⟩ := inv_lits hA
  obtain ⟨b, hb1, hb2, hb3, hb4⟩ := inv_star (a := Regex.cls true class2) rfl hB
  have hframe := hR.caps_frame 1 (by simp [Regex.groups, seqOf])
  have hcl : ∃ cl ∈ y3.rest, cl ∈ closers := by
    have hR' : Matches (seqOf ([.rep 0 (some 1) true
        (.group 2 (seqOf [.char '?', .rep 0 none true (.cls true class3)])),
        .rep 0 none true .space, .rep 0 none true (.char '\\'), .rep 0 none true .space] ++
        [.cls false closers])) x3 y := hR
    rw [matches_seqOf_append] at hR'
    obtain ⟨z, hz1, hz2⟩ := hR'
    rw [seqOf, matches_seq_iff] at hz2
    obtain ⟨z', hz2, _⟩ := hz2
    obtain ⟨wz, hwz, _⟩ := span_append hz1
    obtain ⟨cl, hcl1, hcl2, _, _⟩ := inv_charset (r := Regex.cls false closers) rfl hz2
    refine ⟨cl, ?_, cls_pos_iff.1 hcl2⟩
    have : x3.rest = y3.rest := by rw [hx3]; rfl
    rw [← this, hwz, hcl1]
    simp
  refine ⟨o, w, c1, b, y3.rest, ?_, cls_pos_iff.1 ho2, hw2, fun d hd => cls_neg_iff.1 (hc2 d hd),
    fun d hd => cls_neg_iff.1 (hb2 d hd), ?_, by omega, hcl⟩
  · rw [ho1, hw1, hc1, ha1, hb1]
  · rw [hframe, hx3]
    simp only [MState.capture, beq_self_eq_true, if_true]
    rw [hc1, ha1, hb1, hb3, ha2, hc3]
    congr 1
    have : x2.pos + c1.length + a.length + b.length - x2.pos = (c1 ++ (a ++ b)).length := by
      simp only [List.length_append]; omega
    rw [this]
    have e : ∀ r : Str, c1 ++ (a ++ (b ++ r)) = (c1 ++ (a ++ b)) ++ r := by
      intro r; simp [List.append_assoc]
    rw [e, List.take_left]

/-- The pattern `re` matches at a delimited reference: an opening delimiter, a run of
characters outside `"'()=`, the asset path, a run of characters outside `"'()>=`, a
query string or nothing, and a closing delimiter. -/
theorem re_exists {a : Str} {x : MState} {o c : Char} {up t q post : Str}
    (hx : x.rest = o :: (up ++ (a ++ (t ++ (q ++ c :: post)))))
    (ho : o ∈ openers) (hup : ∀ d ∈ up, d ∉ class1) (ht : ∀ d ∈ t, d ∉ class2)
    (hq : q = [] ∨ ∃ q', q = '?' :: q' ∧ ∀ d ∈ q', d ∉ class3) (hc : c ∈ closers) :
    ∃ y, Matches (reRegex (a.map Regex.char)) x y := by
  -- the states of the match
  let x1 : MState := { pos := x.pos + 1, rest := up ++ (a ++ (t ++ (q ++ c :: post))), caps := x.caps }
  let x2 : MState := { pos := x1.pos + ([] : Str).length, rest := up ++ (a ++ (t ++ (q ++ c :: post))),
                       caps := x1.caps }
  let xa : MState := { pos := x2.pos + up.length, rest := a ++ (t ++ (q ++ c :: post)),
                       caps := x2.caps }
  let xb : MState := { pos := xa.pos + a.length, rest := t ++ (q ++ c :: post), caps := xa.caps }
  let y3 : MState := { pos := xb.pos + t.length, rest := q ++ c :: post, caps := xb.caps }
  have hO : Matches (.cls false openers) x x1 :=
    mk_charset (r := Regex.cls false openers) rfl hx (cls_pos_iff.2 ho)
  have hS : Matches (.rep 0 none true .space) x1 x2 :=
    mk_star (a := Regex.space) rfl (w := []) rfl (by simp)
  have hC1 : Matches (.rep 0 none true (.cls true class1)) x2 xa :=
    mk_star (a := Regex.cls true class1) rfl (w := up) rfl (fun d hd => cls_neg_iff.2 (hup d hd))
  have hA : Matches (seqOf (a.map Regex.char)) xa xb := mk_lits rfl
  have hB : Matches (.rep 0 none true (.cls true class2)) xb y3 :=
    mk_star (a := Regex.cls true class2) rfl (w := t) rfl (fun d hd => cls_neg_iff.2 (ht d hd))
  have hG : Matches (.group 1 (seqOf ([.rep 0 none true (.cls true class1)] ++ a.map Regex.char ++
      [.rep 0 none true (.cls true class2)]))) x2 (y3.capture 1 x2) := by
    apply Matches.group
    rw [matches_seqOf_append, ]
    refine ⟨xb, ?_, ?_⟩
    · rw [matches_seqOf_append]
      refine ⟨xa, ?_, hA⟩
      rw [seqOf, matches_seq_iff]
      exact ⟨xa, hC1, Matches.empty _⟩
    · rw [seqOf, matches_seq_iff]
      exact ⟨y3, hB, Matches.empty _⟩
  -- the query string, the white space and the closing delimiter
  have htail : ∀ (z : MState), z.rest = c :: post →
      ∃ y, Matches (seqOf [.rep 0 none true .space, .rep 0 none true (.char '\\'),
        .rep 0 none true .space, .cls false closers]) z y := by
    intro z hz
    refine ⟨{ pos := z.pos + 1, rest := post, caps := z.caps }, ?_⟩
    simp only [seqOf, matches_seq_iff, matches_empty_iff]
    refine ⟨z, ?_, z, ?_, z, ?_, _, ?_, rfl⟩
    · have := mk_star (g := true) (a := Regex.space) rfl (x := z) (w := []) (r := z.rest) rfl (by simp)
      simpa using this
    · have := mk_star (g := true) (a := Regex.char '\\') rfl (x := z) (w := []) (r := z.rest) rfl
        (by simp)
      simpa using this
    · have := mk_star (g := true) (a := Regex.space) rfl (x := z) (w := []) (r := z.rest) rfl (by simp)
      simpa using this
    · exact mk_charset (r := Regex.cls false closers) rfl hz (cls_pos_iff.2 hc)
  have hopt : ∃ z, Matches (.rep 0 (some 1) true
      (.group 2 (seqOf [.char '?', .rep 0 none true (.cls true class3)]))) (y3.capture 1 x2) z ∧
      z.rest = c :: post := by
    rcases hq with hq | ⟨q', hq, hq'⟩
    · refine ⟨y3.capture 1 x2, Matches.repDone (Or.inl rfl), ?_⟩
      simp [MState.capture, y3, hq]
    · let z0 : MState := (y3.capture 1 x2).reset [2]
      let z1 : MState := { pos := z0.pos + 1, rest := q' ++ c :: post, caps := z0.caps }
      let z2 : MState := { pos := z1.pos + q'.length, rest := c :: post, caps := z1.caps }
      have hz0 : z0.rest = '?' :: (q' ++ c :: post) := by
        simp [z0, MState.reset, MState.capture, y3, hq]
      have h1 : Matches (.char '?') z0 z1 := mk_charset (r := Regex.char '?') rfl hz0 (by simp)
      have h2 : Matches (.rep 0 none true (.cls true class3)) z1 z2 :=
        mk_star (a := Regex.cls true class3) rfl (w := q') rfl
          (fun d hd => cls_neg_iff.2 (hq' d hd))
      refine ⟨z2.capture 2 z0, ?_, rfl⟩
      rw [matches_opt_iff]
      right
      refine ⟨?_, ?_⟩
      · apply Matches.group
        rw [seqOf, matches_seq_iff]
        refine ⟨z1, h1, ?_⟩
        rw [seqOf, matches_seq_iff]
        exact ⟨z2, h2, Matches.empty _⟩
      · simp [MState.capture, z2, z1, z0, MState.reset]
        omega
  obtain ⟨z, hz1, hz2⟩ := hopt
  obtain ⟨y, hy⟩ := htail z hz2
  refine ⟨y, ?_⟩
  unfold reRegex
  rw [seqOf, matches_seq_iff]
  refine ⟨x1, hO, ?_⟩
  rw [seqOf, matches_seq_iff]
  refine ⟨x2, hS, ?_⟩
  rw [seqOf, matches_seq_iff]
  refine ⟨_, hG, ?_⟩
  rw [seqOf, matches_seq_iff]
  exact ⟨z, hz1, hy⟩

theorem ignore_inv {a : Str} {x y : MState} (h : Matches (ignoreRegex (a.map Regex.char)) x y) :
    ∃ l r, x.rest = '%' :: (l ++ (a ++ r)) := by
  unfold ignoreRegex at h
  rw [matches_seqOf_append] at h
  obtain ⟨x3, h, hA⟩ := h
  rw [seqOf, matches_seq_iff] at h
  obtain ⟨x1, hP, h⟩ := h
  obtain ⟨l, hl, _⟩ := span_append h
  obtain ⟨c, hc1, hc2, _, _⟩ := inv_charset (r := Regex.char '%') rfl hP
  obtain ⟨ha, _, _⟩ := inv_lits hA
  have hc : c = '%' := by simpa using hc2
  refine ⟨l, y.rest, ?_⟩
  rw [hc1, hl, ha, hc]

theorem sourceMap_inv {a : Str} {x y : MState}
    (h : Matches (seqOf ("sourceMappingURL=".toList.map Regex.char ++ a.map Regex.char)) x y) :
    x.rest = "sourceMappingURL=".toList ++ (a ++ y.rest) ∧
      y.pos = x.pos + ("sourceMappingURL=".toList ++ a).length := by
  rw [← List.map_append] at h
  obtain ⟨h1, h2, _⟩ := inv_lits h
  exact ⟨by rw [h1, List.append_assoc], h2⟩

/-! ## One delimited reference in a text -/

theorem prefix_drop_add {a s x : Str} {j k : Nat} (h : s.drop j = x ++ a) (hk : x.length = k) :
    s.drop (j + k) = a := by
  rw [← List.drop_drop, h, ← hk, List.drop_left]

theorem take_append_of_drop {s x : Str} {j : Nat} (hj : j ≤ s.length) (h : s.drop j = x) :
    s = s.take j ++ x ∧ (s.take j).length = j := by
  refine ⟨by rw [← h, List.take_append_drop], ?_⟩
  rw [List.length_take, Nat.min_eq_left hj]

/-- Where a match of the pattern `re` can be in a text whose only occurrence of the asset
path is in a reference that follows an opening delimiter. -/
theorem ref_position {a pre up tl w c1 x : Str} {o o' : Char} {j : Nat}
    (hj : j ≤ (pre ++ o :: (up ++ (a ++ tl))).length)
    (hd : (pre ++ o :: (up ++ (a ++ tl))).drop j = o' :: (w ++ (c1 ++ (a ++ x))))
    (huniq : ∀ i, a <+: (pre ++ o :: (up ++ (a ++ tl))).drop i → i = pre.length + 1 + up.length)
    (ho : o ∈ openers) (ho' : o' ∈ openers)
    (hup : ∀ d ∈ up, d ∉ class1 ∧ isSpace d = false)
    (hw : ∀ d ∈ w, isSpace d = true) (hc1 : ∀ d ∈ c1, d ∉ class1) :
    j = pre.length ∧ w = [] ∧ c1 = up ∧ tl = x := by
  have hopen : ∀ d, d ∈ openers → d ∈ class1 ∧ isSpace d = false := by
    intro d hd
    simp only [openers, List.mem_cons, List.mem_singleton, List.not_mem_nil, or_false] at hd
    rcases hd with h | h | h | h <;> subst h <;> exact ⟨by decide, by decide⟩
  have hocc : j + (1 + w.length + c1.length) = pre.length + 1 + up.length := by
    apply huniq
    have : (pre ++ o :: (up ++ (a ++ tl))).drop j = (o' :: (w ++ c1)) ++ (a ++ x) := by
      rw [hd]; simp
    rw [prefix_drop_add this (by simp; omega)]
    exact List.prefix_append _ _
  obtain ⟨h1, h2⟩ := take_append_of_drop hj hd
  have h3 : ((pre ++ o :: (up ++ (a ++ tl))).take j ++ o' :: (w ++ c1)) ++ (a ++ x) =
      (pre ++ o :: up) ++ (a ++ tl) := by
    simp only [List.append_assoc, List.cons_append]
    exact h1.symm
  obtain ⟨h4, h5⟩ := List.append_inj h3 (by simp [h2]; omega)
  have h6 : tl = x := (List.append_cancel_left h5).symm
  rw [List.append_eq_append_iff] at h4
  have key : (pre ++ o :: (up ++ (a ++ tl))).take j = pre ∧ o' :: (w ++ c1) = o :: up := by
    rcases h4 with ⟨m, hm1, hm2⟩ | ⟨m, hm1, hm2⟩
    · cases m with
      | nil => exact ⟨by simpa using hm1.symm, by simpa using hm2⟩
      | cons d ds =>
        exfalso
        simp only [List.cons_append, List.cons.injEq] at hm2
        have : o ∈ w ++ c1 := by rw [hm2.2]; simp
        rcases List.mem_append.1 this with h | h
        · have := hw o h
          rw [(hopen o ho).2] at this
          cases this
        · exact hc1 o h (hopen o ho).1
    · cases m with
      | nil => exact ⟨by simpa using hm1, by simpa using hm2.symm⟩
      | cons d ds =>
        exfalso
        simp only [List.cons_append, List.cons.injEq] at hm2
        have : o' ∈ up := by rw [hm2.2]; simp
        exact (hup o' this).1 (hopen o' ho').1
  obtain ⟨k1, k2⟩ := key
  have k3 : w ++ c1 = up := (List.cons.inj k2).2
  have hw0 : w = [] := by
    cases w with
    | nil => rfl
    | cons d ds =>
      exfalso
      have : d ∈ up := by rw [← k3]; simp
      have h7 := (hup d this).2
      rw [hw d (List.mem_cons_self _ _)] at h7
      cases h7
  subst hw0
  refine ⟨?_, rfl, by simpa using k3, h6⟩
  rw [← h2, k1]

/-- The first `exec` of the loop finds the reference. -/
theorem first_exec {a pre up tl : Str} {o : Char}
    (hex : MatchesAt (reRegex (a.map Regex.char)) (pre ++ o :: (up ++ (a ++ tl))) pre.length)
    (huniq : ∀ i, a <+: (pre ++ o :: (up ++ (a ++ tl))).drop i → i = pre.length + 1 + up.length)
    (ho : o ∈ openers) (hup : ∀ d ∈ up, d ∉ class1 ∧ isSpace d = false) :
    ∃ mt b rest, exec (reRegex (a.map Regex.char)) (pre ++ o :: (up ++ (a ++ tl))) 0 = some mt ∧
      mt.caps 1 = some (up ++ (a ++ b)) ∧ tl = b ++ rest ∧ (∀ d ∈ b, d ∉ class2) ∧
      pre.length < mt.stop := by
  have hpos : ∀ j y, j ≤ (pre ++ o :: (up ++ (a ++ tl))).length →
      Matches (reRegex (a.map Regex.char))
        (MState.start j ((pre ++ o :: (up ++ (a ++ tl))).drop j)) y →
      j = pre.length ∧ j < y.pos ∧ ∃ b rest, y.caps 1 = some (up ++ (a ++ b)) ∧ tl = b ++ rest ∧
        ∀ d ∈ b, d ∉ class2 := by
    intro j y hj hy
    obtain ⟨o', w, c1, b, rest, h1, h2, h3, h4, h5, h6, h7, _⟩ := re_inv hy
    simp only [MState.start] at h1 h7
    obtain ⟨k1, k2, k3, k4⟩ := ref_position hj h1 huniq ho h2 hup h3 h4
    subst k3
    exact ⟨k1, h7, b, rest, h6, k4, h5⟩
  obtain ⟨mt, y, h1, h2, h3, h4, h5, h6⟩ := exec_first (l := 0) (Nat.zero_le _)
    (by simp) hex (fun j _ hj ⟨y, hy⟩ => by
      have := (hpos j y (by simp; omega) hy).1
      omega)
  obtain ⟨_, k0, b, rest, k1, k2, k3⟩ := hpos _ y (by simp) h3
  exact ⟨mt, b, rest, h1, by rw [h5, k1], k2, k3, by rw [h4]; exact k0⟩

/-- The pattern `re` finds nothing in a text that does not contain the asset path. -/
theorem exec_re_none {a s : Str} (li : Nat) (h : includes s a = false) :
    exec (reRegex (a.map Regex.char)) s li = none := by
  rw [exec_none]
  rintro j _ _ ⟨y, hy⟩
  obtain ⟨o', w, c1, b, rest, h1, _⟩ := re_inv hy
  simp only [MState.start] at h1
  have : includes s a = true := by
    rw [includes_iff]
    refine ⟨j + (1 + w.length + c1.length), ?_⟩
    have e : s.drop j = (o' :: (w ++ c1)) ++ (a ++ (b ++ rest)) := by rw [h1]; simp
    rw [prefix_drop_add e (by simp; omega)]
    exact List.prefix_append _ _
  rw [h] at this
  cases this

/-- The last statement of `rewriteAssetPath` leaves a text that does not contain the asset
path as it is. -/
theorem rewriteSourceMap_none {prepend a v s : Str} (h : includes s a = false) :
    rewriteSourceMap prepend a v s = .ok s := by
  unfold rewriteSourceMap
  rw [compile_sourceMapSource]
  simp only [replaceFirstFn]
  have : exec (seqOf ("sourceMappingURL=".toList.map Regex.char ++ a.map Regex.char)) s 0 = none := by
    rw [exec_none]
    rintro j _ _ ⟨y, hy⟩
    obtain ⟨h1, _⟩ := sourceMap_inv hy
    simp only [MState.start] at h1
    have : includes s a = true := by
      rw [includes_iff]
      refine ⟨j + "sourceMappingURL=".toList.length, ?_⟩
      rw [prefix_drop_add h1 rfl]
      exact List.prefix_append _ _
    rw [h] at this
    cases this
  rw [this]

theorem uniq_nonempty {a s : Str} {p : Nat} (huniq : ∀ i, a <+: s.drop i → i = p) : a ≠ [] := by
  intro h
  subst h
  have h0 := huniq 0 List.nil_prefix
  have h1 := huniq 1 List.nil_prefix
  omega

/-- The asset path occurs once in the capture when it occurs once in the text. -/
theorem uniq_in_capture {a pre up b rest : Str} {o : Char}
    (huniq : ∀ i, a <+: (pre ++ o :: (up ++ (a ++ (b ++ rest)))).drop i →
      i = pre.length + 1 + up.length) :
    ∀ i, a <+: (up ++ (a ++ b)).drop i → i = up.length := by
  intro i hi
  by_cases hle : i ≤ (up ++ (a ++ b)).length
  · have e : pre ++ o :: (up ++ (a ++ (b ++ rest))) = (pre ++ [o]) ++ ((up ++ (a ++ b)) ++ rest) := by
      simp
    have := huniq (pre.length + 1 + i) (by
      rw [e, ← List.drop_drop, show pre.length + 1 = (pre ++ [o]).length from by simp,
        List.drop_left, List.drop_append_of_le_length hle]
      exact hi.trans (List.prefix_append _ _))
    omega
  · rw [List.drop_of_length_le (by omega)] at hi
    exact absurd (List.prefix_nil.1 hi) (uniq_nonempty huniq)

/-- The guard `ignoreLibraryCode` lets a capture without `%` before the asset path pass. -/
theorem guard_none {a pre up b rest : Str} {o : Char}
    (huniq : ∀ i, a <+: (pre ++ o :: (up ++ (a ++ (b ++ rest)))).drop i →
      i = pre.length + 1 + up.length)
    (hup : '%' ∉ up) :
    exec (ignoreRegex (a.map Regex.char)) (up ++ (a ++ b)) 0 = none := by
  rw [exec_none]
  rintro j _ hj ⟨y, hy⟩
  obtain ⟨l, r, h1⟩ := ignore_inv hy
  simp only [MState.start] at h1
  have hocc : j + (1 + l.length) = up.length := by
    apply uniq_in_capture huniq
    have e : (up ++ (a ++ b)).drop j = ('%' :: l) ++ (a ++ r) := by rw [h1]; simp
    rw [prefix_drop_add e (by simp; omega)]
    exact List.prefix_append _ _
  obtain ⟨h2, h3⟩ := take_append_of_drop hj h1
  have h4 : ((up ++ (a ++ b)).take j ++ '%' :: l) ++ (a ++ r) = up ++ (a ++ b) := by
    simp only [List.append_assoc, List.cons_append]
    exact h2.symm
  obtain ⟨h5, _⟩ := List.append_inj h4 (by simp [h3]; omega)
  apply hup
  rw [← h5]
  simp

/-- The global replacement of the capture, which occurs once in the text. -/
theorem replace_capture {a pre up b rest tpl : Str} {o : Char}
    (huniq : ∀ i, a <+: (pre ++ o :: (up ++ (a ++ (b ++ rest)))).drop i →
      i = pre.length + 1 + up.length)
    (htpl : '$' ∉ tpl) :
    replaceAll { re := seqOf ((up ++ (a ++ b)).map Regex.char), ngroups := 0 }
      (pre ++ o :: (up ++ (a ++ (b ++ rest)))) tpl = pre ++ o :: (tpl ++ rest) := by
  have hne := uniq_nonempty huniq
  have e : pre ++ o :: (up ++ (a ++ (b ++ rest))) = (pre ++ [o]) ++ ((up ++ (a ++ b)) ++ rest) := by
    simp
  have hd : (pre ++ o :: (up ++ (a ++ (b ++ rest)))).drop (pre.length + 1) =
      (up ++ (a ++ b)) ++ rest := by
    rw [e, show pre.length + 1 = (pre ++ [o]).length from by simp, List.drop_left]
  have hlen : 0 < a.length := List.length_pos.2 hne
  obtain ⟨mt, y, h1, h2, h3, h4, h5, h6, h7⟩ := exec_unique
    (r := seqOf ((up ++ (a ++ b)).map Regex.char)) (s := pre ++ o :: (up ++ (a ++ (b ++ rest))))
    (i := pre.length + 1) (e := pre.length + 1 + (up ++ (a ++ b)).length)
    (by simp only [List.length_append]; omega)
    (by simp only [List.length_append, List.length_cons]; omega)
    ⟨_, mk_lits (by simp only [MState.start]; exact hd)⟩
    (by
      intro j y hy
      obtain ⟨k1, k2, _⟩ := inv_lits hy
      simp only [MState.start] at k1 k2
      have : j + up.length = pre.length + 1 + up.length := by
        apply huniq
        have e2 : (pre ++ o :: (up ++ (a ++ (b ++ rest)))).drop j = up ++ (a ++ (b ++ y.rest)) := by
          rw [k1]; simp
        rw [prefix_drop_add e2 rfl]
        exact List.prefix_append _ _
      have hj : j = pre.length + 1 := by omega
      exact ⟨hj, by rw [k2, hj]⟩)
  rw [replaceAll_single h1 h7, getSubstitution_id _ _ _ _ _ _ htpl, h2, h3]
  have t1 : (pre ++ o :: (up ++ (a ++ (b ++ rest)))).take (pre.length + 1) = pre ++ [o] := by
    rw [e, show pre.length + 1 = (pre ++ [o]).length from by simp, List.take_left]
  have t2 : (pre ++ o :: (up ++ (a ++ (b ++ rest)))).drop
      (pre.length + 1 + (up ++ (a ++ b)).length) = rest := by
    rw [← List.drop_drop, hd, List.drop_left]
  rw [t1, t2]
  simp

/-- The method `rewriteAssetPath` on a text with one delimited reference to the asset path:
the reference is replaced by what `composeReplacement` makes of the capture, when the
rewritten text has no further match and no source map directive for the asset path. -/
theorem rewrite_ref_gen {prepend a value pre up tl r : Str} {o : Char} (fuel : Nat)
    (hex : MatchesAt (reRegex (a.map Regex.char)) (pre ++ o :: (up ++ (a ++ tl))) pre.length)
    (huniq : ∀ i, a <+: (pre ++ o :: (up ++ (a ++ tl))).drop i → i = pre.length + 1 + up.length)
    (ho : o ∈ openers) (hup : ∀ d ∈ up, d ∉ class1 ∧ isSpace d = false) (hpct : '%' ∉ up)
    (hcomp : ∀ b rest, tl = b ++ rest → (∀ d ∈ b, d ∉ class2) →
      composeReplacement prepend a value (up ++ (a ++ b)) = .ok (r ++ b))
    (hr : '$' ∉ r) (htl : '$' ∉ tl)
    (hA : ∀ li, pre.length < li →
      exec (reRegex (a.map Regex.char)) (pre ++ o :: (r ++ tl)) li = none)
    (hB : rewriteSourceMap prepend a value (pre ++ o :: (r ++ tl)) = .ok (pre ++ o :: (r ++ tl))) :
    rewriteAssetPath prepend (fuel + 2) (pre ++ o :: (up ++ (a ++ tl))) a value =
      .ok (pre ++ o :: (r ++ tl)) := by
  have hinc : includes (pre ++ o :: (up ++ (a ++ tl))) a = true := by
    have := includes_of_append (pre ++ o :: up) a tl
    simpa using this
  obtain ⟨mt, b, rest, h1, h2, h3, h4, h5⟩ := first_exec hex huniq ho hup
  subst h3
  have hb : '$' ∉ b := fun h => htl (List.mem_append_left _ h)
  unfold rewriteAssetPath
  simp only [hinc, Bool.not_true, Bool.false_eq_true, if_false, compile_reSource,
    compile_ignoreSource]
  rw [rewriteLoop]
  simp only [h1, h2, guard_none huniq hpct, Option.isSome_none, Bool.false_eq_true, if_false,
    hcomp b rest rfl h4, compile_escaped]
  rw [replace_capture huniq (by simp [hr, hb])]
  have e : pre ++ o :: ((r ++ b) ++ rest) = pre ++ o :: (r ++ (b ++ rest)) := by simp
  rw [e, rewriteLoop]
  simp only [hA _ h5]
  exact hB

/-- The method `rewriteAssetPath` on a text with one delimited reference to the asset path,
when the rewritten text does not contain the asset path any more. -/
theorem rewrite_ref {prepend a value pre up tl r : Str} {o : Char} (fuel : Nat)
    (hex : MatchesAt (reRegex (a.map Regex.char)) (pre ++ o :: (up ++ (a ++ tl))) pre.length)
    (huniq : ∀ i, a <+: (pre ++ o :: (up ++ (a ++ tl))).drop i → i = pre.length + 1 + up.length)
    (ho : o ∈ openers) (hup : ∀ d ∈ up, d ∉ class1 ∧ isSpace d = false) (hpct : '%' ∉ up)
    (hcomp : ∀ b rest, tl = b ++ rest → (∀ d ∈ b, d ∉ class2) →
      composeReplacement prepend a value (up ++ (a ++ b)) = .ok (r ++ b))
    (hr : '$' ∉ r) (htl : '$' ∉ tl)
    (hres : includes (pre ++ o :: (r ++ tl)) a = false) :
    rewriteAssetPath prepend (fuel + 2) (pre ++ o :: (up ++ (a ++ tl))) a value =
      .ok (pre ++ o :: (r ++ tl)) :=
  rewrite_ref_gen fuel hex huniq ho hup hpct hcomp hr htl (fun li _ => exec_re_none li hres)
    (rewriteSourceMap_none hres)

/-! ## The replacement of a capture without a prepend -/

theorem dotPrefix_append {a x : Str} (y : Str) (h : dotPrefix a x = true) :
    dotPrefix a (x ++ y) = true := by
  induction a generalizing x with
  | nil => rfl
  | cons k ks ih =>
    cases x with
    | nil => simp [dotPrefix] at h
    | cons c cs =>
      simp only [dotPrefix, Bool.and_eq_true, List.cons_append] at h ⊢
      exact ⟨h.1, ih h.2⟩

theorem dotUniq_nonempty {a s : Str} {p : Nat} (huniq : ∀ i, dotPrefix a (s.drop i) = true → i = p) :
    a ≠ [] := by
  intro h
  subst h
  have h0 := huniq 0 rfl
  have h1 := huniq 1 rfl
  omega

theorem uniq_of_dotUniq {a s : Str} {p : Nat} (huniq : ∀ i, dotPrefix a (s.drop i) = true → i = p) :
    ∀ i, a <+: s.drop i → i = p :=
  fun i hi => huniq i (dotPrefix_of_literal hi)

/-- The asset path matches once in the capture when it matches once in the text. -/
theorem dotUniq_in_capture {a pre up b rest : Str} {o : Char}
    (huniq : ∀ i, dotPrefix a ((pre ++ o :: (up ++ (a ++ (b ++ rest)))).drop i) = true →
      i = pre.length + 1 + up.length) :
    ∀ i, dotPrefix a ((up ++ (a ++ b)).drop i) = true → i = up.length := by
  intro i hi
  by_cases hle : i ≤ (up ++ (a ++ b)).length
  · have e : pre ++ o :: (up ++ (a ++ (b ++ rest))) = (pre ++ [o]) ++ ((up ++ (a ++ b)) ++ rest) := by
      simp
    have := huniq (pre.length + 1 + i) (by
      rw [e, ← List.drop_drop, show pre.length + 1 = (pre ++ [o]).length from by simp,
        List.drop_left, List.drop_append_of_le_length hle]
      exact dotPrefix_append _ hi)
    omega
  · rw [List.drop_of_length_le (by omega)] at hi
    have hne := dotUniq_nonempty huniq
    cases a with
    | nil => exact absurd rfl hne
    | cons k ks => simp [dotPrefix] at hi

/-- Without a prepend, the asset path is replaced by the replacement path in the capture. -/
theorem compose_plain {a value pre up b rest : Str} {o : Char}
    (hkey : ∀ c ∈ a, isKeyChar c = true)
    (huniq : ∀ i, dotPrefix a ((pre ++ o :: (up ++ (a ++ (b ++ rest)))).drop i) = true →
      i = pre.length + 1 + up.length)
    (hval : '$' ∉ value) :
    composeReplacement [] a value (up ++ (a ++ b)) = .ok ((up ++ value) ++ b) := by
  have hne := dotUniq_nonempty huniq
  have hlen : 0 < a.length := List.length_pos.2 hne
  have hcap := dotUniq_in_capture huniq
  unfold composeReplacement
  simp only [List.isEmpty_nil, Bool.not_true, Bool.false_eq_true, if_false, compile_key a hkey]
  obtain ⟨mt, y, h1, h2, h3, h4, h5, h6, h7⟩ := exec_unique
    (r := seqOf (a.map atomOf)) (s := up ++ (a ++ b)) (i := up.length) (e := up.length + a.length)
    (by omega) (by simp only [List.length_append]; omega)
    ⟨_, mk_key (r := b) (by simp only [MState.start, List.drop_left])⟩
    (by
      intro j y hy
      obtain ⟨w, k1, k2, k3, k4, _⟩ := inv_key hy
      simp only [MState.start] at k3 k4
      have hj := hcap j k3
      exact ⟨hj, by rw [k4, hj]⟩)
  rw [replaceAll_single h1 h7, getSubstitution_id _ _ _ _ _ _ hval, h2, h3, List.take_left,
    ← List.drop_drop, List.drop_left, List.drop_left]

/-! ## `processString` -/

theorem rewriteAssetPath_absent {prepend s a v : Str} (fuel : Nat) (h : includes s a = false) :
    rewriteAssetPath prepend fuel s a v = .ok s := by
  unfold rewriteAssetPath
  simp [h]

/-- The step of the reducer for a key when the asset map has no own key `hasOwnProperty`:
the two passes of `rewriteAssetPath`, one after the other. -/
theorem processKey_ok {assetMap : AssetMap} {prepend cwd relativePath memo key value memo1 result : Str}
    {fuel : Nat} (hown : assetMap.lookup "hasOwnProperty".toList = none)
    (hentry : assetMap.lookup key = some value)
    (h1 : rewriteAssetPath prepend fuel memo key value = .ok memo1)
    (h2 : rewriteAssetPath prepend fuel memo1 (relativeForm cwd relativePath key)
      (if !prepend.isEmpty then value else relativeForm cwd relativePath value) = .ok result) :
    processKey assetMap prepend cwd fuel relativePath memo key = .ok result := by
  unfold processKey
  simp only [hown, hentry, h1, h2]

theorem processKey_absent {assetMap : AssetMap} {prepend cwd relativePath memo k : Str} (fuel : Nat)
    (hown : assetMap.lookup "hasOwnProperty".toList = none)
    (h : absent cwd relativePath memo k = true) :
    processKey assetMap prepend cwd fuel relativePath memo k = .ok memo := by
  unfold absent at h
  simp only [Bool.and_eq_true, Bool.not_eq_true'] at h
  unfold processKey
  simp only [hown]
  cases assetMap.lookup k with
  | none => rfl
  | some v =>
    simp only [rewriteAssetPath_absent fuel h.1, rewriteAssetPath_absent fuel h.2]

/-- Keys whose step leaves the text unchanged can be passed over. -/
theorem processKeys_noop {assetMap : AssetMap} {prepend cwd relativePath memo : Str} (fuel : Nat) :
    ∀ (keys : List Str),
      (∀ k ∈ keys, processKey assetMap prepend cwd fuel relativePath memo k = .ok memo) →
      processKeys assetMap prepend cwd fuel relativePath keys memo = .ok memo := by
  intro keys
  induction keys with
  | nil => intro _; rfl
  | cons k ks ih =>
    intro h
    simp only [processKeys, h k (List.mem_cons_self _ _)]
    exact ih (fun k' hk' => h k' (List.mem_cons_of_mem _ hk'))

theorem processKeys_absent {assetMap : AssetMap} {prepend cwd relativePath memo : Str} (fuel : Nat)
    (hown : assetMap.lookup "hasOwnProperty".toList = none) :
    ∀ (keys : List Str), (∀ k ∈ keys, absent cwd relativePath memo k = true) →
      processKeys assetMap prepend cwd fuel relativePath keys memo = .ok memo :=
  fun keys h => processKeys_noop fuel keys (fun k hk => processKey_absent fuel hown (h k hk))

theorem processKeys_append {assetMap : AssetMap} {prepend cwd relativePath : Str} (fuel : Nat)
    (l1 l2 : List Str) (memo : Str) :
    processKeys assetMap prepend cwd fuel relativePath (l1 ++ l2) memo =
      match processKeys assetMap prepend cwd fuel relativePath l1 memo with
      | .ok memo1 => processKeys assetMap prepend cwd fuel relativePath l2 memo1
      | .error e => .error e := by
  induction l1 generalizing memo with
  | nil => rfl
  | cons k ks ih =>
    simp only [List.cons_append, processKeys]
    cases processKey assetMap prepend cwd fuel relativePath memo k with
    | error e => rfl
    | ok m => exact ih m

/-- The keys are sorted by length, longest first. -/
theorem generateAssetMapKeys_sorted (assetMap : AssetMap) :
    (generateAssetMapKeys assetMap).Pairwise (fun a b => b.length ≤ a.length) := by
  haveI : IsTotal Str (fun a b => b.length ≤ a.length) := ⟨fun a b => Nat.le_total _ _⟩
  haveI : IsTrans Str (fun a b => b.length ≤ a.length) := ⟨fun a b c h1 h2 => Nat.le_trans h2 h1⟩
  exact List.sorted_insertionSort _ _

theorem generateAssetMapKeys_perm (assetMap : AssetMap) :
    (generateAssetMapKeys assetMap).Perm (assetMap.map Prod.fst) :=
  List.perm_insertionSort _ _

/-- The sorted keys around one key: longer or equally long keys before, shorter or equally
long keys after. -/
theorem keys_split {assetMap : AssetMap} {key : Str} (hmem : key ∈ assetMap.map Prod.fst)
    (hnodup : (assetMap.map Prod.fst).Nodup) :
    ∃ l1 l2, generateAssetMapKeys assetMap = l1 ++ key :: l2 ∧
      (∀ k ∈ l1, k ∈ assetMap.map Prod.fst ∧ k ≠ key ∧ key.length ≤ k.length) ∧
      (∀ k ∈ l2, k ∈ assetMap.map Prod.fst ∧ k ≠ key ∧ k.length ≤ key.length) := by
  have hperm := generateAssetMapKeys_perm assetMap
  have hsorted := generateAssetMapKeys_sorted assetMap
  have hnd : (generateAssetMapKeys assetMap).Nodup := hperm.nodup_iff.2 hnodup
  obtain ⟨l1, l2, hsplit⟩ := List.append_of_mem (hperm.mem_iff.2 hmem)
  rw [hsplit] at hsorted hnd
  refine ⟨l1, l2, hsplit, ?_, ?_⟩
  · intro k hk
    refine ⟨hperm.mem_iff.1 (by rw [hsplit]; simp [hk]), ?_, ?_⟩
    · rintro rfl
      rw [List.nodup_append] at hnd
      exact hnd.2.2 hk (List.mem_cons_self _ _)
    · rw [List.pairwise_append] at hsorted
      exact hsorted.2.2 k hk key (List.mem_cons_self _ _)
  · intro k hk
    refine ⟨hperm.mem_iff.1 (by rw [hsplit]; simp [hk]), ?_, ?_⟩
    · rintro rfl
      rw [List.nodup_append] at hnd
      exact (List.nodup_cons.1 hnd.2.1).1 hk
    · rw [List.pairwise_append] at hsorted
      exact List.rel_of_pairwise_cons hsorted.2.1 hk

/-- The method `processString` when one key rewrites the text and the step of every other
key changes nothing: the keys tried before on the text, the keys tried after on the
rewritten text. -/
theorem processString_solo {assetMap : AssetMap} {prepend cwd relativePath text result : Str}
    (key : Str) (fuel : Nat) (hmem : key ∈ assetMap.map Prod.fst) (hnodup : (assetMap.map Prod.fst).Nodup)
    (hkey : processKey assetMap prepend cwd fuel relativePath text key = .ok result)
    (hothers : ∀ k ∈ assetMap.map Prod.fst, k ≠ key →
      (key.length ≤ k.length →
        processKey assetMap prepend cwd fuel relativePath text k = .ok text) ∧
      (k.length ≤ key.length →
        processKey assetMap prepend cwd fuel relativePath result k = .ok result)) :
    processString assetMap prepend cwd fuel text relativePath = .ok result := by
  obtain ⟨l1, l2, hsplit, h1, h2⟩ := keys_split hmem hnodup
  unfold processString
  rw [hsplit, processKeys_append,
    processKeys_noop fuel l1 (fun k hk => (hothers k (h1 k hk).1 (h1 k hk).2.1).1 (h1 k hk).2.2)]
  simp only [processKeys, hkey]
  exact processKeys_noop fuel l2
    (fun k hk => (hothers k (h2 k hk).1 (h2 k hk).2.1).2 (h2 k hk).2.2)

theorem dotUniq_of_occurrences {a s : Str} {p : Nat} (hs : s ≠ [])
    (h : dotOccurrences a s = [p]) : ∀ i, dotPrefix a (s.drop i) = true → i = p := by
  have hmem : ∀ i, i ≤ s.length → dotPrefix a (s.drop i) = true → i = p := by
    intro i hi hd
    have : i ∈ dotOccurrences a s := by
      unfold dotOccurrences
      rw [List.mem_filter]
      exact ⟨List.mem_range.2 (by omega), hd⟩
    rw [h] at this
    simpa using this
  intro i hd
  by_cases hi : i ≤ s.length
  · exact hmem i hi hd
  · exfalso
    rw [List.drop_of_length_le (by omega)] at hd
    have ha : a = [] := by
      cases a with
      | nil => rfl
      | cons k ks => simp [dotPrefix] at hd
    subst ha
    have h0 := hmem 0 (Nat.zero_le _) rfl
    have h1 := hmem 1 (by
      cases s with
      | nil => exact absurd rfl hs
      | cons c cs => simp) rfl
    omega

theorem mem_keys_of_lookup {assetMap : AssetMap} {key value : Str}
    (h : assetMap.lookup key = some value) : key ∈ assetMap.map Prod.fst := by
  induction assetMap with
  | nil => simp [List.lookup] at h
  | cons e es ih =>
    obtain ⟨k, v⟩ := e
    simp only [List.lookup] at h
    by_cases hk : key = k
    · subst hk; simp
    · have : (key == k) = false := by simpa using hk
      simp only [this] at h
      simp [ih h]

/-! ## A reference rewritten without a prepend -/

theorem markers_class {up : Str} (hup : ∀ d ∈ up, d = '.' ∨ d = '/') :
    (∀ d ∈ up, d ∉ class1 ∧ isSpace d = false) ∧ '%' ∉ up ∧ '$' ∉ up := by
  refine ⟨?_, ?_, ?_⟩
  · intro d hd
    rcases hup d hd with h | h <;> subst h <;> exact ⟨by decide, by decide⟩
  · intro h
    rcases hup _ h with h | h <;> cases h
  · intro h
    rcases hup _ h with h | h <;> cases h

/-- C3. The method `generateAssetMapKeys` sets `assetMapKeys` to a permutation of the keys
of the asset map, ordered by non-increasing length; so for two distinct keys `A` and `B`
with `A` a substring of `B`, `B` stands before `A` in it, and `processString`, which
reduces over that list from left to right, tries `B` before `A`. -/
theorem generateAssetMapKeys_longest_first (assetMap : AssetMap) :
    (generateAssetMapKeys assetMap).Perm (assetMap.map Prod.fst) ∧
    (generateAssetMapKeys assetMap).Pairwise (fun a b => b.length ≤ a.length) ∧
    ∀ A B : Str, A ∈ assetMap.map Prod.fst → B ∈ assetMap.map Prod.fst → A ≠ B → A <:+: B →
      ∃ l1 l2 l3, generateAssetMapKeys assetMap = l1 ++ B :: (l2 ++ A :: l3) ∧
        ∀ (prepend cwd : Str) (fuel : Nat) (string relativePath : Str),
          processString assetMap prepend cwd fuel string relativePath =
            processKeys assetMap prepend cwd fuel relativePath (l1 ++ B :: (l2 ++ A :: l3))
              string := by
  refine ⟨generateAssetMapKeys_perm assetMap, generateAssetMapKeys_sorted assetMap, ?_⟩
  intro A B hA hB hne hsub
  have hlen : A.length < B.length := by
    have h1 : A.length ≤ B.length := hsub.length_le
    rcases Nat.lt_or_ge A.length B.length with h | h
    · exact h
    · exact absurd (hsub.eq_of_length (by omega)) hne
  have hperm := generateAssetMapKeys_perm assetMap
  have hsorted := generateAssetMapKeys_sorted assetMap
  obtain ⟨l1, l', hsplit⟩ := List.append_of_mem (hperm.mem_iff.2 hB)
  have hA' : A ∈ l1 ++ B :: l' := by rw [← hsplit]; exact hperm.mem_iff.2 hA
  rw [hsplit, List.pairwise_append] at hsorted
  have hAl : A ∈ l' := by
    rcases List.mem_append.1 hA' with h | h
    · have := hsorted.2.2 A h B (List.mem_cons_self _ _)
      omega
    · rcases List.mem_cons.1 h with h | h
      · exact absurd h hne
      · exact h
  obtain ⟨l2, l3, hsplit2⟩ := List.append_of_mem hAl
  refine ⟨l1, l2, l3, by rw [hsplit, hsplit2], ?_⟩
  intro prepend cwd fuel string relativePath
  unfold processString
  rw [hsplit, hsplit2]

theorem generateAssetMapKeys_longest_first_witness :
    ∃ l1 l2 l3, generateAssetMapKeys [("a.png".toList, "a-1.png".toList),
        ("b.css".toList, "b-1.css".toList), ("a.png.map".toList, "a-2.png.map".toList)] =
      l1 ++ "a.png.map".toList :: (l2 ++ "a.png".toList :: l3) := by
  obtain ⟨l1, l2, l3, h, _⟩ := (generateAssetMapKeys_longest_first
    [("a.png".toList, "a-1.png".toList), ("b.css".toList, "b-1.css".toList),
      ("a.png.map".toList, "a-2.png.map".toList)]).2.2 "a.png".toList "a.png.map".toList
    (by decide) (by decide) (by decide) ⟨[], ".map".toList, rfl⟩
  exact ⟨l1, l2, l3, h⟩

/-! ## Leading relative markers -/

theorem markersRegex_eq :
    markersRegex = .rep 0 none true (.group 1 (.seq (.rep 0 none true (.char '.'))
      (.seq (.char '/') .empty))) := rfl

/-- One round of `(\.*/)`: dots and a slash are consumed and captured. -/
theorem token_inv {x y : MState}
    (h : Matches (.group 1 (.seq (.rep 0 none true (.char '.')) (.seq (.char '/') .empty))) x y) :
    ∃ tok, isMarker tok ∧ x.rest = tok ++ y.rest ∧ y.pos = x.pos + tok.length ∧
      y.caps 1 = some tok := by
  rw [matches_group_iff] at h
  obtain ⟨y1, h, hy⟩ := h
  rw [matches_seq_iff] at h
  obtain ⟨x1, hD, h⟩ := h
  rw [matches_seq_iff] at h
  obtain ⟨x2, hS, hE⟩ := h
  rw [matches_empty_iff] at hE
  subst hE
  obtain ⟨w, hw1, hw2, hw3, hw4⟩ := inv_star (a := Regex.char '.') rfl hD
  obtain ⟨c, hc1, hc2, hc3, hc4⟩ := inv_charset (r := Regex.char '/') rfl hS
  have hc : c = '/' := by simpa using hc2
  subst hc
  have hw : w = List.replicate w.length '.' := by
    apply List.eq_replicate_iff.2
    exact ⟨rfl, fun d hd => by simpa using hw2 d hd⟩
  refine ⟨w ++ ['/'], ⟨w.length, by rw [← hw]⟩, ?_, ?_, ?_⟩
  · rw [hy]
    simp only [MState.capture]
    rw [hw1, hc1]
    simp
  · rw [hy]
    simp only [MState.capture, List.length_append, List.length_singleton]
    omega
  · rw [hy]
    simp only [MState.capture, beq_self_eq_true, if_true]
    rw [hw1, hc1, hc3, hw3]
    congr 1
    have : x.pos + w.length + 1 - x.pos = (w ++ ['/']).length := by
      simp only [List.length_append, List.length_singleton]; omega
    rw [this, show w ++ '/' :: y1.rest = (w ++ ['/']) ++ y1.rest from by simp, List.take_left]

theorem token_mk {x : MState} {tok r : Str} (ht : isMarker tok) (hx : x.rest = tok ++ r) :
    ∃ y, Matches (.group 1 (.seq (.rep 0 none true (.char '.')) (.seq (.char '/') .empty))) x y ∧
      y.rest = r ∧ y.pos = x.pos + tok.length := by
  obtain ⟨n, hn⟩ := ht
  subst hn
  let x1 : MState := { pos := x.pos + (List.replicate n '.').length, rest := '/' :: r, caps := x.caps }
  let x2 : MState := { pos := x1.pos + 1, rest := r, caps := x1.caps }
  have hD : Matches (.rep 0 none true (.char '.')) x x1 :=
    mk_star (a := Regex.char '.') rfl (w := List.replicate n '.') (by rw [hx]; simp)
      (fun d hd => by simpa using (List.mem_replicate.1 hd).2)
  have hS : Matches (.char '/') x1 x2 := mk_charset (r := Regex.char '/') rfl rfl (by simp)
  refine ⟨x2.capture 1 x, Matches.group (Matches.seq hD (Matches.seq hS (Matches.empty _))), rfl, ?_⟩
  simp [MState.capture, x2, x1]
  omega

theorem isMarker_chars {tok : Str} (h : isMarker tok) : ∀ d ∈ tok, d = '.' ∨ d = '/' := by
  obtain ⟨n, rfl⟩ := h
  intro d hd
  rcases List.mem_append.1 hd with h | h
  · exact Or.inl (List.mem_replicate.1 h).2
  · exact Or.inr (by simpa using h)

theorem isMarker_ne_nil {tok : Str} (h : isMarker tok) : tok ≠ [] := by
  obtain ⟨n, rfl⟩ := h
  simp

/-- What `(\.*/)*` consumes: dots and slashes; the capture is `undefined` as before when
nothing is consumed, and else the last marker, a suffix of what is consumed. -/
theorem markers_inv {x z : MState} (h : Matches markersRegex x z) :
    ∃ w, x.rest = w ++ z.rest ∧ z.pos = x.pos + w.length ∧ (∀ d ∈ w, d = '.' ∨ d = '/') ∧
      ((w = [] ∧ z.caps 1 = x.caps 1) ∨ ∃ tok, tok ≠ [] ∧ tok <:+ w ∧ z.caps 1 = some tok) := by
  rw [markersRegex_eq] at h
  generalize hr : Regex.rep 0 none true (.group 1 (.seq (.rep 0 none true (.char '.'))
      (.seq (.char '/') .empty))) = r at h
  induction h with
  | empty => cases hr
  | step hc _ _ => subst hr; cases hc
  | bol _ => cases hr
  | eol _ => cases hr
  | seq _ _ => cases hr
  | altL _ => cases hr
  | altR _ => cases hr
  | group _ => cases hr
  | @repDone min max g' r' x _ =>
    exact ⟨[], rfl, rfl, by simp, Or.inl ⟨rfl, rfl⟩⟩
  | @repMore min max g' r' x y z _ h1 _ _ _ ih2 =>
    cases hr
    obtain ⟨tok, ht1, ht2, ht3, ht4⟩ := token_inv h1
    obtain ⟨w, hw1, hw2, hw3, hw4⟩ := ih2 rfl
    simp only [MState.reset] at ht2 ht3
    refine ⟨tok ++ w, by rw [ht2, hw1, List.append_assoc], by rw [hw2, ht3, List.length_append]; omega,
      ?_, Or.inr ?_⟩
    · intro d hd
      rcases List.mem_append.1 hd with h | h
      · exact isMarker_chars ht1 d h
      · exact hw3 d h
    · rcases hw4 with ⟨hw, hcap⟩ | ⟨tok', h1', h2', h3'⟩
      · subst hw
        exact ⟨tok, isMarker_ne_nil ht1, by simp, by rw [hcap, ht4]⟩
      · exact ⟨tok', h1', h2'.trans (List.suffix_append _ _), h3'⟩

/-- The pattern `(\.*/)*` can consume a run of markers. -/
theorem markers_mk : ∀ (toks : List Str) (x : MState) (r : Str), (∀ tok ∈ toks, isMarker tok) →
    x.rest = toks.flatten ++ r →
    ∃ z, Matches markersRegex x z ∧ z.rest = r ∧ z.pos = x.pos + toks.flatten.length := by
  intro toks
  induction toks with
  | nil =>
    intro x r _ hx
    exact ⟨x, Matches.repDone (Or.inl rfl), by simpa using hx, by simp⟩
  | cons tok toks ih =>
    intro x r ht hx
    obtain ⟨y, hy1, hy2, hy3⟩ := token_mk (x := x.reset [1]) (ht tok (List.mem_cons_self _ _))
      (r := toks.flatten ++ r) (by simp [MState.reset, hx])
    obtain ⟨z, hz1, hz2, hz3⟩ := ih y r (fun t h => ht t (List.mem_cons_of_mem _ h)) hy2
    refine ⟨z, ?_, hz2, ?_⟩
    · rw [markersRegex_eq]
      refine Matches.repMore (by simp) hy1 (fun _ => ?_) hz1
      have := isMarker_ne_nil (ht tok (List.mem_cons_self _ _))
      have : 0 < tok.length := List.length_pos.2 this
      simp only [MState.reset] at hy3
      omega
    · simp only [MState.reset] at hy3
      rw [hz3, hy3]
      simp
      omega

/-! ## The constant `REMOVE_LEADING_RELATIVE_OR_SLASH_REGEX` -/

theorem tokenSplit_some {s r : Str} {n : Nat} (h : tokenSplit s = some (n, r)) :
    s = List.replicate n '.' ++ '/' :: r := by
  induction s generalizing n with
  | nil => simp [tokenSplit] at h
  | cons c cs ih =>
    simp only [tokenSplit] at h
    by_cases h1 : c = '/'
    · simp only [h1, if_true, Option.some.injEq, Prod.mk.injEq] at h
      obtain ⟨rfl, rfl⟩ := h
      simp [h1]
    · simp only [h1, if_false] at h
      by_cases h2 : c = '.'
      · simp only [h2, if_true, Option.map_eq_some'] at h
        obtain ⟨⟨m, r'⟩, hm, he⟩ := h
        simp only [Prod.mk.injEq] at he
        obtain ⟨rfl, rfl⟩ := he
        rw [ih hm, h2]
        simp [List.replicate_succ]
      · simp [h2] at h

theorem repeatM_star_unfold (m : MState → Cont → Option MState) (gs : List Nat) (k : Cont)
    (fuel : Nat) (x : MState) :
    repeatM m gs true k (fuel + 1) 0 none x =
      match m (x.reset gs) (fun y =>
          if y.pos == x.pos then none else repeatM m gs true k fuel 0 none y) with
      | some z => some z
      | none => k x := by
  rw [repeatM]
  rfl

theorem stepChar_cons (p : Char → Bool) (pos : Nat) (c : Char) (cs : Str) (caps : Nat → Option Str)
    (k : Cont) :
    stepChar p { pos := pos, rest := c :: cs, caps := caps } k =
      if p c then k { pos := pos + 1, rest := cs, caps := caps } else none := rfl

theorem stepChar_nil (p : Char → Bool) (pos : Nat) (caps : Nat → Option Str) (k : Cont) :
    stepChar p { pos := pos, rest := [], caps := caps } k = none := rfl

/-- Dots followed by a slash, as the greedy `\.*` and `/` consume them. -/
theorem dots_repeat (K : Cont) : ∀ (fuel : Nat) (x : MState), x.rest.length + 1 ≤ fuel →
    repeatM (Regex.char '.').m [] true (fun y => stepChar (fun d => d == '/') y K) fuel 0 none x =
      match tokenSplit x.rest with
      | some p => K { pos := x.pos + p.1 + 1, rest := p.2, caps := x.caps }
      | none => none := by
  intro fuel
  induction fuel with
  | zero => intro x h; omega
  | succ fuel ih =>
    intro x hf
    obtain ⟨pos, rest, caps⟩ := x
    simp only at hf
    rw [repeatM_star_unfold, MState.reset_nil, charSet_m (r := Regex.char '.') rfl]
    cases rest with
    | nil =>
      rw [stepChar_nil]
      show stepChar _ _ K = _
      rw [stepChar_nil]
      rfl
    | cons c cs =>
      rw [stepChar_cons]
      show (match (if (c == '.') = true then _ else none) with
        | some z => some z
        | none => stepChar (fun d => d == '/') { pos := pos, rest := c :: cs, caps := caps } K) = _
      rw [stepChar_cons]
      by_cases h2 : c = '.'
      · subst h2
        have hih := ih { pos := pos + 1, rest := cs, caps := caps } (by simp at hf ⊢; omega)
        simp only at hih
        simp only [beq_self_eq_true, if_true, show ((pos + 1 == pos) = false) from by simp,
          Bool.false_eq_true, if_false, show (('.' : Char) == '/') = false from by decide]
        rw [hih]
        simp only [tokenSplit, show ('.' : Char) ≠ '/' from by decide, if_false, if_true]
        cases tokenSplit cs with
        | none => rfl
        | some p =>
          simp only [Option.map_some']
          have e : pos + 1 + p.1 + 1 = pos + (p.1 + 1) + 1 := by omega
          rw [e]
          cases K { pos := pos + (p.1 + 1) + 1, rest := p.2, caps := caps } <;> rfl
      · have h2' : (c == '.') = false := by simpa using h2
        simp only [h2', Bool.false_eq_true, if_false]
        by_cases h1 : c = '/'
        · subst h1
          simp [tokenSplit]
        · have h1' : (c == '/') = false := by simpa using h1
          simp [tokenSplit, h1, h2, h1']

theorem tokenMatcher_eq (x : MState) (K : Cont) :
    (Regex.seq (.rep 0 none true (.char '.')) (.seq (.char '/') .empty)).m x K =
      match tokenSplit x.rest with
      | some p => K { pos := x.pos + p.1 + 1, rest := p.2, caps := x.caps }
      | none => none := by
  show repeatM (Regex.char '.').m [] true
    (fun y => (Regex.seq (.char '/') .empty).m y K) (0 + x.rest.length + 1) 0 none x = _
  have : (fun y => (Regex.seq (.char '/') .empty).m y K) =
      (fun y => stepChar (fun d => d == '/') y K) := rfl
  rw [this]
  exact dots_repeat K _ x (by omega)

theorem tokenSplit_length {s : Str} {p : Nat × Str} (h : tokenSplit s = some p) :
    s.length = p.1 + 1 + p.2.length := by
  obtain ⟨n, r⟩ := p
  rw [tokenSplit_some h]
  simp
  omega

theorem tokenSplit_mem {s : Str} {p : Nat × Str} (h : tokenSplit s = some p) :
    ∀ d ∈ p.2, d ∈ s := by
  obtain ⟨n, r⟩ := p
  rw [tokenSplit_some h]
  intro d hd
  simp [hd]

/-- The greedy `(\.*/)*` before a continuation that accepts every state consumes all the
leading markers. -/
theorem markers_repeat (k : Cont) (Q : Char → Prop)
    (hk : ∀ y : MState, (∀ d ∈ y.rest, Q d) → (k y).isSome) :
    ∀ (fuel : Nat) (x : MState), x.rest.length + 1 ≤ fuel → (∀ d ∈ x.rest, Q d) →
      ∃ y, repeatM (Regex.group 1 (.seq (.rep 0 none true (.char '.')) (.seq (.char '/') .empty))).m
          [1] true k fuel 0 none x = k y ∧ y.rest = stripFuel fuel x.rest := by
  intro fuel
  induction fuel with
  | zero => intro x h; omega
  | succ fuel ih =>
    intro x hf hq
    rw [repeatM_star_unfold]
    show ∃ y, (match (Regex.seq (.rep 0 none true (.char '.')) (.seq (.char '/') .empty)).m
        (x.reset [1]) (fun y => (fun y =>
          if y.pos == x.pos then none
          else repeatM (Regex.group 1 (.seq (.rep 0 none true (.char '.'))
            (.seq (.char '/') .empty))).m [1] true k fuel 0 none y) (y.capture 1 (x.reset [1]))) with
      | some z => some z
      | none => k x) = k y ∧ y.rest = stripFuel (fuel + 1) x.rest
    rw [tokenMatcher_eq]
    simp only [MState.reset, stripFuel]
    cases hts : tokenSplit x.rest with
    | none => exact ⟨x, rfl, rfl⟩
    | some p =>
      have hlen := tokenSplit_length hts
      have hmem := tokenSplit_mem hts
      simp only [MState.capture]
      have hne : (x.pos + p.1 + 1 == x.pos) = false := by simp; omega
      simp only [hne, Bool.false_eq_true, if_false]
      obtain ⟨y, hy1, hy2⟩ := ih
        { pos := x.pos + p.1 + 1, rest := p.2,
          caps := fun j => if j == 1 then some (x.rest.take (x.pos + p.1 + 1 - x.pos))
            else if [1].contains j then none else x.caps j }
        (by simp only; omega) (fun d hd => hq d (hmem d hd))
      refine ⟨y, ?_, hy2⟩
      rw [hy1]
      have hs := hk y (by
        rw [hy2]
        intro d hd
        have : ∀ (n : Nat) (s : Str), (∀ d ∈ s, Q d) → ∀ d ∈ stripFuel n s, Q d := by
          intro n
          induction n with
          | zero => intro s hs d hd; exact hs d hd
          | succ n ihn =>
            intro s hs d hd
            simp only [stripFuel] at hd
            cases hts' : tokenSplit s with
            | none => rw [hts'] at hd; exact hs d hd
            | some p' =>
              rw [hts'] at hd
              exact ihn p'.2 (fun e he => hs e (tokenSplit_mem hts' e he)) d hd
        exact this fuel p.2 (fun e he => hq e (hmem e he)) d hd)
      cases hky : k y with
      | none => rw [hky] at hs; cases hs
      | some z => rfl

/-- A greedy star of one-character atoms before a continuation that accepts the end of
a run of accepted characters consumes the whole run. -/
theorem star_greedy_all {a : Regex} {p : Char → Bool} (ha : a.charSet = some p) (K : Cont) :
    ∀ (fuel : Nat) (x : MState) (z : MState), x.rest.length + 1 ≤ fuel →
      (∀ d ∈ x.rest, p d = true) →
      K { pos := x.pos + x.rest.length, rest := [], caps := x.caps } = some z →
      repeatM a.m a.groups true K fuel 0 none x = some z := by
  intro fuel
  induction fuel with
  | zero => intro x z h; omega
  | succ fuel ih =>
    intro x z hf hp hK
    obtain ⟨pos, rest, caps⟩ := x
    simp only at hf hp hK
    rw [repeatM_star_unfold, charSet_groups ha, MState.reset_nil, charSet_m ha]
    cases rest with
    | nil =>
      rw [stepChar_nil]
      simpa using hK
    | cons c cs =>
      rw [stepChar_cons]
      simp only [hp c (List.mem_cons_self _ _), if_true,
        show ((pos + 1 == pos) = false) from by simp, Bool.false_eq_true, if_false]
      rw [← charSet_groups ha, ih { pos := pos + 1, rest := cs, caps := caps } z
        (by simp at hf ⊢; omega) (fun d hd => hp d (List.mem_cons_of_mem _ hd))
        (by
          simp only [List.length_cons] at hK ⊢
          have e : pos + 1 + cs.length = pos + (cs.length + 1) := by omega
          rw [e]; exact hK)]

/-- The constant pattern applied to a replacement path without line terminator: its second
capture is the path with its leading relative markers removed. -/
theorem removeLeading_exec (value : Str) (hv : ∀ d ∈ value, isLineTerminator d = false) :
    ∃ r, exec removeLeadingRe.re value 0 = some r ∧ r.caps 2 = some (stripLeading value) := by
  have hk : ∀ y : MState, (∀ d ∈ y.rest, isLineTerminator d = false) →
      (Regex.seq (.group 2 (.seq (.rep 0 none true .any) .empty)) (.seq .eol .empty)).m y some =
        some (MState.capture ⟨y.pos + y.rest.length, [], y.caps⟩ 2 y) := by
    intro y hy
    show repeatM Regex.any.m Regex.any.groups true
      (fun y1 => (fun y3 => (Regex.seq .eol .empty).m y3 some) (y1.capture 2 y))
      (0 + y.rest.length + 1) 0 none y = _
    apply star_greedy_all (a := Regex.any) rfl _ _ y _ (by omega)
    · intro d hd
      simp [hy d hd]
    · rfl
  obtain ⟨y, hy1, hy2⟩ := markers_repeat
    (fun y => (Regex.seq (.group 2 (.seq (.rep 0 none true .any) .empty)) (.seq .eol .empty)).m y some)
    (fun d => isLineTerminator d = false)
    (fun y hy => Option.isSome_iff_exists.2 ⟨_, hk y hy⟩)
    (0 + value.length + 1) (MState.start 0 value) (by simp [MState.start]) hv
  have hm : removeLeadingRe.re.m (MState.start 0 value) some =
      some (MState.capture ⟨y.pos + y.rest.length, [], y.caps⟩ 2 y) := by
    have hq : ∀ d ∈ y.rest, isLineTerminator d = false := by
      rw [hy2]
      have : ∀ (n : Nat) (s : Str), (∀ d ∈ s, isLineTerminator d = false) →
          ∀ d ∈ stripFuel n s, isLineTerminator d = false := by
        intro n
        induction n with
        | zero => intro s hs d hd; exact hs d hd
        | succ n ihn =>
          intro s hs d hd
          simp only [stripFuel] at hd
          cases hts' : tokenSplit s with
          | none => rw [hts'] at hd; exact hs d hd
          | some p' =>
            rw [hts'] at hd
            exact ihn p'.2 (fun e he => hs e (tokenSplit_mem hts' e he)) d hd
      exact this _ _ hv
    rw [← hk y hq, ← hy1]
    rfl
  have hat : attempt removeLeadingRe.re 0 value =
      some { index := 0, stop := y.pos + y.rest.length, matched := value.take (y.pos + y.rest.length - 0),
             caps := (MState.capture ⟨y.pos + y.rest.length, [], y.caps⟩ 2 y).caps } := by
    unfold attempt
    rw [hm]
    rfl
  have hex : exec removeLeadingRe.re value 0 =
      some { index := 0, stop := y.pos + y.rest.length, matched := value.take (y.pos + y.rest.length - 0),
             caps := (MState.capture ⟨y.pos + y.rest.length, [], y.caps⟩ 2 y).caps } := by
    unfold exec
    simp only [Nat.not_lt_zero, gt_iff_lt, if_false, List.drop_zero]
    cases value with
    | nil => rw [searchFrom]; exact hat
    | cons c cs => rw [searchFrom, hat]
  refine ⟨_, hex, ?_⟩
  simp only [MState.capture, beq_self_eq_true, if_true]
  congr 1
  rw [Nat.add_sub_cancel_left, List.take_length, hy2]
  simp only [MState.start, stripLeading, Nat.zero_add]

/-! ## `indexOf` and `alreadyHasPrepend` -/

theorem indexOfAux_ge {t : Str} : ∀ (rest : Str) (pos q : Nat), indexOfAux t pos rest = some q → pos ≤ q := by
  intro rest
  induction rest with
  | nil =>
    intro pos q h
    simp only [indexOfAux] at h
    split at h
    · cases h; exact Nat.le_refl _
    · cases h
  | cons c cs ih =>
    intro pos q h
    simp only [indexOfAux] at h
    split at h
    · cases h; exact Nat.le_refl _
    · have := ih _ _ h
      omega

theorem indexOfAux_self {t rest : Str} {pos : Nat} :
    indexOfAux t pos rest = some pos ↔ t <+: rest := by
  cases rest with
  | nil =>
    simp only [indexOfAux, List.prefix_nil]
    cases t with
    | nil => simp
    | cons c cs => simp
  | cons c cs =>
    simp only [indexOfAux]
    by_cases h : t.isPrefixOf (c :: cs) = true
    · simp only [h, if_true, true_iff]
      exact List.isPrefixOf_iff_prefix.1 h
    · simp only [h, if_false]
      constructor
      · intro h2
        have := indexOfAux_ge _ _ _ h2
        omega
      · intro h2
        exact absurd (List.isPrefixOf_iff_prefix.2 h2) h

theorem indexOf_self {s t : Str} {n : Nat} :
    indexOf s t n = some n ↔ n ≤ s.length ∧ t <+: s.drop n := by
  unfold indexOf
  by_cases hn : n ≤ s.length
  · rw [Nat.min_eq_left hn, indexOfAux_self]
    simp [hn]
  · rw [Nat.min_eq_right (by omega)]
    constructor
    · intro h
      have e : s.drop s.length = [] := List.drop_of_length_le (Nat.le_refl _)
      rw [e] at h
      simp only [indexOfAux] at h
      split at h
      · cases h; omega
      · cases h
    · intro h
      exact absurd h.1 hn

/-- The function `alreadyHasPrepend` answers whether the prepend stands in `string` just
before the index `offset + submatch.length`. -/
theorem alreadyHasPrepend_iff {string prepend : Str} {offset : Nat} {submatch : Option Str} :
    alreadyHasPrepend string prepend offset submatch = true ↔
      ∃ n, n + prepend.length = offset + (submatch.getD []).length ∧ n ≤ string.length ∧
        prepend <+: string.drop n := by
  unfold alreadyHasPrepend
  by_cases hlt : (offset : Int) + ((submatch.getD []).length : Int) - (prepend.length : Int) < 0
  · simp only [hlt, if_true, Bool.false_eq_true, false_iff]
    rintro ⟨n, h1, _⟩
    omega
  · simp only [hlt, if_false, beq_iff_eq]
    have e : ((offset : Int) + ((submatch.getD []).length : Int) - (prepend.length : Int)).toNat =
        offset + (submatch.getD []).length - prepend.length := by omega
    rw [e, indexOf_self]
    constructor
    · rintro ⟨h1, h2⟩
      exact ⟨_, by omega, h1, h2⟩
    · rintro ⟨n, h1, h2, h3⟩
      have : offset + (submatch.getD []).length - prepend.length = n := by omega
      rw [this]
      exact ⟨h2, h3⟩

/-! ## The replacement of a capture with a prepend -/

theorem innerRegex_eq (a : Str) :
    seqOf ([markersRegex] ++ a.map atomOf) = .seq markersRegex (seqOf (a.map atomOf)) := rfl

/-- A match of `(\.*/)*` followed by the asset path in a capture in which the asset path
matches once: it ends after the asset path, and the markers it consumes end where the asset
path starts. -/
theorem inner_inv {a cap : Str} {n j : Nat} {y : MState}
    (huniq : ∀ i, dotPrefix a (cap.drop i) = true → i = n)
    (h : Matches (seqOf ([markersRegex] ++ a.map atomOf)) (MState.start j (cap.drop j)) y) :
    ∃ w, j + w.length = n ∧ y.pos = n + a.length ∧ cap.drop j = w ++ cap.drop n ∧
      (∀ d ∈ w, d = '.' ∨ d = '/') ∧
      ((w = [] ∧ y.caps 1 = none) ∨ ∃ tok, tok ≠ [] ∧ tok <:+ w ∧ y.caps 1 = some tok) := by
  rw [innerRegex_eq, matches_seq_iff] at h
  obtain ⟨z, hM, hK⟩ := h
  obtain ⟨w, hw1, hw2, hw3, hw4⟩ := markers_inv hM
  obtain ⟨_, _, _, hk3, hk4, hk5⟩ := inv_key hK
  simp only [MState.start] at hw1 hw2 hw4
  have hz : cap.drop (j + w.length) = z.rest := prefix_drop_add hw1 rfl
  have hn : j + w.length = n := huniq _ (by rw [hz]; exact hk3)
  refine ⟨w, hn, by rw [hk4, hw2, hn], by rw [hw1, ← hn, hz], hw3, ?_⟩
  rw [hk5]
  exact hw4

theorem exec_inner_none {a cap : Str} {n li : Nat}
    (huniq : ∀ i, dotPrefix a (cap.drop i) = true → i = n) (hli : n < li) :
    exec (seqOf ([markersRegex] ++ a.map atomOf)) cap li = none := by
  rw [exec_none]
  rintro j hj _ ⟨y, hy⟩
  obtain ⟨w, h1, _⟩ := inner_inv huniq hy
  omega

/-- With a prepend that is not made of dots and slashes only, a capture that consists of
leading relative markers, the asset path and more becomes the prepend, the replacement
path without its leading relative markers, and the rest. -/
theorem compose_prepend {prepend a value pre b rest : Str} {o : Char} (toks : List Str)
    (hPne : prepend ≠ []) (hP : toks.flatten = [] ∨ ∃ d ∈ prepend, d ≠ '.' ∧ d ≠ '/')
    (htoks : ∀ tok ∈ toks, isMarker tok)
    (hkey : ∀ c ∈ a, isKeyChar c = true)
    (huniq : ∀ i, dotPrefix a ((pre ++ o :: (toks.flatten ++ (a ++ (b ++ rest)))).drop i) = true →
      i = pre.length + 1 + toks.flatten.length)
    (hval : ∀ d ∈ value, isLineTerminator d = false) :
    composeReplacement prepend a value (toks.flatten ++ (a ++ b)) =
      .ok ((prepend ++ stripLeading value) ++ b) := by
  have hne := dotUniq_nonempty huniq
  have hlen : 0 < a.length := List.length_pos.2 hne
  have hcap := dotUniq_in_capture huniq
  have hPe : prepend.isEmpty = false := by
    cases prepend with
    | nil => exact absurd rfl hPne
    | cons _ _ => rfl
  have hup : ∀ d ∈ toks.flatten, d = '.' ∨ d = '/' := by
    intro d hd
    obtain ⟨tok, ht, hdt⟩ := List.mem_flatten.1 hd
    exact isMarker_chars (htoks tok ht) d hdt
  unfold composeReplacement
  simp only [hPe, Bool.not_false, if_true, compile_markers_key a hkey]
  -- the first match
  obtain ⟨z, hz1, hz2, hz3⟩ := markers_mk toks (MState.start 0 (toks.flatten ++ (a ++ b))) (a ++ b)
    htoks rfl
  have hex : MatchesAt (seqOf ([markersRegex] ++ a.map atomOf)) (toks.flatten ++ (a ++ b)) 0 := by
    refine ⟨{ pos := z.pos + a.length, rest := b, caps := z.caps }, ?_⟩
    rw [innerRegex_eq, matches_seq_iff]
    exact ⟨z, hz1, mk_key hz2⟩
  obtain ⟨mt, y, h1, h2, h3, h4, h5, h6⟩ := exec_first (l := 0) (i := 0) (Nat.le_refl _)
    (Nat.zero_le _) hex (fun j _ hj => absurd hj (Nat.not_lt_zero _))
  obtain ⟨w, k1, k2, k3, k4, k5⟩ := inner_inv hcap h3
  simp only [Nat.zero_add, List.drop_zero] at k1 k3
  have hstop : mt.stop = toks.flatten.length + a.length := by rw [h4, k2]
  have hw : w = toks.flatten := by
    have := List.append_inj k3 (by rw [k1])
    exact this.1.symm
  have hnone : exec (seqOf ([markersRegex] ++ a.map atomOf)) (toks.flatten ++ (a ++ b))
      (if mt.stop == mt.index then mt.stop + 1 else mt.stop) = none := by
    apply exec_inner_none hcap
    rw [hstop, h2]
    have : (toks.flatten.length + a.length == 0) = false := beq_eq_false_iff_ne.2 (by omega)
    simp only [this, Bool.false_eq_true, if_false]
    omega
  -- the replacement function
  have hsub : ((mt.caps 1).getD []).length ≤ toks.flatten.length := by
    rw [h5]
    rcases k5 with ⟨_, hc⟩ | ⟨tok, _, ht, hc⟩
    · rw [hc]; simp
    · rw [hc, ← hw]
      simpa using ht.length_le
  have hnot : alreadyHasPrepend (toks.flatten ++ (a ++ b)) prepend mt.index (mt.caps 1) = false := by
    cases hah : alreadyHasPrepend (toks.flatten ++ (a ++ b)) prepend mt.index (mt.caps 1) with
    | false => rfl
    | true =>
      exfalso
      obtain ⟨n, e1, e2, e3⟩ := alreadyHasPrepend_iff.1 hah
      rw [h2, Nat.zero_add] at e1
      have hpre : prepend <+: toks.flatten.drop n := by
        rw [List.drop_append_of_le_length (by omega)] at e3
        exact List.prefix_of_prefix_length_le e3 (List.prefix_append _ _)
          (by rw [List.length_drop]; omega)
      rcases hP with hnil | ⟨d, hd, hd1, hd2⟩
      · rw [hnil] at hsub
        have h0 : prepend.length = 0 := by
          simp only [List.length_nil] at hsub
          omega
        exact hPne (List.length_eq_zero.1 h0)
      · have : d ∈ toks.flatten := List.mem_of_mem_drop (hpre.subset hd)
        rcases hup d this with h | h
        · exact hd1 h
        · exact hd2 h
  obtain ⟨r, hr1, hr2⟩ := removeLeading_exec value hval
  have hf : replacer value prepend (toks.flatten ++ (a ++ b)) mt = .ok (prepend ++ stripLeading value) := by
    unfold replacer
    simp only [hnot, Bool.false_eq_true, if_false, hr1, hr2, jsStr]
  rw [replaceAllFn_single h1 hnone hf, h2, hstop, List.take_zero, List.nil_append,
    ← List.drop_drop, List.drop_left, List.drop_left]

/-- With a prepend that ends with a slash after a character other than a dot or a slash, a
capture in which the prepend already stands before the asset path keeps its prepend: the
asset path alone is replaced by the replacement path. -/
theorem compose_prefixed {p0 a value pre b rest : Str} {o x : Char}
    (hx : x ≠ '.' ∧ x ≠ '/')
    (hkey : ∀ c ∈ a, isKeyChar c = true)
    (huniq : ∀ i, dotPrefix a ((pre ++ o :: ((p0 ++ [x, '/']) ++ (a ++ (b ++ rest)))).drop i) = true →
      i = pre.length + 1 + (p0 ++ [x, '/']).length) :
    composeReplacement (p0 ++ [x, '/']) a value ((p0 ++ [x, '/']) ++ (a ++ b)) =
      .ok (((p0 ++ [x, '/']) ++ value) ++ b) := by
  have hne := dotUniq_nonempty huniq
  have hlen : 0 < a.length := List.length_pos.2 hne
  have hcap := dotUniq_in_capture huniq
  have hPne : (p0 ++ [x, '/']).isEmpty = false := by
    cases p0 <;> rfl
  have hPlen : (p0 ++ [x, '/']).length = p0.length + 2 := by simp
  have hcapeq : (p0 ++ [x, '/']) ++ (a ++ b) = (p0 ++ [x]) ++ ('/' :: (a ++ b)) := by simp
  have hd1 : ((p0 ++ [x, '/']) ++ (a ++ b)).drop (p0.length + 1) = '/' :: (a ++ b) := by
    rw [hcapeq, show p0.length + 1 = (p0 ++ [x]).length from by simp, List.drop_left]
  have hd2 : ((p0 ++ [x, '/']) ++ (a ++ b)).drop (p0 ++ [x, '/']).length = a ++ b :=
    List.drop_left _ _
  unfold composeReplacement
  simp only [hPne, Bool.not_false, if_true, compile_markers_key a hkey]
  -- the first match
  obtain ⟨z, hz1, hz2, hz3⟩ := markers_mk [['/']]
    (MState.start (p0.length + 1) (((p0 ++ [x, '/']) ++ (a ++ b)).drop (p0.length + 1))) (a ++ b)
    (fun tok ht => by
      have : tok = ['/'] := by simpa using ht
      subst this
      exact ⟨0, rfl⟩)
    (by rw [hd1]; rfl)
  have hex : MatchesAt (seqOf ([markersRegex] ++ a.map atomOf)) ((p0 ++ [x, '/']) ++ (a ++ b))
      (p0.length + 1) := by
    refine ⟨{ pos := z.pos + a.length, rest := b, caps := z.caps }, ?_⟩
    rw [innerRegex_eq, matches_seq_iff]
    exact ⟨z, hz1, mk_key hz2⟩
  have hno : ∀ j, 0 ≤ j → j < p0.length + 1 →
      ¬ MatchesAt (seqOf ([markersRegex] ++ a.map atomOf)) ((p0 ++ [x, '/']) ++ (a ++ b)) j := by
    rintro j _ hj ⟨y, hy⟩
    obtain ⟨w, k1, _, k3, k4, _⟩ := inner_inv hcap hy
    rw [hd2] at k3
    have e : ((p0 ++ [x, '/']) ++ (a ++ b)).drop j = (p0.drop j ++ [x, '/']) ++ (a ++ b) := by
      rw [List.drop_append_of_le_length (by rw [hPlen]; omega),
        List.drop_append_of_le_length (by omega)]
    rw [e] at k3
    have hw := List.append_cancel_right k3
    rcases k4 x (by rw [← hw]; simp) with h | h
    · exact hx.1 h
    · exact hx.2 h
  obtain ⟨mt, y, h1, h2, h3, h4, h5, h6⟩ := exec_first (l := 0) (i := p0.length + 1) (Nat.zero_le _)
    (by simp only [List.length_append]; omega) hex hno
  obtain ⟨w, k1, k2, k3, k4, k5⟩ := inner_inv hcap h3
  rw [hd1, hd2] at k3
  have hw : w = ['/'] := by
    have : ['/'] ++ (a ++ b) = w ++ (a ++ b) := by simpa using k3
    exact (List.append_cancel_right this).symm
  subst hw
  have hcaps : mt.caps 1 = some ['/'] := by
    rw [h5]
    rcases k5 with ⟨hc, _⟩ | ⟨tok, t1, t2, t3⟩
    · cases hc
    · rw [t3]
      congr 1
      obtain ⟨u, hu⟩ := t2
      cases u with
      | nil => simpa using hu
      | cons c cs =>
        have := congrArg List.length hu
        simp only [List.length_append, List.length_cons, List.length_nil] at this
        have : tok.length = 0 := by omega
        exact absurd (List.length_eq_zero.1 this) t1
  have hstop : mt.stop = (p0 ++ [x, '/']).length + a.length := by rw [h4, k2]
  have hnone : exec (seqOf ([markersRegex] ++ a.map atomOf)) ((p0 ++ [x, '/']) ++ (a ++ b))
      (if mt.stop == mt.index then mt.stop + 1 else mt.stop) = none := by
    apply exec_inner_none hcap
    rw [hstop, h2]
    have : ((p0 ++ [x, '/']).length + a.length == p0.length + 1) = false :=
      beq_eq_false_iff_ne.2 (by rw [hPlen]; omega)
    simp only [this, Bool.false_eq_true, if_false]
    omega
  have hyes : alreadyHasPrepend ((p0 ++ [x, '/']) ++ (a ++ b)) (p0 ++ [x, '/']) mt.index
      (mt.caps 1) = true := by
    rw [alreadyHasPrepend_iff]
    refine ⟨0, ?_, Nat.zero_le _, ?_⟩
    · rw [h2, hcaps, hPlen]
      simp
    · exact List.prefix_append _ _
  have hf : replacer value (p0 ++ [x, '/']) ((p0 ++ [x, '/']) ++ (a ++ b)) mt =
      .ok (['/'] ++ value) := by
    unfold replacer
    rw [hcaps] at hyes
    simp only [hcaps, hyes, if_true, jsStr]
  rw [replaceAllFn_single h1 hnone hf, h2, hstop, ← List.drop_drop, hd2, List.drop_left]
  have ht : ((p0 ++ [x, '/']) ++ (a ++ b)).take (p0.length + 1) = p0 ++ [x] := by
    rw [hcapeq, show p0.length + 1 = (p0 ++ [x]).length from by simp, List.take_left]
  rw [ht]
  simp

/-! ## A reference rewritten with a prepend -/

theorem stripFuel_mem : ∀ (n : Nat) (s : Str) (d : Char), d ∈ stripFuel n s → d ∈ s := by
  intro n
  induction n with
  | zero => intro s d hd; exact hd
  | succ n ih =>
    intro s d hd
    simp only [stripFuel] at hd
    cases hts : tokenSplit s with
    | none => rw [hts] at hd; exact hd
    | some p =>
      rw [hts] at hd
      exact tokenSplit_mem hts d (ih p.2 d hd)

theorem stripLeading_mem {s : Str} {d : Char} (h : d ∈ stripLeading s) : d ∈ s :=
  stripFuel_mem _ _ _ h

theorem relativeMarkers_isMarker {tok : Str} (h : tok ∈ relativeMarkers) : isMarker tok := by
  simp only [relativeMarkers, List.mem_cons, List.mem_singleton, List.not_mem_nil, or_false] at h
  rcases h with h | h | h
  · exact ⟨1, h⟩
  · exact ⟨2, h⟩
  · exact ⟨0, h⟩

theorem closer_ne_dollar {c : Char} (hc : c ∈ closers) : c ≠ '$' := by
  rintro rfl
  revert hc
  decide

/-! ## The source map directive -/

theorem uniq_of_occurrences {a s : Str} {p : Nat} (hs : s ≠ [])
    (h : occurrences a s = [p]) : ∀ i, a <+: s.drop i → i = p := by
  have hmem : ∀ i, i ≤ s.length → a <+: s.drop i → i = p := by
    intro i hi hd
    have : i ∈ occurrences a s := by
      unfold occurrences
      rw [List.mem_filter]
      exact ⟨List.mem_range.2 (by omega), List.isPrefixOf_iff_prefix.2 hd⟩
    rw [h] at this
    simpa using this
  intro i hd
  by_cases hi : i ≤ s.length
  · exact hmem i hi hd
  · exfalso
    rw [List.drop_of_length_le (by omega)] at hd
    have ha : a = [] := List.prefix_nil.1 hd
    subst ha
    have h0 := hmem 0 (Nat.zero_le _) List.nil_prefix
    have h1 := hmem 1 (by
      cases s with
      | nil => exact absurd rfl hs
      | cons c cs => simp) List.nil_prefix
    omega

theorem indexOfAux_first {t : Str} : ∀ (n : Nat) (rest : Str) (pos : Nat), n ≤ rest.length →
    t <+: rest.drop n → (∀ i, i < n → ¬ t <+: rest.drop i) →
    indexOfAux t pos rest = some (pos + n) := by
  intro n
  induction n with
  | zero =>
    intro rest pos _ h _
    exact indexOfAux_self.2 h
  | succ n ih =>
    intro rest pos hn h hno
    cases rest with
    | nil => simp at hn
    | cons c cs =>
      have h0 : ¬ t.isPrefixOf (c :: cs) = true := fun hp =>
        hno 0 (Nat.succ_pos _) (List.isPrefixOf_iff_prefix.1 hp)
      simp only [indexOfAux, h0, if_false]
      rw [ih cs (pos + 1) (Nat.le_of_succ_le_succ hn) (by simpa using h)
        (fun i hi hp => hno (i + 1) (Nat.succ_lt_succ hi) (by simpa using hp))]
      rw [Nat.add_assoc, Nat.add_comm 1 n]
      simp

/-- The text from an index inside the directive on. -/
theorem drop_directive (pre d post : Str) {i : Nat} (hi : i ≤ d.length) :
    (pre ++ (d ++ post)).drop (pre.length + i) = d.drop i ++ post := by
  rw [← List.drop_drop, List.drop_left, List.drop_append_of_le_length hi]

/-- No delimited reference to the key is found when no closing delimiter follows the only
occurrence of the key. -/
theorem exec_re_no_closer {key pre d post : Str}
    (huniq : ∀ i, key <+: (pre ++ (d ++ (key ++ post))).drop i → i = pre.length + d.length)
    (hpost : ∀ c ∈ post, c ∉ closers) (li : Nat) :
    exec (reRegex (key.map Regex.char)) (pre ++ (d ++ (key ++ post))) li = none := by
  rw [exec_none]
  rintro j _ _ ⟨y, hy⟩
  obtain ⟨o', w, c1, b, rest, h1, _, _, _, _, _, _, cl, hcl, hcl2⟩ := re_inv hy
  simp only [MState.start] at h1
  have e1 : (pre ++ (d ++ (key ++ post))).drop j = (o' :: (w ++ c1)) ++ (key ++ (b ++ rest)) := by
    rw [h1]; simp
  have hpos := huniq (j + (1 + w.length + c1.length)) (by
    rw [prefix_drop_add e1 (by simp; omega)]
    exact List.prefix_append _ _)
  have e2 : (pre ++ (d ++ (key ++ post))).drop j = (o' :: (w ++ (c1 ++ key))) ++ (b ++ rest) := by
    rw [h1]; simp
  have e3 := prefix_drop_add (k := 1 + w.length + c1.length + key.length) e2 (by simp; omega)
  have e4 : (pre ++ (d ++ (key ++ post))).drop (pre.length + (d ++ key).length) = post := by
    have := drop_directive pre (d ++ key) post (Nat.le_refl _)
    simp at this
    simp [this]
  have e5 : j + (1 + w.length + c1.length + key.length) = pre.length + (d ++ key).length := by
    simp only [List.length_append]; omega
  rw [e5, e4] at e3
  exact hpost cl (by rw [e3]; exact List.mem_append_right _ hcl) hcl2

/-- The first match of the directive pattern is the directive. -/
theorem exec_directive {key pre post : Str}
    (huniq : ∀ i, key <+: (pre ++ ("sourceMappingURL=".toList ++ (key ++ post))).drop i →
      i = pre.length + "sourceMappingURL=".toList.length) :
    ∃ mt, exec (seqOf ("sourceMappingURL=".toList.map Regex.char ++ key.map Regex.char))
        (pre ++ ("sourceMappingURL=".toList ++ (key ++ post))) 0 = some mt ∧
      mt.index = pre.length ∧
      mt.stop = pre.length + ("sourceMappingURL=".toList ++ key).length ∧
      mt.matched = "sourceMappingURL=".toList ++ key := by
  have hd : (pre ++ ("sourceMappingURL=".toList ++ (key ++ post))).drop pre.length =
      ("sourceMappingURL=".toList ++ key) ++ post := by
    rw [List.drop_left, List.append_assoc]
  obtain ⟨mt, y, h1, h2, h3, _, _, h6, _⟩ := exec_unique
    (r := seqOf ("sourceMappingURL=".toList.map Regex.char ++ key.map Regex.char))
    (s := pre ++ ("sourceMappingURL=".toList ++ (key ++ post)))
    (i := pre.length) (e := pre.length + ("sourceMappingURL=".toList ++ key).length)
    (by
      have : 0 < "sourceMappingURL=".toList.length := by decide
      simp only [List.length_append]; omega)
    (by simp only [List.length_append]; omega)
    ⟨_, by
      rw [← List.map_append]
      exact mk_lits (by simp only [MState.start]; exact hd)⟩
    (by
      intro j y hy
      obtain ⟨k1, k2⟩ := sourceMap_inv hy
      simp only [MState.start] at k1 k2
      have := huniq (j + "sourceMappingURL=".toList.length) (by
        rw [prefix_drop_add k1 rfl]
        exact List.prefix_append _ _)
      have hj : j = pre.length := by omega
      exact ⟨hj, by rw [k2, hj]⟩)
  refine ⟨mt, h1, h2, h3, ?_⟩
  rw [h6, hd, Nat.add_sub_cancel_left, List.take_left]

/-- The key is replaced in the directive by a replacement without `$`. -/
theorem replaceStr_directive {key pre post repl : Str}
    (huniq : ∀ i, key <+: (pre ++ ("sourceMappingURL=".toList ++ (key ++ post))).drop i →
      i = pre.length + "sourceMappingURL=".toList.length)
    (hrepl : '$' ∉ repl) :
    replaceStr ("sourceMappingURL=".toList ++ key) key repl = "sourceMappingURL=".toList ++ repl := by
  have hidx : indexOf ("sourceMappingURL=".toList ++ key) key 0 =
      some "sourceMappingURL=".toList.length := by
    unfold indexOf
    simp only [Nat.zero_min, List.drop_zero]
    have := indexOfAux_first (t := key) "sourceMappingURL=".toList.length
      ("sourceMappingURL=".toList ++ key) 0 (by simp) (by rw [List.drop_left])
      (by
        intro i hi hp
        have e := drop_directive pre ("sourceMappingURL=".toList ++ key) post (i := i)
          (by simp only [List.length_append]; omega)
        rw [List.append_assoc] at e
        have := huniq (pre.length + i) (by rw [e]; exact hp.trans (List.prefix_append _ _))
        omega)
    simpa using this
  unfold replaceStr
  simp only [hidx, getSubstitution_id _ _ _ _ _ _ hrepl]
  rw [List.take_left, show "sourceMappingURL=".toList.length + key.length =
    ("sourceMappingURL=".toList ++ key).length from (List.length_append _ _).symm,
    List.drop_length]
  simp

theorem matches_singleton {r : Regex} {x y : MState} : Matches (seqOf [r]) x y ↔ Matches r x y := by
  simp only [seqOf, matches_seq_iff, matches_empty_iff]
  constructor
  · rintro ⟨z, hz, rfl⟩
    exact hz
  · intro h
    exact ⟨y, h, rfl⟩

/-- The test `/^sourceMappingURL=(http|https|\/\/)/` fails on the directive of a key that
starts with neither `http` nor `//`. -/
theorem absoluteMap_none {key : Str} (h1 : ¬ "http".toList <+: key) (h2 : ¬ "//".toList <+: key) :
    exec absoluteMapRe.re ("sourceMappingURL=".toList ++ key) 0 = none := by
  rw [exec_none]
  rintro j _ _ ⟨y, hy⟩
  unfold absoluteMapRe at hy
  simp only at hy
  rw [matches_seqOf_append] at hy
  obtain ⟨y1, hy1, hy2⟩ := hy
  rw [matches_seqOf_append] at hy1
  obtain ⟨y0, hy0, hy1⟩ := hy1
  rw [matches_singleton, matches_bol_iff] at hy0
  obtain ⟨hj, rfl⟩ := hy0
  simp only [MState.start] at hj
  subst hj
  obtain ⟨k1, _, _⟩ := inv_lits hy1
  simp only [MState.start, List.drop_zero] at k1
  have hk : y1.rest = key := (List.append_cancel_left k1).symm
  rw [matches_singleton, matches_group_iff] at hy2
  obtain ⟨y2, hy2, _⟩ := hy2
  simp only [altOf, matches_alt_iff] at hy2
  rcases hy2 with h | h | h
  · obtain ⟨k2, _, _⟩ := inv_lits (s := "http".toList) h
    exact h1 ⟨y2.rest, by rw [← k2, hk]⟩
  · obtain ⟨k2, _, _⟩ := inv_lits (s := "https".toList) h
    exact h1 ⟨'s' :: y2.rest, by rw [← hk, k2]; rfl⟩
  · obtain ⟨k2, _, _⟩ := inv_lits (s := "//".toList) h
    exact h2 ⟨y2.rest, by rw [← k2, hk]⟩

/-- The method `rewriteAssetPath` on a text whose only occurrence of the asset path is in a
source map directive that no closing delimiter follows. -/
theorem rewrite_sourcemap {prepend key value pre post : Str} (fuel : Nat)
    (huniq : ∀ i, key <+: (pre ++ ("sourceMappingURL=".toList ++ (key ++ post))).drop i →
      i = pre.length + "sourceMappingURL=".toList.length)
    (hpost : ∀ c ∈ post, c ∉ closers)
    (h1 : ¬ "http".toList <+: key) (h2 : ¬ "//".toList <+: key)
    (hP : '$' ∉ prepend) (hval : '$' ∉ value) :
    rewriteAssetPath prepend (fuel + 1) (pre ++ ("sourceMappingURL=".toList ++ (key ++ post)))
      key value = .ok (pre ++ ("sourceMappingURL=".toList ++ ((prepend ++ value) ++ post))) := by
  have hinc : includes (pre ++ ("sourceMappingURL=".toList ++ (key ++ post))) key = true := by
    have := includes_of_append (pre ++ "sourceMappingURL=".toList) key post
    simpa using this
  obtain ⟨mt, m1, m2, m3, m4⟩ := exec_directive huniq
  have hrepl : (if (!prepend.isEmpty && !(exec absoluteMapRe.re mt.matched 0).isSome) = true
      then prepend ++ value else value) = prepend ++ value := by
    rw [m4, absoluteMap_none h1 h2]
    cases prepend with
    | nil => simp
    | cons p ps => simp
  unfold rewriteAssetPath
  simp only [hinc, Bool.not_true, Bool.false_eq_true, if_false, compile_reSource,
    compile_ignoreSource]
  rw [rewriteLoop]
  simp only [exec_re_no_closer huniq hpost 0]
  unfold rewriteSourceMap
  rw [compile_sourceMapSource]
  simp only [replaceFirstFn, m1, hrepl]
  rw [m4, replaceStr_directive huniq (by simp [hP, hval]), m2, m3, List.take_left]
  have := drop_directive pre ("sourceMappingURL=".toList ++ key) post (Nat.le_refl _)
  rw [List.append_assoc] at this
  rw [this]
  simp

/-! ## A reference that already has the prepend -/

/-- The pattern `re` finds nothing after the only reference. -/
theorem exec_re_after {a pre up tl : Str} {o : Char}
    (huniq : ∀ i, a <+: (pre ++ o :: (up ++ (a ++ tl))).drop i → i = pre.length + 1 + up.length)
    (ho : o ∈ openers) (hup : ∀ d ∈ up, d ∉ class1 ∧ isSpace d = false)
    (li : Nat) (hli : pre.length < li) :
    exec (reRegex (a.map Regex.char)) (pre ++ o :: (up ++ (a ++ tl))) li = none := by
  rw [exec_none]
  rintro j hj1 hj2 ⟨y, hy⟩
  obtain ⟨o', w, c1, b, rest, h1, h2, h3, h4, _⟩ := re_inv hy
  simp only [MState.start] at h1
  obtain ⟨k1, _⟩ := ref_position hj2 h1 huniq ho h2 hup h3 h4
  omega

/-- No source map directive for the asset path stands in a text whose only occurrence of
the asset path follows a slash. -/
theorem rewriteSourceMap_slash {prepend a v pre u0 tl : Str} {o : Char}
    (huniq : ∀ i, a <+: (pre ++ o :: ((u0 ++ ['/']) ++ (a ++ tl))).drop i →
      i = pre.length + 1 + (u0 ++ ['/']).length) :
    rewriteSourceMap prepend a v (pre ++ o :: ((u0 ++ ['/']) ++ (a ++ tl))) =
      .ok (pre ++ o :: ((u0 ++ ['/']) ++ (a ++ tl))) := by
  unfold rewriteSourceMap
  rw [compile_sourceMapSource]
  simp only [replaceFirstFn]
  have : exec (seqOf ("sourceMappingURL=".toList.map Regex.char ++ a.map Regex.char))
      (pre ++ o :: ((u0 ++ ['/']) ++ (a ++ tl))) 0 = none := by
    rw [exec_none]
    rintro j _ _ ⟨y, hy⟩
    obtain ⟨h1, _⟩ := sourceMap_inv hy
    simp only [MState.start] at h1
    have hpos := huniq (j + "sourceMappingURL=".toList.length) (by
      rw [prefix_drop_add h1 rfl]
      exact List.prefix_append _ _)
    have e1 : (pre ++ o :: ((u0 ++ ['/']) ++ (a ++ tl))).drop j =
        "sourceMappingURL".toList ++ ('=' :: (a ++ y.rest)) := by
      rw [h1]; rfl
    have e2 := prefix_drop_add (k := 16) e1 rfl
    have e3 : pre ++ o :: ((u0 ++ ['/']) ++ (a ++ tl)) = (pre ++ o :: u0) ++ ('/' :: (a ++ tl)) := by
      simp
    have e4 : j + 16 = (pre ++ o :: u0).length := by
      have : "sourceMappingURL=".toList.length = 17 := rfl
      simp only [List.length_append, List.length_cons, List.length_nil] at hpos ⊢
      omega
    rw [e4, e3, List.drop_left] at e2
    have := (List.cons.inj e2).1
    exact absurd this (by decide)
  rw [this]

/-- With a prepend that ends in a slash after a character other than a dot and a slash,
`rewriteAssetPath` for an identity entry leaves a reference that already has the prepend
as it is. -/
theorem rewrite_prefixed {p0 key pre post : Str} {x o c : Char} (fuel : Nat)
    (hx : x ≠ '.' ∧ x ≠ '/')
    (hP : ∀ d ∈ p0 ++ [x, '/'], d ∉ class1 ∧ isSpace d = false ∧ d ≠ '%' ∧ d ≠ '$')
    (ho : o ∈ openers) (hc : c ∈ closers) (hkey : ∀ d ∈ key, isKeyChar d = true)
    (honce : dotOccurrences key (pre ++ o :: ((p0 ++ [x, '/']) ++ (key ++ c :: post))) =
      [pre.length + 1 + (p0 ++ [x, '/']).length])
    (hpost : '$' ∉ post) :
    rewriteAssetPath (p0 ++ [x, '/']) (fuel + 2)
      (pre ++ o :: ((p0 ++ [x, '/']) ++ (key ++ c :: post))) key key =
      .ok (pre ++ o :: ((p0 ++ [x, '/']) ++ (key ++ c :: post))) := by
  have hdot := dotUniq_of_occurrences (by simp) honce
  have huniq := uniq_of_dotUniq hdot
  have hup : ∀ d ∈ p0 ++ [x, '/'], d ∉ class1 ∧ isSpace d = false :=
    fun d hd => ⟨(hP d hd).1, (hP d hd).2.1⟩
  have hkd : '$' ∉ key := by
    intro h
    have := hkey _ h
    revert this
    decide
  have e : (p0 ++ [x, '/']) = (p0 ++ [x]) ++ ['/'] := by simp
  have := @rewrite_ref_gen (p0 ++ [x, '/']) key key pre (p0 ++ [x, '/']) (c :: post)
    ((p0 ++ [x, '/']) ++ key) o fuel
    (by
      obtain ⟨y, hy⟩ := re_exists (a := key) (x := MState.start pre.length
        (o :: ((p0 ++ [x, '/']) ++ (key ++ ([] ++ ([] ++ c :: post)))))) (t := []) (q := [])
        rfl ho (fun d hd => (hup d hd).1) (by simp) (Or.inl rfl) hc
      exact ⟨y, by simpa [MState.start] using hy⟩)
    huniq ho hup (fun h => (hP _ h).2.2.1 rfl)
    (by
      intro b rest hb _
      rw [hb] at hdot
      exact compose_prefixed hx hkey hdot)
    (by
      intro h
      rcases List.mem_append.1 h with h | h
      · exact (hP _ h).2.2.2 rfl
      · exact hkd h)
    (by simp [hpost, Ne.symm (closer_ne_dollar hc)])
    (by
      intro li hli
      rw [List.append_assoc]
      exact exec_re_after huniq ho hup li hli)
    (by
      rw [List.append_assoc]
      rw [e] at huniq ⊢
      exact rewriteSourceMap_slash huniq)
  rw [this, List.append_assoc]

/-! ## The guard against percent-encoded delimiters -/

/-- C9 (failing input). With the entry `foo/bar/widget.js -> blahzorz-1.js` and no prepend,
the text `<a data-x="%22foo/bar/widget.js%22">` comes back unchanged: the guard skips the
match. But in `<a href="foo/bar/widget.js" data-x="%22foo/bar/widget.js%22">` the key after
`%22` is rewritten too: the match of the `href` is not guarded, and its captured text is
replaced at every occurrence in the text. -/
theorem processString_guard_bypassed :
    processString [("foo/bar/widget.js".toList, "blahzorz-1.js".toList)] [] "/srv".toList 10
        "<a data-x=\"%22foo/bar/widget.js%22\">".toList "index.html".toList =
      .ok "<a data-x=\"%22foo/bar/widget.js%22\">".toList ∧
    processString [("foo/bar/widget.js".toList, "blahzorz-1.js".toList)] [] "/srv".toList 10
        "<a href=\"foo/bar/widget.js\" data-x=\"%22foo/bar/widget.js%22\">".toList
        "index.html".toList =
      .ok "<a href=\"blahzorz-1.js\" data-x=\"%22blahzorz-1.js%22\">".toList ∧
    processString [("foo/bar/widget.js".toList, "blahzorz-1.js".toList)] [] "/srv".toList 10
        "<a href=\"foo/bar/widget.js\" data-x=\"%22foo/bar/widget.js%22\">".toList
        "index.html".toList ≠
      .ok "<a href=\"blahzorz-1.js\" data-x=\"%22foo/bar/widget.js%22\">".toList := by
  refine ⟨rfl, rfl, ?_⟩
  intro h
  have e : processString [("foo/bar/widget.js".toList, "blahzorz-1.js".toList)] [] "/srv".toList 10
      "<a href=\"foo/bar/widget.js\" data-x=\"%22foo/bar/widget.js%22\">".toList
      "index.html".toList =
    .ok "<a href=\"blahzorz-1.js\" data-x=\"%22blahzorz-1.js%22\">".toList := rfl
  rw [e] at h
  exact absurd (Except.ok.inj h) (by decide)

/-! ## The predicate `alreadyHasPrepend` -/

/-- C20. For every string, offset and first capture (`none` when it is undefined) and
every prepend that is not empty, which is every call the code makes, since the function
of `replacer` that calls `alreadyHasPrepend` is built in `rewriteAssetPath` under
`if (this.prepend)` only: with `startIndex = offset + submatch.length - prepend.length`,
`alreadyHasPrepend` returns true if and only if `startIndex` is not negative and the
characters of `string` from `startIndex` to `startIndex + prepend.length` are the prepend;
and it returns false whenever `startIndex` is negative. -/
theorem alreadyHasPrepend_exact (string prepend : Str) (offset : Nat) (submatch : Option Str)
    (hP : prepend ≠ []) :
    (alreadyHasPrepend string prepend offset submatch = true ↔
      0 ≤ (offset : Int) + ((submatch.getD []).length : Int) - (prepend.length : Int) ∧
      (string.drop ((offset : Int) + ((submatch.getD []).length : Int) -
        (prepend.length : Int)).toNat).take prepend.length = prepend) ∧
    ((offset : Int) + ((submatch.getD []).length : Int) - (prepend.length : Int) < 0 →
      alreadyHasPrepend string prepend offset submatch = false) := by
  constructor
  · rw [alreadyHasPrepend_iff]
    constructor
    · rintro ⟨n, h1, h2, h3⟩
      have e : ((offset : Int) + ((submatch.getD []).length : Int) - (prepend.length : Int)).toNat = n := by
        omega
      rw [e]
      exact ⟨by omega, (List.prefix_iff_eq_take.1 h3).symm⟩
    · rintro ⟨h1, h2⟩
      refine ⟨((offset : Int) + ((submatch.getD []).length : Int) - (prepend.length : Int)).toNat,
        by omega, ?_, List.prefix_iff_eq_take.2 h2.symm⟩
      by_contra hgt
      rw [List.drop_of_length_le (by omega), List.take_nil] at h2
      exact hP h2.symm
  · intro hneg
    unfold alreadyHasPrepend
    simp only [hneg, if_true]

theorem alreadyHasPrepend_exact_witness :
    (alreadyHasPrepend "https://cdn/app.js".toList "https://cdn/".toList 11 (some "/".toList) = true ↔
      0 ≤ ((11 : Nat) : Int) + ((((some "/".toList : Option Str).getD []).length : Nat) : Int) -
        (("https://cdn/".toList.length : Nat) : Int) ∧
      ("https://cdn/app.js".toList.drop (((11 : Nat) : Int) +
        ((((some "/".toList : Option Str).getD []).length : Nat) : Int) -
        (("https://cdn/".toList.length : Nat) : Int)).toNat).take "https://cdn/".toList.length =
        "https://cdn/".toList) ∧
    (((11 : Nat) : Int) + ((((some "/".toList : Option Str).getD []).length : Nat) : Int) -
        (("https://cdn/".toList.length : Nat) : Int) < 0 →
      alreadyHasPrepend "https://cdn/app.js".toList "https://cdn/".toList 11 (some "/".toList) = false) :=
  alreadyHasPrepend_exact "https://cdn/app.js".toList "https://cdn/".toList 11 (some "/".toList)
    (by decide)

/-! ## The order of the entries of the asset map -/

theorem lookup_perm {m1 m2 : AssetMap} (h : m1.Perm m2) (hn : (m1.map Prod.fst).Nodup) (k : Str) :
    m1.lookup k = m2.lookup k := by
  induction h with
  | nil => rfl
  | cons x _ ih =>
    obtain ⟨a, b⟩ := x
    simp only [List.map_cons, List.nodup_cons] at hn
    simp only [List.lookup]
    rw [ih hn.2]
  | swap x y l =>
    obtain ⟨a, b⟩ := x
    obtain ⟨c, d⟩ := y
    simp only [List.map_cons, List.nodup_cons, List.mem_cons, not_or] at hn
    simp only [List.lookup]
    cases h1 : k == a <;> cases h2 : k == c
    · rfl
    · rfl
    · rfl
    · exact absurd ((eq_of_beq h2).symm.trans (eq_of_beq h1)) hn.1.1
  | trans h1 _ ih1 ih2 =>
    rw [ih1 hn, ih2 ((h1.map Prod.fst).nodup_iff.1 hn)]

theorem processKeys_congr {m1 m2 : AssetMap} (h : ∀ k, m1.lookup k = m2.lookup k)
    (prepend cwd : Str) (fuel : Nat) (relativePath : Str) :
    ∀ (keys : List Str) (memo : Str),
      processKeys m1 prepend cwd fuel relativePath keys memo =
        processKeys m2 prepend cwd fuel relativePath keys memo := by
  intro keys
  induction keys with
  | nil => intro memo; rfl
  | cons k ks ih =>
    intro memo
    have e : processKey m1 prepend cwd fuel relativePath memo k =
        processKey m2 prepend cwd fuel relativePath memo k := by
      unfold processKey
      rw [h k, h "hasOwnProperty".toList]
    simp only [processKeys, e]
    cases processKey m2 prepend cwd fuel relativePath memo k with
    | error e => rfl
    | ok memo1 => exact ih memo1

theorem strictly_sorted_keys (m : AssetMap) (hlen : (m.map (fun e => e.1.length)).Nodup) :
    (generateAssetMapKeys m).Pairwise (fun a b => b.length < a.length) := by
  have hp := generateAssetMapKeys_perm m
  have hn : ((generateAssetMapKeys m).map List.length).Nodup := by
    have : ((m.map Prod.fst).map List.length).Nodup := by
      rw [List.map_map]
      exact hlen
    exact ((hp.map List.length).nodup_iff).2 this
  have hne : (generateAssetMapKeys m).Pairwise (fun a b => a.length ≠ b.length) :=
    (List.pairwise_map.1 hn)
  exact ((generateAssetMapKeys_sorted m).and hne).imp (fun h => by omega)

theorem generateAssetMapKeys_eq_of_perm {m1 m2 : AssetMap} (h : m1.Perm m2)
    (hlen : (m1.map (fun e => e.1.length)).Nodup) :
    generateAssetMapKeys m1 = generateAssetMapKeys m2 := by
  have hlen2 : (m2.map (fun e => e.1.length)).Nodup := ((h.map _).nodup_iff).1 hlen
  have hp : (generateAssetMapKeys m1).Perm (generateAssetMapKeys m2) :=
    (generateAssetMapKeys_perm m1).trans ((h.map Prod.fst).trans (generateAssetMapKeys_perm m2).symm)
  haveI : IsAntisymm Str (fun a b => b.length < a.length) :=
    ⟨fun a b h1 h2 => absurd h1 (by omega)⟩
  exact List.eq_of_perm_of_sorted hp (strictly_sorted_keys m1 hlen) (strictly_sorted_keys m2 hlen2)

/-- C15 (counterexample). The entries `a.js -> b.js` and `b.js -> c.js` have keys of the same
length, which the sort leaves in the order of the asset map. Listed in this order they turn
`<script src="a.js">` into `<script src="c.js">`; listed in the other order, into
`<script src="b.js">`. -/
theorem processString_order_independent_counterexample :
    processString [("a.js".toList, "b.js".toList), ("b.js".toList, "c.js".toList)] []
        "/srv".toList 10 "<script src=\"a.js\">".toList "index.html".toList =
      .ok "<script src=\"c.js\">".toList ∧
    processString [("b.js".toList, "c.js".toList), ("a.js".toList, "b.js".toList)] []
        "/srv".toList 10 "<script src=\"a.js\">".toList "index.html".toList =
      .ok "<script src=\"b.js\">".toList ∧
    processString [("a.js".toList, "b.js".toList), ("b.js".toList, "c.js".toList)] []
        "/srv".toList 10 "<script src=\"a.js\">".toList "index.html".toList ≠
      processString [("b.js".toList, "c.js".toList), ("a.js".toList, "b.js".toList)] []
        "/srv".toList 10 "<script src=\"a.js\">".toList "index.html".toList := by
  have e1 : processString [("a.js".toList, "b.js".toList), ("b.js".toList, "c.js".toList)] []
      "/srv".toList 10 "<script src=\"a.js\">".toList "index.html".toList =
    .ok "<script src=\"c.js\">".toList := rfl
  have e2 : processString [("b.js".toList, "c.js".toList), ("a.js".toList, "b.js".toList)] []
      "/srv".toList 10 "<script src=\"a.js\">".toList "index.html".toList =
    .ok "<script src=\"b.js\">".toList := rfl
  refine ⟨e1, e2, ?_⟩
  rw [e1, e2]
  intro h
  exact absurd (Except.ok.inj h) (by decide)

/-! ## The method `canProcessFile` -/

theorem inverse_fold_sound (m : AssetMap) : ∀ (keys : List Str) (inv : Str → Option Str),
    (∀ p k, inv p = some k → m.lookup k = some p) →
    ∀ p k, (keys.foldl (fun inv key =>
      match m.lookup key with
      | some value => fun p => if p = value then some key else inv p
      | none => inv) inv) p = some k → m.lookup k = some p := by
  intro keys
  induction keys with
  | nil => intro inv h p k hk; exact h p k hk
  | cons key rest ih =>
    intro inv h p k hk
    simp only [List.foldl_cons] at hk
    refine ih _ ?_ p k hk
    intro p1 k1 h1
    cases hl : m.lookup key with
    | none =>
      rw [hl] at h1
      exact h p1 k1 h1
    | some v =>
      rw [hl] at h1
      simp only at h1
      by_cases hp : p1 = v
      · rw [if_pos hp] at h1
        cases h1
        rw [hl, hp]
      · rw [if_neg hp] at h1
        exact h p1 k1 h1

theorem inverse_fold_complete (m : AssetMap)
    (hinj : ∀ k1 k2 v, m.lookup k1 = some v → m.lookup k2 = some v → k1 = k2)
    {p k : Str} (hk : m.lookup k = some p) : ∀ (keys : List Str) (inv : Str → Option Str),
    (k ∈ keys ∨ inv p = some k) →
    (keys.foldl (fun inv key =>
      match m.lookup key with
      | some value => fun p => if p = value then some key else inv p
      | none => inv) inv) p = some k := by
  intro keys
  induction keys with
  | nil =>
    intro inv h
    rcases h with h | h
    · cases h
    · exact h
  | cons key rest ih =>
    intro inv h
    simp only [List.foldl_cons]
    apply ih
    by_cases hkey : k = key
    · right
      subst hkey
      rw [hk]
      simp
    · rcases h with h | h
      · rcases List.mem_cons.1 h with h | h
        · exact absurd h hkey
        · exact Or.inl h
      · right
        cases hl : m.lookup key with
        | none => exact h
        | some v =>
          simp only
          by_cases hp : p = v
          · subst hp
            exact absurd (hinj _ _ _ hk hl) hkey
          · rw [if_neg hp]
            exact h

theorem mem_of_lookup {m : AssetMap} {k v : Str} (h : m.lookup k = some v) : (k, v) ∈ m := by
  induction m with
  | nil => simp [List.lookup] at h
  | cons e es ih =>
    obtain ⟨a, b⟩ := e
    simp only [List.lookup] at h
    cases hb : k == a
    · rw [hb] at h
      exact List.mem_cons_of_mem _ (ih h)
    · rw [hb] at h
      cases h
      rw [eq_of_beq hb]
      exact List.mem_cons_self _ _

/-- C12 (amended). For an asset map with pairwise different values, `canProcessFile` returns
false whenever `relativePath` is in the ignore list or is the value of a key that is in the
ignore list; otherwise its result is that of the method of `broccoli-filter` it delegates
to. -/
theorem canProcessFile_ignores (assetMap : AssetMap) (ignore : List Str)
    (superCanProcessFile : Str → Bool) (relativePath : Str)
    (hvalues : (assetMap.map Prod.snd).Nodup) :
    ((relativePath ∈ ignore ∨ ∃ key ∈ ignore, assetMap.lookup key = some relativePath) →
      canProcessFile assetMap ignore superCanProcessFile relativePath = false) ∧
    (¬ (relativePath ∈ ignore ∨ ∃ key ∈ ignore, assetMap.lookup key = some relativePath) →
      canProcessFile assetMap ignore superCanProcessFile relativePath =
        superCanProcessFile relativePath) := by
  have hinj : ∀ k1 k2 v, assetMap.lookup k1 = some v → assetMap.lookup k2 = some v → k1 = k2 := by
    intro k1 k2 v h1 h2
    have := List.inj_on_of_nodup_map hvalues (mem_of_lookup h1) (mem_of_lookup h2) rfl
    exact (Prod.mk.inj this).1
  constructor
  · intro h
    unfold canProcessFile
    rcases h with h | ⟨key, hk, hl⟩
    · have : ignore.contains relativePath = true := (by simpa using h)
      simp only [this, Bool.true_or, if_true]
    · have e : inverseAssetMap assetMap relativePath = some key :=
        inverse_fold_complete assetMap hinj hl _ _ (Or.inl (mem_keys_of_lookup hl))
      have : ignore.contains key = true := (by simpa using hk)
      simp only [e, this, Bool.or_true, if_true]
  · intro h
    simp only [not_or, not_exists, not_and] at h
    unfold canProcessFile
    have h1 : ignore.contains relativePath = false := by
      cases hc : ignore.contains relativePath
      · rfl
      · exact absurd (by simpa using hc) h.1
    have h2 : (match inverseAssetMap assetMap relativePath with
       | some key => ignore.contains key
       | none => false) = false := by
      cases hi : inverseAssetMap assetMap relativePath with
      | none => rfl
      | some key =>
        have hl := inverse_fold_sound assetMap _ _ (fun _ _ hh => by cases hh) relativePath key hi
        simp only
        cases hc : ignore.contains key
        · rfl
        · exact absurd hl (h.2 key (by simpa using hc))
    simp only [h1, h2, Bool.or_self, Bool.false_eq_true, if_false]

theorem canProcessFile_ignores_witness :
    (("assets/app-abc123.js".toList ∈ ["assets/app.js".toList] ∨
        ∃ key ∈ ["assets/app.js".toList],
          [("assets/app.js".toList, "assets/app-abc123.js".toList)].lookup key =
            some "assets/app-abc123.js".toList) →
      canProcessFile [("assets/app.js".toList, "assets/app-abc123.js".toList)]
        ["assets/app.js".toList] (fun _ => true) "assets/app-abc123.js".toList = false) ∧
    (¬ ("assets/app-abc123.js".toList ∈ ["assets/app.js".toList] ∨
        ∃ key ∈ ["assets/app.js".toList],
          [("assets/app.js".toList, "assets/app-abc123.js".toList)].lookup key =
            some "assets/app-abc123.js".toList) →
      canProcessFile [("assets/app.js".toList, "assets/app-abc123.js".toList)]
        ["assets/app.js".toList] (fun _ => true) "assets/app-abc123.js".toList = true) :=
  canProcessFile_ignores [("assets/app.js".toList, "assets/app-abc123.js".toList)]
    ["assets/app.js".toList] (fun _ => true) "assets/app-abc123.js".toList (by decide)

/-- C12 (counterexample). In the asset map `a.js -> x.js`, `b.js -> x.js` the file `x.js` is
the value of the key `a.js`, which is in the ignore list; but `inverseAssetMap` keeps the
last key stored under `x.js`, which is `b.js`, so `canProcessFile` does not return false but
what the method it delegates to returns. -/
theorem canProcessFile_ignores_counterexample :
    [("a.js".toList, "x.js".toList), ("b.js".toList, "x.js".toList)].lookup "a.js".toList =
      some "x.js".toList ∧
    inverseAssetMap [("a.js".toList, "x.js".toList), ("b.js".toList, "x.js".toList)] "x.js".toList =
      some "b.js".toList ∧
    canProcessFile [("a.js".toList, "x.js".toList), ("b.js".toList, "x.js".toList)]
      ["a.js".toList] (fun _ => true) "x.js".toList = true := by
  refine ⟨by decide, by decide, by decide⟩

/-! ## The directive of an absolute source map -/

/-- The test `/^sourceMappingURL=(http|https|\/\/)/` succeeds on the directive of a key that
starts with `http` or `//`. -/
theorem absoluteMap_some {key : Str} (h : "http".toList <+: key ∨ "//".toList <+: key) :
    (exec absoluteMapRe.re ("sourceMappingURL=".toList ++ key) 0).isSome = true := by
  have hex : MatchesAt absoluteMapRe.re ("sourceMappingURL=".toList ++ key) 0 := by
    unfold MatchesAt absoluteMapRe
    simp only [List.drop_zero]
    have hbol : Matches (seqOf [Regex.bol]) (MState.start 0 ("sourceMappingURL=".toList ++ key))
        (MState.start 0 ("sourceMappingURL=".toList ++ key)) :=
      matches_singleton.2 (matches_bol_iff.2 ⟨rfl, rfl⟩)
    have hlit : ∃ x1, Matches (seqOf ("sourceMappingURL=".toList.map Regex.char))
        (MState.start 0 ("sourceMappingURL=".toList ++ key)) x1 ∧ x1.rest = key :=
      ⟨_, mk_lits rfl, rfl⟩
    obtain ⟨x1, hl1, hr1⟩ := hlit
    have halt : ∃ x2, Matches (altOf [seqOf ("http".toList.map Regex.char),
        seqOf ("https".toList.map Regex.char)] (seqOf [.char '/', .char '/'])) x1 x2 := by
      rcases h with ⟨t, ht⟩ | ⟨t, ht⟩
      · refine ⟨{ pos := x1.pos + "http".toList.length, rest := t, caps := x1.caps }, ?_⟩
        simp only [altOf, matches_alt_iff]
        exact Or.inl (mk_lits (r := t) (by rw [hr1]; exact ht.symm))
      · refine ⟨{ pos := x1.pos + "//".toList.length, rest := t, caps := x1.caps }, ?_⟩
        simp only [altOf, matches_alt_iff]
        exact Or.inr (Or.inr (mk_lits (s := "//".toList) (r := t) (by rw [hr1]; exact ht.symm)))
    obtain ⟨x2, hx2⟩ := halt
    exact ⟨x2.capture 1 x1, matches_seqOf_append.2 ⟨x1, matches_seqOf_append.2 ⟨_, hbol, hl1⟩,
      matches_singleton.2 (matches_group_iff.2 ⟨x2, hx2, rfl⟩)⟩⟩
  obtain ⟨mt, _, h1, _⟩ := exec_first (l := 0) (i := 0) (Nat.le_refl _) (Nat.zero_le _) hex
    (fun j _ hj => absurd hj (Nat.not_lt_zero _))
  rw [h1]
  rfl

/-- The method `rewriteAssetPath` on a text whose only occurrence of the asset path is in a
source map directive that no closing delimiter follows, for an asset path that starts with
`http` or `//`. -/
theorem rewrite_sourcemap_absolute {prepend key value pre post : Str} (fuel : Nat)
    (huniq : ∀ i, key <+: (pre ++ ("sourceMappingURL=".toList ++ (key ++ post))).drop i →
      i = pre.length + "sourceMappingURL=".toList.length)
    (hpost : ∀ c ∈ post, c ∉ closers)
    (habs : "http".toList <+: key ∨ "//".toList <+: key)
    (hval : '$' ∉ value) :
    rewriteAssetPath prepend (fuel + 1) (pre ++ ("sourceMappingURL=".toList ++ (key ++ post)))
      key value = .ok (pre ++ ("sourceMappingURL=".toList ++ (value ++ post))) := by
  have hinc : includes (pre ++ ("sourceMappingURL=".toList ++ (key ++ post))) key = true := by
    have := includes_of_append (pre ++ "sourceMappingURL=".toList) key post
    simpa using this
  obtain ⟨mt, m1, m2, m3, m4⟩ := exec_directive huniq
  have hrepl : (if (!prepend.isEmpty && !(exec absoluteMapRe.re mt.matched 0).isSome) = true
      then prepend ++ value else value) = value := by
    rw [m4, absoluteMap_some habs]
    simp
  unfold rewriteAssetPath
  simp only [hinc, Bool.not_true, Bool.false_eq_true, if_false, compile_reSource,
    compile_ignoreSource]
  rw [rewriteLoop]
  simp only [exec_re_no_closer huniq hpost 0]
  unfold rewriteSourceMap
  rw [compile_sourceMapSource]
  simp only [replaceFirstFn, m1, hrepl]
  rw [m4, replaceStr_directive huniq hval, m2, m3, List.take_left]
  have := drop_directive pre ("sourceMappingURL=".toList ++ key) post (Nat.le_refl _)
  rw [List.append_assoc] at this
  rw [this]
  simp

/-! ## A loop that does not end -/

/-- An `exec` of the pattern `re` from an index at or before the only reference finds it. -/
theorem first_exec_from {a pre up tl : Str} {o : Char} {li : Nat} (hli : li ≤ pre.length)
    (hex : MatchesAt (reRegex (a.map Regex.char)) (pre ++ o :: (up ++ (a ++ tl))) pre.length)
    (huniq : ∀ i, a <+: (pre ++ o :: (up ++ (a ++ tl))).drop i → i = pre.length + 1 + up.length)
    (ho : o ∈ openers) (hup : ∀ d ∈ up, d ∉ class1 ∧ isSpace d = false) :
    ∃ mt b rest, exec (reRegex (a.map Regex.char)) (pre ++ o :: (up ++ (a ++ tl))) li = some mt ∧
      mt.caps 1 = some (up ++ (a ++ b)) ∧ tl = b ++ rest ∧ (∀ d ∈ b, d ∉ class2) ∧
      pre.length < mt.stop ∧ mt.stop ≤ (pre ++ o :: (up ++ (a ++ tl))).length := by
  have hpos : ∀ j y, j ≤ (pre ++ o :: (up ++ (a ++ tl))).length →
      Matches (reRegex (a.map Regex.char))
        (MState.start j ((pre ++ o :: (up ++ (a ++ tl))).drop j)) y →
      j = pre.length ∧ j < y.pos ∧ y.pos ≤ (pre ++ o :: (up ++ (a ++ tl))).length ∧
        ∃ b rest, y.caps 1 = some (up ++ (a ++ b)) ∧ tl = b ++ rest ∧ ∀ d ∈ b, d ∉ class2 := by
    intro j y hj hy
    obtain ⟨o', w, c1, b, rest, h1, h2, h3, h4, h5, h6, h7, _⟩ := re_inv hy
    obtain ⟨sp, hs1, hs2⟩ := span_append hy
    simp only [MState.start] at h1 h7 hs1 hs2
    obtain ⟨k1, k2, k3, k4⟩ := ref_position hj h1 huniq ho h2 hup h3 h4
    subst k3
    have hlen : ((pre ++ o :: (c1 ++ (a ++ tl))).drop j).length = sp.length + y.rest.length := by
      rw [hs1, List.length_append]
    rw [List.length_drop] at hlen
    exact ⟨k1, h7, by omega, b, rest, h6, k4, h5⟩
  obtain ⟨mt, y, h1, h2, h3, h4, h5, h6⟩ := exec_first (l := li) hli
    (by simp) hex (fun j _ hj ⟨y, hy⟩ => by
      have := (hpos j y (by simp; omega) hy).1
      omega)
  obtain ⟨_, k0, k0', b, rest, k1, k2, k3⟩ := hpos _ y (by simp) h3
  exact ⟨mt, b, rest, h1, by rw [h5, k1], k2, k3, by rw [h4]; exact k0, by rw [h4]; exact k0'⟩

/-- One round of the loop on a text with one delimited reference to the asset path: the
reference is replaced, and the loop goes on from the end of the match. -/
theorem loop_round {prepend a value pre up tl r : Str} {o : Char} (fuel : Nat) {li : Nat}
    (hli : li ≤ pre.length)
    (hex : MatchesAt (reRegex (a.map Regex.char)) (pre ++ o :: (up ++ (a ++ tl))) pre.length)
    (huniq : ∀ i, a <+: (pre ++ o :: (up ++ (a ++ tl))).drop i → i = pre.length + 1 + up.length)
    (ho : o ∈ openers) (hup : ∀ d ∈ up, d ∉ class1 ∧ isSpace d = false) (hpct : '%' ∉ up)
    (hcomp : ∀ b rest, tl = b ++ rest → (∀ d ∈ b, d ∉ class2) →
      composeReplacement prepend a value (up ++ (a ++ b)) = .ok (r ++ b))
    (hr : '$' ∉ r) (htl : '$' ∉ tl) :
    ∃ stop, pre.length < stop ∧ stop ≤ (pre ++ o :: (up ++ (a ++ tl))).length ∧
      rewriteLoop prepend a value { re := reRegex (a.map Regex.char), ngroups := 2 }
        { re := ignoreRegex (a.map Regex.char), ngroups := 1 } (fuel + 1)
        (pre ++ o :: (up ++ (a ++ tl))) li =
      rewriteLoop prepend a value { re := reRegex (a.map Regex.char), ngroups := 2 }
        { re := ignoreRegex (a.map Regex.char), ngroups := 1 } fuel
        (pre ++ o :: (r ++ tl)) stop := by
  obtain ⟨mt, b, rest, h1, h2, h3, h4, h5, h6⟩ := first_exec_from hli hex huniq ho hup
  subst h3
  have hb : '$' ∉ b := fun h => htl (List.mem_append_left _ h)
  refine ⟨mt.stop, h5, h6, ?_⟩
  rw [rewriteLoop]
  simp only [h1, h2, guard_none huniq hpct, Option.isSome_none, Bool.false_eq_true, if_false,
    hcomp b rest rfl h4, compile_escaped]
  rw [replace_capture huniq (by simp [hr, hb])]
  simp

theorem grownPrefix_succ (n : Nat) :
    grownPrefix (n + 1) = grownPrefix n ++ ['"', 'b', '"', ' '] := by
  unfold grownPrefix
  rw [show n + 1 = n + 1 from rfl, List.replicate_succ']
  simp

theorem grownPrefix_length (n : Nat) : (grownPrefix n).length = 4 * n := by
  induction n with
  | zero => rfl
  | succ n ih => rw [grownPrefix_succ, List.length_append, ih]; simp; omega

theorem grownPrefix_chars (n : Nat) : 'a' ∉ grownPrefix n := by
  induction n with
  | zero => simp [grownPrefix]
  | succ n ih =>
    rw [grownPrefix_succ]
    intro h
    rcases List.mem_append.1 h with h | h
    · exact ih h
    · revert h; decide

/-- The asset path `a` occurs once in the text after `n` rounds. -/
theorem grown_uniq (n : Nat) (i : Nat)
    (h : dotPrefix ['a'] ((grownPrefix n ++ '"' :: ([] ++ (['a'] ++ ['"']))).drop i) = true) :
    i = (grownPrefix n).length + 1 + ([] : Str).length := by
  have hhead : ((grownPrefix n ++ '"' :: ([] ++ (['a'] ++ ['"']))).drop i).head? = some 'a' := by
    cases hd : (grownPrefix n ++ '"' :: ([] ++ (['a'] ++ ['"']))).drop i with
    | nil => rw [hd] at h; simp [dotPrefix] at h
    | cons c cs =>
      rw [hd] at h
      simp only [dotPrefix, dotMatch, Bool.and_true] at h
      have : c = 'a' := by
        revert h
        simp
      rw [this]
      rfl
  rw [List.head?_drop] at hhead
  simp only [List.nil_append, List.length_nil, Nat.add_zero]
  by_cases hlt : i < (grownPrefix n).length
  · rw [List.getElem?_append_left hlt] at hhead
    exact absurd (List.mem_iff_getElem?.2 ⟨_, hhead⟩) (grownPrefix_chars n)
  · rw [List.getElem?_append_right (by omega)] at hhead
    have : i - (grownPrefix n).length = 1 := by
      rcases hk : i - (grownPrefix n).length with _ | _ | _ | k
      · rw [hk] at hhead; simp at hhead
      · rfl
      · rw [hk] at hhead; simp at hhead
      · rw [hk] at hhead; simp at hhead
    omega

/-- The loop on the text `"a"` with the asset path `a` and the replacement path `b" "a`
goes through every bound on its rounds: each round leaves one more reference behind the
index at which the next `exec` starts. -/
theorem loop_diverges : ∀ (fuel n li : Nat), li ≤ (grownPrefix n).length →
    rewriteLoop [] ['a'] ['b', '"', ' ', '"', 'a']
      { re := reRegex (['a'].map Regex.char), ngroups := 2 }
      { re := ignoreRegex (['a'].map Regex.char), ngroups := 1 } fuel
      (grownPrefix n ++ '"' :: ([] ++ (['a'] ++ ['"']))) li = .error .outOfFuel := by
  intro fuel
  induction fuel with
  | zero => intro n li _; rfl
  | succ fuel ih =>
    intro n li hli
    have hdot := grown_uniq n
    obtain ⟨stop, _, h2, h3⟩ := @loop_round [] ['a'] ['b', '"', ' ', '"', 'a'] (grownPrefix n) []
      ['"'] ['b', '"', ' ', '"', 'a'] '"' fuel li hli
      (by
        obtain ⟨y, hy⟩ := @re_exists ['a'] (MState.start (grownPrefix n).length
          ('"' :: ([] ++ (['a'] ++ ([] ++ ([] ++ '"' :: [])))))) '"' '"' [] [] [] []
          rfl (by decide) (by simp) (by simp) (Or.inl rfl) (by decide)
        exact ⟨y, by simpa [MState.start] using hy⟩)
      (uniq_of_dotUniq hdot) (by decide) (by simp) (by simp)
      (by
        intro b rest hb _
        have hd : ∀ i, dotPrefix ['a']
            ((grownPrefix n ++ '"' :: ([] ++ (['a'] ++ (b ++ rest)))).drop i) = true →
            i = (grownPrefix n).length + 1 + ([] : Str).length := by
          rw [← hb]
          exact hdot
        have := @compose_plain ['a'] ['b', '"', ' ', '"', 'a'] (grownPrefix n) [] b rest '"'
          (by decide) hd (by decide)
        simpa using this)
      (by decide) (by decide)
    rw [h3]
    have e : grownPrefix n ++ '"' :: (['b', '"', ' ', '"', 'a'] ++ ['"']) =
        grownPrefix (n + 1) ++ '"' :: ([] ++ (['a'] ++ ['"'])) := by
      rw [grownPrefix_succ]
      simp
    rw [e]
    apply ih
    rw [grownPrefix_length]
    simp only [List.length_append, List.length_cons, List.length_nil, grownPrefix_length] at h2
    omega

/-- C17 (failing input). On the text `"a"` with the asset path `a` and the replacement path
`b" "a`, no bound on the rounds of the loop of `rewriteAssetPath` is enough: every round
rewrites the one reference into `b" "a`, which leaves a new reference `"a"` behind the index
from which the next `exec` starts. So neither `rewriteAssetPath` nor `processString` with
the entry `a -> b" "a` returns. -/
theorem rewriteAssetPath_diverges (fuel : Nat) (cwd relativePath : Str) :
    rewriteAssetPath [] fuel ['"', 'a', '"'] ['a'] ['b', '"', ' ', '"', 'a'] = .error .outOfFuel ∧
    processString [(['a'], ['b', '"', ' ', '"', 'a'])] [] cwd fuel ['"', 'a', '"'] relativePath =
      .error .outOfFuel := by
  have h : rewriteAssetPath [] fuel ['"', 'a', '"'] ['a'] ['b', '"', ' ', '"', 'a'] =
      .error .outOfFuel := by
    unfold rewriteAssetPath
    have hinc : includes ['"', 'a', '"'] ['a'] = true := by decide
    simp only [hinc, Bool.not_true, Bool.false_eq_true, if_false, compile_reSource,
      compile_ignoreSource]
    have := loop_diverges fuel 0 0 (Nat.zero_le _)
    simp only [grownPrefix, List.replicate_zero, List.flatten_nil, List.nil_append,
      List.cons_append] at this
    rw [this]
  refine ⟨h, ?_⟩
  have hk : generateAssetMapKeys [(['a'], ['b', '"', ' ', '"', 'a'])] = [['a']] := rfl
  unfold processString
  rw [hk]
  have hown : ("hasOwnProperty".toList == ['a']) = false := by decide
  simp only [processKeys, processKey, List.lookup, beq_self_eq_true, h, hown]

/-! ## Failing inputs -/

/-- C16 (failing input). With the entry `c++.js -> c-1.js`, `processString` throws on the
text `<script src="c++.js">`, with or without a prepend: the reference is found with the
escaped key, and then the key itself is given to `new RegExp`, which rejects `c++.js` with a
`SyntaxError`. -/
theorem processString_throws (fuel : Nat) :
    processString [("c++.js".toList, "c-1.js".toList)] [] "/srv".toList (fuel + 1)
        "<script src=\"c++.js\">".toList "index.html".toList = .error .syntaxError ∧
    processString [("c++.js".toList, "c-1.js".toList)] "https://cdn/".toList "/srv".toList (fuel + 1)
        "<script src=\"c++.js\">".toList "index.html".toList = .error .syntaxError :=
  ⟨rfl, rfl⟩

/-- C19 (failing input). With no prepend, the asset path `a.js` and the replacement path
`b.js`, the string composed for the capture `a.js#axjs` is `b.js#b.js`, not `b.js#axjs`: the
asset path is used as a pattern, in which the dot matches any character. And the
replacement path `b$&.js` is not inserted character for character: `$&` stands for the
match. -/
theorem composeReplacement_pattern :
    composeReplacement [] "a.js".toList "b.js".toList "a.js#axjs".toList = .ok "b.js#b.js".toList ∧
    rewriteAssetPath [] 10 "<script src=\"a.js#axjs\">".toList "a.js".toList "b.js".toList =
      .ok "<script src=\"b.js#b.js\">".toList ∧
    composeReplacement [] "a.js".toList "b$&.js".toList "a.js".toList = .ok "ba.js.js".toList :=
  ⟨rfl, rfl, rfl⟩

/-- C18 (failing input). With the asset path `ping` and the replacement path `pong`, the
source map pass of `rewriteAssetPath` turns `//# sourceMappingURL=ping` into
`//# sourceMappongURL=ping`: the asset path is replaced at its first occurrence in the
matched directive, which lies inside the literal `sourceMappingURL=`. -/
theorem rewriteAssetPath_breaks_directive (fuel : Nat) :
    rewriteSourceMap [] "ping".toList "pong".toList "//# sourceMappingURL=ping".toList =
      .ok "//# sourceMappongURL=ping".toList ∧
    rewriteAssetPath [] (fuel + 1) "//# sourceMappingURL=ping".toList "ping".toList "pong".toList =
      .ok "//# sourceMappongURL=ping".toList :=
  ⟨rfl, rfl⟩

/-! ## A reference inside a longer attribute value -/

/-- What `(\.*/)*` consumes is empty or ends with a slash; the capture is `undefined` as
before when nothing is consumed, and else a marker that ends what is consumed. -/
theorem markers_inv_marker {x z : MState} (h : Matches markersRegex x z) :
    ∃ w, x.rest = w ++ z.rest ∧ z.pos = x.pos + w.length ∧
      ((w = [] ∧ z.caps 1 = x.caps 1) ∨ ∃ tok, isMarker tok ∧ tok <:+ w ∧ z.caps 1 = some tok) := by
  rw [markersRegex_eq] at h
  generalize hr : Regex.rep 0 none true (.group 1 (.seq (.rep 0 none true (.char '.'))
      (.seq (.char '/') .empty))) = r at h
  induction h with
  | empty => cases hr
  | step hc _ _ => subst hr; cases hc
  | bol _ => cases hr
  | eol _ => cases hr
  | seq _ _ => cases hr
  | altL _ => cases hr
  | altR _ => cases hr
  | group _ => cases hr
  | @repDone min max g' r' x _ =>
    exact ⟨[], rfl, rfl, Or.inl ⟨rfl, rfl⟩⟩
  | @repMore min max g' r' x y z _ h1 _ _ _ ih2 =>
    cases hr
    obtain ⟨tok, ht1, ht2, ht3, ht4⟩ := token_inv h1
    obtain ⟨w, hw1, hw2, hw4⟩ := ih2 rfl
    simp only [MState.reset] at ht2 ht3
    refine ⟨tok ++ w, by rw [ht2, hw1, List.append_assoc], by rw [hw2, ht3, List.length_append]; omega,
      Or.inr ?_⟩
    rcases hw4 with ⟨hw, hcap⟩ | ⟨tok', h1', h2', h3'⟩
    · subst hw
      exact ⟨tok, ht1, by simp, by rw [hcap, ht4]⟩
    · exact ⟨tok', h1', h2'.trans (List.suffix_append _ _), h3'⟩

theorem isMarker_slash {tok : Str} (h : isMarker tok) : ['/'] <:+ tok := by
  obtain ⟨n, rfl⟩ := h
  exact List.suffix_append _ _

/-- A match of `(\.*/)*` followed by the asset path, in a capture in which the asset path
matches once and is not preceded by a slash, starts at the asset path and captures
nothing. -/
theorem inner_inv_bare {a up b : Str} {j : Nat} {y : MState}
    (huniq : ∀ i, dotPrefix a ((up ++ (a ++ b)).drop i) = true → i = up.length)
    (hlast : ¬ ['/'] <:+ up)
    (h : Matches (seqOf ([markersRegex] ++ a.map atomOf))
      (MState.start j ((up ++ (a ++ b)).drop j)) y) :
    j = up.length ∧ y.pos = up.length + a.length ∧ y.caps 1 = none := by
  rw [innerRegex_eq, matches_seq_iff] at h
  obtain ⟨z, hM, hK⟩ := h
  obtain ⟨w, hw1, hw2, hw4⟩ := markers_inv_marker hM
  obtain ⟨_, _, _, hk3, hk4, hk5⟩ := inv_key hK
  simp only [MState.start] at hw1 hw2 hw4
  have hz : (up ++ (a ++ b)).drop (j + w.length) = z.rest := prefix_drop_add hw1 rfl
  have hn : j + w.length = up.length := huniq _ (by rw [hz]; exact hk3)
  rcases hw4 with ⟨hw, hcap⟩ | ⟨tok, ht1, ht2, _⟩
  · subst hw
    simp only [List.length_nil, Nat.add_zero] at hn hw2
    exact ⟨hn, by rw [hk4, hw2, hn], by rw [hk5, hcap]⟩
  · exfalso
    apply hlast
    have e1 : (up ++ (a ++ b)).drop j = up.drop j ++ (a ++ b) :=
      List.drop_append_of_le_length (by omega)
    have e2 : z.rest = a ++ b := by
      rw [← hz, hn, List.drop_left]
    rw [e1, e2] at hw1
    have hw : up.drop j = w := List.append_cancel_right hw1
    exact (isMarker_slash ht1).trans (ht2.trans (hw ▸ List.drop_suffix j up))

/-- With a prepend, a capture in which the asset path matches once, not preceded by a slash
nor by the prepend, has the asset path replaced by the prepend and the replacement path
without its leading relative markers. -/
theorem compose_prepend_bare {prepend a value up b : Str}
    (hPne : prepend ≠ []) (hlast : ¬ ['/'] <:+ up) (hnot : ¬ prepend <:+ up)
    (hkey : ∀ c ∈ a, isKeyChar c = true)
    (huniq : ∀ i, dotPrefix a ((up ++ (a ++ b)).drop i) = true → i = up.length)
    (hval : ∀ d ∈ value, isLineTerminator d = false) :
    composeReplacement prepend a value (up ++ (a ++ b)) =
      .ok ((up ++ (prepend ++ stripLeading value)) ++ b) := by
  have hne := dotUniq_nonempty huniq
  have hlen : 0 < a.length := List.length_pos.2 hne
  have hPe : prepend.isEmpty = false := by
    cases prepend with
    | nil => exact absurd rfl hPne
    | cons _ _ => rfl
  unfold composeReplacement
  simp only [hPe, Bool.not_false, if_true, compile_markers_key a hkey]
  have hd : (up ++ (a ++ b)).drop up.length = a ++ b := List.drop_left _ _
  have hex : MatchesAt (seqOf ([markersRegex] ++ a.map atomOf)) (up ++ (a ++ b)) up.length := by
    refine ⟨{ pos := (MState.start up.length ((up ++ (a ++ b)).drop up.length)).pos + a.length,
              rest := b,
              caps := (MState.start up.length ((up ++ (a ++ b)).drop up.length)).caps }, ?_⟩
    rw [innerRegex_eq, matches_seq_iff]
    refine ⟨MState.start up.length ((up ++ (a ++ b)).drop up.length), ?_, mk_key ?_⟩
    · rw [markersRegex_eq]
      exact Matches.repDone (Or.inl rfl)
    · simp only [MState.start]
      exact hd
  obtain ⟨mt, y, h1, h2, h3, h4, h5, h6⟩ := exec_first (l := 0) (i := up.length) (Nat.zero_le _)
    (by simp) hex (fun j _ hj ⟨y, hy⟩ => by
      have := (inner_inv_bare huniq hlast hy).1
      omega)
  obtain ⟨_, k2, k3⟩ := inner_inv_bare huniq hlast h3
  have hstop : mt.stop = up.length + a.length := by rw [h4, k2]
  have hcaps : mt.caps 1 = none := by rw [h5, k3]
  have hnone : exec (seqOf ([markersRegex] ++ a.map atomOf)) (up ++ (a ++ b))
      (if mt.stop == mt.index then mt.stop + 1 else mt.stop) = none := by
    apply exec_inner_none huniq
    rw [hstop, h2]
    have : (up.length + a.length == up.length) = false := beq_eq_false_iff_ne.2 (by omega)
    simp only [this, Bool.false_eq_true, if_false]
    omega
  have hah : alreadyHasPrepend (up ++ (a ++ b)) prepend mt.index (mt.caps 1) = false := by
    cases hah : alreadyHasPrepend (up ++ (a ++ b)) prepend mt.index (mt.caps 1) with
    | false => rfl
    | true =>
      exfalso
      obtain ⟨n, e1, e2, e3⟩ := alreadyHasPrepend_iff.1 hah
      rw [h2, hcaps] at e1
      simp only [Option.getD_none, List.length_nil, Nat.add_zero] at e1
      rw [List.drop_append_of_le_length (by omega)] at e3
      have hpre : prepend <+: up.drop n :=
        List.prefix_of_prefix_length_le e3 (List.prefix_append _ _)
          (by rw [List.length_drop]; omega)
      have heq : prepend = up.drop n :=
        hpre.eq_of_length (by rw [List.length_drop]; omega)
      exact hnot (heq ▸ List.drop_suffix n up)
  obtain ⟨r, hr1, hr2⟩ := removeLeading_exec value hval
  have hf : replacer value prepend (up ++ (a ++ b)) mt = .ok (prepend ++ stripLeading value) := by
    unfold replacer
    simp only [hah, Bool.false_eq_true, if_false, hr1, hr2, jsStr]
  rw [replaceAllFn_single h1 hnone hf, h2, hstop, List.take_left,
    ← List.drop_drop, List.drop_left, List.drop_left]

/-- Where a match of the pattern `re` lies in a text with one occurrence of the asset path,
behind an opening delimiter and characters that are no delimiters of the pattern, the first
of which is no white space. -/
theorem ref_position_wide {a pre up tl w c1 x : Str} {o o' : Char} {j : Nat}
    (hj : j ≤ (pre ++ o :: (up ++ (a ++ tl))).length)
    (hd : (pre ++ o :: (up ++ (a ++ tl))).drop j = o' :: (w ++ (c1 ++ (a ++ x))))
    (huniq : ∀ i, a <+: (pre ++ o :: (up ++ (a ++ tl))).drop i → i = pre.length + 1 + up.length)
    (ho : o ∈ openers) (ho' : o' ∈ openers)
    (hup : ∀ d ∈ up, d ∉ class1) (hhead : ∀ d, up.head? = some d → isSpace d = false)
    (hw : ∀ d ∈ w, isSpace d = true) (hc1 : ∀ d ∈ c1, d ∉ class1) :
    j = pre.length ∧ w = [] ∧ c1 = up ∧ tl = x := by
  have hopen : ∀ d, d ∈ openers → d ∈ class1 ∧ isSpace d = false := by
    intro d hd
    simp only [openers, List.mem_cons, List.mem_singleton, List.not_mem_nil, or_false] at hd
    rcases hd with h | h | h | h <;> subst h <;> exact ⟨by decide, by decide⟩
  have hocc : j + (1 + w.length + c1.length) = pre.length + 1 + up.length := by
    apply huniq
    have : (pre ++ o :: (up ++ (a ++ tl))).drop j = (o' :: (w ++ c1)) ++ (a ++ x) := by
      rw [hd]; simp
    rw [prefix_drop_add this (by simp; omega)]
    exact List.prefix_append _ _
  obtain ⟨h1, h2⟩ := take_append_of_drop hj hd
  have h3 : ((pre ++ o :: (up ++ (a ++ tl))).take j ++ o' :: (w ++ c1)) ++ (a ++ x) =
      (pre ++ o :: up) ++ (a ++ tl) := by
    simp only [List.append_assoc, List.cons_append]
    exact h1.symm
  obtain ⟨h4, h5⟩ := List.append_inj h3 (by simp [h2]; omega)
  have h6 : tl = x := (List.append_cancel_left h5).symm
  rw [List.append_eq_append_iff] at h4
  have key : (pre ++ o :: (up ++ (a ++ tl))).take j = pre ∧ o' :: (w ++ c1) = o :: up := by
    rcases h4 with ⟨m, hm1, hm2⟩ | ⟨m, hm1, hm2⟩
    · cases m with
      | nil => exact ⟨by simpa using hm1.symm, by simpa using hm2⟩
      | cons d ds =>
        exfalso
        simp only [List.cons_append, List.cons.injEq] at hm2
        have : o ∈ w ++ c1 := by rw [hm2.2]; simp
        rcases List.mem_append.1 this with h | h
        · have := hw o h
          rw [(hopen o ho).2] at this
          cases this
        · exact hc1 o h (hopen o ho).1
    · cases m with
      | nil => exact ⟨by simpa using hm1, by simpa using hm2.symm⟩
      | cons d ds =>
        exfalso
        simp only [List.cons_append, List.cons.injEq] at hm2
        have : o' ∈ up := by rw [hm2.2]; simp
        exact hup o' this (hopen o' ho').1
  obtain ⟨k1, k2⟩ := key
  have k3 : w ++ c1 = up := (List.cons.inj k2).2
  have hw0 : w = [] := by
    cases w with
    | nil => rfl
    | cons d ds =>
      exfalso
      have h7 := hhead d (by rw [← k3]; rfl)
      rw [hw d (List.mem_cons_self _ _)] at h7
      cases h7
  subst hw0
  refine ⟨?_, rfl, by simpa using k3, h6⟩
  rw [← h2, k1]

/-- The first `exec` of the loop finds the reference and captures it from the opening
delimiter on. -/
theorem first_exec_wide {a pre up tl : Str} {o : Char}
    (hex : MatchesAt (reRegex (a.map Regex.char)) (pre ++ o :: (up ++ (a ++ tl))) pre.length)
    (huniq : ∀ i, a <+: (pre ++ o :: (up ++ (a ++ tl))).drop i → i = pre.length + 1 + up.length)
    (ho : o ∈ openers) (hup : ∀ d ∈ up, d ∉ class1)
    (hhead : ∀ d, up.head? = some d → isSpace d = false) :
    ∃ mt b rest, exec (reRegex (a.map Regex.char)) (pre ++ o :: (up ++ (a ++ tl))) 0 = some mt ∧
      mt.caps 1 = some (up ++ (a ++ b)) ∧ tl = b ++ rest ∧ (∀ d ∈ b, d ∉ class2) ∧
      pre.length < mt.stop := by
  have hpos : ∀ j y, j ≤ (pre ++ o :: (up ++ (a ++ tl))).length →
      Matches (reRegex (a.map Regex.char))
        (MState.start j ((pre ++ o :: (up ++ (a ++ tl))).drop j)) y →
      j = pre.length ∧ j < y.pos ∧ ∃ b rest, y.caps 1 = some (up ++ (a ++ b)) ∧ tl = b ++ rest ∧
        ∀ d ∈ b, d ∉ class2 := by
    intro j y hj hy
    obtain ⟨o', w, c1, b, rest, h1, h2, h3, h4, h5, h6, h7, _⟩ := re_inv hy
    simp only [MState.start] at h1 h7
    obtain ⟨k1, k2, k3, k4⟩ := ref_position_wide hj h1 huniq ho h2 hup hhead h3 h4
    subst k3
    exact ⟨k1, h7, b, rest, h6, k4, h5⟩
  obtain ⟨mt, y, h1, h2, h3, h4, h5, h6⟩ := exec_first (l := 0) (Nat.zero_le _)
    (by simp) hex (fun j _ hj ⟨y, hy⟩ => by
      have := (hpos j y (by simp; omega) hy).1
      omega)
  obtain ⟨_, k0, b, rest, k1, k2, k3⟩ := hpos _ y (by simp) h3
  exact ⟨mt, b, rest, h1, by rw [h5, k1], k2, k3, by rw [h4]; exact k0⟩

/-- The method `rewriteAssetPath` on a text with one occurrence of the asset path, inside a
delimited attribute value, when the rewritten text does not contain the asset path any
more. -/
theorem rewrite_wide {prepend a value pre up tl r : Str} {o : Char} (fuel : Nat)
    (hex : MatchesAt (reRegex (a.map Regex.char)) (pre ++ o :: (up ++ (a ++ tl))) pre.length)
    (huniq : ∀ i, a <+: (pre ++ o :: (up ++ (a ++ tl))).drop i → i = pre.length + 1 + up.length)
    (ho : o ∈ openers) (hup : ∀ d ∈ up, d ∉ class1)
    (hhead : ∀ d, up.head? = some d → isSpace d = false) (hpct : '%' ∉ up)
    (hcomp : ∀ b rest, tl = b ++ rest → (∀ d ∈ b, d ∉ class2) →
      composeReplacement prepend a value (up ++ (a ++ b)) = .ok (r ++ b))
    (hr : '$' ∉ r) (htl : '$' ∉ tl)
    (hres : includes (pre ++ o :: (r ++ tl)) a = false) :
    rewriteAssetPath prepend (fuel + 2) (pre ++ o :: (up ++ (a ++ tl))) a value =
      .ok (pre ++ o :: (r ++ tl)) := by
  have hinc : includes (pre ++ o :: (up ++ (a ++ tl))) a = true := by
    have := includes_of_append (pre ++ o :: up) a tl
    simpa using this
  obtain ⟨mt, b, rest, h1, h2, h3, h4, h5⟩ := first_exec_wide hex huniq ho hup hhead
  subst h3
  have hb : '$' ∉ b := fun h => htl (List.mem_append_left _ h)
  unfold rewriteAssetPath
  simp only [hinc, Bool.not_true, Bool.false_eq_true, if_false, compile_reSource,
    compile_ignoreSource]
  rw [rewriteLoop]
  simp only [h1, h2, guard_none huniq hpct, Option.isSome_none, Bool.false_eq_true, if_false,
    hcomp b rest rfl h4, compile_escaped]
  rw [replace_capture huniq (by simp [hr, hb])]
  have e : pre ++ o :: ((r ++ b) ++ rest) = pre ++ o :: (r ++ (b ++ rest)) := by simp
  rw [e, rewriteLoop]
  simp only [exec_re_none _ hres]
  exact rewriteSourceMap_none hres

/-! ## Several keys in one attribute value -/

theorem dotOccurrences_single {a s : Str} {p : Nat} (hp : p ≤ s.length)
    (hocc : a <+: s.drop p) (h : (dotOccurrences a s).length = 1) : dotOccurrences a s = [p] := by
  have hmem : p ∈ dotOccurrences a s := by
    unfold dotOccurrences
    rw [List.mem_filter]
    exact ⟨List.mem_range.2 (by omega), dotPrefix_of_literal hocc⟩
  obtain ⟨x, hx⟩ := List.length_eq_one.1 h
  rw [hx] at hmem ⊢
  simp only [List.mem_singleton] at hmem
  rw [hmem]

theorem processKeys_chain {assetMap : AssetMap} {prepend cwd relativePath : Str} (fuel : Nat) :
    ∀ (keys : List Str) (st : Nat → Str),
      (∀ i (hi : i < keys.length),
        processKey assetMap prepend cwd fuel relativePath (st i) keys[i] = .ok (st (i + 1))) →
      processKeys assetMap prepend cwd fuel relativePath keys (st 0) = .ok (st keys.length) := by
  intro keys
  induction keys with
  | nil => intro st _; rfl
  | cons k ks ih =>
    intro st h
    have h0 := h 0 (by simp)
    simp only [List.getElem_cons_zero] at h0
    simp only [processKeys, h0]
    have := ih (fun i => st (i + 1)) (fun i hi => by
      have := h (i + 1) (by simp; omega)
      simpa using this)
    simpa using this

theorem srcset_cons (x : Str × Str) (l : List (Str × Str)) :
    srcset (x :: l) = x.1 ++ (x.2 ++ srcset l) := by
  simp [srcset]

theorem srcset_append (l1 l2 : List (Str × Str)) : srcset (l1 ++ l2) = srcset l1 ++ srcset l2 := by
  simp [srcset]

theorem rendered_append (m : AssetMap) (p : Str) (done : List Str) (l1 l2 : List (Str × Str)) :
    rendered m p done (l1 ++ l2) = rendered m p done l1 ++ rendered m p done l2 := by
  simp [rendered]

theorem rendered_cons (m : AssetMap) (p : Str) (done : List Str) (it : Str × Str)
    (l : List (Str × Str)) :
    rendered m p done (it :: l) =
      (if it.1 ∈ done then (composed p ((m.lookup it.1).getD []), it.2) else it) ::
        rendered m p done l := rfl

theorem rendered_nil_done (m : AssetMap) (p : Str) (l : List (Str × Str)) :
    rendered m p [] l = l := by
  simp [rendered]

theorem rendered_snoc {m : AssetMap} {p : Str} {done : List Str} {k : Str} {l : List (Str × Str)}
    (h : k ∉ l.map Prod.fst) : rendered m p (done ++ [k]) l = rendered m p done l := by
  unfold rendered
  apply List.map_congr_left
  intro it hit
  have hne : it.1 ≠ k := fun e => h (e ▸ List.mem_map_of_mem Prod.fst hit)
  simp [hne]

theorem rendered_all {m : AssetMap} {p : Str} {done : List Str} {l : List (Str × Str)}
    (h : ∀ it ∈ l, it.1 ∈ done) :
    rendered m p done l = l.map (fun it => (composed p ((m.lookup it.1).getD []), it.2)) := by
  unfold rendered
  apply List.map_congr_left
  intro it hit
  simp [h it hit]

/-- The characters of the attribute value at any stage come from the paths, the
descriptors and the replacements. -/
theorem srcset_rendered_chars {m : AssetMap} {p : Str} {done : List Str} {l : List (Str × Str)}
    {P : Char → Prop}
    (h : ∀ it ∈ l, (∀ d ∈ it.1, P d) ∧ (∀ d ∈ it.2, P d) ∧
      ∀ d ∈ composed p ((m.lookup it.1).getD []), P d) :
    ∀ d ∈ srcset (rendered m p done l), P d := by
  induction l with
  | nil => intro d hd; simp [srcset, rendered] at hd
  | cons it l ih =>
    intro d hd
    have hit := h it (List.mem_cons_self _ _)
    have e : rendered m p done (it :: l) =
        (if it.1 ∈ done then (composed p ((m.lookup it.1).getD []), it.2) else it) ::
          rendered m p done l := rfl
    rw [e, srcset_cons] at hd
    rcases List.mem_append.1 hd with hd | hd
    · by_cases hdone : it.1 ∈ done
      · rw [if_pos hdone] at hd
        exact hit.2.2 d hd
      · rw [if_neg hdone] at hd
        exact hit.1 d hd
    · rcases List.mem_append.1 hd with hd | hd
      · have : (if it.1 ∈ done then (composed p ((m.lookup it.1).getD []), it.2) else it).2 = it.2 := by
          by_cases hdone : it.1 ∈ done
          · rw [if_pos hdone]
          · rw [if_neg hdone]
        rw [this] at hd
        exact hit.2.1 d hd
      · exact ih (fun it' h' => h it' (List.mem_cons_of_mem _ h')) d hd

theorem srcset_rendered_head {m : AssetMap} {p : Str} {done : List Str} {l : List (Str × Str)}
    (h : ∀ it ∈ l, (∃ e es, it.1 = e :: es ∧ isSpace e = false) ∧
      ∃ e es, composed p ((m.lookup it.1).getD []) = e :: es ∧ isSpace e = false) :
    ∀ d, (srcset (rendered m p done l)).head? = some d → isSpace d = false := by
  intro d hd
  cases l with
  | nil => simp [srcset, rendered] at hd
  | cons it l =>
    obtain ⟨⟨e1, es1, h1, h1s⟩, ⟨e2, es2, h2, h2s⟩⟩ := h it (List.mem_cons_self _ _)
    have e : rendered m p done (it :: l) =
        (if it.1 ∈ done then (composed p ((m.lookup it.1).getD []), it.2) else it) ::
          rendered m p done l := rfl
    rw [e, srcset_cons] at hd
    by_cases hdone : it.1 ∈ done
    · rw [if_pos hdone] at hd
      simp only [h2, List.cons_append, List.head?_cons, Option.some.injEq] at hd
      rw [← hd]
      exact h2s
    · rw [if_neg hdone] at hd
      simp only [h1, List.cons_append, List.head?_cons, Option.some.injEq] at hd
      rw [← hd]
      exact h1s

theorem srcset_rendered_last {m : AssetMap} {p : Str} {done : List Str} {l : List (Str × Str)}
    {s : Str} (hs : s ≠ [])
    (h : ∀ it ∈ l, it.2 ≠ [] ∧ ∀ e, it.2.getLast? = some e → s.getLast? ≠ some e) :
    ¬ s <:+ srcset (rendered m p done l) := by
  intro hsuf
  rcases List.eq_nil_or_concat l with hl | ⟨l1, it, hl⟩
  · subst hl
    simp only [rendered, srcset, List.map_nil, List.flatten_nil, List.suffix_nil] at hsuf
    exact hs hsuf
  · rw [List.concat_eq_append] at hl
    subst hl
    obtain ⟨hne, hlast⟩ := h it (by simp)
    have e : srcset (rendered m p done (l1 ++ [it])) =
        (srcset (rendered m p done l1) ++
          (if it.1 ∈ done then (composed p ((m.lookup it.1).getD []), it.2) else it).1) ++ it.2 := by
      rw [rendered_append, srcset_append]
      have : rendered m p done [it] =
          [if it.1 ∈ done then (composed p ((m.lookup it.1).getD []), it.2) else it] := rfl
      rw [this, srcset_cons]
      have h2 : (if it.1 ∈ done then (composed p ((m.lookup it.1).getD []), it.2) else it).2 = it.2 := by
        by_cases hdone : it.1 ∈ done
        · rw [if_pos hdone]
        · rw [if_neg hdone]
      rw [h2]
      simp [srcset]
    rw [e] at hsuf
    obtain ⟨t, ht⟩ := hsuf
    have h1 : (t ++ s).getLast? = s.getLast? := List.getLast?_append_of_ne_nil _ hs
    have h2 := List.getLast?_append_of_ne_nil (srcset (rendered m p done l1) ++
      (if it.1 ∈ done then (composed p ((m.lookup it.1).getD []), it.2) else it).1) hne
    rw [ht, h2] at h1
    cases hg : it.2.getLast? with
    | none => exact hne (List.getLast?_eq_none_iff.1 hg)
    | some e0 => exact hlast e0 hg (by rw [← h1, hg])

theorem not_mem_take_of_nodup {keys : List Str} (hn : keys.Nodup) {i : Nat} (hi : i < keys.length) :
    keys[i] ∉ keys.take i ∧ keys.take (i + 1) = keys.take i ++ [keys[i]] := by
  have h2 : keys.take (i + 1) = keys.take i ++ [keys[i]] := by
    rw [List.take_succ, List.getElem?_eq_getElem hi]
    rfl
  refine ⟨?_, h2⟩
  have hn2 : (keys.take (i + 1)).Nodup := hn.sublist (List.take_sublist _ _)
  rw [h2] at hn2
  intro hmem
  exact (List.disjoint_of_nodup_append hn2) hmem (List.mem_singleton_self _)

/-! ## Replacing every occurrence of a literal -/

theorem replaceEveryFrom_skip (s r : Str) : ∀ (t : Str) (n : Nat),
    replaceEveryFrom s r n t = replaceEveryFrom s r 0 (t.drop n) := by
  intro t
  induction t with
  | nil => intro n; cases n <;> simp [replaceEveryFrom]
  | cons c cs ih =>
    intro n
    cases n with
    | zero => rfl
    | succ n => simp only [replaceEveryFrom, List.drop_succ_cons]; exact ih n

theorem replaceEveryFrom_none (s r : Str) : ∀ (t : Str), (∀ j, ¬ s <+: t.drop j) →
    replaceEveryFrom s r 0 t = t := by
  intro t
  induction t with
  | nil => intro _; rfl
  | cons c cs ih =>
    intro h
    have h0 : s.isPrefixOf (c :: cs) = false := by
      rw [Bool.eq_false_iff]
      intro hh
      exact h 0 (List.isPrefixOf_iff_prefix.1 hh)
    simp only [replaceEveryFrom, h0, Bool.false_eq_true, if_false]
    rw [ih (fun j => h (j + 1))]

theorem replaceEveryFrom_append (s r : Str) : ∀ (p q : Str),
    (∀ j, j < p.length → ¬ s <+: (p ++ q).drop j) →
    replaceEveryFrom s r 0 (p ++ q) = p ++ replaceEveryFrom s r 0 q := by
  intro p
  induction p with
  | nil => intro q _; rfl
  | cons c cs ih =>
    intro q h
    have h0 : s.isPrefixOf (c :: (cs ++ q)) = false := by
      rw [Bool.eq_false_iff]
      intro hh
      exact h 0 (by simp) (List.isPrefixOf_iff_prefix.1 hh)
    show (if s.isPrefixOf (c :: (cs ++ q)) = true then
        r ++ replaceEveryFrom s r (s.length - 1) (cs ++ q)
      else c :: replaceEveryFrom s r 0 (cs ++ q)) = c :: (cs ++ replaceEveryFrom s r 0 q)
    rw [if_neg (by simp [h0]), ih q (fun j hj => h (j + 1) (by simp; omega))]

theorem replaceEveryFrom_hit {s r t : Str} (hs : s ≠ []) (h : s <+: t) :
    replaceEveryFrom s r 0 t = r ++ replaceEveryFrom s r 0 (t.drop s.length) := by
  cases t with
  | nil =>
    have := List.eq_nil_of_prefix_nil h
    exact absurd this hs
  | cons c cs =>
    have h0 : s.isPrefixOf (c :: cs) = true := by
      simpa [List.isPrefixOf_iff_prefix] using h
    simp only [replaceEveryFrom, h0, if_true]
    rw [replaceEveryFrom_skip]
    have : 0 < s.length := List.length_pos.2 hs
    congr 2
    rw [show s.length = (s.length - 1) + 1 from by omega, List.drop_succ_cons]
    simp

theorem matchesAt_lits {s t : Str} {j : Nat} :
    MatchesAt (seqOf (s.map Regex.char)) t j ↔ s <+: t.drop j := by
  constructor
  · rintro ⟨y, hy⟩
    obtain ⟨h1, _, _⟩ := inv_lits hy
    simp only [MState.start] at h1
    exact ⟨y.rest, h1.symm⟩
  · rintro ⟨r, hr⟩
    exact ⟨_, mk_lits (x := MState.start j (t.drop j)) (r := r) (by simp [MState.start, hr])⟩

theorem literal_loop {s rep : Str} (t : Str) (hs : s ≠ []) (hrep : '$' ∉ rep) :
    ∀ (fuel li : Nat), li ≤ t.length → t.length - li + 2 ≤ fuel →
    assemble t li ((matchLoop (seqOf (s.map Regex.char)) t fuel li).map
      (fun mt => (mt, getSubstitution mt.matched t mt.index 0 mt.caps rep))) =
      replaceEveryFrom s rep 0 (t.drop li) := by
  intro fuel
  induction fuel with
  | zero => intro li _ h; omega
  | succ fuel ih =>
    intro li hli hfuel
    unfold matchLoop
    cases he : exec (seqOf (s.map Regex.char)) t li with
    | none =>
      simp only [List.map_nil, assemble]
      rw [replaceEveryFrom_none]
      intro j hj
      rw [List.drop_drop] at hj
      by_cases hle : li + j ≤ t.length
      · exact exec_none.1 he (li + j) (by omega) hle (matchesAt_lits.2 hj)
      · rw [List.drop_of_length_le (by omega)] at hj
        exact hs (List.eq_nil_of_prefix_nil hj)
    | some mt =>
      obtain ⟨y, h1, h2, h3, h4, h5, h6, h7⟩ := exec_some he
      obtain ⟨k1, k2, _⟩ := inv_lits h3
      simp only [MState.start] at k1 k2
      have hpos : 0 < s.length := List.length_pos.2 hs
      have hstop : mt.stop = mt.index + s.length := by rw [h4, k2]
      have hlen : mt.index + s.length ≤ t.length := by
        have := congrArg List.length k1
        simp only [List.length_drop, List.length_append] at this
        omega
      have hne : (mt.stop == mt.index) = false := by
        rw [hstop]; exact beq_false_of_ne (by omega)
      simp only [hne, Bool.false_eq_true, if_false, List.map_cons, assemble]
      rw [hstop, ih (mt.index + s.length) hlen (by omega), getSubstitution_id _ _ _ _ _ _ hrep]
      rw [drop_eq_take_drop_append t h1]
      rw [replaceEveryFrom_append]
      · rw [replaceEveryFrom_hit hs ⟨y.rest, k1.symm⟩, List.drop_drop]
        simp [Nat.add_comm]
      · intro j hj hpre
        rw [← drop_eq_take_drop_append t h1, List.drop_drop] at hpre
        simp only [List.length_drop, List.length_take] at hj
        exact h7 (li + j) (by omega) (by omega) (matchesAt_lits.2 hpre)

/-- The global replacement of a literal by a string without `$` replaces every occurrence
of the literal. -/
theorem replaceAll_literal {s rep : Str} (t : Str) (hs : s ≠ []) (hrep : '$' ∉ rep) :
    replaceAll { re := seqOf (s.map Regex.char), ngroups := 0 } t rep = replaceEvery s rep t := by
  unfold replaceAll matchAll replaceEvery
  have := literal_loop t hs hrep (t.length + 2) 0 (Nat.zero_le _) (by omega)
  simpa using this

/-! ## The first reference of a text -/

theorem exec_none_mono {r : Regex} {s : Str} {l l' : Nat} (h : exec r s l = none) (hl : l ≤ l') :
    exec r s l' = none := by
  rw [exec_none] at h ⊢
  intro j h1 h2
  exact h j (by omega) h2

theorem rewriteSourceMap_noop {prepend a v s : Str}
    (h : includes s ("sourceMappingURL=".toList ++ a) = false) :
    rewriteSourceMap prepend a v s = .ok s := by
  unfold rewriteSourceMap
  rw [compile_sourceMapSource]
  simp only [replaceFirstFn]
  have : exec (seqOf ("sourceMappingURL=".toList.map Regex.char ++ a.map Regex.char)) s 0 = none := by
    rw [exec_none]
    rintro j _ _ ⟨y, hy⟩
    obtain ⟨h1, _⟩ := sourceMap_inv hy
    simp only [MState.start] at h1
    have : includes s ("sourceMappingURL=".toList ++ a) = true := by
      rw [includes_iff]
      exact ⟨j, y.rest, by rw [h1]; simp⟩
    rw [h] at this
    cases this
  rw [this]

/-- What follows the capture in a match of the pattern `re`: a `?`, white space, a
backslash or a closing delimiter. -/
theorem re_tail {x y : MState}
    (h : Matches (seqOf [.rep 0 (some 1) true
        (.group 2 (seqOf [.char '?', .rep 0 none true (.cls true class3)])),
        .rep 0 none true .space, .rep 0 none true (.char '\\'), .rep 0 none true .space,
        .cls false closers]) x y) :
    ∃ d t, x.rest = d :: t ∧ (d = '?' ∨ isSpace d = true ∨ d = '\\' ∨ d ∈ closers) := by
  rw [seqOf, matches_seq_iff] at h
  obtain ⟨z1, hO, h⟩ := h
  rw [matches_opt_iff] at hO
  rcases hO with hO | ⟨hO, _⟩
  · subst hO
    rw [seqOf, matches_seq_iff] at h
    obtain ⟨z2, hS1, h⟩ := h
    rw [seqOf, matches_seq_iff] at h
    obtain ⟨z3, hB, h⟩ := h
    rw [seqOf, matches_seq_iff] at h
    obtain ⟨z4, hS2, h⟩ := h
    rw [seqOf, matches_seq_iff] at h
    obtain ⟨z5, hC, _⟩ := h
    obtain ⟨w2, hw1, hw2, _, _⟩ := inv_star (a := Regex.space) rfl hS1
    obtain ⟨bs, hb1, hb2, _, _⟩ := inv_star (a := Regex.char '\\') rfl hB
    obtain ⟨w3, hv1, hv2, _, _⟩ := inv_star (a := Regex.space) rfl hS2
    obtain ⟨cl, hcl1, hcl2, _, _⟩ := inv_charset (r := Regex.cls false closers) rfl hC
    rw [hw1, hb1, hv1, hcl1]
    cases w2 with
    | cons d ds => exact ⟨d, _, rfl, Or.inr (Or.inl (hw2 d (List.mem_cons_self _ _)))⟩
    | nil =>
      cases bs with
      | cons d ds =>
        refine ⟨d, _, rfl, Or.inr (Or.inr (Or.inl ?_))⟩
        have := hb2 d (List.mem_cons_self _ _)
        simpa using this
      | nil =>
        cases w3 with
        | cons d ds => exact ⟨d, _, rfl, Or.inr (Or.inl (hv2 d (List.mem_cons_self _ _)))⟩
        | nil => exact ⟨cl, _, rfl, Or.inr (Or.inr (Or.inr (cls_pos_iff.1 hcl2)))⟩
  · rw [matches_group_iff] at hO
    obtain ⟨y', hO, _⟩ := hO
    rw [seqOf, matches_seq_iff] at hO
    obtain ⟨q1, hQ, _⟩ := hO
    obtain ⟨d, hd1, hd2, _, _⟩ := inv_charset (r := Regex.char '?') rfl hQ
    have hd : d = '?' := by simpa using hd2
    refine ⟨d, q1.rest, ?_, Or.inl hd⟩
    simpa [MState.reset] using hd1

/-- What a match of the pattern `re` looks like, with the character that follows the
capture. -/
theorem re_inv_next {a : Str} {x y : MState} (h : Matches (reRegex (a.map Regex.char)) x y) :
    ∃ o w c1 b d t, x.rest = o :: (w ++ (c1 ++ (a ++ (b ++ d :: t)))) ∧ o ∈ openers ∧
      (∀ e ∈ w, isSpace e = true) ∧ (∀ e ∈ c1, e ∉ class1) ∧ (∀ e ∈ b, e ∉ class2) ∧
      y.caps 1 = some (c1 ++ (a ++ b)) ∧ x.pos < y.pos ∧
      (d = '?' ∨ isSpace d = true ∨ d = '\\' ∨ d ∈ closers) := by
  unfold reRegex at h
  rw [seqOf, matches_seq_iff] at h
  obtain ⟨x1, hO, h⟩ := h
  obtain ⟨wtail, _, hpos⟩ := span_append h
  rw [seqOf, matches_seq_iff] at h
  obtain ⟨x2, hS, h⟩ := h
  rw [seqOf, matches_seq_iff] at h
  obtain ⟨x3, hG, hR⟩ := h
  rw [matches_group_iff] at hG
  obtain ⟨y3, hG, hx3⟩ := hG
  rw [matches_seqOf_append, ] at hG
  obtain ⟨xb, hG, hB⟩ := hG
  rw [matches_seqOf_append] at hG
  obtain ⟨xa, hC1, hA⟩ := hG
  rw [seqOf, matches_seq_iff] at hC1 hB
  obtain ⟨xa', hC1, hE1⟩ := hC1
  obtain ⟨y3', hB, hE2⟩ := hB
  rw [seqOf, matches_empty_iff] at hE1 hE2
  subst hE1 hE2
  obtain ⟨o, ho1, ho2, ho3, ho4⟩ := inv_charset (r := Regex.cls false openers) rfl hO
  obtain ⟨w, hw1, hw2, hw3, hw4⟩ := inv_star (a := Regex.space) rfl hS
  obtain ⟨c1, hc1, hc2, hc3, hc4⟩ := inv_star (a := Regex.cls true class1) rfl hC1
  obtain ⟨ha1, ha2, ha3⟩ := inv_lits hA
  obtain ⟨b, hb1, hb2, hb3, hb4⟩ := inv_star (a := Regex.cls true class2) rfl hB
  have hframe := hR.caps_frame 1 (by simp [Regex.groups, seqOf])
  obtain ⟨d, t, hdt, hd⟩ := re_tail hR
  have hrest : y3.rest = d :: t := by
    rw [← hdt, hx3]; rfl
  refine ⟨o, w, c1, b, d, t, ?_, cls_pos_iff.1 ho2, hw2, fun d hd => cls_neg_iff.1 (hc2 d hd),
    fun d hd => cls_neg_iff.1 (hb2 d hd), ?_, by omega, hd⟩
  · rw [ho1, hw1, hc1, ha1, hb1, hrest]
  · rw [hframe, hx3]
    simp only [MState.capture, beq_self_eq_true, if_true]
    rw [hc1, ha1, hb1, hb3, ha2, hc3]
    congr 1
    have : x2.pos + c1.length + a.length + b.length - x2.pos = (c1 ++ (a ++ b)).length := by
      simp only [List.length_append]; omega
    rw [this]
    have e : ∀ r : Str, c1 ++ (a ++ (b ++ r)) = (c1 ++ (a ++ b)) ++ r := by
      intro r; simp [List.append_assoc]
    rw [e, List.take_left]

theorem plainChar_iff {d : Char} :
    plainChar d = true ↔ d ∉ class2 ∧ isSpace d = false ∧ d ≠ '?' ∧ d ≠ '\\' := by
  unfold plainChar
  simp [and_assoc]

theorem quotedFirst_iff {a pre s post : Str} {c : Char} :
    quotedFirst a pre s c post = true ↔ c ∈ class2 ∧ (∀ d ∈ s, plainChar d = true) ∧
      includes pre a = false ∧
      includes ((c :: post).takeWhile (fun d => !class1.contains d)) a = false := by
  unfold quotedFirst
  simp [and_assoc]

theorem class1_sub_class2 {d : Char} (h : d ∈ class1) : d ∈ class2 := by
  simp only [class1, List.mem_cons, List.mem_singleton, List.not_mem_nil, or_false] at h
  simp only [class2, List.mem_cons, List.mem_singleton, List.not_mem_nil, or_false]
  tauto

theorem opener_class1 {d : Char} (h : d ∈ openers) : d ∈ class1 := by
  simp only [openers, List.mem_cons, List.mem_singleton, List.not_mem_nil, or_false] at h
  simp only [class1, List.mem_cons, List.mem_singleton, List.not_mem_nil, or_false]
  tauto

theorem opener_not_space {d : Char} (h : d ∈ openers) : isSpace d = false := by
  simp only [openers, List.mem_cons, List.mem_singleton, List.not_mem_nil, or_false] at h
  rcases h with h | h | h | h <;> subst h <;> decide

theorem stop_not_plain {d : Char}
    (h : d = '?' ∨ isSpace d = true ∨ d = '\\' ∨ d ∈ closers) : plainChar d = false := by
  rw [Bool.eq_false_iff]
  intro hp
  obtain ⟨h1, h2, h3, h4⟩ := plainChar_iff.1 hp
  rcases h with h | h | h | h
  · exact h3 h
  · rw [h2] at h; cases h
  · exact h4 h
  · simp only [closers, List.mem_cons, List.mem_singleton, List.not_mem_nil, or_false] at h
    rcases h with h | h | h | h | h <;> subst h
    · exact h1 (by decide)
    · exact h1 (by decide)
    · exact h1 (by decide)
    · exact h1 (by decide)
    · exact absurd h2 (by decide)

theorem mem_of_includes {s a : Str} (h : includes s a = true) : ∀ d ∈ a, d ∈ s := by
  obtain ⟨j, t, ht⟩ := includes_iff.1 h
  intro d hd
  have : d ∈ s.drop j := by rw [← ht]; exact List.mem_append_left _ hd
  exact List.mem_of_mem_drop this

theorem prefix_takeWhile (p : Char → Bool) : ∀ (x r : Str), (∀ d ∈ x, p d = true) →
    x <+: (x ++ r).takeWhile p := by
  intro x
  induction x with
  | nil => intro r _; exact List.nil_prefix
  | cons e es ih =>
    intro r h
    rw [List.cons_append, List.takeWhile_cons, if_pos (h e (List.mem_cons_self _ _))]
    exact (List.prefix_cons_inj e).2 (ih r (fun d hd => h d (List.mem_cons_of_mem _ hd)))

/-- The first match of the pattern `re` in a text whose first occurrence of the asset path
is in a reference made of plain characters that `"`, `'`, `)` or `>` closes: the match
starts at the opening delimiter and captures the reference. -/
theorem first_capture {a pre s post : Str} {o c : Char}
    (ho : o ∈ openers) (hc : c ∈ closers) (ha : a ≠ [])
    (hq : quotedFirst a pre s c post = true) (hin : includes s a = true) :
    ∃ mt, exec (reRegex (a.map Regex.char)) (pre ++ o :: (s ++ c :: post)) 0 = some mt ∧
      mt.caps 1 = some s ∧ pre.length < mt.stop := by
  obtain ⟨hc2, hs, hpre, hbr⟩ := quotedFirst_iff.1 hq
  have hplain : ∀ d ∈ s, d ∉ class2 ∧ isSpace d = false ∧ d ≠ '?' ∧ d ≠ '\\' :=
    fun d hd => plainChar_iff.1 (hs d hd)
  have hamem := mem_of_includes hin
  have hoa : o ∉ a := fun h => (hplain o (hamem o h)).1 (class1_sub_class2 (opener_class1 ho))
  obtain ⟨j0, t0, ht0⟩ := includes_iff.1 hin
  have hsplit : s = s.take j0 ++ (a ++ t0) := by rw [ht0, List.take_append_drop]
  have hdrop : (pre ++ o :: (s ++ c :: post)).drop pre.length = o :: (s ++ c :: post) :=
    List.drop_left _ _
  -- a match at the opening delimiter
  have hex : MatchesAt (reRegex (a.map Regex.char)) (pre ++ o :: (s ++ c :: post)) pre.length := by
    obtain ⟨y, hy⟩ := @re_exists a (MState.start pre.length
      (o :: (s.take j0 ++ (a ++ (t0 ++ ([] ++ c :: post)))))) o c (s.take j0) t0 [] post rfl ho
      (fun d hd h1 => (hplain d (List.mem_of_mem_take hd)).1 (class1_sub_class2 h1))
      (fun d hd => (hplain d (by rw [hsplit]; simp [hd])).1) (Or.inl rfl) hc
    refine ⟨y, ?_⟩
    rw [hdrop]
    have e : o :: (s.take j0 ++ (a ++ (t0 ++ ([] ++ c :: post)))) = o :: (s ++ c :: post) := by
      conv_rhs => rw [hsplit]
      simp
    rw [← e]
    exact hy
  -- no match before it
  have hno : ∀ j, 0 ≤ j → j < pre.length →
      ¬ MatchesAt (reRegex (a.map Regex.char)) (pre ++ o :: (s ++ c :: post)) j := by
    rintro j _ hj ⟨y, hy⟩
    obtain ⟨o', w, c1, b, rest, h1, _, h3, h4, _⟩ := re_inv hy
    simp only [MState.start] at h1
    rw [List.drop_append_of_le_length (by omega)] at h1
    have hfound : ∀ x z, pre.drop j = x ++ (a ++ z) → False := by
      intro x z hxz
      have : includes pre a = true := by
        rw [includes_iff]
        exact ⟨j + x.length, z, by rw [prefix_drop_add hxz rfl]⟩
      rw [hpre] at this
      cases this
    cases hP : pre.drop j with
    | nil =>
      have := congrArg List.length hP
      rw [List.length_drop] at this
      simp at this
      omega
    | cons p0 P =>
      rw [hP] at h1 hfound
      have h2 : P ++ o :: (s ++ c :: post) = (w ++ c1) ++ (a ++ (b ++ rest)) := by
        have := List.tail_eq_of_cons_eq h1
        simpa using this
      rcases List.append_eq_append_iff.1 h2 with ⟨a', e1, e2⟩ | ⟨c', e1, e2⟩
      · cases a' with
        | nil =>
          rw [List.nil_append] at e2
          cases a with
          | nil => exact ha rfl
          | cons a0 as =>
            have : o = a0 := by
              have := List.head_eq_of_cons_eq e2
              exact this
            exact hoa (by rw [this]; exact List.mem_cons_self _ _)
        | cons e a'' =>
          have he : o = e := List.head_eq_of_cons_eq e2
          have hmem : o ∈ w ++ c1 := by rw [e1, he]; simp
          rcases List.mem_append.1 hmem with hm | hm
          · have := h3 o hm
            rw [opener_not_space ho] at this
            cases this
          · exact h4 o hm (opener_class1 ho)
      · rcases List.append_eq_append_iff.1 e2 with ⟨a', f1, f2⟩ | ⟨c'', f1, f2⟩
        · apply hfound (p0 :: (w ++ c1)) a'
          rw [e1, f1]
          simp
        · cases c'' with
          | nil =>
            apply hfound (p0 :: (w ++ c1)) []
            rw [e1, f1]
            simp
          | cons e es =>
            have he : o = e := List.head_eq_of_cons_eq f2
            exact hoa (by rw [f1, he]; simp)
  -- the capture of a match at the opening delimiter
  have hcap : ∀ y, Matches (reRegex (a.map Regex.char))
      (MState.start pre.length ((pre ++ o :: (s ++ c :: post)).drop pre.length)) y →
      y.caps 1 = some s ∧ pre.length < y.pos := by
    intro y hy
    obtain ⟨o', w, c1, b, d, t, h1, _, h3, h4, h5, h6, h7, h8⟩ := re_inv_next hy
    simp only [MState.start] at h1 h7
    rw [hdrop] at h1
    refine ⟨?_, h7⟩
    rw [h6]
    congr 1
    have h2 : s ++ c :: post = w ++ (c1 ++ (a ++ (b ++ d :: t))) := List.tail_eq_of_cons_eq h1
    have hsne : s ≠ [] := by
      intro h
      rw [h] at hsplit
      have := congrArg List.length hsplit
      simp at this
      exact ha (List.length_eq_zero.1 (by omega))
    have hw : w = [] := by
      cases w with
      | nil => rfl
      | cons e es =>
        cases s with
        | nil => exact absurd rfl hsne
        | cons s0 ss =>
          have he : s0 = e := List.head_eq_of_cons_eq h2
          have := h3 e (List.mem_cons_self _ _)
          rw [← he, (hplain s0 (List.mem_cons_self _ _)).2.1] at this
          cases this
    subst hw
    have h2' : s ++ c :: post = (c1 ++ (a ++ b)) ++ d :: t := by rw [h2]; simp
    have hcab : c ∉ a ++ b := by
      intro h
      rcases List.mem_append.1 h with h | h
      · exact (hplain c (hamem c h)).1 hc2
      · exact h5 c h hc2
    rcases List.append_eq_append_iff.1 h2' with ⟨a', e1, e2⟩ | ⟨c', e1, e2⟩
    · cases a' with
      | nil => simpa using e1
      | cons e a'' =>
        exfalso
        have he : c = e := List.head_eq_of_cons_eq e2
        subst he
        have e3 : post = a'' ++ d :: t := List.tail_eq_of_cons_eq e2
        rcases List.append_eq_append_iff.1 e1 with ⟨x', f1, f2⟩ | ⟨y', f1, f2⟩
        · exact hcab (by rw [f2]; simp)
        · cases y' with
          | nil =>
            rw [List.nil_append] at f2
            exact hcab (by rw [← f2]; exact List.mem_cons_self _ _)
          | cons e r1 =>
            have he : c = e := List.head_eq_of_cons_eq f2
            subst he
            have f3 : a'' = r1 ++ (a ++ b) := List.tail_eq_of_cons_eq f2
            have hrun : (c :: r1 ++ a) <+:
                (c :: post).takeWhile (fun d => !class1.contains d) := by
              have e4 : c :: post = (c :: r1 ++ a) ++ (b ++ d :: t) := by
                rw [e3, f3]; simp
              rw [e4]
              apply prefix_takeWhile
              intro x hx
              have hx1 : x ∉ class1 := by
                rcases List.mem_append.1 hx with hx | hx
                · exact h4 x (by rw [f1]; exact List.mem_append_right _ hx)
                · exact fun h => (hplain x (hamem x hx)).1 (class1_sub_class2 h)
              simpa using hx1
            obtain ⟨rr, hrr⟩ := hrun
            have := includes_of_append (c :: r1) a rr
            rw [hrr, hbr] at this
            cases this
    · cases c' with
      | nil => simpa using e1.symm
      | cons e es =>
        exfalso
        have he : d = e := List.head_eq_of_cons_eq e2
        subst he
        have hd : d ∈ s := by rw [e1]; simp
        have := stop_not_plain h8
        rw [hs d hd] at this
        cases this
  obtain ⟨mt, y, h1, h2, h3, h4, h5, _⟩ := exec_first (l := 0) (Nat.zero_le _) (by simp) hex hno
  obtain ⟨k1, k2⟩ := hcap y h3
  exact ⟨mt, h1, by rw [h5, k1], by rw [h4]; exact k2⟩

/-- The guard pattern does not match in a capture in which the asset path occurs once, with
no `%` before it. -/
theorem guard_cap {a s : Str} {p : Nat} (huniq : ∀ i, a <+: s.drop i → i = p)
    (hpct : '%' ∉ s.take p) :
    exec (ignoreRegex (a.map Regex.char)) s 0 = none := by
  rw [exec_none]
  rintro j _ hj ⟨y, hy⟩
  obtain ⟨l, r, h1⟩ := ignore_inv hy
  simp only [MState.start] at h1
  have hocc : j + (1 + l.length) = p := by
    apply huniq
    have e : s.drop j = ('%' :: l) ++ (a ++ r) := by rw [h1]; simp
    rw [prefix_drop_add e (by simp; omega)]
    exact List.prefix_append _ _
  apply hpct
  have hjl : j < s.length := by
    by_contra hcon
    rw [List.drop_of_length_le (by omega)] at h1
    cases h1
  rw [List.mem_iff_getElem]
  refine ⟨j, by rw [List.length_take]; omega, ?_⟩
  rw [List.getElem_take]
  have := List.drop_eq_getElem_cons hjl
  rw [h1] at this
  exact (List.head_eq_of_cons_eq this).symm

/-- Without a prepend, the asset path is replaced by the replacement path in a capture in
which it matches once. -/
theorem compose_plain_cap {a value up b : Str}
    (hkey : ∀ c ∈ a, isKeyChar c = true)
    (hcap : ∀ i, dotPrefix a ((up ++ (a ++ b)).drop i) = true → i = up.length)
    (hval : '$' ∉ value) :
    composeReplacement [] a value (up ++ (a ++ b)) = .ok ((up ++ value) ++ b) := by
  have hne := dotUniq_nonempty hcap
  have hlen : 0 < a.length := List.length_pos.2 hne
  unfold composeReplacement
  simp only [List.isEmpty_nil, Bool.not_true, Bool.false_eq_true, if_false, compile_key a hkey]
  obtain ⟨mt, y, h1, h2, h3, h4, h5, h6, h7⟩ := exec_unique
    (r := seqOf (a.map atomOf)) (s := up ++ (a ++ b)) (i := up.length) (e := up.length + a.length)
    (by omega) (by simp only [List.length_append]; omega)
    ⟨_, mk_key (r := b) (by simp only [MState.start, List.drop_left])⟩
    (by
      intro j y hy
      obtain ⟨w, k1, k2, k3, k4, _⟩ := inv_key hy
      simp only [MState.start] at k3 k4
      have hj := hcap j k3
      exact ⟨hj, by rw [k4, hj]⟩)
  rw [replaceAll_single h1 h7, getSubstitution_id _ _ _ _ _ _ hval, h2, h3, List.take_left,
    ← List.drop_drop, List.drop_left, List.drop_left]

/-- The method `rewriteAssetPath` on a text whose first reference to the asset path is `s`,
closed by `"`, `'`, `)` or `>`: every occurrence of `s` is replaced by what
`composeReplacement` makes of it, when the guard does not match in `s`, the pattern finds
nothing behind the opening delimiter in the rewritten text, and the rewritten text has no
source map directive for the asset path. -/
theorem rewrite_first {prepend a value pre s post rep : Str} {o c : Char} (fuel : Nat)
    (ho : o ∈ openers) (hc : c ∈ closers) (ha : a ≠ [])
    (hq : quotedFirst a pre s c post = true) (hin : includes s a = true)
    (hguard : exec (ignoreRegex (a.map Regex.char)) s 0 = none)
    (hcomp : composeReplacement prepend a value s = .ok rep) (hrep : '$' ∉ rep)
    (hnext : exec (reRegex (a.map Regex.char))
      (replaceEvery s rep (pre ++ o :: (s ++ c :: post))) (pre.length + 1) = none)
    (hmap : includes (replaceEvery s rep (pre ++ o :: (s ++ c :: post)))
      ("sourceMappingURL=".toList ++ a) = false) :
    rewriteAssetPath prepend (fuel + 2) (pre ++ o :: (s ++ c :: post)) a value =
      .ok (replaceEvery s rep (pre ++ o :: (s ++ c :: post))) := by
  have hsne : s ≠ [] := by
    intro h
    obtain ⟨j, t, ht⟩ := includes_iff.1 hin
    rw [h] at ht
    simp at ht
    exact ha ht.1
  have hinc : includes (pre ++ o :: (s ++ c :: post)) a = true := by
    obtain ⟨j, t, ht⟩ := includes_iff.1 hin
    rw [includes_iff]
    refine ⟨pre.length + 1 + j, t ++ c :: post, ?_⟩
    have e : pre ++ o :: (s ++ c :: post) = (pre ++ [o]) ++ (s ++ c :: post) := by simp
    have hj : j ≤ s.length := by
      by_contra hcon
      rw [List.drop_of_length_le (by omega)] at ht
      simp at ht
      exact ha ht.1
    rw [e, ← List.drop_drop, show pre.length + 1 = (pre ++ [o]).length from by simp,
      List.drop_left, List.drop_append_of_le_length hj, ← ht]
    simp
  obtain ⟨mt, h1, h2, h3⟩ := first_capture ho hc ha hq hin
  unfold rewriteAssetPath
  simp only [hinc, Bool.not_true, Bool.false_eq_true, if_false, compile_reSource,
    compile_ignoreSource]
  rw [rewriteLoop]
  simp only [h1, h2, hguard, Option.isSome_none, Bool.false_eq_true, if_false, hcomp,
    compile_escaped]
  rw [replaceAll_literal _ hsne hrep, rewriteLoop]
  simp only [exec_none_mono hnext (show pre.length + 1 ≤ mt.stop from h3)]
  exact rewriteSourceMap_noop hmap

/-- The method `rewriteAssetPath` on a text with one occurrence of the asset path, in a
delimited reference: the reference is replaced by what `composeReplacement` makes of the
capture, when the pattern finds nothing behind the opening delimiter in the rewritten text
and the rewritten text has no source map directive for the asset path. -/
theorem rewrite_once {prepend a value pre up tl r : Str} {o : Char} (fuel : Nat)
    (hex : MatchesAt (reRegex (a.map Regex.char)) (pre ++ o :: (up ++ (a ++ tl))) pre.length)
    (huniq : ∀ i, a <+: (pre ++ o :: (up ++ (a ++ tl))).drop i → i = pre.length + 1 + up.length)
    (ho : o ∈ openers) (hup : ∀ d ∈ up, d ∉ class1 ∧ isSpace d = false) (hpct : '%' ∉ up)
    (hcomp : ∀ b rest, tl = b ++ rest → (∀ d ∈ b, d ∉ class2) →
      composeReplacement prepend a value (up ++ (a ++ b)) = .ok (r ++ b))
    (hr : '$' ∉ r) (htl : '$' ∉ tl)
    (hnext : exec (reRegex (a.map Regex.char)) (pre ++ o :: (r ++ tl)) (pre.length + 1) = none)
    (hmap : includes (pre ++ o :: (r ++ tl)) ("sourceMappingURL=".toList ++ a) = false) :
    rewriteAssetPath prepend (fuel + 2) (pre ++ o :: (up ++ (a ++ tl))) a value =
      .ok (pre ++ o :: (r ++ tl)) :=
  rewrite_ref_gen fuel hex huniq ho hup hpct hcomp hr htl
    (fun _ hli => exec_none_mono hnext (by omega)) (rewriteSourceMap_noop hmap)

/-- Replacing every occurrence of a reference that holds the only occurrence of the asset
path replaces that reference. -/
theorem replaceEvery_once {a pre up b rest tpl : Str} {o : Char}
    (huniq : ∀ i, a <+: (pre ++ o :: (up ++ (a ++ (b ++ rest)))).drop i →
      i = pre.length + 1 + up.length)
    (htpl : '$' ∉ tpl) :
    replaceEvery (up ++ (a ++ b)) tpl (pre ++ o :: (up ++ (a ++ (b ++ rest)))) =
      pre ++ o :: (tpl ++ rest) := by
  have hne := uniq_nonempty huniq
  rw [← replaceAll_literal _ (by simp [hne]) htpl, replace_capture huniq htpl]

/-! ## References to a key, without a prepend -/

theorem none_of_isSome {α : Type} {x : Option α} (h : x.isSome = false) : x = none := by
  cases x with
  | none => rfl
  | some _ => cases h

theorem self_occurrence {a : Str} (ha : a ≠ []) : ∀ i, a <+: a.drop i → i = 0 := by
  intro i hi
  have h1 := hi.length_le
  rw [List.length_drop] at h1
  have : 0 < a.length := List.length_pos.2 ha
  omega

theorem self_dotOccurrence {a : Str} (ha : a ≠ []) :
    ∀ i, dotPrefix a (([] ++ (a ++ [])).drop i) = true → i = ([] : Str).length := by
  intro i hi
  have h1 := dotPrefix_length hi
  simp only [List.nil_append, List.append_nil, List.length_drop] at h1
  have : 0 < a.length := List.length_pos.2 ha
  simp only [List.length_nil]
  omega

theorem includes_self (a : Str) : includes a a = true := by
  rw [includes_iff]
  exact ⟨0, [], by simp⟩

theorem quotedFirst_ne_nil {a pre s post : Str} {c : Char} (h : quotedFirst a pre s c post = true) :
    a ≠ [] := by
  rintro rfl
  obtain ⟨_, _, h3, _⟩ := quotedFirst_iff.1 h
  have : includes pre [] = true := by
    rw [includes_iff]
    exact ⟨0, List.nil_prefix⟩
  rw [h3] at this
  cases this

/-- Without a prepend, `rewriteAssetPath` on a text whose first reference to the asset path
is the asset path itself, or whose only occurrence of the asset path is that reference. -/
theorem rewrite_bare {a value pre post : Str} {o c : Char} (fuel : Nat)
    (ho : o ∈ openers) (hc : c ∈ closers)
    (hkey : ∀ d ∈ a, isKeyChar d = true) (hval : '$' ∉ value)
    (hcase : quotedFirst a pre a c post = true ∨
      (dotOccurrences a (pre ++ o :: (a ++ c :: post)) = [pre.length + 1] ∧ '$' ∉ post))
    (hnext : exec (reRegex (a.map Regex.char))
      (replaceEvery a value (pre ++ o :: (a ++ c :: post))) (pre.length + 1) = none)
    (hmap : includes (replaceEvery a value (pre ++ o :: (a ++ c :: post)))
      ("sourceMappingURL=".toList ++ a) = false) :
    rewriteAssetPath [] (fuel + 2) (pre ++ o :: (a ++ c :: post)) a value =
      .ok (replaceEvery a value (pre ++ o :: (a ++ c :: post))) := by
  rcases hcase with hq | ⟨honce, hpost⟩
  · have ha := quotedFirst_ne_nil hq
    apply rewrite_first fuel ho hc ha hq (includes_self a)
      (guard_cap (p := 0) (self_occurrence ha) (by simp)) _ hval hnext hmap
    have := @compose_plain_cap a value [] [] hkey (self_dotOccurrence ha) hval
    simpa using this
  · have hdot := dotUniq_of_occurrences (by simp) honce
    have huniq := uniq_of_dotUniq hdot
    have hR : replaceEvery a value (pre ++ o :: (a ++ c :: post)) =
        pre ++ o :: (value ++ c :: post) := by
      have := @replaceEvery_once a pre [] [] (c :: post) value o (by simpa using huniq) hval
      simpa using this
    rw [hR] at hnext hmap ⊢
    have := @rewrite_once [] a value pre [] (c :: post) value o fuel
      (by
        obtain ⟨y, hy⟩ := @re_exists a (MState.start pre.length
          (o :: ([] ++ (a ++ ([] ++ ([] ++ c :: post)))))) o c [] [] [] post
          rfl ho (by simp) (by simp) (Or.inl rfl) hc
        exact ⟨y, by simpa [MState.start] using hy⟩)
      (by simpa using huniq) ho (by simp) (by simp)
      (by
        intro b rest hb _
        rw [hb] at hdot
        have := @compose_plain a value pre [] b rest o hkey (by simpa using hdot) hval
        simpa using this)
      hval (by simp [hpost, Ne.symm (closer_ne_dollar hc)]) (by simpa using hnext)
      (by simpa using hmap)
    simpa using this

/-- C1 (amended). With no prepend configured, for an asset map with distinct keys and
no own key `hasOwnProperty`, take a text in which the key stands as a whole reference
between an opening and a closing delimiter, such that either the closing delimiter is one
of `"`, `'`, `)`, `>`, the key is made of plain characters and occurs neither before the
reference nor between the closing delimiter and the next of `"'()=`, or the key, read as a
pattern, matches nowhere else in the text and no `$` follows the reference. Then
`processString` returns the text with every occurrence of the key replaced by the value,
when: the key is made of pattern characters and dots and the value contains no `$`; in the
rewritten text the pattern of the key finds no reference behind the opening delimiter and
there is no `sourceMappingURL=` directive for the key; the pass for the relative form of
the key leaves the rewritten text unchanged; and the step of every other key leaves
unchanged the text, if the key is tried before, and the rewritten text, if it is tried
after. -/
theorem processString_rewrites_reference (assetMap : AssetMap) (cwd relativePath key value pre post : Str)
    (o c : Char) (fuel : Nat)
    (hnodup : (assetMap.map Prod.fst).Nodup)
    (hown : assetMap.lookup "hasOwnProperty".toList = none)
    (hentry : assetMap.lookup key = some value)
    (ho : o ∈ openers) (hc : c ∈ closers)
    (hkey : ∀ d ∈ key, isKeyChar d = true) (hval : '$' ∉ value)
    (hcase : quotedFirst key pre key c post = true ∨
      (dotOccurrences key (pre ++ o :: (key ++ c :: post)) = [pre.length + 1] ∧ '$' ∉ post))
    (hnext : (exec (reRegex (key.map Regex.char))
      (replaceEvery key value (pre ++ o :: (key ++ c :: post))) (pre.length + 1)).isSome = false)
    (hmap : includes (replaceEvery key value (pre ++ o :: (key ++ c :: post)))
      ("sourceMappingURL=".toList ++ key) = false)
    (hrel : rewriteAssetPath [] (fuel + 2) (replaceEvery key value (pre ++ o :: (key ++ c :: post)))
      (relativeForm cwd relativePath key) (relativeForm cwd relativePath value) =
      .ok (replaceEvery key value (pre ++ o :: (key ++ c :: post))))
    (hothers : ∀ k ∈ assetMap.map Prod.fst, k ≠ key →
      (key.length ≤ k.length → processKey assetMap [] cwd (fuel + 2) relativePath
        (pre ++ o :: (key ++ c :: post)) k = .ok (pre ++ o :: (key ++ c :: post))) ∧
      (k.length ≤ key.length → processKey assetMap [] cwd (fuel + 2) relativePath
        (replaceEvery key value (pre ++ o :: (key ++ c :: post))) k =
        .ok (replaceEvery key value (pre ++ o :: (key ++ c :: post))))) :
    processString assetMap [] cwd (fuel + 2) (pre ++ o :: (key ++ c :: post)) relativePath =
      .ok (replaceEvery key value (pre ++ o :: (key ++ c :: post))) :=
  processString_solo key (fuel + 2) (mem_keys_of_lookup hentry) hnodup
    (processKey_ok hown hentry (rewrite_bare fuel ho hc hkey hval hcase (none_of_isSome hnext) hmap)
      (by simpa using hrel)) hothers

set_option maxRecDepth 100000 in
theorem processString_rewrites_reference_witness :
    processString [("foo/bar/widget.js".toList, "blahzorz-1.js".toList),
        ("images/sample.png".toList, "images/fingerprinted-sample.png".toList)] [] "/srv".toList 2
      "<script src=\"foo/bar/widget.js\"></script><a href=\"foo/bar/widget.js\">".toList
      "index.html".toList =
      .ok "<script src=\"blahzorz-1.js\"></script><a href=\"blahzorz-1.js\">".toList :=
  (processString_rewrites_reference [("foo/bar/widget.js".toList, "blahzorz-1.js".toList),
        ("images/sample.png".toList, "images/fingerprinted-sample.png".toList)]
    "/srv".toList "index.html".toList "foo/bar/widget.js".toList "blahzorz-1.js".toList
    "<script src=".toList "></script><a href=\"foo/bar/widget.js\">".toList '"' '"' 0
    (by decide!) (by decide!) (by decide!) (by decide!) (by decide!) (by decide!) (by decide!)
    (Or.inl (by decide!)) (by decide!) (by decide!) (by decide!) (by decide!)).trans
    (congrArg Except.ok (by decide!))

/-- C1 (counterexample). Inputs on which `processString`, with no prepend, does not return
the text with the key replaced by the value and every other character unchanged.
With `app.js -> dist/app.js`, the reference `"app.js"` in `index.html` becomes
`dist/dist/app.js`: the relative form of the key is the key itself and the second pass
rewrites the value again. With two keys referenced, both references are rewritten. With a
second own key `hasOwnProperty`, the call throws a `TypeError`. In
`"x/aaaaaaaaaa.js" "aaaaaaaaaa.js"` the whole reference is left as it is: the text gets
shorter when an earlier reference is rewritten and the search goes on behind it. In
`"app.js" "app.js"` of `x/index.html` both references become `dist/dist/app.js`: the search
goes on in the rewritten text. A directive `sourceMappingURL=a.map` is rewritten twice with
the value `a.map.gz`. A `$&` between the key and the closing delimiter, or in the value, is
read as a replacement pattern. A key that is no pattern, `c++.js`, makes the call throw a
`SyntaxError`. -/
theorem processString_rewrites_reference_counterexample :
    (processString [("app.js".toList, "dist/app.js".toList)] [] "/srv".toList 10
        "<script src=\"app.js\">".toList "index.html".toList =
      .ok "<script src=\"dist/dist/app.js\">".toList ∧
    processString [("app.js".toList, "dist/app.js".toList)] [] "/srv".toList 10
        "<script src=\"app.js\">".toList "index.html".toList ≠
      .ok "<script src=\"dist/app.js\">".toList) ∧
    processString [("a.js".toList, "x.js".toList), ("b.js".toList, "y.js".toList)] [] "/srv".toList 10
        "<script src=\"a.js\"></script><script src=\"b.js\">".toList "x/index.html".toList =
      .ok "<script src=\"x.js\"></script><script src=\"y.js\">".toList ∧
    processString [("app.js".toList, "app-1.js".toList), ("hasOwnProperty".toList, "x.js".toList)]
        [] "/srv".toList 10 "<script src=\"app.js\">".toList "x/index.html".toList =
      .error .typeError ∧
    processString [("aaaaaaaaaa.js".toList, "a.js".toList)] [] "/srv".toList 10
        "\"x/aaaaaaaaaa.js\" \"aaaaaaaaaa.js\"".toList "x/index.html".toList =
      .ok "\"x/a.js\" \"aaaaaaaaaa.js\"".toList ∧
    processString [("app.js".toList, "dist/app.js".toList)] [] "/srv".toList 10
        "\"app.js\" \"app.js\"".toList "x/index.html".toList =
      .ok "\"dist/dist/app.js\" \"dist/dist/app.js\"".toList ∧
    processString [("a.map".toList, "a.map.gz".toList)] [] "/srv".toList 10
        "\"a.map\" //# sourceMappingURL=a.map".toList "x/index.js".toList =
      .ok "\"a.map.gz\" //# sourceMappingURL=a.map.gz.gz".toList ∧
    processString [("k.js".toList, "v.js".toList)] [] "/srv".toList 10
        "<a href=k.js $&>".toList "x/index.html".toList =
      .ok "<a href=v.js k.js $&>".toList ∧
    processString [("a.js".toList, "b$&.js".toList)] [] "/srv".toList 10
        "<script src=\"a.js\">".toList "x/index.html".toList =
      .ok "<script src=\"ba.js.js\">".toList ∧
    processString [("c++.js".toList, "c-1.js".toList)] [] "/srv".toList 10
        "<script src=\"c++.js\">".toList "x/index.html".toList = .error .syntaxError := by
  refine ⟨⟨rfl, ?_⟩, rfl, rfl, rfl, rfl, rfl, rfl, rfl, rfl⟩
  intro h
  have e : processString [("app.js".toList, "dist/app.js".toList)] [] "/srv".toList 10
      "<script src=\"app.js\">".toList "index.html".toList =
    .ok "<script src=\"dist/dist/app.js\">".toList := rfl
  rw [e] at h
  exact absurd (Except.ok.inj h) (by decide)

/-! ## References with a fragment -/

theorem composed_dollar {prepend value : Str} (hP : '$' ∉ prepend) (hv : '$' ∉ value) :
    '$' ∉ composed prepend value := by
  unfold composed
  split
  · exact hv
  · intro h
    rcases List.mem_append.1 h with h | h
    · exact hP h
    · exact hv (stripLeading_mem h)

theorem head_dotOccurrence {a t : Str} (ha : a ≠ []) (h : dotOccurrences a (a ++ t) = [0]) :
    ∀ i, dotPrefix a (([] ++ (a ++ t)).drop i) = true → i = ([] : Str).length := by
  have := dotUniq_of_occurrences (by simp [ha]) h
  simpa using this

/-- What `composeReplacement` makes of a capture that starts with the asset path, which
matches nowhere else in it: the asset path becomes the replacement path or, with a
prepend, the prepend and the replacement path without its leading relative markers. -/
theorem compose_head {prepend a value t : Str}
    (hkey : ∀ d ∈ a, isKeyChar d = true) (hval : '$' ∉ value)
    (hvl : prepend ≠ [] → ∀ d ∈ value, isLineTerminator d = false)
    (hcap : ∀ i, dotPrefix a (([] ++ (a ++ t)).drop i) = true → i = ([] : Str).length) :
    composeReplacement prepend a value (a ++ t) = .ok (composed prepend value ++ t) := by
  cases prepend with
  | nil =>
    have := @compose_plain_cap a value [] t hkey hcap hval
    simpa [composed] using this
  | cons p ps =>
    have := @compose_prepend_bare (p :: ps) a value [] t (by simp) (by simp) (by simp) hkey hcap
      (hvl (by simp))
    simpa [composed] using this

/-- The method `rewriteAssetPath` on a text in which the asset path, followed by `t`,
stands behind an opening delimiter, when that is the first reference to the asset path or
its only occurrence in the text. -/
theorem rewrite_tail {prepend a value pre t post : Str} {o c : Char} (fuel : Nat)
    (ho : o ∈ openers) (hc : c ∈ closers)
    (hkey : ∀ d ∈ a, isKeyChar d = true) (hPd : '$' ∉ prepend) (hval : '$' ∉ value)
    (hvl : prepend ≠ [] → ∀ d ∈ value, isLineTerminator d = false) (ht : '$' ∉ t)
    (hcase : (quotedFirst a pre (a ++ t) c post = true ∧ dotOccurrences a (a ++ t) = [0]) ∨
      (dotOccurrences a (pre ++ o :: (a ++ (t ++ c :: post))) = [pre.length + 1] ∧
        (∀ d ∈ t, d ∉ class2) ∧ '$' ∉ post))
    (hnext : exec (reRegex (a.map Regex.char))
      (replaceEvery (a ++ t) (composed prepend value ++ t) (pre ++ o :: (a ++ (t ++ c :: post))))
      (pre.length + 1) = none)
    (hmap : includes
      (replaceEvery (a ++ t) (composed prepend value ++ t) (pre ++ o :: (a ++ (t ++ c :: post))))
      ("sourceMappingURL=".toList ++ a) = false) :
    rewriteAssetPath prepend (fuel + 2) (pre ++ o :: (a ++ (t ++ c :: post))) a value =
      .ok (replaceEvery (a ++ t) (composed prepend value ++ t)
        (pre ++ o :: (a ++ (t ++ c :: post)))) := by
  have hrep : '$' ∉ composed prepend value ++ t := by
    intro h
    rcases List.mem_append.1 h with h | h
    · exact composed_dollar hPd hval h
    · exact ht h
  rcases hcase with ⟨hq, hocc⟩ | ⟨honce, htc, hpost⟩
  · have ha := quotedFirst_ne_nil hq
    have hcap := head_dotOccurrence ha hocc
    have e : pre ++ o :: (a ++ (t ++ c :: post)) = pre ++ o :: ((a ++ t) ++ c :: post) := by simp
    rw [e] at hnext hmap ⊢
    exact rewrite_first fuel ho hc ha hq (by simpa using includes_of_append [] a t)
      (guard_cap (p := 0) (by simpa using uniq_of_dotUniq hcap) (by simp))
      (compose_head hkey hval hvl hcap) hrep hnext hmap
  · have hdot := dotUniq_of_occurrences (by simp) honce
    have huniq := uniq_of_dotUniq hdot
    have hR : replaceEvery (a ++ t) (composed prepend value ++ t)
        (pre ++ o :: (a ++ (t ++ c :: post))) =
        pre ++ o :: ((composed prepend value ++ t) ++ c :: post) := by
      have := @replaceEvery_once a pre [] t (c :: post) (composed prepend value ++ t) o
        (by simpa using huniq) hrep
      simpa using this
    rw [hR] at hnext hmap ⊢
    have := @rewrite_once prepend a value pre [] (t ++ c :: post) (composed prepend value) o fuel
      (by
        obtain ⟨y, hy⟩ := @re_exists a (MState.start pre.length
          (o :: ([] ++ (a ++ (t ++ ([] ++ c :: post)))))) o c [] t [] post
          rfl ho (by simp) htc (Or.inl rfl) hc
        exact ⟨y, by simpa [MState.start] using hy⟩)
      (by simpa using huniq) ho (by simp) (by simp)
      (by
        intro b rest hb _
        have hd : ∀ i, dotPrefix a (([] ++ (a ++ b)).drop i) = true → i = ([] : Str).length := by
          intro i hi
          have := hdot (pre.length + 1 + i) (by
            have e : pre ++ o :: (a ++ (t ++ c :: post)) = (pre ++ [o]) ++ ((a ++ b) ++ rest) := by
              rw [hb]; simp
            rw [e, ← List.drop_drop, show pre.length + 1 = (pre ++ [o]).length from by simp,
              List.drop_left]
            by_cases hle : i ≤ (a ++ b).length
            · rw [List.drop_append_of_le_length hle]
              exact dotPrefix_append _ (by simpa using hi)
            · exfalso
              rw [List.nil_append, List.drop_of_length_le (by omega)] at hi
              have hne := dotUniq_nonempty hdot
              cases a with
              | nil => exact hne rfl
              | cons k ks => simp [dotPrefix] at hi)
          simp only [List.length_nil]
          omega
        exact compose_head hkey hval hvl hd)
      (composed_dollar hPd hval)
      (by simp [ht, hpost, Ne.symm (closer_ne_dollar hc)])
      (by simpa using hnext) (by simpa using hmap)
    simpa using this

/-- C8 (amended). For an asset map with distinct keys and no own key `hasOwnProperty`,
take a text in which the key, followed by a fragment (a `#` and more characters) and a
closing delimiter, stands behind an opening delimiter, such that either the closing
delimiter is one of `"`, `'`, `)`, `>`, key and fragment are made of plain characters, the
key occurs neither before the reference nor between the closing delimiter and the next of
`"'()=`, and the key, read as a pattern, matches nowhere in the fragment; or the key, read
as a pattern, matches nowhere else in the text, the fragment has none of `"'()>=` and no
`$` follows the reference. Then `processString` returns the text with every occurrence
of the reference replaced by the value and the same fragment or, with a prepend, by the
prepend, the value without its leading relative markers and the same fragment, when: the
key is made of pattern characters and dots; the prepend, the value and the fragment contain
no `$` and, with a prepend, the value has no line terminator; in the rewritten text the
pattern of the key finds no reference behind the opening delimiter and there is no
`sourceMappingURL=` directive for the key; the pass for the relative form of the key leaves
the rewritten text unchanged; and the step of every other key leaves unchanged the text, if
the key is tried before, and the rewritten text, if it is tried after. -/
theorem processString_keeps_fragment (assetMap : AssetMap) (prepend cwd relativePath key value pre fs post : Str)
    (o c : Char) (fuel : Nat)
    (hnodup : (assetMap.map Prod.fst).Nodup)
    (hown : assetMap.lookup "hasOwnProperty".toList = none)
    (hentry : assetMap.lookup key = some value)
    (hPd : '$' ∉ prepend) (ho : o ∈ openers) (hc : c ∈ closers)
    (hkey : ∀ d ∈ key, isKeyChar d = true)
    (hval : '$' ∉ value) (hvl : prepend ≠ [] → ∀ d ∈ value, isLineTerminator d = false)
    (hfd : '$' ∉ fs)
    (hcase : (quotedFirst key pre (key ++ '#' :: fs) c post = true ∧
        dotOccurrences key (key ++ '#' :: fs) = [0]) ∨
      (dotOccurrences key (pre ++ o :: (key ++ ('#' :: fs ++ c :: post))) = [pre.length + 1] ∧
        (∀ d ∈ fs, d ∉ class2) ∧ '$' ∉ post))
    (hnext : (exec (reRegex (key.map Regex.char))
      (replaceEvery (key ++ '#' :: fs) (composed prepend value ++ '#' :: fs)
        (pre ++ o :: (key ++ ('#' :: fs ++ c :: post)))) (pre.length + 1)).isSome = false)
    (hmap : includes
      (replaceEvery (key ++ '#' :: fs) (composed prepend value ++ '#' :: fs)
        (pre ++ o :: (key ++ ('#' :: fs ++ c :: post))))
      ("sourceMappingURL=".toList ++ key) = false)
    (hrel : rewriteAssetPath prepend (fuel + 2)
      (replaceEvery (key ++ '#' :: fs) (composed prepend value ++ '#' :: fs)
        (pre ++ o :: (key ++ ('#' :: fs ++ c :: post))))
      (relativeForm cwd relativePath key)
      (if !prepend.isEmpty then value else relativeForm cwd relativePath value) =
      .ok (replaceEvery (key ++ '#' :: fs) (composed prepend value ++ '#' :: fs)
        (pre ++ o :: (key ++ ('#' :: fs ++ c :: post)))))
    (hothers : ∀ k ∈ assetMap.map Prod.fst, k ≠ key →
      (key.length ≤ k.length → processKey assetMap prepend cwd (fuel + 2) relativePath
        (pre ++ o :: (key ++ ('#' :: fs ++ c :: post))) k =
        .ok (pre ++ o :: (key ++ ('#' :: fs ++ c :: post)))) ∧
      (k.length ≤ key.length → processKey assetMap prepend cwd (fuel + 2) relativePath
        (replaceEvery (key ++ '#' :: fs) (composed prepend value ++ '#' :: fs)
          (pre ++ o :: (key ++ ('#' :: fs ++ c :: post)))) k =
        .ok (replaceEvery (key ++ '#' :: fs) (composed prepend value ++ '#' :: fs)
          (pre ++ o :: (key ++ ('#' :: fs ++ c :: post)))))) :
    processString assetMap prepend cwd (fuel + 2)
      (pre ++ o :: (key ++ ('#' :: fs ++ c :: post))) relativePath =
      .ok (replaceEvery (key ++ '#' :: fs) (composed prepend value ++ '#' :: fs)
        (pre ++ o :: (key ++ ('#' :: fs ++ c :: post)))) :=
  processString_solo key (fuel + 2) (mem_keys_of_lookup hentry) hnodup
    (processKey_ok hown hentry
      (rewrite_tail fuel ho hc hkey hPd hval hvl (by simp [hfd])
        (hcase.imp id (fun h => ⟨h.1, fun d hd => by
          rcases List.mem_cons.1 hd with rfl | hd
          · decide
          · exact h.2.1 d hd, h.2.2⟩))
        (none_of_isSome hnext) hmap)
      hrel) hothers

set_option maxRecDepth 100000 in
theorem processString_keeps_fragment_witness :
    processString [("images/defs.svg".toList, "images/fingerprinted-defs.svg".toList)]
        "https://cloudfront.net/".toList "/srv".toList 2
        "<use xlink:href=\"images/defs.svg#icon-arrow\"></use>".toList "index.html".toList =
      .ok ("<use xlink:href=\"https://cloudfront.net/images/fingerprinted-defs.svg#icon-arrow\">" ++
        "</use>").toList ∧
    processString [("images/defs.svg".toList, "defs-abc123.svg".toList)] [] "/srv".toList 2
        "<use href=images/defs.svg#icon-arrow ></use>".toList "index.html".toList =
      .ok "<use href=defs-abc123.svg#icon-arrow ></use>".toList ∧
    processString [("dont/fingerprint/me.svg".toList, "dont/fingerprint/me.svg".toList)]
        "https://cloudfront.net/".toList "/srv".toList 2
        "<use href=\"dont/fingerprint/me.svg#a\">".toList "index.html".toList =
      .ok "<use href=\"https://cloudfront.net/dont/fingerprint/me.svg#a\">".toList :=
  ⟨(processString_keeps_fragment [("images/defs.svg".toList, "images/fingerprinted-defs.svg".toList)]
    "https://cloudfront.net/".toList "/srv".toList "index.html".toList "images/defs.svg".toList
    "images/fingerprinted-defs.svg".toList "<use xlink:href=".toList "icon-arrow".toList
    "></use>".toList '"' '"' 0
    (by decide!) (by decide!) (by decide!) (by decide!) (by decide!) (by decide!) (by decide!)
    (by decide!) (by decide!) (by decide!) (Or.inl (by decide!)) (by decide!) (by decide!)
    (by decide!) (by decide!)).trans (congrArg Except.ok (by decide!)),
   (processString_keeps_fragment [("images/defs.svg".toList, "defs-abc123.svg".toList)]
    [] "/srv".toList "index.html".toList "images/defs.svg".toList
    "defs-abc123.svg".toList "<use href".toList "icon-arrow".toList
    "></use>".toList '=' ' ' 0
    (by decide!) (by decide!) (by decide!) (by decide!) (by decide!) (by decide!) (by decide!)
    (by decide!) (by decide!) (by decide!) (Or.inr (by decide!)) (by decide!) (by decide!)
    (by decide!) (by decide!)).trans (congrArg Except.ok (by decide!)),
   (processString_keeps_fragment
    [("dont/fingerprint/me.svg".toList, "dont/fingerprint/me.svg".toList)]
    "https://cloudfront.net/".toList "/srv".toList "index.html".toList
    "dont/fingerprint/me.svg".toList "dont/fingerprint/me.svg".toList "<use href=".toList
    "a".toList ">".toList '"' '"' 0
    (by decide!) (by decide!) (by decide!) (by decide!) (by decide!) (by decide!) (by decide!)
    (by decide!) (by decide!) (by decide!) (Or.inl (by decide!)) (by decide!) (by decide!)
    (by decide!) (by decide!)).trans (congrArg Except.ok (by decide!))⟩

/-- C8 (counterexample). Inputs on which `processString` does not turn a reference made of
the key and a fragment into the value (behind the prepend, if there is one) and the same
fragment. With the value `/defs-abc123.svg` and the prepend `https://cdn/` the leading
slash of the value is dropped. In `d.svg#d.svg` the fragment is rewritten too, and so is a
fragment that holds another key. With a second own key `hasOwnProperty` the call throws a
`TypeError`. With `defs.svg -> img/defs.svg` in `index.html` the pass for the relative
form, which is the key itself, rewrites the value again. In
`"x/dddddddddd.svg#a" "dddddddddd.svg#b"` the second reference is left as it is: the text
gets shorter and the search goes on behind it. In `"d.svg#a" "d.svg#a"` with the value
`x/d.svg` both references are rewritten twice. A directive `sourceMappingURL=a.map#x` is
rewritten twice with the value `a.map.gz`. A `$&` in the fragment, in the value or in the
prepend is read as a replacement pattern. With a prepend, a value with a line feed makes
the call throw a `TypeError`. The key `d+.svg`, read as a pattern, does not match the
reference, which is left as it is. -/
theorem processString_keeps_fragment_counterexample :
    (processString [("images/defs.svg".toList, "/defs-abc123.svg".toList)] "https://cdn/".toList
        "/srv".toList 10 "<use href=\"images/defs.svg#icon-arrow\">".toList "index.html".toList =
      .ok "<use href=\"https://cdn/defs-abc123.svg#icon-arrow\">".toList ∧
    processString [("images/defs.svg".toList, "/defs-abc123.svg".toList)] "https://cdn/".toList
        "/srv".toList 10 "<use href=\"images/defs.svg#icon-arrow\">".toList "index.html".toList ≠
      .ok "<use href=\"https://cdn//defs-abc123.svg#icon-arrow\">".toList) ∧
    (processString [("d.svg".toList, "d-1.svg".toList)] [] "/srv".toList 10
        "<use href=\"d.svg#d.svg\">".toList "index.html".toList =
      .ok "<use href=\"d-1.svg#d-1.svg\">".toList ∧
    processString [("d.svg".toList, "d-1.svg".toList)] [] "/srv".toList 10
        "<use href=\"d.svg#d.svg\">".toList "index.html".toList ≠
      .ok "<use href=\"d-1.svg#d.svg\">".toList) ∧
    processString [("defs.svg".toList, "defs-1.svg".toList), ("icon.svg".toList, "icon-1.svg".toList)]
        [] "/srv".toList 10 "<use href=\"defs.svg#icon.svg\">".toList "x/index.html".toList =
      .ok "<use href=\"defs-1.svg#icon-1.svg\">".toList ∧
    processString [("d.svg".toList, "d-1.svg".toList), ("hasOwnProperty".toList, "x".toList)]
        [] "/srv".toList 10 "\"d.svg#a\"".toList "x/index.html".toList = .error .typeError ∧
    processString [("defs.svg".toList, "img/defs.svg".toList)] [] "/srv".toList 10
        "<use href=\"defs.svg#a\">".toList "index.html".toList =
      .ok "<use href=\"img/img/defs.svg#a\">".toList ∧
    processString [("dddddddddd.svg".toList, "d.svg".toList)] [] "/srv".toList 10
        "\"x/dddddddddd.svg#a\" \"dddddddddd.svg#b\"".toList "x/index.html".toList =
      .ok "\"x/d.svg#a\" \"dddddddddd.svg#b\"".toList ∧
    processString [("d.svg".toList, "x/d.svg".toList)] [] "/srv".toList 10
        "\"d.svg#a\" \"d.svg#a\"".toList "x/index.html".toList =
      .ok "\"x/x/d.svg#a\" \"x/x/d.svg#a\"".toList ∧
    processString [("a.map".toList, "a.map.gz".toList)] [] "/srv".toList 10
        "\"a.map#x\" //# sourceMappingURL=a.map#x".toList "x/index.js".toList =
      .ok "\"a.map.gz#x\" //# sourceMappingURL=a.map.gz.gz#x".toList ∧
    processString [("d.svg".toList, "d-1.svg".toList)] [] "/srv".toList 10
        "\"d.svg#$&\"".toList "x/index.html".toList =
      .ok "\"d-1.svg#d.svg#$&\"".toList ∧
    processString [("d.svg".toList, "d$&.svg".toList)] [] "/srv".toList 10
        "\"d.svg#a\"".toList "x/index.html".toList =
      .ok "\"dd.svg.svg#a\"".toList ∧
    processString [("d.svg".toList, "d-1.svg".toList)] "$&/".toList "/srv".toList 10
        "\"d.svg#a\"".toList "x/index.html".toList =
      .ok "\"d.svg#a/d-1.svg#a\"".toList ∧
    processString [("d.svg".toList, "d\n1.svg".toList)] "https://cdn/".toList "/srv".toList 10
        "\"d.svg#a\"".toList "x/index.html".toList = .error .typeError ∧
    processString [("d+.svg".toList, "d-1.svg".toList)] [] "/srv".toList 10
        "\"d+.svg#a\"".toList "x/index.html".toList =
      .ok "\"d+.svg#a\"".toList := by
  refine ⟨⟨rfl, ?_⟩, ⟨rfl, ?_⟩, rfl, rfl, rfl, rfl, rfl, rfl, rfl, rfl, rfl, rfl, rfl⟩
  · intro h
    have e : processString [("images/defs.svg".toList, "/defs-abc123.svg".toList)]
        "https://cdn/".toList "/srv".toList 10
        "<use href=\"images/defs.svg#icon-arrow\">".toList "index.html".toList =
      .ok "<use href=\"https://cdn/defs-abc123.svg#icon-arrow\">".toList := rfl
    rw [e] at h
    exact absurd (Except.ok.inj h) (by decide)
  · intro h
    have e : processString [("d.svg".toList, "d-1.svg".toList)] [] "/srv".toList 10
        "<use href=\"d.svg#d.svg\">".toList "index.html".toList =
      .ok "<use href=\"d-1.svg#d-1.svg\">".toList := rfl
    rw [e] at h
    exact absurd (Except.ok.inj h) (by decide)

/-! ## References written relative to the file -/

/-- Without a prepend, `rewriteAssetPath` on a text in which the asset path, behind a run
of dots and slashes, stands between an opening and a closing delimiter, when that is the
first reference to the asset path or its only occurrence in the text. -/
theorem rewrite_marked {a value pre u post : Str} {o c : Char} (fuel : Nat)
    (ho : o ∈ openers) (hc : c ∈ closers) (hu : ∀ d ∈ u, d = '.' ∨ d = '/')
    (hkey : ∀ d ∈ a, isKeyChar d = true) (hval : '$' ∉ value)
    (hcase : (quotedFirst a pre (u ++ a) c post = true ∧ dotOccurrences a (u ++ a) = [u.length]) ∨
      (dotOccurrences a (pre ++ o :: ((u ++ a) ++ c :: post)) = [pre.length + 1 + u.length] ∧
        '$' ∉ post))
    (hnext : exec (reRegex (a.map Regex.char))
      (replaceEvery (u ++ a) (u ++ value) (pre ++ o :: ((u ++ a) ++ c :: post)))
      (pre.length + 1) = none)
    (hmap : includes
      (replaceEvery (u ++ a) (u ++ value) (pre ++ o :: ((u ++ a) ++ c :: post)))
      ("sourceMappingURL=".toList ++ a) = false) :
    rewriteAssetPath [] (fuel + 2) (pre ++ o :: ((u ++ a) ++ c :: post)) a value =
      .ok (replaceEvery (u ++ a) (u ++ value) (pre ++ o :: ((u ++ a) ++ c :: post))) := by
  obtain ⟨hu1, hu2, hu3⟩ := markers_class hu
  have hrep : '$' ∉ u ++ value := by
    intro h
    rcases List.mem_append.1 h with h | h
    · exact hu3 h
    · exact hval h
  rcases hcase with ⟨hq, hocc⟩ | ⟨honce, hpost⟩
  · have ha := quotedFirst_ne_nil hq
    have hcap := dotUniq_of_occurrences (by simp [ha]) hocc
    have hcap' : ∀ i, dotPrefix a ((u ++ (a ++ [])).drop i) = true → i = u.length := by
      simpa using hcap
    apply rewrite_first fuel ho hc ha hq (by simpa using includes_of_append u a [])
      (guard_cap (p := u.length) (uniq_of_dotUniq hcap) (by simpa using hu2)) _ hrep hnext hmap
    have := @compose_plain_cap a value u [] hkey hcap' hval
    simpa using this
  · have hdot := dotUniq_of_occurrences (by simp) honce
    have hdot' : ∀ i, dotPrefix a ((pre ++ o :: (u ++ (a ++ c :: post))).drop i) = true →
        i = pre.length + 1 + u.length := by
      simpa using hdot
    have huniq := uniq_of_dotUniq hdot'
    have hR : replaceEvery (u ++ a) (u ++ value) (pre ++ o :: ((u ++ a) ++ c :: post)) =
        pre ++ o :: ((u ++ value) ++ c :: post) := by
      have := @replaceEvery_once a pre u [] (c :: post) (u ++ value) o (by simpa using huniq) hrep
      simpa using this
    rw [hR] at hnext hmap ⊢
    have := @rewrite_once [] a value pre u (c :: post) (u ++ value) o fuel
      (by
        obtain ⟨y, hy⟩ := @re_exists a (MState.start pre.length
          (o :: (u ++ (a ++ ([] ++ ([] ++ c :: post)))))) o c u [] [] post
          rfl ho (fun d hd => (hu1 d hd).1) (by simp) (Or.inl rfl) hc
        exact ⟨y, by simpa [MState.start] using hy⟩)
      huniq ho hu1 hu2
      (by
        intro b rest hb _
        rw [hb] at hdot'
        exact compose_plain hkey hdot' hval)
      hrep (by simp [hpost, Ne.symm (closer_ne_dollar hc)]) (by simpa using hnext)
      (by simpa using hmap)
    simpa using this

/-- C6 (amended). With no prepend, for an asset map with distinct keys and no own key
`hasOwnProperty`, take a text in which the relative form of the key (`relative(F, key)`
without a leading `./`) stands between an opening and a closing delimiter. Call *path* the
key in the first case below and the relative form of the key in the second, and say that
the reference is well placed for the path when either the closing delimiter is one of `"`,
`'`, `)`, `>`, the reference is made of plain characters, the path occurs neither before
the reference nor between the closing delimiter and the next of `"'()=`, and the path, read
as a pattern, matches once in the reference; or the path, read as a pattern, matches
nowhere else in the text and no `$` follows the reference. Then `processString` returns
the text with every occurrence of the relative form of the key replaced by the relative
form of the value in each of two cases. Either the relative form of the key is the key
behind a run of dots and slashes and the relative form of the value is the value behind the
same run; the key is made of pattern characters and dots and the value has no `$`; the
reference is well placed for the key; in the rewritten text the pattern of the key finds no
reference behind the opening delimiter and there is no `sourceMappingURL=` directive for
the key; and the pass for the relative form leaves the rewritten text unchanged. Or the
key does not occur in the text; its relative form is made of pattern characters and dots
and the relative form of the value has no `$`; the reference is well placed for the
relative form of the key; and in the rewritten text the pattern of the relative form finds
no reference behind the opening delimiter and there is no `sourceMappingURL=` directive for
it. In both cases the step of every other key leaves unchanged the text, if the key is
tried before, and the rewritten text, if it is tried after. -/
theorem processString_rewrites_relative (assetMap : AssetMap) (cwd relativePath key value pre post : Str)
    (o c : Char) (fuel : Nat)
    (hnodup : (assetMap.map Prod.fst).Nodup)
    (hown : assetMap.lookup "hasOwnProperty".toList = none)
    (hentry : assetMap.lookup key = some value)
    (ho : o ∈ openers) (hc : c ∈ closers)
    (hcase :
      (∃ up : Str, (∀ d ∈ up, d = '.' ∨ d = '/') ∧
        relativeForm cwd relativePath key = up ++ key ∧
        relativeForm cwd relativePath value = up ++ value ∧
        (∀ d ∈ key, isKeyChar d = true) ∧ '$' ∉ value ∧
        ((quotedFirst key pre (relativeForm cwd relativePath key) c post = true ∧
            dotOccurrences key (relativeForm cwd relativePath key) = [up.length]) ∨
          (dotOccurrences key (pre ++ o :: (relativeForm cwd relativePath key ++ c :: post)) =
            [pre.length + 1 + up.length] ∧ '$' ∉ post)) ∧
        (exec (reRegex (key.map Regex.char))
          (replaceEvery (relativeForm cwd relativePath key) (relativeForm cwd relativePath value)
            (pre ++ o :: (relativeForm cwd relativePath key ++ c :: post)))
          (pre.length + 1)).isSome = false ∧
        includes
          (replaceEvery (relativeForm cwd relativePath key) (relativeForm cwd relativePath value)
            (pre ++ o :: (relativeForm cwd relativePath key ++ c :: post)))
          ("sourceMappingURL=".toList ++ key) = false ∧
        rewriteAssetPath [] (fuel + 2)
          (replaceEvery (relativeForm cwd relativePath key) (relativeForm cwd relativePath value)
            (pre ++ o :: (relativeForm cwd relativePath key ++ c :: post)))
          (relativeForm cwd relativePath key) (relativeForm cwd relativePath value) =
          .ok (replaceEvery (relativeForm cwd relativePath key)
            (relativeForm cwd relativePath value)
            (pre ++ o :: (relativeForm cwd relativePath key ++ c :: post)))) ∨
      (includes (pre ++ o :: (relativeForm cwd relativePath key ++ c :: post)) key = false ∧
        (∀ d ∈ relativeForm cwd relativePath key, isKeyChar d = true) ∧
        '$' ∉ relativeForm cwd relativePath value ∧
        (quotedFirst (relativeForm cwd relativePath key) pre (relativeForm cwd relativePath key)
            c post = true ∨
          (dotOccurrences (relativeForm cwd relativePath key)
            (pre ++ o :: (relativeForm cwd relativePath key ++ c :: post)) = [pre.length + 1] ∧
            '$' ∉ post)) ∧
        (exec (reRegex ((relativeForm cwd relativePath key).map Regex.char))
          (replaceEvery (relativeForm cwd relativePath key) (relativeForm cwd relativePath value)
            (pre ++ o :: (relativeForm cwd relativePath key ++ c :: post)))
          (pre.length + 1)).isSome = false ∧
        includes
          (replaceEvery (relativeForm cwd relativePath key) (relativeForm cwd relativePath value)
            (pre ++ o :: (relativeForm cwd relativePath key ++ c :: post)))
          ("sourceMappingURL=".toList ++ relativeForm cwd relativePath key) = false))
    (hothers : ∀ k ∈ assetMap.map Prod.fst, k ≠ key →
      (key.length ≤ k.length → processKey assetMap [] cwd (fuel + 2) relativePath
        (pre ++ o :: (relativeForm cwd relativePath key ++ c :: post)) k =
        .ok (pre ++ o :: (relativeForm cwd relativePath key ++ c :: post))) ∧
      (k.length ≤ key.length → processKey assetMap [] cwd (fuel + 2) relativePath
        (replaceEvery (relativeForm cwd relativePath key) (relativeForm cwd relativePath value)
          (pre ++ o :: (relativeForm cwd relativePath key ++ c :: post))) k =
        .ok (replaceEvery (relativeForm cwd relativePath key)
          (relativeForm cwd relativePath value)
          (pre ++ o :: (relativeForm cwd relativePath key ++ c :: post))))) :
    processString assetMap [] cwd (fuel + 2)
      (pre ++ o :: (relativeForm cwd relativePath key ++ c :: post)) relativePath =
      .ok (replaceEvery (relativeForm cwd relativePath key) (relativeForm cwd relativePath value)
        (pre ++ o :: (relativeForm cwd relativePath key ++ c :: post))) := by
  apply processString_solo key (fuel + 2) (mem_keys_of_lookup hentry) hnodup _ hothers
  rcases hcase with ⟨up, hup, hrk, hrv, hkey, hval, hshape, hnext, hmap, hrel⟩ |
    ⟨hno, hkey, hval, hshape, hnext, hmap⟩
  · refine processKey_ok hown hentry ?_ (by simpa using hrel)
    rw [hrk, hrv] at hnext hmap ⊢
    rw [hrk] at hshape
    exact rewrite_marked fuel ho hc hup hkey hval hshape (none_of_isSome hnext) hmap
  · refine processKey_ok hown hentry (rewriteAssetPath_absent _ hno) ?_
    simp only [List.isEmpty_nil, Bool.not_true, Bool.false_eq_true, if_false]
    exact rewrite_bare fuel ho hc hkey hval hshape (none_of_isSome hnext) hmap

set_option maxRecDepth 100000 in
theorem processString_rewrites_relative_witness :
    processString [("images/sample.png".toList, "images/sample-abc123.png".toList)] [] "/srv".toList 2
        ("a \x7b background: url(../images/sample.png); \x7d " ++
          "b \x7b background: url(../images/sample.png); \x7d").toList "css/app.css".toList =
      .ok ("a \x7b background: url(../images/sample-abc123.png); \x7d " ++
          "b \x7b background: url(../images/sample-abc123.png); \x7d").toList ∧
    processString [("images/a.png".toList, "images/a-1.png".toList)] [] "/srv".toList 2
        "body \x7b background: url(a.png); \x7d".toList "images/app.css".toList =
      .ok "body \x7b background: url(a-1.png); \x7d".toList :=
  ⟨(congrArg (fun t => processString
        [("images/sample.png".toList, "images/sample-abc123.png".toList)] [] "/srv".toList 2 t
        "css/app.css".toList) (by decide!)).trans
    ((processString_rewrites_relative
      [("images/sample.png".toList, "images/sample-abc123.png".toList)]
      "/srv".toList "css/app.css".toList "images/sample.png".toList
      "images/sample-abc123.png".toList
      "a \x7b background: url".toList
      "; \x7d b \x7b background: url(../images/sample.png); \x7d".toList '(' ')' 0
      (by decide!) (by decide!) (by decide!) (by decide!) (by decide!)
      (Or.inl ⟨"../".toList, by decide!, by decide!, by decide!, by decide!, by decide!,
        Or.inl (by decide!), by decide!, by decide!, by decide!⟩)
      (by decide!)).trans (congrArg Except.ok (by decide!))),
   (congrArg (fun t => processString
        [("images/a.png".toList, "images/a-1.png".toList)] [] "/srv".toList 2 t
        "images/app.css".toList) (by decide!)).trans
    ((processString_rewrites_relative [("images/a.png".toList, "images/a-1.png".toList)]
      "/srv".toList "images/app.css".toList "images/a.png".toList "images/a-1.png".toList
      "body \x7b background: url".toList "; \x7d".toList '(' ')' 0
      (by decide!) (by decide!) (by decide!) (by decide!) (by decide!)
      (Or.inr ⟨by decide!, by decide!, by decide!, Or.inl (by decide!), by decide!, by decide!⟩)
      (by decide!)).trans (congrArg Except.ok (by decide!)))⟩

/-- C6 (counterexample). Inputs on which `processString`, with no prepend, does not turn a
reference written as the relative form of the key into the relative form of the value.
With `images/a.png -> css/a-1.png` the reference `../images/a.png` of `css/app.css`
becomes `../css/a-1.png` and not `a-1.png`: the first pass replaces the key inside the
reference. With a second own key `hasOwnProperty` the call throws a `TypeError`. With
`a.png -> img/a.png` in `index.html` the relative form of the key is the key and the
second pass rewrites the value again. With a second entry `b.png -> z.png` the value
`images/b.png` is rewritten by the step of that key. With the value `images/a.png.gz` and
two references the search goes on in the rewritten text and rewrites both again, as does
the second pass. A `$&` between the reference and the closing delimiter, or in the value,
is read as a replacement pattern. The key `images/a+.png`, read as a pattern, does not
match the reference, which is left as it is. -/
theorem processString_rewrites_relative_counterexample :
    relativeForm "/srv".toList "css/app.css".toList "images/a.png".toList = "../images/a.png".toList ∧
    relativeForm "/srv".toList "css/app.css".toList "css/a-1.png".toList = "a-1.png".toList ∧
    (processString [("images/a.png".toList, "css/a-1.png".toList)] [] "/srv".toList 10
        "a \x7b background: url(../images/a.png); \x7d".toList "css/app.css".toList =
      .ok "a \x7b background: url(../css/a-1.png); \x7d".toList ∧
    processString [("images/a.png".toList, "css/a-1.png".toList)] [] "/srv".toList 10
        "a \x7b background: url(../images/a.png); \x7d".toList "css/app.css".toList ≠
      .ok "a \x7b background: url(a-1.png); \x7d".toList) ∧
    processString [("images/a.png".toList, "images/a-1.png".toList),
        ("hasOwnProperty".toList, "x".toList)] [] "/srv".toList 10
        "url(../images/a.png)".toList "css/app.css".toList = .error .typeError ∧
    processString [("a.png".toList, "img/a.png".toList)] [] "/srv".toList 10
        "<img src=\"a.png\">".toList "index.html".toList =
      .ok "<img src=\"img/img/a.png\">".toList ∧
    processString [("images/a.png".toList, "images/b.png".toList), ("b.png".toList, "z.png".toList)]
        [] "/srv".toList 10 "url(../images/a.png)".toList "css/app.css".toList =
      .ok "url(../images/z.png)".toList ∧
    processString [("images/a.png".toList, "images/a.png.gz".toList)] [] "/srv".toList 10
        "url(../images/a.png) url(../images/a.png)".toList "css/app.css".toList =
      .ok "url(../images/a.png.gz.gz.gz.gz) url(../images/a.png.gz.gz.gz.gz)".toList ∧
    processString [("images/a.png".toList, "images/a-1.png".toList)] [] "/srv".toList 10
        "url(../images/a.png $&)".toList "css/app.css".toList =
      .ok ("url(../images/a-1.png ../images/a-1.png ../images/a-1.png " ++
        "../images/a.png $&)").toList ∧
    processString [("images/a.png".toList, "images/a$&.png".toList)] [] "/srv".toList 10
        "url(../images/a.png)".toList "css/app.css".toList =
      .ok "url(../images/aimages/a.png.png)".toList ∧
    processString [("images/a+.png".toList, "images/a-1.png".toList)] [] "/srv".toList 10
        "url(../images/a+.png)".toList "css/app.css".toList =
      .ok "url(../images/a+.png)".toList := by
  refine ⟨rfl, rfl, ⟨rfl, ?_⟩, rfl, rfl, rfl, rfl, rfl, rfl, rfl⟩
  intro h
  have e : processString [("images/a.png".toList, "css/a-1.png".toList)] [] "/srv".toList 10
      "a \x7b background: url(../images/a.png); \x7d".toList "css/app.css".toList =
    .ok "a \x7b background: url(../css/a-1.png); \x7d".toList := rfl
  rw [e] at h
  exact absurd (Except.ok.inj h) (by decide)

/-! ## The two forms of the source map directive -/

theorem indexOfAux_some {t : Str} : ∀ (rest : Str) (pos q : Nat), indexOfAux t pos rest = some q →
    ∃ n, q = pos + n ∧ n ≤ rest.length ∧ t <+: rest.drop n ∧ ∀ i, i < n → ¬ t <+: rest.drop i := by
  intro rest
  induction rest with
  | nil =>
    intro pos q h
    simp only [indexOfAux] at h
    split at h
    · rename_i ht
      cases h
      have : t = [] := by simpa using ht
      exact ⟨0, rfl, Nat.le_refl _, by rw [this]; exact List.nil_prefix, fun i hi => by omega⟩
    · cases h
  | cons c cs ih =>
    intro pos q h
    simp only [indexOfAux] at h
    split at h
    · rename_i ht
      cases h
      exact ⟨0, rfl, Nat.zero_le _, List.isPrefixOf_iff_prefix.1 ht, fun i hi => by omega⟩
    · rename_i ht
      obtain ⟨n, h1, h2, h3, h4⟩ := ih (pos + 1) q h
      refine ⟨n + 1, by omega, by simp; omega, by simpa using h3, ?_⟩
      intro i hi hp
      cases i with
      | zero => exact ht (List.isPrefixOf_iff_prefix.2 hp)
      | succ i => exact h4 i (by omega) (by simpa using hp)

theorem indexOf_zero_some {s t : Str} {p : Nat} (h : indexOf s t 0 = some p) :
    p ≤ s.length ∧ t <+: s.drop p ∧ ∀ i, i < p → ¬ t <+: s.drop i := by
  unfold indexOf at h
  simp only [Nat.zero_min, List.drop_zero] at h
  obtain ⟨n, h1, h2, h3, h4⟩ := indexOfAux_some _ _ _ h
  have : p = n := by omega
  subst this
  exact ⟨h2, h3, h4⟩

/-- The method `rewriteAssetPath` on a text in which the pattern finds no reference to the
asset path: the first directive `sourceMappingURL=` followed by the asset path gets the
replacement path, behind the prepend if there is one. -/
theorem rewrite_directive {prepend key value pre post : Str} (fuel : Nat)
    (hloop : exec (reRegex (key.map Regex.char))
      (pre ++ ("sourceMappingURL=".toList ++ (key ++ post))) 0 = none)
    (hfirst : indexOf (pre ++ ("sourceMappingURL=".toList ++ (key ++ post)))
      ("sourceMappingURL=".toList ++ key) 0 = some pre.length)
    (hin : indexOf ("sourceMappingURL=".toList ++ key) key 0 =
      some "sourceMappingURL=".toList.length)
    (h1 : ¬ "http".toList <+: key) (h2 : ¬ "//".toList <+: key)
    (hP : '$' ∉ prepend) (hval : '$' ∉ value) :
    rewriteAssetPath prepend (fuel + 1) (pre ++ ("sourceMappingURL=".toList ++ (key ++ post)))
      key value = .ok (pre ++ ("sourceMappingURL=".toList ++ ((prepend ++ value) ++ post))) := by
  have hinc : includes (pre ++ ("sourceMappingURL=".toList ++ (key ++ post))) key = true := by
    have := includes_of_append (pre ++ "sourceMappingURL=".toList) key post
    simpa using this
  obtain ⟨k1, k2, k3⟩ := indexOf_zero_some hfirst
  have hd : (pre ++ ("sourceMappingURL=".toList ++ (key ++ post))).drop pre.length =
      ("sourceMappingURL=".toList ++ key) ++ post := by
    rw [List.drop_left]; simp
  obtain ⟨mt, y, m1, m2, m3, m4, _, m6⟩ := exec_first
    (r := seqOf ("sourceMappingURL=".toList.map Regex.char ++ key.map Regex.char))
    (s := pre ++ ("sourceMappingURL=".toList ++ (key ++ post))) (l := 0) (i := pre.length)
    (Nat.zero_le _) (by simp)
    ⟨_, by
      rw [← List.map_append]
      exact mk_lits (x := MState.start pre.length _) (r := post) (by simp only [MState.start]; exact hd)⟩
    (by
      rintro j _ hj ⟨y, hy⟩
      obtain ⟨e1, _⟩ := sourceMap_inv hy
      simp only [MState.start] at e1
      exact k3 j hj ⟨y.rest, by rw [e1]; simp⟩)
  obtain ⟨e1, e2⟩ := sourceMap_inv m3
  simp only [MState.start] at e2
  have hstop : mt.stop = pre.length + ("sourceMappingURL=".toList ++ key).length := by
    rw [m4, e2]
  have hmatched : mt.matched = "sourceMappingURL=".toList ++ key := by
    rw [m6, hd, e2, Nat.add_sub_cancel_left, List.take_left]
  have hrepl : (if (!prepend.isEmpty && !(exec absoluteMapRe.re mt.matched 0).isSome) = true
      then prepend ++ value else value) = prepend ++ value := by
    rw [hmatched, absoluteMap_none h1 h2]
    cases prepend with
    | nil => simp
    | cons p ps => simp
  have hstr : replaceStr ("sourceMappingURL=".toList ++ key) key (prepend ++ value) =
      "sourceMappingURL=".toList ++ (prepend ++ value) := by
    unfold replaceStr
    simp only [hin, getSubstitution_id _ _ _ _ _ _ (show '$' ∉ prepend ++ value from by
      simp [hP, hval])]
    rw [List.take_left, show "sourceMappingURL=".toList.length + key.length =
      ("sourceMappingURL=".toList ++ key).length from (List.length_append _ _).symm,
      List.drop_length]
    simp
  unfold rewriteAssetPath
  simp only [hinc, Bool.not_true, Bool.false_eq_true, if_false, compile_reSource,
    compile_ignoreSource]
  rw [rewriteLoop]
  simp only [hloop]
  unfold rewriteSourceMap
  rw [compile_sourceMapSource]
  simp only [replaceFirstFn, m1, hrepl]
  rw [hmatched, hstr, m2, hstop, List.take_left]
  have := drop_directive pre ("sourceMappingURL=".toList ++ key) post (Nat.le_refl _)
  rw [List.append_assoc] at this
  rw [this]
  simp

theorem dotOccurrences_self {a : Str} (ha : a ≠ []) : dotOccurrences a (a ++ []) = [0] := by
  unfold dotOccurrences
  rw [List.append_nil, List.range_succ_eq_map, List.filter_cons,
    if_pos (by simpa using dotPrefix_of_literal (List.prefix_refl a))]
  congr 1
  rw [List.filter_eq_nil_iff]
  intro i hi
  obtain ⟨j, _, rfl⟩ := List.mem_map.1 hi
  intro h
  have := dotPrefix_length h
  rw [List.length_drop] at this
  have : 0 < a.length := List.length_pos.2 ha
  omega

/-- C10 (amended). For an asset map with distinct keys and no own key `hasOwnProperty`, a
prepend and a value without `$`, take a text that holds the directive
`sourceMappingURL=key`. In the first case the pattern of the key finds no delimited
reference in the text, the directive is the first one for the key, the key does not occur
in `sourceMappingURL=key` before its end, and the key starts with neither `http` nor `//`:
then the result is the text with the key of the directive replaced by the prepend and the
value (the value alone when there is no prepend). In the second case a closing delimiter
follows the directive, which the pattern then takes for a reference that `=` opens; the
key is made of pattern characters and dots and, with a prepend, the value has no line
terminator; either the closing delimiter is one of `"`, `'`, `)`, `>`, the key is made of
plain characters and occurs neither before the directive nor between the closing delimiter
and the next of `"'()=`, or the key, read as a pattern, matches nowhere else in the text
and no `$` follows the directive; in the rewritten text the pattern finds no reference
behind the `=` and there is no directive for the key: then the result is the text with
every occurrence of the key replaced by the value or, with a prepend, by the prepend and
the value without its leading relative markers. In both cases `processString` returns
that result when the pass for the relative form of the key leaves it unchanged and the
step of every other key leaves unchanged the text, if the key is tried before, and the
result, if it is tried after. -/
theorem processString_rewrites_source_map (assetMap : AssetMap)
    (prepend cwd relativePath key value pre post result : Str) (fuel : Nat)
    (hnodup : (assetMap.map Prod.fst).Nodup)
    (hown : assetMap.lookup "hasOwnProperty".toList = none)
    (hentry : assetMap.lookup key = some value)
    (hP : '$' ∉ prepend) (hval : '$' ∉ value)
    (hform :
      ((exec (reRegex (key.map Regex.char))
          (pre ++ ("sourceMappingURL=".toList ++ (key ++ post))) 0).isSome = false ∧
        indexOf (pre ++ ("sourceMappingURL=".toList ++ (key ++ post)))
          ("sourceMappingURL=".toList ++ key) 0 = some pre.length ∧
        indexOf ("sourceMappingURL=".toList ++ key) key 0 =
          some "sourceMappingURL=".toList.length ∧
        ¬ "http".toList <+: key ∧ ¬ "//".toList <+: key ∧
        result = pre ++ ("sourceMappingURL=".toList ++ ((prepend ++ value) ++ post))) ∨
      (∃ (c : Char) (rest : Str), post = c :: rest ∧ c ∈ closers ∧
        (∀ d ∈ key, isKeyChar d = true) ∧
        (prepend ≠ [] → ∀ d ∈ value, isLineTerminator d = false) ∧
        (quotedFirst key (pre ++ "sourceMappingURL".toList) key c rest = true ∨
          (dotOccurrences key (pre ++ ("sourceMappingURL=".toList ++ (key ++ post))) =
            [pre.length + "sourceMappingURL=".toList.length] ∧ '$' ∉ rest)) ∧
        result = replaceEvery key (composed prepend value)
          (pre ++ ("sourceMappingURL=".toList ++ (key ++ post))) ∧
        (exec (reRegex (key.map Regex.char)) result
          (pre.length + "sourceMappingURL=".toList.length)).isSome = false ∧
        includes result ("sourceMappingURL=".toList ++ key) = false))
    (hrel : rewriteAssetPath prepend (fuel + 2) result (relativeForm cwd relativePath key)
      (if !prepend.isEmpty then value else relativeForm cwd relativePath value) = .ok result)
    (hothers : ∀ k ∈ assetMap.map Prod.fst, k ≠ key →
      (key.length ≤ k.length → processKey assetMap prepend cwd (fuel + 2) relativePath
        (pre ++ ("sourceMappingURL=".toList ++ (key ++ post))) k =
        .ok (pre ++ ("sourceMappingURL=".toList ++ (key ++ post)))) ∧
      (k.length ≤ key.length → processKey assetMap prepend cwd (fuel + 2) relativePath
        result k = .ok result)) :
    processString assetMap prepend cwd (fuel + 2)
      (pre ++ ("sourceMappingURL=".toList ++ (key ++ post))) relativePath = .ok result := by
  apply processString_solo key (fuel + 2) (mem_keys_of_lookup hentry) hnodup _ hothers
  refine processKey_ok hown hentry ?_ hrel
  rcases hform with ⟨hloop, hfirst, hin, h1, h2, hres⟩ |
    ⟨c, rest, hpost, hc, hkey, hvl, hshape, hres, hnext, hmap⟩
  · rw [hres]
    exact rewrite_directive (fuel + 1) (none_of_isSome hloop) hfirst hin h1 h2 hP hval
  · subst hpost
    have e : pre ++ ("sourceMappingURL=".toList ++ (key ++ c :: rest)) =
        (pre ++ "sourceMappingURL".toList) ++ '=' :: (key ++ ([] ++ c :: rest)) := by
      simp
    have hlen : pre.length + "sourceMappingURL=".toList.length =
        (pre ++ "sourceMappingURL".toList).length + 1 := by
      simp
    rw [hlen] at hnext hshape
    rw [e] at hres hshape ⊢
    have hkne : key ≠ [] := by
      rcases hshape with h | ⟨h, _⟩
      · exact quotedFirst_ne_nil h
      · exact dotUniq_nonempty (dotUniq_of_occurrences (by simp) h)
    have := @rewrite_tail prepend key value (pre ++ "sourceMappingURL".toList) [] rest '=' c fuel
      (by decide) hc hkey hP hval hvl (by simp)
      (hshape.imp (fun h => ⟨by simpa using h, dotOccurrences_self hkne⟩)
        (fun h => ⟨h.1, by simp, h.2⟩))
      (by
        have := none_of_isSome hnext
        rw [hres] at this
        simpa using this)
      (by
        rw [hres] at hmap
        simpa using hmap)
    rw [hres]
    simpa using this

set_option maxRecDepth 100000 in
theorem processString_rewrites_source_map_witness :
    processString [("the.map".toList, "the-other-map".toList)] "https://cdn/".toList "/srv".toList 2
        "var a = 1;\n//# sourceMappingURL=the.map\n".toList "app.js".toList =
      .ok "var a = 1;\n//# sourceMappingURL=https://cdn/the-other-map\n".toList ∧
    processString [("the.map".toList, "the-other-map".toList)] [] "/srv".toList 2
        "//# sourceMappingURL=the.map".toList "app.js".toList =
      .ok "//# sourceMappingURL=the-other-map".toList ∧
    processString [("app.css.map".toList, "app-1.css.map".toList)] "https://cdn/".toList
        "/srv".toList 2 "a\x7b\x7d\n/*# sourceMappingURL=app.css.map */".toList "app.css".toList =
      .ok "a\x7b\x7d\n/*# sourceMappingURL=https://cdn/app-1.css.map */".toList :=
  ⟨processString_rewrites_source_map [("the.map".toList, "the-other-map".toList)]
    "https://cdn/".toList "/srv".toList "app.js".toList "the.map".toList "the-other-map".toList
    "var a = 1;\n//# ".toList "\n".toList
    "var a = 1;\n//# sourceMappingURL=https://cdn/the-other-map\n".toList 0
    (by decide!) (by decide!) (by decide!) (by decide!) (by decide!)
    (Or.inl ⟨by decide!, by decide!, by decide!, by decide!, by decide!, by decide!⟩)
    (by decide!) (by decide!),
   processString_rewrites_source_map [("the.map".toList, "the-other-map".toList)]
    [] "/srv".toList "app.js".toList "the.map".toList "the-other-map".toList
    "//# ".toList [] "//# sourceMappingURL=the-other-map".toList 0
    (by decide!) (by decide!) (by decide!) (by decide!) (by decide!)
    (Or.inl ⟨by decide!, by decide!, by decide!, by decide!, by decide!, by decide!⟩)
    (by decide!) (by decide!),
   processString_rewrites_source_map [("app.css.map".toList, "app-1.css.map".toList)]
    "https://cdn/".toList "/srv".toList "app.css".toList "app.css.map".toList
    "app-1.css.map".toList "a\x7b\x7d\n/*# ".toList " */".toList
    "a\x7b\x7d\n/*# sourceMappingURL=https://cdn/app-1.css.map */".toList 0
    (by decide!) (by decide!) (by decide!) (by decide!) (by decide!)
    (Or.inr ⟨' ', "*/".toList, by decide!, by decide!, by decide!, by decide!,
      Or.inr (by decide!), by decide!, by decide!, by decide!⟩)
    (by decide!) (by decide!)⟩

/-- C10 (counterexample). Inputs on which `processString` does not turn the directive
`sourceMappingURL=key` into `sourceMappingURL=` followed by the prepend and the value.
In `/*# sourceMappingURL=app.css.map */` a space follows the directive, which is rewritten
as a delimited reference: with the value `/maps/app-1.css.map` the prepend is followed by
the value without its leading slash. The key `http-client.map`, no absolute URL, gets the
value without the prepend. With a second own key `hasOwnProperty` the call throws a
`TypeError`. With `ping -> pong` the first `ping` of `sourceMappingURL=ping` is replaced.
With the value `the.map.gz` the directive is rewritten twice, in `app.js` by the pass for
the relative form, which is the key itself, and in `/*# sourceMappingURL=the.map */` by the
last statement of `rewriteAssetPath` after the loop. Of two directives that no closing
delimiter follows only the first is rewritten. A `$&` in the value, in the prepend or
between the directive and the closing delimiter is read as a replacement pattern. When a
closing delimiter follows, the key `c++.map` makes the call throw a `SyntaxError`, and so
does, with a prepend, a value with a line feed a `TypeError`. -/
theorem processString_rewrites_source_map_counterexample :
    (processString [("app.css.map".toList, "/maps/app-1.css.map".toList)] "https://cdn/".toList
        "/srv".toList 10 "a\x7b\x7d\n/*# sourceMappingURL=app.css.map */".toList "css/app.css".toList =
      .ok "a\x7b\x7d\n/*# sourceMappingURL=https://cdn/maps/app-1.css.map */".toList ∧
    processString [("app.css.map".toList, "/maps/app-1.css.map".toList)] "https://cdn/".toList
        "/srv".toList 10 "a\x7b\x7d\n/*# sourceMappingURL=app.css.map */".toList "css/app.css".toList ≠
      .ok "a\x7b\x7d\n/*# sourceMappingURL=https://cdn//maps/app-1.css.map */".toList) ∧
    (processString [("http-client.map".toList, "x.map".toList)] "https://cdn/".toList
        "/srv".toList 10 "//# sourceMappingURL=http-client.map".toList "app.js".toList =
      .ok "//# sourceMappingURL=x.map".toList ∧
    processString [("http-client.map".toList, "x.map".toList)] "https://cdn/".toList
        "/srv".toList 10 "//# sourceMappingURL=http-client.map".toList "app.js".toList ≠
      .ok "//# sourceMappingURL=https://cdn/x.map".toList) ∧
    processString [("the.map".toList, "the-other-map".toList), ("hasOwnProperty".toList, "x".toList)]
        [] "/srv".toList 10 "//# sourceMappingURL=the.map".toList "app.js".toList =
      .error .typeError ∧
    processString [("ping".toList, "pong".toList)] [] "/srv".toList 10
        "//# sourceMappingURL=ping".toList "app.js".toList =
      .ok "//# sourceMappongURL=ping".toList ∧
    processString [("the.map".toList, "the.map.gz".toList)] [] "/srv".toList 10
        "//# sourceMappingURL=the.map".toList "app.js".toList =
      .ok "//# sourceMappingURL=the.map.gz.gz".toList ∧
    processString [("the.map".toList, "the.map.gz".toList)] [] "/srv".toList 10
        "/*# sourceMappingURL=the.map */".toList "x/app.css".toList =
      .ok "/*# sourceMappingURL=the.map.gz.gz */".toList ∧
    processString [("the.map".toList, "the-other-map".toList)] [] "/srv".toList 10
        "//#sourceMappingURL=the.map\n//#sourceMappingURL=the.map".toList "x/app.js".toList =
      .ok "//#sourceMappingURL=the-other-map\n//#sourceMappingURL=the.map".toList ∧
    processString [("the.map".toList, "x$&.map".toList)] [] "/srv".toList 10
        "//# sourceMappingURL=the.map".toList "x/app.js".toList =
      .ok "//# sourceMappingURL=xthe.map.map".toList ∧
    processString [("the.map".toList, "the-other-map".toList)] "$&/".toList "/srv".toList 10
        "//# sourceMappingURL=the.map".toList "x/app.js".toList =
      .ok "//# sourceMappingURL=the.map/the-other-map".toList ∧
    processString [("the.map".toList, "the-other-map".toList)] [] "/srv".toList 10
        "/*# sourceMappingURL=the.map $& */".toList "x/app.css".toList =
      .ok "/*# sourceMappingURL=the-other-map the.map $& */".toList ∧
    processString [("c++.map".toList, "b.map".toList)] [] "/srv".toList 10
        "/*# sourceMappingURL=c++.map */".toList "x/app.css".toList = .error .syntaxError ∧
    processString [("the.map".toList, "a\nb.map".toList)] "https://cdn/".toList "/srv".toList 10
        "/*# sourceMappingURL=the.map */".toList "x/app.css".toList = .error .typeError := by
  refine ⟨⟨rfl, ?_⟩, ⟨rfl, ?_⟩, rfl, rfl, rfl, rfl, rfl, rfl, rfl, rfl, rfl, rfl⟩
  · intro h
    have e : processString [("app.css.map".toList, "/maps/app-1.css.map".toList)]
        "https://cdn/".toList "/srv".toList 10
        "a\x7b\x7d\n/*# sourceMappingURL=app.css.map */".toList "css/app.css".toList =
      .ok "a\x7b\x7d\n/*# sourceMappingURL=https://cdn/maps/app-1.css.map */".toList := rfl
    rw [e] at h
    exact absurd (Except.ok.inj h) (by decide)
  · intro h
    have e : processString [("http-client.map".toList, "x.map".toList)] "https://cdn/".toList
        "/srv".toList 10 "//# sourceMappingURL=http-client.map".toList "app.js".toList =
      .ok "//# sourceMappingURL=x.map".toList := rfl
    rw [e] at h
    exact absurd (Except.ok.inj h) (by decide)

/-! ## Keys whose step changes nothing -/

theorem stagesOf_head (assetMap : AssetMap) (prepend cwd : Str) (fuel : Nat) (relativePath : Str)
    (keys : List Str) (text : Str) :
    text ∈ stagesOf assetMap prepend cwd fuel relativePath keys text := by
  cases keys <;> simp [stagesOf]

theorem processKey_congr {m1 m2 : AssetMap} (h : ∀ k, m1.lookup k = m2.lookup k)
    (prepend cwd : Str) (fuel : Nat) (relativePath memo k : Str) :
    processKey m1 prepend cwd fuel relativePath memo k =
      processKey m2 prepend cwd fuel relativePath memo k := by
  unfold processKey
  rw [h k, h "hasOwnProperty".toList]

/-- Keys whose step leaves every text of the run unchanged can be left out of the run. -/
theorem processKeys_skip {assetMap : AssetMap} {prepend cwd relativePath : Str} {fuel : Nat}
    (active : List Str) : ∀ (keys : List Str) (text : Str),
    (∀ X ∈ stagesOf assetMap prepend cwd fuel relativePath
        (keys.filter (fun k => decide (k ∈ active))) text,
      ∀ k ∈ keys, k ∉ active → processKey assetMap prepend cwd fuel relativePath X k = .ok X) →
    processKeys assetMap prepend cwd fuel relativePath keys text =
      processKeys assetMap prepend cwd fuel relativePath
        (keys.filter (fun k => decide (k ∈ active))) text := by
  intro keys
  induction keys with
  | nil => intro text _; rfl
  | cons k ks ih =>
    intro text h
    by_cases hk : k ∈ active
    · have hf : (k :: ks).filter (fun k => decide (k ∈ active)) =
          k :: ks.filter (fun k => decide (k ∈ active)) := by
        simp [List.filter_cons, hk]
      rw [hf] at h ⊢
      simp only [processKeys]
      cases hp : processKey assetMap prepend cwd fuel relativePath text k with
      | error e => rfl
      | ok text1 =>
        simp only []
        apply ih
        intro X hX k' hk' hk2
        apply h X _ k' (List.mem_cons_of_mem _ hk') hk2
        simp only [stagesOf, hp]
        exact List.mem_cons_of_mem _ hX
    · have hf : (k :: ks).filter (fun k => decide (k ∈ active)) =
          ks.filter (fun k => decide (k ∈ active)) := by
        simp [List.filter_cons, hk]
      rw [hf] at h ⊢
      simp only [processKeys, h text (stagesOf_head _ _ _ _ _ _ _) k (List.mem_cons_self _ _) hk]
      apply ih
      intro X hX k' hk' hk2
      exact h X hX k' (List.mem_cons_of_mem _ hk') hk2

/-- C15 (amended). Take two asset maps that hold the same entries, with distinct keys, in
different orders, and a list of keys, the active keys, that the sort of both maps leaves in
that same order. When the step of every other key leaves unchanged every text that the
steps of the active keys go through from the given text on, `processString` returns the
same result with both maps. -/
theorem processString_order_independent (m1 m2 : AssetMap) (prepend cwd text relativePath : Str)
    (fuel : Nat) (active : List Str)
    (hperm : m1.Perm m2) (hnodup : (m1.map Prod.fst).Nodup)
    (hact1 : (generateAssetMapKeys m1).filter (fun k => decide (k ∈ active)) = active)
    (hact2 : (generateAssetMapKeys m2).filter (fun k => decide (k ∈ active)) = active)
    (hinert : ∀ X ∈ stagesOf m1 prepend cwd fuel relativePath active text,
      ∀ k ∈ m1.map Prod.fst, k ∉ active →
        processKey m1 prepend cwd fuel relativePath X k = .ok X) :
    processString m1 prepend cwd fuel text relativePath =
      processString m2 prepend cwd fuel text relativePath := by
  have hlook := lookup_perm hperm hnodup
  unfold processString
  rw [← processKeys_congr hlook prepend cwd fuel relativePath (generateAssetMapKeys m2) text]
  rw [processKeys_skip active (generateAssetMapKeys m1) text, hact1,
    processKeys_skip active (generateAssetMapKeys m2) text, hact2]
  · rw [hact2]
    intro X hX k hk hk2
    apply hinert X hX k _ hk2
    have h2 := (generateAssetMapKeys_perm m2).mem_iff.1 hk
    exact (hperm.map Prod.fst).mem_iff.2 h2
  · rw [hact1]
    intro X hX k hk hk2
    exact hinert X hX k ((generateAssetMapKeys_perm m1).mem_iff.1 hk) hk2

set_option maxRecDepth 100000 in
theorem processString_order_independent_witness :
    processString [("a.js".toList, "a-1.js".toList), ("b.js".toList, "b-1.js".toList),
        ("img/c.png".toList, "img/c-1.png".toList)] [] "/srv".toList 5
        "<script src=\"a.js\"></script><img src=\"img/c.png\">".toList "x/index.html".toList =
    processString [("img/c.png".toList, "img/c-1.png".toList), ("b.js".toList, "b-1.js".toList),
        ("a.js".toList, "a-1.js".toList)] [] "/srv".toList 5
        "<script src=\"a.js\"></script><img src=\"img/c.png\">".toList "x/index.html".toList :=
  processString_order_independent
    [("a.js".toList, "a-1.js".toList), ("b.js".toList, "b-1.js".toList),
      ("img/c.png".toList, "img/c-1.png".toList)]
    [("img/c.png".toList, "img/c-1.png".toList), ("b.js".toList, "b-1.js".toList),
      ("a.js".toList, "a-1.js".toList)]
    [] "/srv".toList "<script src=\"a.js\"></script><img src=\"img/c.png\">".toList
    "x/index.html".toList 5 ["img/c.png".toList, "a.js".toList]
    (by decide!) (by decide!) (by decide!) (by decide!) (by decide!)

/-! ## The keys listed in an attribute value -/

theorem takeWhile_split {α : Type} (p : α → Bool) : ∀ (l1 : List α) (y : α) (l2 : List α),
    (∀ x ∈ l1, p x = true) → p y = false → (l1 ++ y :: l2).takeWhile p = l1 := by
  intro l1
  induction l1 with
  | nil => intro y l2 _ hy; simp [List.takeWhile_cons, hy]
  | cons x xs ih =>
    intro y l2 h hy
    rw [List.cons_append, List.takeWhile_cons, if_pos (h x (List.mem_cons_self _ _)),
      ih y l2 (fun z hz => h z (List.mem_cons_of_mem _ hz)) hy]

/-- The method `rewriteAssetPath` on a text with one occurrence of the asset path, inside a
delimited attribute value, when the pattern finds nothing behind the opening delimiter in
the rewritten text and the rewritten text has no source map directive for the asset
path. -/
theorem rewrite_wide_once {prepend a value pre up tl r : Str} {o : Char} (fuel : Nat)
    (hex : MatchesAt (reRegex (a.map Regex.char)) (pre ++ o :: (up ++ (a ++ tl))) pre.length)
    (huniq : ∀ i, a <+: (pre ++ o :: (up ++ (a ++ tl))).drop i → i = pre.length + 1 + up.length)
    (ho : o ∈ openers) (hup : ∀ d ∈ up, d ∉ class1)
    (hhead : ∀ d, up.head? = some d → isSpace d = false) (hpct : '%' ∉ up)
    (hcomp : ∀ b rest, tl = b ++ rest → (∀ d ∈ b, d ∉ class2) →
      composeReplacement prepend a value (up ++ (a ++ b)) = .ok (r ++ b))
    (hr : '$' ∉ r) (htl : '$' ∉ tl)
    (hnext : exec (reRegex (a.map Regex.char)) (pre ++ o :: (r ++ tl)) (pre.length + 1) = none)
    (hmap : includes (pre ++ o :: (r ++ tl)) ("sourceMappingURL=".toList ++ a) = false) :
    rewriteAssetPath prepend (fuel + 2) (pre ++ o :: (up ++ (a ++ tl))) a value =
      .ok (pre ++ o :: (r ++ tl)) := by
  have hinc : includes (pre ++ o :: (up ++ (a ++ tl))) a = true := by
    have := includes_of_append (pre ++ o :: up) a tl
    simpa using this
  obtain ⟨mt, b, rest, h1, h2, h3, h4, h5⟩ := first_exec_wide hex huniq ho hup hhead
  subst h3
  have hb : '$' ∉ b := fun h => htl (List.mem_append_left _ h)
  unfold rewriteAssetPath
  simp only [hinc, Bool.not_true, Bool.false_eq_true, if_false, compile_reSource,
    compile_ignoreSource]
  rw [rewriteLoop]
  simp only [h1, h2, guard_none huniq hpct, Option.isSome_none, Bool.false_eq_true, if_false,
    hcomp b rest rfl h4, compile_escaped]
  rw [replace_capture huniq (by simp [hr, hb])]
  have e : pre ++ o :: ((r ++ b) ++ rest) = pre ++ o :: (r ++ (b ++ rest)) := by simp
  rw [e, rewriteLoop]
  simp only [exec_none_mono hnext (show pre.length + 1 ≤ mt.stop from h5)]
  exact rewriteSourceMap_noop hmap

/-- The two passes of `processString` for a key that occurs once in the text, inside a
delimited attribute value. -/
theorem processKey_listed {assetMap : AssetMap} {prepend cwd relativePath a value pre up t post : Str}
    {o c : Char} (fuel : Nat)
    (hown : assetMap.lookup "hasOwnProperty".toList = none)
    (hentry : assetMap.lookup a = some value)
    (ho : o ∈ openers) (hc : c ∈ closers)
    (hup : ∀ d ∈ up, d ∉ class1 ∧ d ≠ '%' ∧ d ≠ '$')
    (hhead : ∀ d, up.head? = some d → isSpace d = false)
    (ht : ∀ d ∈ t, d ∉ class2 ∧ d ≠ '$')
    (hkey : ∀ d ∈ a, isKeyChar d = true)
    (honce : (dotOccurrences a (pre ++ o :: (up ++ (a ++ (t ++ c :: post))))).length = 1)
    (hval : '$' ∉ composed prepend value) (hpost : '$' ∉ post)
    (hprep : prepend ≠ [] →
      (∀ d ∈ value, isLineTerminator d = false) ∧ ¬ ['/'] <:+ up ∧ ¬ prepend <:+ up)
    (hnext : exec (reRegex (a.map Regex.char))
      (pre ++ o :: (up ++ (composed prepend value ++ (t ++ c :: post)))) (pre.length + 1) = none)
    (hmap : includes (pre ++ o :: (up ++ (composed prepend value ++ (t ++ c :: post))))
      ("sourceMappingURL=".toList ++ a) = false)
    (hrel : rewriteAssetPath prepend (fuel + 2)
      (pre ++ o :: (up ++ (composed prepend value ++ (t ++ c :: post))))
      (relativeForm cwd relativePath a)
      (if !prepend.isEmpty then value else relativeForm cwd relativePath value) =
      .ok (pre ++ o :: (up ++ (composed prepend value ++ (t ++ c :: post))))) :
    processKey assetMap prepend cwd (fuel + 2) relativePath
      (pre ++ o :: (up ++ (a ++ (t ++ c :: post)))) a =
      .ok (pre ++ o :: (up ++ (composed prepend value ++ (t ++ c :: post)))) := by
  have hd0 : (pre ++ o :: (up ++ (a ++ (t ++ c :: post)))).drop (pre.length + 1 + up.length) =
      a ++ (t ++ c :: post) := by
    have e : pre ++ o :: (up ++ (a ++ (t ++ c :: post))) =
        (pre ++ o :: up) ++ (a ++ (t ++ c :: post)) := by simp
    rw [e, show pre.length + 1 + up.length = (pre ++ o :: up).length from by simp; omega,
      List.drop_left]
  have hocc := dotOccurrences_single (a := a) (p := pre.length + 1 + up.length)
    (by simp; omega) (by rw [hd0]; exact List.prefix_append _ _) honce
  have hdot := dotUniq_of_occurrences (by simp) hocc
  have hrw : rewriteAssetPath prepend (fuel + 2) (pre ++ o :: (up ++ (a ++ (t ++ c :: post))))
      a value = .ok (pre ++ o :: ((up ++ composed prepend value) ++ (t ++ c :: post))) := by
    apply rewrite_wide_once fuel
    · obtain ⟨y, hy⟩ := @re_exists a (MState.start pre.length
        (o :: (up ++ (a ++ (t ++ ([] ++ c :: post)))))) o c up t [] post
        rfl ho (fun d hd => (hup d hd).1) (fun d hd => (ht d hd).1) (Or.inl rfl) hc
      exact ⟨y, by simpa [MState.start] using hy⟩
    · exact uniq_of_dotUniq hdot
    · exact ho
    · exact fun d hd => (hup d hd).1
    · exact hhead
    · exact fun h => (hup _ h).2.1 rfl
    · intro b rest hb _
      rw [hb] at hdot
      by_cases hP : prepend = []
      · subst hP
        have := compose_plain hkey hdot (by simpa [composed] using hval)
        simpa [composed] using this
      · obtain ⟨hvl, hlast, hnot⟩ := hprep hP
        have := compose_prepend_bare (b := b) hP hlast hnot hkey (dotUniq_in_capture hdot) hvl
        have e : composed prepend value = prepend ++ stripLeading value := by
          unfold composed
          cases prepend with
          | nil => exact absurd rfl hP
          | cons _ _ => rfl
        rw [e]
        exact this
    · intro h
      rcases List.mem_append.1 h with h | h
      · exact (hup _ h).2.2 rfl
      · exact hval h
    · intro h
      rcases List.mem_append.1 h with h | h
      · exact (ht _ h).2 rfl
      · rcases List.mem_cons.1 h with h | h
        · exact closer_ne_dollar hc h.symm
        · exact hpost h
    · simpa using hnext
    · simpa using hmap
  refine processKey_ok hown hentry hrw ?_
  simpa using hrel

/-- C14 (amended). For an asset map with distinct keys and no own key `hasOwnProperty`,
take a delimited attribute value that lists different keys of the asset map, each followed
by its descriptor and separator. Then `processString` replaces every listed key by its
value, or with a prepend by the prepend followed by the value without its leading relative
markers, and leaves the descriptors and separators unchanged, when: the keys, descriptors
and replacements contain none of `"`, `'`, `(`, `)`, `>`, `=`, `%` and `$`, the keys are
made of pattern characters and dots, and keys and replacements are not empty and do not
start with white space; the text after the attribute contains no `$`; with a prepend, the
values contain no line terminator and the prepend no `$`; and at every step of the reduce
over the keys, longest first, the key that is tried is either not listed, and its step
leaves the text of that step unchanged, or listed, and then: it matches, read as a pattern,
exactly once in the text of that step; with a prepend, the part of the attribute value
before it ends neither with a slash nor with the prepend; in the text after its
replacement the pattern of the key finds no reference behind the opening delimiter and
there is no `sourceMappingURL=` directive for the key; and the pass for the relative form
of the key leaves that text unchanged. -/
theorem processString_srcset (assetMap : AssetMap) (prepend cwd relativePath pre post : Str)
    (o c : Char) (items : List (Str × Str)) (fuel : Nat)
    (hnodup : (assetMap.map Prod.fst).Nodup)
    (hown : assetMap.lookup "hasOwnProperty".toList = none)
    (hitems : ∀ it ∈ items, (assetMap.lookup it.1).isSome = true)
    (hdiff : (items.map Prod.fst).Nodup)
    (ho : o ∈ openers) (hc : c ∈ closers)
    (hchars : ∀ it ∈ items, ∀ s ∈ [it.1, it.2, composed prepend ((assetMap.lookup it.1).getD [])],
      ∀ d ∈ s, d ∉ class2 ∧ d ≠ '%' ∧ d ≠ '$')
    (hkeys : ∀ it ∈ items, ∀ d ∈ it.1, isKeyChar d = true)
    (hheads : ∀ it ∈ items, ∀ s ∈ [it.1, composed prepend ((assetMap.lookup it.1).getD [])],
      s.head?.map isSpace = some false)
    (hpost : '$' ∉ post)
    (hvals : prepend ≠ [] → ∀ it ∈ items,
      ∀ d ∈ (assetMap.lookup it.1).getD [], isLineTerminator d = false)
    (hsteps : ∀ i (hi : i < (generateAssetMapKeys assetMap).length),
      ((generateAssetMapKeys assetMap)[i] ∈ items.map Prod.fst →
        (dotOccurrences (generateAssetMapKeys assetMap)[i]
          (srcsetText assetMap prepend pre post o c items
            ((generateAssetMapKeys assetMap).take i))).length = 1 ∧
        (prepend ≠ [] →
          ¬ ['/'] <:+ beforeListed assetMap prepend ((generateAssetMapKeys assetMap).take i)
            items (generateAssetMapKeys assetMap)[i] ∧
          ¬ prepend <:+ beforeListed assetMap prepend ((generateAssetMapKeys assetMap).take i)
            items (generateAssetMapKeys assetMap)[i]) ∧
        (exec (reRegex ((generateAssetMapKeys assetMap)[i].map Regex.char))
          (srcsetText assetMap prepend pre post o c items
            ((generateAssetMapKeys assetMap).take (i + 1))) (pre.length + 1)).isSome = false ∧
        includes (srcsetText assetMap prepend pre post o c items
            ((generateAssetMapKeys assetMap).take (i + 1)))
          ("sourceMappingURL=".toList ++ (generateAssetMapKeys assetMap)[i]) = false ∧
        rewriteAssetPath prepend (fuel + 2)
          (srcsetText assetMap prepend pre post o c items
            ((generateAssetMapKeys assetMap).take (i + 1)))
          (relativeForm cwd relativePath (generateAssetMapKeys assetMap)[i])
          (if !prepend.isEmpty then (assetMap.lookup (generateAssetMapKeys assetMap)[i]).getD []
           else relativeForm cwd relativePath
            ((assetMap.lookup (generateAssetMapKeys assetMap)[i]).getD [])) =
          .ok (srcsetText assetMap prepend pre post o c items
            ((generateAssetMapKeys assetMap).take (i + 1)))) ∧
      ((generateAssetMapKeys assetMap)[i] ∉ items.map Prod.fst →
        processKey assetMap prepend cwd (fuel + 2) relativePath
          (srcsetText assetMap prepend pre post o c items
            ((generateAssetMapKeys assetMap).take i)) (generateAssetMapKeys assetMap)[i] =
          .ok (srcsetText assetMap prepend pre post o c items
            ((generateAssetMapKeys assetMap).take i)))) :
    processString assetMap prepend cwd (fuel + 2) (pre ++ o :: (srcset items ++ c :: post))
      relativePath =
      .ok (pre ++ o :: (srcset (items.map (fun it =>
        (composed prepend ((assetMap.lookup it.1).getD []), it.2))) ++ c :: post)) := by
  have hitems' : ∀ it ∈ items, ∃ v, assetMap.lookup it.1 = some v :=
    fun it hit => Option.isSome_iff_exists.1 (hitems it hit)
  have hheads' : ∀ it ∈ items,
      ∀ s ∈ [it.1, composed prepend ((assetMap.lookup it.1).getD [])],
      ∃ e es, s = e :: es ∧ isSpace e = false := by
    intro it hit s hs
    have := hheads it hit s hs
    cases s with
    | nil => simp at this
    | cons e es => exact ⟨e, es, rfl, by simpa using this⟩
  have hkn : (generateAssetMapKeys assetMap).Nodup :=
    (generateAssetMapKeys_perm assetMap).nodup_iff.2 hnodup
  have hQ : ∀ it ∈ items, (∀ d ∈ it.1, d ∉ class2 ∧ d ≠ '%' ∧ d ≠ '$') ∧
      (∀ d ∈ it.2, d ∉ class2 ∧ d ≠ '%' ∧ d ≠ '$') ∧
      ∀ d ∈ composed prepend ((assetMap.lookup it.1).getD []), d ∉ class2 ∧ d ≠ '%' ∧ d ≠ '$' :=
    fun it hit => ⟨hchars it hit _ (by simp), hchars it hit _ (by simp), hchars it hit _ (by simp)⟩
  have h12 : ∀ d : Char, d ∉ class2 → d ∉ class1 := fun d hd h1 => hd (class1_sub_class2 h1)
  have hstep : ∀ i (hi : i < (generateAssetMapKeys assetMap).length),
      processKey assetMap prepend cwd (fuel + 2) relativePath
        (srcsetText assetMap prepend pre post o c items ((generateAssetMapKeys assetMap).take i))
        (generateAssetMapKeys assetMap)[i] =
      .ok (srcsetText assetMap prepend pre post o c items
        ((generateAssetMapKeys assetMap).take (i + 1))) := by
    intro i hi
    obtain ⟨hnot, htake⟩ := not_mem_take_of_nodup hkn hi
    obtain ⟨hA, hB⟩ := hsteps i hi
    generalize (generateAssetMapKeys assetMap)[i] = k at hnot htake hA hB
    generalize (generateAssetMapKeys assetMap).take i = done at hnot htake hA hB
    rw [htake] at hA ⊢
    by_cases hk : k ∈ items.map Prod.fst
    · obtain ⟨honce, hbefore, hnext, hmap, hrel⟩ := hA hk
      obtain ⟨it, hit, hitk⟩ := List.mem_map.1 hk
      obtain ⟨l1, l2, hl⟩ := List.append_of_mem hit
      obtain ⟨v, hv⟩ := hitems' it hit
      have hd2 : (l1.map Prod.fst ++ it.1 :: l2.map Prod.fst).Nodup := by
        have := hdiff
        rw [hl] at this
        simpa using this
      have hk1 : k ∉ l1.map Prod.fst := by
        rw [← hitk]
        intro hm
        exact (List.disjoint_of_nodup_append hd2) hm (List.mem_cons_self _ _)
      have hk2 : k ∉ l2.map Prod.fst := by
        rw [← hitk]
        exact (List.nodup_cons.1 (List.Nodup.of_append_right hd2)).1
      have hit1 : ∀ it' ∈ l1, it' ∈ items := fun it' h => by rw [hl]; simp [h]
      have hit2 : ∀ it' ∈ l2, it' ∈ items := fun it' h => by rw [hl]; simp [h]
      have hbef : beforeListed assetMap prepend done items k =
          srcset (rendered assetMap prepend done l1) := by
        unfold beforeListed
        rw [hl, takeWhile_split]
        · intro x hx
          have : x.1 ≠ k := fun e => hk1 (List.mem_map.2 ⟨x, hx, e⟩)
          simpa using this
        · simpa using hitk
      have e1 : srcsetText assetMap prepend pre post o c items done =
          pre ++ o :: (srcset (rendered assetMap prepend done l1) ++
            (k ++ ((it.2 ++ srcset (rendered assetMap prepend done l2)) ++ c :: post))) := by
        unfold srcsetText
        rw [hl, rendered_append, srcset_append]
        have : rendered assetMap prepend done (it :: l2) = it :: rendered assetMap prepend done l2 := by
          rw [rendered_cons, if_neg (by rw [hitk]; exact hnot)]
        rw [this, srcset_cons, hitk]
        simp
      have e2 : srcsetText assetMap prepend pre post o c items (done ++ [k]) =
          pre ++ o :: (srcset (rendered assetMap prepend done l1) ++
            (composed prepend v ++
              ((it.2 ++ srcset (rendered assetMap prepend done l2)) ++ c :: post))) := by
        unfold srcsetText
        rw [hl, rendered_append, srcset_append, rendered_snoc hk1]
        have : rendered assetMap prepend (done ++ [k]) (it :: l2) =
            (composed prepend v, it.2) :: rendered assetMap prepend done l2 := by
          rw [rendered_cons, if_pos (by rw [hitk]; simp), rendered_snoc hk2, hv]
          rfl
        rw [this, srcset_cons]
        simp
      have hvk : assetMap.lookup k = some v := hitk ▸ hv
      rw [e1] at honce ⊢
      rw [e2] at hnext hmap hrel ⊢
      rw [hbef] at hbefore
      rw [hvk, Option.getD_some] at hrel
      refine processKey_listed fuel hown hvk ho hc ?_ ?_ ?_ ?_ honce ?_ hpost ?_
        (none_of_isSome hnext) hmap hrel
      · intro d hd
        have := srcset_rendered_chars (P := fun d => d ∉ class2 ∧ d ≠ '%' ∧ d ≠ '$')
          (fun it' h' => hQ it' (hit1 it' h')) d hd
        exact ⟨h12 d this.1, this.2⟩
      · exact srcset_rendered_head (fun it' h' =>
          ⟨hheads' it' (hit1 it' h') _ (by simp), hheads' it' (hit1 it' h') _ (by simp)⟩)
      · intro d hd
        rcases List.mem_append.1 hd with hd | hd
        · have := (hQ it hit).2.1 d hd
          exact ⟨this.1, this.2.2⟩
        · have := srcset_rendered_chars (P := fun d => d ∉ class2 ∧ d ≠ '%' ∧ d ≠ '$')
            (fun it' h' => hQ it' (hit2 it' h')) d hd
          exact ⟨this.1, this.2.2⟩
      · rw [← hitk]
        exact hkeys it hit
      · intro h
        have := (hQ it hit).2.2 '$' (by rw [hv]; exact h)
        exact this.2.2 rfl
      · intro hP
        refine ⟨?_, (hbefore hP).1, (hbefore hP).2⟩
        have := hvals hP it hit
        rw [hv] at this
        exact this
    · have e : srcsetText assetMap prepend pre post o c items (done ++ [k]) =
          srcsetText assetMap prepend pre post o c items done := by
        unfold srcsetText
        rw [rendered_snoc hk]
      rw [e]
      exact hB hk
  have hchain := processKeys_chain (fuel + 2) (generateAssetMapKeys assetMap)
    (fun i => srcsetText assetMap prepend pre post o c items ((generateAssetMapKeys assetMap).take i))
    hstep
  simp only [List.take_zero, List.take_length] at hchain
  have e0 : srcsetText assetMap prepend pre post o c items [] =
      pre ++ o :: (srcset items ++ c :: post) := by
    unfold srcsetText
    rw [rendered_nil_done]
  have en : srcsetText assetMap prepend pre post o c items (generateAssetMapKeys assetMap) =
      pre ++ o :: (srcset (items.map (fun it =>
        (composed prepend ((assetMap.lookup it.1).getD []), it.2))) ++ c :: post) := by
    unfold srcsetText
    rw [rendered_all]
    intro it hit
    obtain ⟨v, hv⟩ := hitems' it hit
    exact (generateAssetMapKeys_perm assetMap).mem_iff.2 (mem_keys_of_lookup hv)
  rw [e0, en] at hchain
  exact hchain

set_option maxRecDepth 100000 in
theorem processString_srcset_witness :
    processString [("/assets/img/small.png".toList, "/assets/img/other-small.png".toList),
        ("/assets/img/medium.png".toList, "/assets/img/other-medium.png".toList),
        ("/assets/img/big.png".toList, "/assets/img/other-big.png".toList)]
        "https://subdomain.cloudfront.net/".toList "/srv".toList 2
        "<img srcset=\"/assets/img/small.png 1x, /assets/img/big.png 2x\">".toList
        "index.html".toList =
      .ok ("<img srcset=\"https://subdomain.cloudfront.net/assets/img/other-small.png 1x, " ++
        "https://subdomain.cloudfront.net/assets/img/other-big.png 2x\">").toList ∧
    processString [("/assets/img/small.png".toList, "/assets/img/other-small.png".toList),
        ("/assets/img/medium.png".toList, "/assets/img/other-medium.png".toList),
        ("/assets/img/big.png".toList, "/assets/img/other-big.png".toList)]
        [] "/srv".toList 2
        "<img srcset=\"/assets/img/small.png 1x, /assets/img/big.png 2x\">".toList
        "index.html".toList =
      .ok "<img srcset=\"/assets/img/other-small.png 1x, /assets/img/other-big.png 2x\">".toList :=
  ⟨processString_srcset [("/assets/img/small.png".toList, "/assets/img/other-small.png".toList),
      ("/assets/img/medium.png".toList, "/assets/img/other-medium.png".toList),
      ("/assets/img/big.png".toList, "/assets/img/other-big.png".toList)]
    "https://subdomain.cloudfront.net/".toList "/srv".toList "index.html".toList
    "<img srcset=".toList ">".toList '"' '"'
    [("/assets/img/small.png".toList, " 1x, ".toList), ("/assets/img/big.png".toList, " 2x".toList)] 0
    (by decide!) (by decide!) (by decide!) (by decide!) (by decide!) (by decide!) (by decide!)
    (by decide!) (by decide!) (by decide!) (by decide!) (by decide!),
   processString_srcset [("/assets/img/small.png".toList, "/assets/img/other-small.png".toList),
      ("/assets/img/medium.png".toList, "/assets/img/other-medium.png".toList),
      ("/assets/img/big.png".toList, "/assets/img/other-big.png".toList)]
    [] "/srv".toList "index.html".toList
    "<img srcset=".toList ">".toList '"' '"'
    [("/assets/img/small.png".toList, " 1x, ".toList), ("/assets/img/big.png".toList, " 2x".toList)] 0
    (by decide!) (by decide!) (by decide!) (by decide!) (by decide!) (by decide!) (by decide!)
    (by decide!) (by decide!) (by decide!) (by decide!) (by decide!)⟩

/-- C14 (counterexample). Inputs on which `processString` does not replace every key
listed in an attribute value by its value and leave the rest unchanged. With
`a.png -> b.png` and `b.png -> c.png` the listed `a.png` ends as `c.png`: it is replaced
by `b.png` first, and then the key `b.png` is replaced at both places. With a further own
key `hasOwnProperty` the call throws a `TypeError`. Behind a descriptor `(1x)` or `1x%22`
the key `b.png` is not replaced. With the prepend `https://cdn/` a slash before the listed
`b.png` is dropped, and with the prepend `cdn-` a listed `cdn-b.png` becomes
`cdn-undefinedb-1.png`. When a reference `x/aaaaaaaaaa.png` stands before the attribute,
the listed `aaaaaaaaaa.png` is not replaced: the text gets shorter and the search goes on
behind the attribute. In the descriptor `$$ 1x` one `$` is lost. With a prepend, a value
with a line feed makes the call throw a `TypeError`, and the key `c++.png`, which is no
pattern, a `SyntaxError`. With `a.png -> img/a.png` in `index.html` the pass for the
relative form, which is the key itself, rewrites the value again. -/
theorem processString_srcset_counterexample :
    (processString [("a.png".toList, "b.png".toList), ("b.png".toList, "c.png".toList)] []
        "/srv".toList 10 "<img srcset=\"a.png 1x, b.png 2x\">".toList "index.html".toList =
      .ok "<img srcset=\"c.png 1x, c.png 2x\">".toList ∧
    processString [("a.png".toList, "b.png".toList), ("b.png".toList, "c.png".toList)] []
        "/srv".toList 10 "<img srcset=\"a.png 1x, b.png 2x\">".toList "index.html".toList ≠
      .ok "<img srcset=\"b.png 1x, c.png 2x\">".toList) ∧
    processString [("a.png".toList, "a-1.png".toList), ("b.png".toList, "b-1.png".toList),
        ("hasOwnProperty".toList, "x".toList)] [] "/srv".toList 10
        "<img srcset=\"a.png 1x, b.png 2x\">".toList "x/index.html".toList = .error .typeError ∧
    processString [("a.png".toList, "a-1.png".toList), ("b.png".toList, "b-1.png".toList)] []
        "/srv".toList 10 "<img srcset=\"a.png (1x), b.png 2x\">".toList "x/index.html".toList =
      .ok "<img srcset=\"a-1.png (1x), b.png 2x\">".toList ∧
    processString [("a.png".toList, "a-1.png".toList), ("b.png".toList, "b-1.png".toList)] []
        "/srv".toList 10 "<img srcset=\"a.png 1x%22, b.png 2x\">".toList "x/index.html".toList =
      .ok "<img srcset=\"a-1.png 1x%22, b.png 2x\">".toList ∧
    processString [("a.png".toList, "a-1.png".toList), ("b.png".toList, "b-1.png".toList)]
        "https://cdn/".toList "/srv".toList 10
        "<img srcset=\"a.png 1x/b.png 2x\">".toList "x/index.html".toList =
      .ok "<img srcset=\"https://cdn/a-1.png 1xhttps://cdn/b-1.png 2x\">".toList ∧
    processString [("a.png".toList, "a-1.png".toList), ("b.png".toList, "b-1.png".toList)]
        "cdn-".toList "/srv".toList 10
        "<img srcset=\"a.png 1x, cdn-b.png 2x\">".toList "x/index.html".toList =
      .ok "<img srcset=\"cdn-a-1.png 1x, cdn-undefinedb-1.png 2x\">".toList ∧
    processString [("aaaaaaaaaa.png".toList, "a.png".toList), ("b.png".toList, "b-1.png".toList)] []
        "/srv".toList 10
        "<img src=\"x/aaaaaaaaaa.png\"srcset=\"aaaaaaaaaa.png 1x, b.png 2x\">".toList
        "x/index.html".toList =
      .ok "<img src=\"x/a.png\"srcset=\"aaaaaaaaaa.png 1x, b-1.png 2x\">".toList ∧
    processString [("a.png".toList, "a-1.png".toList), ("b.png".toList, "b-1.png".toList)] []
        "/srv".toList 10 "<img srcset=\"a.png $$ 1x, b.png 2x\">".toList "x/index.html".toList =
      .ok "<img srcset=\"a-1.png $ 1x, b-1.png 2x\">".toList ∧
    processString [("a.png".toList, "a\n1.png".toList), ("b.png".toList, "b-1.png".toList)]
        "https://cdn/".toList "/srv".toList 10
        "<img srcset=\"a.png 1x, b.png 2x\">".toList "x/index.html".toList = .error .typeError ∧
    processString [("c++.png".toList, "a-1.png".toList), ("b.png".toList, "b-1.png".toList)] []
        "/srv".toList 10 "<img srcset=\"c++.png 1x, b.png 2x\">".toList "x/index.html".toList =
      .error .syntaxError ∧
    processString [("a.png".toList, "img/a.png".toList), ("b.png".toList, "b-1.png".toList)] []
        "/srv".toList 10 "<img srcset=\"a.png 1x, b.png 2x\">".toList "index.html".toList =
      .ok "<img srcset=\"img/img/a.png 1x, b-1.png 2x\">".toList := by
  refine ⟨⟨rfl, ?_⟩, rfl, rfl, rfl, rfl, rfl, rfl, rfl, rfl, rfl, rfl⟩
  intro h
  have e : processString [("a.png".toList, "b.png".toList), ("b.png".toList, "c.png".toList)] []
      "/srv".toList 10 "<img srcset=\"a.png 1x, b.png 2x\">".toList "index.html".toList =
    .ok "<img srcset=\"c.png 1x, c.png 2x\">".toList := rfl
  rw [e] at h
  exact absurd (Except.ok.inj h) (by decide)

/-! ## Inputs on which the code departs from its tests and comments -/

/-- C2 (failing input). With the keys `a.png` and `a.png.map`, the second of them mapped
to itself, and no prepend, the reference `"a.png.map"` is rewritten as if it matched
`a.png`: the step of the longer key, tried first, leaves the reference as it is, and then
the step of `a.png` rewrites the `a.png` part, so the output is `"a-1.png.map"`, in which
the value of `a.png` stands for the `a.png` part of `a.png.map`. -/
theorem processString_rewrites_partially :
    generateAssetMapKeys
        [("a.png".toList, "a-1.png".toList), ("a.png.map".toList, "a.png.map".toList)] =
      ["a.png.map".toList, "a.png".toList] ∧
    processString [("a.png".toList, "a-1.png".toList), ("a.png.map".toList, "a.png.map".toList)]
        [] "/srv".toList 10 "<a href=\"a.png.map\">".toList "index.html".toList =
      .ok "<a href=\"a-1.png.map\">".toList ∧
    processString [("a.png".toList, "a-1.png".toList), ("a.png.map".toList, "a.png.map".toList)]
        [] "/srv".toList 10 "<a href=\"a.png.map\">".toList "index.html".toList ≠
      .ok "<a href=\"a.png.map\">".toList := by
  refine ⟨rfl, rfl, ?_⟩
  intro h
  have e : processString
      [("a.png".toList, "a-1.png".toList), ("a.png.map".toList, "a.png.map".toList)]
      [] "/srv".toList 10 "<a href=\"a.png.map\">".toList "index.html".toList =
    .ok "<a href=\"a-1.png.map\">".toList := rfl
  rw [e] at h
  exact absurd (Except.ok.inj h) (by decide)

/-- C4 (failing input). With the entry `app.js -> dist/app.js` and the prepend
`https://cdn/`, the reference `/app.js` in `index.html` does not become the prepend
followed by the value: the pass for the relative form of the key, which is the key itself,
finds the key again at the end of the value and inserts the prepend a second time. -/
theorem processString_prepends_twice :
    processString [("app.js".toList, "dist/app.js".toList)] "https://cdn/".toList "/srv".toList 10
        "<script src=\"/app.js\">".toList "index.html".toList =
      .ok "<script src=\"https://cdn/disthttps://cdn/dist/app.js\">".toList ∧
    processString [("app.js".toList, "dist/app.js".toList)] "https://cdn/".toList "/srv".toList 10
        "<script src=\"/app.js\">".toList "index.html".toList ≠
      .ok "<script src=\"https://cdn/dist/app.js\">".toList := by
  constructor
  · rfl
  · intro h
    have e : processString [("app.js".toList, "dist/app.js".toList)] "https://cdn/".toList
        "/srv".toList 10 "<script src=\"/app.js\">".toList "index.html".toList =
      .ok "<script src=\"https://cdn/disthttps://cdn/dist/app.js\">".toList := rfl
    rw [e] at h
    exact absurd (Except.ok.inj h) (by decide)

/-- C5 (failing input). With the entry `img.png -> assets/img.png` and the prepend
`https://cdn/`, `processString` turns `url(/img.png)` in `css/app.css` into
`url(https://cdn/assets/img.png)`; applied to that output, it does not return it unchanged
but inserts the prepend a second time, before the key that ends the value. And with the
identity entry `a.png -> a.png` and the prepend `cdn-`, the text `<img src="cdn-a.png">`,
which already holds the prepend and the value, comes back as
`<img src="cdn-undefinedcdn-a.png">`: the first pass finds the prepend before the key and
returns `submatch + replacement` with `submatch` undefined, and the second pass, on the
same key, puts the prepend before the key again. -/
theorem processString_prepend_not_idempotent :
    processString [("img.png".toList, "assets/img.png".toList)] "https://cdn/".toList "/srv".toList 10
        "a \x7b background: url(/img.png); \x7d".toList "css/app.css".toList =
      .ok "a \x7b background: url(https://cdn/assets/img.png); \x7d".toList ∧
    processString [("img.png".toList, "assets/img.png".toList)] "https://cdn/".toList "/srv".toList 10
        "a \x7b background: url(https://cdn/assets/img.png); \x7d".toList "css/app.css".toList =
      .ok "a \x7b background: url(https://cdn/assetshttps://cdn/assets/img.png); \x7d".toList ∧
    processString [("img.png".toList, "assets/img.png".toList)] "https://cdn/".toList "/srv".toList 10
        "a \x7b background: url(https://cdn/assets/img.png); \x7d".toList "css/app.css".toList ≠
      .ok "a \x7b background: url(https://cdn/assets/img.png); \x7d".toList ∧
    processString [("a.png".toList, "a.png".toList)] "cdn-".toList "/srv".toList 10
        "<img src=\"cdn-a.png\">".toList "index.html".toList =
      .ok "<img src=\"cdn-undefinedcdn-a.png\">".toList := by
  refine ⟨rfl, rfl, ?_, rfl⟩
  intro h
  have e : processString [("img.png".toList, "assets/img.png".toList)] "https://cdn/".toList
      "/srv".toList 10 "a \x7b background: url(https://cdn/assets/img.png); \x7d".toList
      "css/app.css".toList =
    .ok "a \x7b background: url(https://cdn/assetshttps://cdn/assets/img.png); \x7d".toList := rfl
  rw [e] at h
  exact absurd (Except.ok.inj h) (by decide)

/-- C7 (failing input). With the entry `w.js -> w-1.js` and no prepend, the reference
`w.js?next=w.js` does not become `w-1.js?next=w.js`: the captured text, the key, is
replaced at every occurrence in the text, the one in the query string included, so the
query string is not left as it was. -/
theorem processString_rewrites_query :
    processString [("w.js".toList, "w-1.js".toList)] [] "/srv".toList 10
        "<a href=\"w.js?next=w.js\">".toList "index.html".toList =
      .ok "<a href=\"w-1.js?next=w-1.js\">".toList ∧
    processString [("w.js".toList, "w-1.js".toList)] [] "/srv".toList 10
        "<a href=\"w.js?next=w.js\">".toList "index.html".toList ≠
      .ok "<a href=\"w-1.js?next=w.js\">".toList := by
  constructor
  · rfl
  · intro h
    have e : processString [("w.js".toList, "w-1.js".toList)] [] "/srv".toList 10
        "<a href=\"w.js?next=w.js\">".toList "index.html".toList =
      .ok "<a href=\"w-1.js?next=w-1.js\">".toList := rfl
    rw [e] at h
    exact absurd (Except.ok.inj h) (by decide)

set_option maxRecDepth 100000 in
/-- C11 (failing input). With the entry `http://absolute.com/source.map ->
http://cdn.absolute.com/other-map` and the prepend `https://cloudfront.net/`, the directive
of `/*# sourceMappingURL=http://absolute.com/source.map */`, which a space follows, is
rewritten by the loop as a delimited reference before the last statement of
`rewriteAssetPath` can test it for an absolute URL, and the prepend is put before the
value. -/
theorem processString_prepends_absolute_source_map :
    processString
        [("http://absolute.com/source.map".toList, "http://cdn.absolute.com/other-map".toList)]
        "https://cloudfront.net/".toList "/srv".toList 10
        "a\x7b\x7d\n/*# sourceMappingURL=http://absolute.com/source.map */".toList
        "app.css".toList =
      .ok ("a\x7b\x7d\n/*# sourceMappingURL=https://cloudfront.net/" ++
        "http://cdn.absolute.com/other-map */").toList ∧
    processString
        [("http://absolute.com/source.map".toList, "http://cdn.absolute.com/other-map".toList)]
        "https://cloudfront.net/".toList "/srv".toList 10
        "a\x7b\x7d\n/*# sourceMappingURL=http://absolute.com/source.map */".toList
        "app.css".toList ≠
      .ok "a\x7b\x7d\n/*# sourceMappingURL=http://cdn.absolute.com/other-map */".toList := by
  have e : processString
      [("http://absolute.com/source.map".toList, "http://cdn.absolute.com/other-map".toList)]
      "https://cloudfront.net/".toList "/srv".toList 10
      "a\x7b\x7d\n/*# sourceMappingURL=http://absolute.com/source.map */".toList
      "app.css".toList =
    .ok ("a\x7b\x7d\n/*# sourceMappingURL=https://cloudfront.net/" ++
      "http://cdn.absolute.com/other-map */").toList := rfl
  refine ⟨e, ?_⟩
  rw [e]
  intro h
  exact absurd (Except.ok.inj h) (by decide)

/-! ## No match, no change -/

/-- A text in which no key of the asset map and no relative form of a key occurs comes
back unchanged from `processString` when the asset map has no own key `hasOwnProperty`,
as does from `rewriteAssetPath` a text that does not contain the asset path; both return
for every bound on the rounds of the loop. -/
theorem rewrite_without_match (assetMap : AssetMap) (prepend cwd relativePath text assetPath replacementPath : Str)
    (fuel : Nat)
    (hown : assetMap.lookup "hasOwnProperty".toList = none)
    (hpath : includes text assetPath = false)
    (hkeys : ∀ k ∈ assetMap.map Prod.fst,
      includes text k = false ∧ includes text (relativeForm cwd relativePath k) = false) :
    rewriteAssetPath prepend fuel text assetPath replacementPath = .ok text ∧
    processString assetMap prepend cwd fuel text relativePath = .ok text := by
  refine ⟨rewriteAssetPath_absent fuel hpath, ?_⟩
  unfold processString
  apply processKeys_absent fuel hown
  intro k hk
  have hk2 := (generateAssetMapKeys_perm assetMap).mem_iff.1 hk
  unfold absent
  simp only [(hkeys k hk2).1, (hkeys k hk2).2, Bool.not_false, Bool.and_self]

/-- C13 (failing input). With the asset map `hasOwnProperty -> x.js`, `processString`
throws a `TypeError` on every text, for every prepend, file and bound on the rounds of the
loop: the test `this.assetMap.hasOwnProperty(key)` calls the string `x.js`. The text
`<p>hello</p>` of `index.html` holds neither the key nor its relative form, and does not
come back unchanged. -/
theorem processString_throws_without_match (prepend cwd text relativePath : Str) (fuel : Nat) :
    processString [("hasOwnProperty".toList, "x.js".toList)] prepend cwd fuel text relativePath =
      .error .typeError ∧
    includes "<p>hello</p>".toList "hasOwnProperty".toList = false ∧
    includes "<p>hello</p>".toList
      (relativeForm "/srv".toList "index.html".toList "hasOwnProperty".toList) = false ∧
    processString [("hasOwnProperty".toList, "x.js".toList)] [] "/srv".toList 10
        "<p>hello</p>".toList "index.html".toList = .error .typeError :=
  ⟨rfl, rfl, rfl, rfl⟩

end AssetRewrite
